import Mathlib

/-!
# The DFA core of libapparmor_re (hfa.cc) and the pattern translator (parser_regex.c)

A shallow embedding of `DFA::remove_unreachable`, `DFA::same_mappings`,
`DFA::hash_trans`, `DFA::minimize`, `DFA::equivalence_classes`,
`DFA::apply_equivalence_classes`, the constructor `DFA::DFA` with
`add_new_state`, `find_target_state` and `update_state_transitions`,
`accept_perms`, and `convert_aaregex_to_pcre`.

Memory model.  A `State *` is an address (`StateRef`), the heap maps an
address to the object stored there, and `list<State *> states` is a list of
addresses.  `delete` only drops the address from the list.  A `Partition *`
is an address too (a number); the list of partitions stores every partition
object next to its address.  `std::map<uchar, T>` and `std::set<T>` are
association lists and lists kept in ascending key order.

Integers.  A `uint32_t` mask is a natural number, and the complement `~x`
is taken in 32 bits.  An `int` is an integer; an increment of a counter wraps
modulo 2^32.
-/

namespace AppArmorRe

/-! ## Ordered containers -/

/-- Lookup in a `std::map` (`find`): the value stored under the key, if any. -/
def map_find {β : Type} (k : Nat) : List (Nat × β) → Option β
  | [] => none
  | (k1, v) :: m => if k = k1 then some v else map_find k m

/-- Store `v` under `k` in a `std::map`, overwriting an entry that is present
(`m[k] = v`); the list stays in ascending key order. -/
def map_put {β : Type} (k : Nat) (v : β) : List (Nat × β) → List (Nat × β)
  | [] => [(k, v)]
  | (k1, v1) :: m =>
    if k < k1 then (k, v) :: (k1, v1) :: m
    else if k = k1 then (k, v) :: m
    else (k1, v1) :: map_put k v m

/-- The `insert` of `std::map`: an entry already present is kept. -/
def map_insert {β : Type} (k : Nat) (v : β) (m : List (Nat × β)) : List (Nat × β) :=
  if (map_find k m).isSome then m else map_put k v m

/-- The `insert` of `std::set`: ascending order, no duplicates. -/
def set_insert (x : Nat) (l : List Nat) : List Nat :=
  if x ∈ l then l else List.orderedInsert (fun a b => a ≤ b) x l

/-! ## Data model (hfa.h as used by hfa.cc) -/

/-- Address of a `State` object. -/
abbrev StateRef := Nat

/-- A `Partition` is a `list<State *>`; it is stored with its address, a
natural number. -/
abbrev Block := Nat × List StateRef

/-- The `State` class: label, accept and audit masks (`uint32_t`), the
transition table `cases` (`otherwise` is the default target, `cases` the
`map<uchar, State *>`), and the scratch `partition` back-pointer. -/
structure State where
  label : Int
  accept : Nat
  audit : Nat
  otherwise : Option StateRef
  cases : List (Nat × StateRef)
  partition : Nat

instance : Inhabited State := ⟨⟨0, 0, 0, none, [], 0⟩⟩

/-- The `DFA` class: the heap of state objects, the `states` list, and the
two distinguished states. -/
structure DFA where
  heap : StateRef → State
  states : List StateRef
  start : StateRef
  nonmatching : StateRef

/-- All transition targets of a state: the default one, then the explicit ones. -/
def State.targets (s : State) : List StateRef :=
  s.otherwise.toList ++ s.cases.map Prod.snd

/-- Overwrite the object stored at address `r`. -/
def DFA.modify (d : DFA) (r : StateRef) (f : State → State) : DFA :=
  { d with heap := fun x => if x = r then f (d.heap x) else d.heap x }

/-! ## DFA::remove_unreachable (hfa.cc 244-299) -/

/-- The targets one iteration of the search pushes on the work queue: the
default target and then every explicit target, each only when it is not in
`reachable` at that moment. -/
def push_targets (reachable : List StateRef) (s : State) : List StateRef :=
  (match s.otherwise with
    | some t => if t ∈ reachable then [] else [t]
    | none => [])
  ++ (s.cases.filter (fun j => decide (j.2 ∉ reachable))).map Prod.snd

/-- The `while (!work_queue.empty())` loop.  `fuel` bounds the number of
iterations; `none` means the bound was hit. -/
def DFA.reach_loop (d : DFA) : Nat → List StateRef → List StateRef → Option (List StateRef)
  | _, reachable, [] => some reachable
  | 0, _, _ :: _ => none
  | fuel + 1, reachable, src :: work_queue =>
    let reachable1 := set_insert src reachable
    d.reach_loop fuel reachable1 (work_queue ++ push_targets reachable1 (d.heap src))

/-- The set `reachable` computed by the first half of `remove_unreachable`. -/
def DFA.reachable_set (d : DFA) (fuel : Nat) : Option (List StateRef) :=
  d.reach_loop fuel (set_insert d.nonmatching []) [d.start]

/-- The second half: erase every state that is not in `reachable`, when the
set is smaller than the list. -/
def DFA.erase_unreachable (d : DFA) (reachable : List StateRef) : DFA :=
  if reachable.length < d.states.length then
    { d with states := d.states.filter (fun s => decide (s ∈ reachable)) }
  else d

/-- The function `DFA::remove_unreachable`. -/
def DFA.remove_unreachable (d : DFA) (fuel : Nat) : Option DFA :=
  (d.reachable_set fuel).map d.erase_unreachable

/-! ## DFA::same_mappings and DFA::hash_trans (hfa.cc 302-355) -/

/-- The test `s->cases.otherwise && s->cases.otherwise != nonmatching`:
the default target when it is set and is not the dead state. -/
def DFA.live_otherwise (d : DFA) (s : StateRef) : Option StateRef :=
  match (d.heap s).otherwise with
  | some o => if o = d.nonmatching then none else some o
  | none => none

/-- The function `DFA::same_mappings`: the two states have the same
transitions once targets are read through their `partition` pointers. -/
def DFA.same_mappings (d : DFA) (s1 s2 : StateRef) : Bool :=
  (match d.live_otherwise s1, d.live_otherwise s2 with
    | some o1, some o2 => decide ((d.heap o1).partition = (d.heap o2).partition)
    | some _, none => false
    | none, some _ => false
    | none, none => true)
  && decide ((d.heap s1).cases.length = (d.heap s2).cases.length)
  && (d.heap s1).cases.all (fun j1 =>
      match map_find j1.1 (d.heap s2).cases with
      | some t2 => decide ((d.heap j1.2).partition = (d.heap t2).partition)
      | none => false)

/-- Size of `unsigned long` and `size_t` (LP64). -/
def U64 : Nat := 18446744073709551616

/-- One djb2 round `hash = ((hash << 5) + hash) + x` on `unsigned long`. -/
def djb2 (hash x : Nat) : Nat := ((hash <<< 5) + hash + x) % U64

/-- The function `DFA::hash_trans`. -/
def DFA.hash_trans (d : DFA) (s : StateRef) : Nat :=
  let h1 := (d.heap s).cases.foldl
    (fun hash j => djb2 (djb2 hash j.1) (d.heap j.2).cases.length) 5381
  let h2 := match d.live_otherwise s with
    | some k => djb2 (djb2 h1 5381) (d.heap k).cases.length
    | none => h1
  ((h2 <<< 8) % U64) ||| (d.heap s).cases.length

/-! ## DFA::minimize (hfa.cc 358-550) -/

/-- The key `perm_hash` of the initial partition (lines 376-384). -/
def perm_hash (hash_perms : Bool) (s : State) : Nat :=
  if hash_perms then (s.audit <<< 32) ||| s.accept
  else if s.audit ≠ 0 ∨ s.accept ≠ 0 then 1
  else 0

/-- The function `find` of the `perm_map`. -/
def group_find (g : Nat × Nat) : List ((Nat × Nat) × Nat) → Option Nat
  | [] => none
  | (g1, p) :: m => if g = g1 then some p else group_find g m

/-- Append a state to the partition stored at address `p` (`push_back`). -/
def block_push (p : Nat) (s : StateRef) (partitions : List Block) : List Block :=
  partitions.map (fun b => if b.1 = p then (b.1, b.2 ++ [s]) else b)

/-- Local variables of the first loop of `minimize`. -/
structure InitState where
  dfa : DFA
  perm_map : List ((Nat × Nat) × Nat)
  partitions : List Block

/-- Body of the first loop (lines 375-407) for the state `i`.  A new
partition gets the next free address, the number of partitions so far. -/
def init_step (hash_perms hash_trans : Bool) (st : InitState) (i : StateRef) : InitState :=
  let group : Nat × Nat :=
    (perm_hash hash_perms (st.dfa.heap i), if hash_trans then st.dfa.hash_trans i else 0)
  match group_find group st.perm_map with
  | none =>
    let part := st.partitions.length
    { dfa := st.dfa.modify i (fun s => { s with partition := part }),
      perm_map := (group, part) :: st.perm_map,
      partitions := st.partitions ++ [(part, [i])] }
  | some p =>
    { dfa := st.dfa.modify i (fun s => { s with partition := p }),
      perm_map := st.perm_map,
      partitions := block_push p i st.partitions }

/-- The initial partitions (lines 373-412). -/
def DFA.init_partitions (d : DFA) (hash_perms hash_trans : Bool) : InitState :=
  d.states.foldl (init_step hash_perms hash_trans) ⟨d, [], []⟩

/-- The loop of lines 452-455: point every member of `new_part` at it. -/
def DFA.set_partitions (d : DFA) (new_part : List StateRef) (p : Nat) : DFA :=
  new_part.foldl (fun d1 m => d1.modify m (fun s => { s with partition := p })) d

/-- One pass of the `for` loop over the partition list (lines 429-462).
The argument list is the part of `partitions` from the iterator on, `count`
the number of partitions allocated so far; the new partition is inserted
right after the current one, so the iterator reaches it next.  The scan of a
block moves the members that fail `same_mappings(rep, s)` to the new
partition and keeps the others, both in order.  `none`: the fuel ran out, or
a partition is empty (`*begin()` of an empty list). -/
def DFA.refine_pass : Nat → DFA → List Block → Nat → Option (DFA × List Block × Nat)
  | _, d, [], count => some (d, [], count)
  | 0, _, _ :: _, _ => none
  | _ + 1, _, (_, []) :: _, _ => none
  | fuel + 1, d, (a, rep :: tl) :: rest, count =>
    let kept := tl.filter (fun s => d.same_mappings rep s)
    let new_part := tl.filter (fun s => !d.same_mappings rep s)
    if new_part = [] then
      (d.refine_pass fuel rest count).map
        (fun r => (r.1, (a, rep :: tl) :: r.2.1, r.2.2))
    else
      ((d.set_partitions new_part count).refine_pass fuel ((count, new_part) :: rest)
          (count + 1)).map
        (fun r => (r.1, (a, rep :: kept) :: r.2.1, r.2.2))

/-- Fuel that one pass cannot use up: every step either leaves a block
behind or replaces it by a strictly shorter one. -/
def pass_fuel (partitions : List Block) : Nat :=
  (partitions.map (fun b => b.2.length + 1)).sum

/-- The `do ... while (new_part_count)` loop (lines 427-463). -/
def DFA.refine_loop : Nat → DFA → List Block → Option (DFA × List Block)
  | 0, _, _ => none
  | fuel + 1, d, partitions =>
    match d.refine_pass (pass_fuel partitions) partitions partitions.length with
    | none => none
    | some (d1, partitions1, count1) =>
      if count1 - partitions.length = 0 then some (d1, partitions1)
      else DFA.refine_loop fuel d1 partitions1

/-- The partitions at the end of the refinement loop, with the DFA whose
`partition` pointers name them. -/
def DFA.final_partitions (d : DFA) (hash_perms hash_trans : Bool) : Option (DFA × List Block) :=
  let st := d.init_partitions hash_perms hash_trans
  st.dfa.refine_loop (d.states.length + 1) st.partitions

/-- The partition object stored at address `p`. -/
def block_find (p : Nat) : List Block → Option (List StateRef)
  | [] => none
  | (a, b) :: partitions => if p = a then some b else block_find p partitions

/-- The expression `*partition->begin()` for the partition at address `p`
(address 0 when there is no such object or it is empty). -/
def first_of (partitions : List Block) (p : Nat) : StateRef :=
  match block_find p partitions with
  | some (r :: _) => r
  | _ => 0

/-- The representative of the block of state `s`. -/
def DFA.rep_of (d : DFA) (partitions : List Block) (s : StateRef) : StateRef :=
  first_of partitions (d.heap s).partition

/-- Lines 486-493: retarget the transitions of `rep` to representatives. -/
def DFA.remap_rep (d : DFA) (partitions : List Block) (rep : StateRef) : DFA :=
  d.modify rep (fun s =>
    { s with
      otherwise := s.otherwise.map (fun o => d.rep_of partitions o),
      cases := s.cases.map (fun c => (c.1, d.rep_of partitions c.2)) })

/-- Lines 499-504 for one member `i` of the block of `rep`. -/
def DFA.merge_member (rep : StateRef) (d : DFA) (i : StateRef) : DFA :=
  let d1 := d.modify i (fun s => { s with label := -1 })
  let d2 := d1.modify rep (fun s => { s with accept := s.accept ||| (d1.heap i).accept })
  d2.modify rep (fun s => { s with audit := s.audit ||| (d2.heap i).audit })

/-- Body of the loop of lines 480-509 for one partition. -/
def DFA.merge_block (partitions : List Block) (d : DFA) (b : Block) : DFA :=
  match b.2 with
  | [] => d
  | rep :: tl => tl.foldl (DFA.merge_member rep) (d.remap_rep partitions rep)

/-- Lines 474-541: remap to representatives, move `start` and
`nonmatching`, and erase the states labelled -1. -/
def DFA.merge_partitions (d : DFA) (partitions : List Block) : DFA :=
  let d1 := partitions.foldl (DFA.merge_block partitions) d
  { heap := d1.heap,
    states := d1.states.filter (fun s => decide ((d1.heap s).label ≠ -1)),
    start := d1.rep_of partitions d1.start,
    nonmatching := d1.rep_of partitions d1.nonmatching }

/-- The function `DFA::minimize`; the two flags are the tests
`flags & DFA_CONTROL_MINIMIZE_HASH_PERMS` and
`flags & DFA_CONTROL_MINIMIZE_HASH_TRANS`. -/
def DFA.minimize (d : DFA) (hash_perms hash_trans : Bool) : Option DFA :=
  (d.final_partitions hash_perms hash_trans).map (fun r =>
    if r.2.length = r.1.states.length then r.1
    else r.1.merge_partitions r.2)

/-! ## DFA::equivalence_classes (hfa.cc 640-701) -/

/-- The map `node_sets` of lines 649-651: the explicit edges of one state
grouped by target, in the order of the targets' addresses. -/
def group_edges (cases : List (Nat × StateRef)) : List (StateRef × List Nat) :=
  cases.foldl
    (fun node_sets j =>
      map_put j.2 (set_insert j.1 ((map_find j.2 node_sets).getD [])) node_sets)
    []

/-- The variables `classes` and `next_class` (a `uchar`). -/
structure ClassState where
  classes : List (Nat × Nat)
  next_class : Nat

/-- Body of the loop of lines 658-665 for the character `k`: the triple is
`classes`, `node_classes` and `class_used`. -/
def class_char (next_class : Nat)
    (acc : List (Nat × Nat) × List (Nat × List Nat) × Bool) (k : Nat) :
    List (Nat × Nat) × List (Nat × List Nat) × Bool :=
  let classes1 := map_insert k next_class acc.1
  let inserted := (map_find k acc.1).isNone
  let cls := (map_find k classes1).getD next_class
  (classes1,
   map_put cls (set_insert k ((map_find cls acc.2.1).getD [])) acc.2.1,
   acc.2.2 || inserted)

/-- Body of the loop of lines 670-693 for the entry `k` of `node_classes`:
when the class `k.1` has a member outside `k.2`, the characters of `k.2` move
to a new class. -/
def class_split (st : ClassState) (k : Nat × List Nat) : ClassState :=
  if st.classes.any (fun l => decide (l.2 = k.1) && decide (l.1 ∉ k.2)) then
    { classes := k.2.foldl (fun classes l => map_put l st.next_class classes) st.classes,
      next_class := (st.next_class + 1) % 256 }
  else st

/-- Body of the loop of lines 653-694 for one group of characters. -/
def class_group (st : ClassState) (chars : List Nat) : ClassState :=
  let r := chars.foldl (class_char st.next_class) (st.classes, [], false)
  let next1 := if r.2.2 then (st.next_class + 1) % 256 else st.next_class
  r.2.1.foldl class_split ⟨r.1, next1⟩

/-- Body of the loop of lines 645-695 for one state. -/
def class_state (st : ClassState) (s : State) : ClassState :=
  ((group_edges s.cases).map Prod.snd).foldl class_group st

/-- The variables `classes` and `next_class` at the end of
`DFA::equivalence_classes`. -/
def DFA.equivalence_classes_state (d : DFA) : ClassState :=
  d.states.foldl (fun st i => class_state st (d.heap i)) ⟨[], 1⟩

/-- The function `DFA::equivalence_classes`. -/
def DFA.equivalence_classes (d : DFA) : List (Nat × Nat) :=
  d.equivalence_classes_state.classes

/-! ## DFA::apply_equivalence_classes (hfa.cc 729-742) -/

/-- The rewritten table of one state: every entry of `tmp`, in ascending
byte order, is inserted under `eq[byte]` (a byte that is not a key of `eq`
reads 0); `insert` keeps the first entry of a class. -/
def apply_cases (eq : List (Nat × Nat)) (tmp : List (Nat × StateRef)) : List (Nat × StateRef) :=
  tmp.foldl (fun cases j => map_insert ((map_find j.1 eq).getD 0) j.2 cases) []

/-- The function `DFA::apply_equivalence_classes`. -/
def DFA.apply_equivalence_classes (d : DFA) (eq : List (Nat × Nat)) : DFA :=
  d.states.foldl
    (fun d1 i => d1.modify i (fun s => { s with cases := apply_cases eq s.cases })) d

/-! ## Running a DFA -/

/-- The state reached from `q` on the byte `c`: the explicit entry, else
the default target, else (no default) the dead state. -/
def DFA.step (d : DFA) (q : StateRef) (c : Nat) : StateRef :=
  match map_find c (d.heap q).cases with
  | some t => t
  | none => (d.heap q).otherwise.getD d.nonmatching

/-- The state reached from `q` on the byte string `w`. -/
def DFA.run (d : DFA) (q : StateRef) (w : List Nat) : StateRef :=
  w.foldl d.step q

/-- The (accept, audit) mask of a state. -/
def DFA.mask (d : DFA) (q : StateRef) : Nat × Nat :=
  ((d.heap q).accept, (d.heap q).audit)

/-- A state is accepting when its accept or audit mask is non-zero. -/
def DFA.accepting (d : DFA) (q : StateRef) : Prop :=
  (d.heap q).accept ≠ 0 ∨ (d.heap q).audit ≠ 0

/-- The target of the byte `b` in a transition table: the explicit entry,
else the default target (which may be absent). -/
def State.target (s : State) (b : Nat) : Option StateRef :=
  match map_find b s.cases with
  | some t => some t
  | none => s.otherwise

/-- Reachability by default or explicit transitions. -/
inductive DFA.Reach (d : DFA) : StateRef → StateRef → Prop
  | refl (s : StateRef) : DFA.Reach d s s
  | tail {s t u : StateRef} : DFA.Reach d s t → u ∈ (d.heap t).targets → DFA.Reach d s u

/-! ## Well-formedness -/

/-- What the C++ types and the allocation of states give: the states of the
list are distinct objects, `start` and `nonmatching` are among them, a
transition map has distinct bytes as keys in ascending order, the masks are
`uint32_t`, and no label is the reserved value -1. -/
def DFA.WellTyped (d : DFA) : Prop :=
  d.states.Nodup ∧ d.start ∈ d.states ∧ d.nonmatching ∈ d.states ∧
  ∀ s ∈ d.states,
    ((d.heap s).cases.map Prod.fst).Pairwise (fun a b => a < b) ∧
    (∀ k ∈ (d.heap s).cases.map Prod.fst, k < 256) ∧
    (d.heap s).accept < 4294967296 ∧ (d.heap s).audit < 4294967296 ∧
    0 ≤ (d.heap s).label

instance (d : DFA) : Decidable d.WellTyped := by
  unfold DFA.WellTyped; infer_instance

/-- Invariant I1: every transition target of a state of the DFA is a state
of the DFA. -/
def DFA.Closed (d : DFA) : Prop :=
  ∀ s ∈ d.states, ∀ t ∈ (d.heap s).targets, t ∈ d.states

instance (d : DFA) : Decidable d.Closed := by
  unfold DFA.Closed; infer_instance

/-- Invariant I4: no explicit entry of a state targets the state's default
target. -/
def DFA.NoCoveredEdge (d : DFA) : Prop :=
  ∀ s ∈ d.states, ∀ j ∈ (d.heap s).cases, (d.heap s).otherwise ≠ some j.2

instance (d : DFA) : Decidable d.NoCoveredEdge := by
  unfold DFA.NoCoveredEdge; infer_instance

/-- Reachability by transitions none of which leaves the dead state. -/
inductive DFA.ReachLive (d : DFA) : StateRef → StateRef → Prop
  | refl (s : StateRef) : DFA.ReachLive d s s
  | tail {s t u : StateRef} :
    DFA.ReachLive d s t → t ≠ d.nonmatching → u ∈ (d.heap t).targets → DFA.ReachLive d s u

/-- Number of states of the DFA that are not in `reachable`. -/
def DFA.unreached (d : DFA) (reachable : List StateRef) : Nat :=
  (d.states.filter (fun s => decide (s ∉ reachable))).length

/-- Weight of the work queue: an entry that is already in `reachable` weighs
more than everything one iteration can push. -/
def queue_weight (bound : Nat) (reachable work_queue : List StateRef) : Nat :=
  (work_queue.map (fun q => if q ∈ reachable then bound + 1 else 1)).sum

/-- A bound on the number of targets of any state of the DFA. -/
def DFA.out_bound (d : DFA) : Nat :=
  (d.states.map (fun s => (d.heap s).targets.length)).sum

/-- All states of a list of partitions, in order. -/
def members : List Block → List StateRef
  | [] => []
  | b :: partitions => b.2 ++ members partitions

/-- The DFA `d1` is `d` up to the `partition` back-pointers. -/
def DFA.SameButPartition (d1 d : DFA) : Prop :=
  d1.states = d.states ∧ d1.start = d.start ∧ d1.nonmatching = d.nonmatching ∧
  ∀ r, (d1.heap r).label = (d.heap r).label ∧ (d1.heap r).accept = (d.heap r).accept ∧
    (d1.heap r).audit = (d.heap r).audit ∧ (d1.heap r).otherwise = (d.heap r).otherwise ∧
    (d1.heap r).cases = (d.heap r).cases

/-- The partitions are non-empty and pairwise disjoint, they have distinct
addresses below `count`, and every back-pointer names the partition that
contains the state. -/
structure BlocksOk (d : DFA) (partitions : List Block) (count : Nat) : Prop where
  nodup : (members partitions).Nodup
  back : ∀ b ∈ partitions, ∀ s ∈ b.2, (d.heap s).partition = b.1
  addr_lt : ∀ b ∈ partitions, b.1 < count
  addr_nodup : (partitions.map Prod.fst).Nodup
  nonempty : ∀ b ∈ partitions, b.2 ≠ []

/-- Every partition of `ps1` lies inside a partition of `ps`. -/
def Refines (ps1 ps : List Block) : Prop :=
  ∀ b1 ∈ ps1, ∃ b ∈ ps, ∀ s ∈ b1.2, s ∈ b.2

/-- Every member of every partition has the same mappings as the first
member. -/
def DFA.Stable (d : DFA) (partitions : List Block) : Prop :=
  ∀ b ∈ partitions, ∀ rep tl, b.2 = rep :: tl → ∀ s ∈ tl, d.same_mappings rep s = true

/-- What the first loop of `minimize` keeps true after the states of `done`:
the partitions are well formed and hold exactly the states of `done`, every
key of `perm_map` names a partition whose members all have that key's
`perm_hash`, and every partition is named by a key. -/
structure InitOk (d : DFA) (hash_perms : Bool) (st : InitState) (done : List StateRef) :
    Prop where
  blocks : BlocksOk st.dfa st.partitions st.partitions.length
  perm : (members st.partitions).Perm done
  same : st.dfa.SameButPartition d
  keyed : ∀ g p, group_find g st.perm_map = some p →
    ∃ b ∈ st.partitions, b.1 = p ∧ ∀ s ∈ b.2, perm_hash hash_perms (d.heap s) = g.1
  named : ∀ b ∈ st.partitions, ∃ g, group_find g st.perm_map = some b.1

/-- All members of a partition have the same `perm_hash`. -/
def SamePerms (d : DFA) (hash_perms : Bool) (partitions : List Block) : Prop :=
  ∀ b ∈ partitions, ∀ s ∈ b.2, ∀ t ∈ b.2,
    perm_hash hash_perms (d.heap s) = perm_hash hash_perms (d.heap t)

/-- The bitwise OR of `a` and the values `f i` for the states `i` of `l`. -/
def or_fold (f : StateRef → Nat) (l : List StateRef) (a : Nat) : Nat :=
  l.foldl (fun acc i => acc ||| f i) a

/-- The state of `minimize` at the end of the refinement loop, for the input
DFA `d`: `d1` is `d` with the back-pointers set, the partitions are well
formed and hold exactly the states of `d`, members of one partition have the
same `perm_hash`, and every member has the mappings of the first member. -/
structure Refined (d d1 : DFA) (partitions : List Block) (hash_perms : Bool) : Prop where
  blocks : BlocksOk d1 partitions partitions.length
  perm : (members partitions).Perm d.states
  same : d1.SameButPartition d
  perms : SamePerms d hash_perms partitions
  stable : d1.Stable partitions

/-! ## Example automata -/

/-- A heap given by a table of addresses and objects. -/
def heap_of (table : List (Nat × State)) : StateRef → State :=
  fun r => (map_find r table).getD default

/-- The DFA of the two rules `a` (accept mask 1) and `b` (accept mask 2):
`start` goes on `a` to state 2 and on `b` to state 3. -/
def dfa_two_accepts : DFA where
  heap := heap_of
    [(0, ⟨0, 0, 0, none, [], 0⟩),
     (1, ⟨1, 0, 0, none, [(97, 2), (98, 3)], 0⟩),
     (2, ⟨2, 1, 0, none, [], 0⟩),
     (3, ⟨3, 2, 0, none, [], 0⟩)]
  states := [0, 1, 2, 3]
  start := 1
  nonmatching := 0

/-- The DFA of the pattern `(ab|.b)`: `start` goes on `a` to state 2 and by
default to state 3, and the states 2 and 3 both go on `b` to the accepting
state 4. -/
def dfa_covered_default : DFA where
  heap := heap_of
    [(0, ⟨0, 0, 0, none, [], 0⟩),
     (1, ⟨1, 0, 0, some 3, [(97, 2)], 0⟩),
     (2, ⟨2, 0, 0, none, [(98, 4)], 0⟩),
     (3, ⟨3, 0, 0, none, [(98, 4)], 0⟩),
     (4, ⟨4, 1, 0, none, [], 0⟩)]
  states := [0, 1, 2, 3, 4]
  start := 1
  nonmatching := 0

/-- The DFA that the constructor builds for the pattern
`x(ab|.b)|y.b|z[^c]`, states numbered in the order of their creation: `start`
goes on `x` to state 2, on `y` to state 3 and on `z` to state 4; state 2 goes
on `a` to state 6 and by default to state 5; state 3 goes by default to state
7; state 4 goes on `c` to `nonmatching` and by default to the accepting state
8; the states 5, 6 and 7 go on `b` to state 8. -/
def dfa_covered_twin : DFA where
  heap := heap_of
    [(0, ⟨0, 0, 0, none, [], 0⟩),
     (1, ⟨1, 0, 0, none, [(120, 2), (121, 3), (122, 4)], 0⟩),
     (2, ⟨2, 0, 0, some 5, [(97, 6)], 0⟩),
     (3, ⟨3, 0, 0, some 7, [], 0⟩),
     (4, ⟨4, 0, 0, some 8, [(99, 0)], 0⟩),
     (5, ⟨5, 0, 0, none, [(98, 8)], 0⟩),
     (6, ⟨6, 0, 0, none, [(98, 8)], 0⟩),
     (7, ⟨7, 0, 0, none, [(98, 8)], 0⟩),
     (8, ⟨8, 1, 0, none, [], 0⟩)]
  states := [0, 1, 2, 3, 4, 5, 6, 7, 8]
  start := 1
  nonmatching := 0

/-- A DFA in which `nonmatching` has an outgoing transition: `start` goes on
`a` to `nonmatching`, which goes by default to state 2. -/
def dfa_behind_dead : DFA where
  heap := heap_of
    [(0, ⟨0, 0, 0, some 2, [], 0⟩),
     (1, ⟨1, 0, 0, none, [(97, 0)], 0⟩),
     (2, ⟨2, 1, 0, none, [], 0⟩)]
  states := [0, 1, 2]
  start := 1
  nonmatching := 0

/-- The keys of a `std::map` are in strictly ascending order. -/
def KeysSorted {β : Type} (m : List (Nat × β)) : Prop :=
  (m.map Prod.fst).Pairwise (fun a b => a < b)

/-- All groups of characters that `equivalence_classes` visits for the
states of the list, in order. -/
def all_groups (d : DFA) (states : List StateRef) : List (List Nat) :=
  states.flatMap (fun s => (group_edges (d.heap s).cases).map Prod.snd)

/-- What the loop of lines 658-665 keeps true after the characters of
`done`, for the class map `cl0` at its start: characters new to the map got
the class `n`, nothing else changed, and `node_classes` groups the
characters of `done` by their class. -/
structure CharInv (n : Nat) (cl0 : List (Nat × Nat)) (done : List Nat)
    (acc : List (Nat × Nat) × List (Nat × List Nat) × Bool) : Prop where
  sorted_cl : KeysSorted acc.1
  fresh : ∀ x, x ∈ done → map_find x cl0 = none → map_find x acc.1 = some n
  old : ∀ x v, map_find x cl0 = some v → map_find x acc.1 = some v
  out : ∀ x, x ∉ done → map_find x acc.1 = map_find x cl0
  sorted_nc : KeysSorted acc.2.1
  entry : ∀ c S, (c, S) ∈ acc.2.1 →
    S ≠ [] ∧ ∀ k, k ∈ S ↔ (k ∈ done ∧ map_find k acc.1 = some c)
  complete : ∀ k ∈ done, ∃ c S, map_find k acc.1 = some c ∧ (c, S) ∈ acc.2.1
  used : acc.2.2 = true ↔ ∃ k ∈ done, map_find k cl0 = none
  same : (∀ k ∈ done, (map_find k cl0).isSome) → acc.1 = cl0

/-- The counter of `equivalence_classes`: `count` classes have been handed
out so far plus one, `next_class` is that number as a `uchar`, the ids in
use are the numbers 1 .. count-1 as `uchar`s, each of them is the class of
some byte, and the keys of the map are bytes. -/
structure Cnt (m : List (Nat × Nat)) (next_class count : Nat) : Prop where
  sorted : KeysSorted m
  next : next_class = count % 256
  pos : 1 ≤ count
  le : count ≤ 257
  used : ∀ k v, map_find k m = some v → ∃ i, 1 ≤ i ∧ i < count ∧ v = i % 256
  full : ∀ i, 1 ≤ i → i < count → ∃ k, map_find k m = some (i % 256)
  byte : ∀ k v, map_find k m = some v → k < 256

/-- What `equivalence_classes` keeps true after the groups of `groups`:
every byte of a group has a class, and two bytes of the same class are
together in or together out of every group. -/
structure ClassInv (st : ClassState) (groups : List (List Nat)) : Prop where
  cnt : ∃ N, Cnt st.classes st.next_class N
  covered : ∀ S ∈ groups, ∀ x ∈ S, (map_find x st.classes).isSome
  sound : ∀ x y c, map_find x st.classes = some c → map_find y st.classes = some c →
    ∀ S ∈ groups, (x ∈ S ↔ y ∈ S)

/-- What the loop of lines 670-693 keeps true, for the class map `cl1` at its
start, the group `chars` and the entries `todo` of `node_classes` still to
visit. -/
structure SplitInv (cl1 : List (Nat × Nat)) (chars : List Nat) (st : ClassState)
    (todo : List (Nat × List Nat)) : Prop where
  cnt : ∃ N, Cnt st.classes st.next_class N
  keys : ∀ x, (map_find x st.classes).isSome ↔ (map_find x cl1).isSome
  untouched : ∀ c S, (c, S) ∈ todo →
    ∀ k, map_find k st.classes = some c ↔ map_find k cl1 = some c
  finer : ∀ x y c, map_find x st.classes = some c → map_find y st.classes = some c →
    ∃ c1, map_find x cl1 = some c1 ∧ map_find y cl1 = some c1
  sep : ∀ x ∈ chars, (∀ c S, (c, S) ∈ todo → x ∉ S) →
    ∀ y c, map_find x st.classes = some c → map_find y st.classes = some c → y ∈ chars

/-- A DFA of the shape `minimize` leaves behind: the explicit entry of
`start` for `a` targets the default target of `start`.  State 2 goes on `a`
and on `c` to the accepting state 3. -/
def dfa_explicit_default : DFA where
  heap := heap_of
    [(0, ⟨0, 0, 0, none, [], 0⟩),
     (1, ⟨1, 0, 0, some 2, [(97, 2)], 0⟩),
     (2, ⟨2, 0, 0, none, [(97, 3), (99, 3)], 0⟩),
     (3, ⟨3, 1, 0, none, [], 0⟩)]
  states := [0, 1, 2, 3]
  start := 1
  nonmatching := 0

/-- A DFA in which `start` goes on `a` and on `b` to state 2 and on `c` to the
accepting state 3. -/
def dfa_three_bytes : DFA where
  heap := heap_of
    [(0, ⟨0, 0, 0, none, [], 0⟩),
     (1, ⟨1, 0, 0, none, [(97, 2), (98, 2), (99, 3)], 0⟩),
     (2, ⟨2, 0, 0, some 3, [], 0⟩),
     (3, ⟨3, 1, 0, none, [], 0⟩)]
  states := [0, 1, 2, 3]
  start := 1
  nonmatching := 0

/-- The DFA `d2` is the DFA `d1` with every state object moved from its
address `s` to the address `sigma s`: same list of states, labels, masks
and transitions. -/
def DFA.RenamedBy (sigma : StateRef → StateRef) (d1 d2 : DFA) : Prop :=
  d2.states = d1.states.map sigma ∧ d2.start = sigma d1.start ∧
  d2.nonmatching = sigma d1.nonmatching ∧
  ∀ s ∈ d1.states,
    (d2.heap (sigma s)).label = (d1.heap s).label ∧
    (d2.heap (sigma s)).accept = (d1.heap s).accept ∧
    (d2.heap (sigma s)).audit = (d1.heap s).audit ∧
    (d2.heap (sigma s)).otherwise = (d1.heap s).otherwise.map sigma ∧
    (d2.heap (sigma s)).cases = (d1.heap s).cases.map (fun j => (j.1, sigma j.2))

instance (sigma : StateRef → StateRef) (d1 d2 : DFA) : Decidable (DFA.RenamedBy sigma d1 d2) := by
  unfold DFA.RenamedBy; infer_instance

/-- The renaming that exchanges the addresses 2 and 3. -/
def swap_two_three (s : StateRef) : StateRef :=
  if s = 2 then 3 else if s = 3 then 2 else s

/-- The DFA `dfa_two_accepts` with the two accepting states allocated in the
other order: the state of the rule `a` lives at address 3, the state of the
rule `b` at address 2. -/
def dfa_two_accepts_swapped : DFA where
  heap := heap_of
    [(0, ⟨0, 0, 0, none, [], 0⟩),
     (1, ⟨1, 0, 0, none, [(97, 3), (98, 2)], 0⟩),
     (3, ⟨2, 1, 0, none, [], 0⟩),
     (2, ⟨3, 2, 0, none, [], 0⟩)]
  states := [0, 1, 3, 2]
  start := 1
  nonmatching := 0

/-- The renaming that moves every address up by 10. -/
def shift_ten (s : StateRef) : StateRef := s + 10

/-- The DFA `dfa_two_accepts` with every state 10 addresses higher. -/
def dfa_two_accepts_moved : DFA where
  heap := heap_of
    [(10, ⟨0, 0, 0, none, [], 0⟩),
     (11, ⟨1, 0, 0, none, [(97, 12), (98, 13)], 0⟩),
     (12, ⟨2, 1, 0, none, [], 0⟩),
     (13, ⟨3, 2, 0, none, [], 0⟩)]
  states := [10, 11, 12, 13]
  start := 11
  nonmatching := 10

/-! ## The DFA constructor (hfa.cc 47-123 and 140-221) -/

/-- A `NodeSet`: a set of positions of the expression tree, written as the
ascending list of its members, so that equal sets are equal lists. -/
abbrev NodeSet := List Nat

/-- The class `NodeCases`: the node sets that the positions of a state lead
to, by default (`otherwise`) and byte by byte (`cases`, in ascending order of
the byte). -/
structure NodeCases where
  otherwise : Option NodeSet
  cases : List (Nat × NodeSet)

/-- What hfa.cc uses of the expression tree (expr-tree.h): `root->firstpos`,
the virtual method `follow` of the node at a position, which adds to a
`NodeCases`, and the two masks that the constructor of `State` (hfa.h) stores
for a node set. -/
structure ExprTree where
  firstpos : NodeSet
  follow : Nat → NodeCases → NodeCases
  accept : NodeSet → Nat
  audit : NodeSet → Nat

/-- The objects the constructor works on: the heap of states with the
`nodes` pointer of each state, the list `states`, the map `nodemap` from node
sets to states (its entries in the order of insertion; only `find`, `insert`
and `size` are used) and the `work_queue`. -/
structure Builder where
  heap : StateRef → State
  nodes : StateRef → NodeSet
  states : List StateRef
  nodemap : List (NodeSet × StateRef)
  work_queue : List StateRef

/-- The `find` of `nodemap`: the key is the pair of the hash and the node
set, compared by contents. -/
def nodemap_find (nodes : NodeSet) : List (NodeSet × StateRef) → Option StateRef
  | [] => none
  | (k, v) :: m => if nodes = k then some v else nodemap_find nodes m

/-- The `insert` of `nodemap`: an entry whose key is present is kept. -/
def nodemap_insert (nodes : NodeSet) (state : StateRef)
    (m : List (NodeSet × StateRef)) : List (NodeSet × StateRef) :=
  if (nodemap_find nodes m).isSome then m else m ++ [(nodes, state)]

/-- Overwrite the state object stored at address `r`. -/
def Builder.modify (b : Builder) (r : StateRef) (f : State → State) : Builder :=
  { b with heap := fun x => if x = r then f (b.heap x) else b.heap x }

/-- The function `DFA::add_new_state`.  `new State(nodemap.size(), nodes)`
allocates the next free address, which is the number of states allocated so
far; the new state is labelled with the size of `nodemap`, appended to
`states` and inserted in `nodemap`. -/
def add_new_state (t : ExprTree) (b : Builder) (nodes : NodeSet) : Builder × StateRef :=
  let state : StateRef := b.states.length
  ({ b with
      heap := fun x =>
        if x = state then ⟨b.nodemap.length, t.accept nodes, t.audit nodes, none, [], 0⟩
        else b.heap x,
      nodes := fun x => if x = state then nodes else b.nodes x,
      states := b.states ++ [state],
      nodemap := nodemap_insert nodes state b.nodemap }, state)

/-- The function `DFA::find_target_state`: the state that `nodemap` has for
the node set, or a new state, which is pushed on the work queue. -/
def find_target_state (t : ExprTree) (b : Builder) (nodes : NodeSet) : Builder × StateRef :=
  match nodemap_find nodes b.nodemap with
  | none =>
    let r := add_new_state t b nodes
    ({ r.1 with work_queue := r.1.work_queue ++ [r.2] }, r.2)
  | some x => (b, x)

/-- The first loop of `update_state_transitions`: every node of the state
adds its transitions to an empty `NodeCases`. -/
def node_cases (t : ExprTree) (nodes : NodeSet) : NodeCases :=
  nodes.foldl (fun cases i => t.follow i cases) ⟨none, []⟩

/-- One iteration of the second loop of `update_state_transitions`: the
target of the byte `j.1` is looked up and stored unless it is the default
target of the state. -/
def install_case (t : ExprTree) (state : StateRef) (b : Builder) (j : Nat × NodeSet) :
    Builder :=
  let r := find_target_state t b j.2
  if (r.1.heap state).otherwise = some r.2 then r.1
  else r.1.modify state (fun s => { s with cases := map_put j.1 r.2 s.cases })

/-- The function `DFA::update_state_transitions`: the default transition
first, then the bytes in ascending order. -/
def update_state_transitions (t : ExprTree) (b : Builder) (state : StateRef) : Builder :=
  let cases := node_cases t (b.nodes state)
  let b1 :=
    match cases.otherwise with
    | some nodes =>
      let r := find_target_state t b nodes
      r.1.modify state (fun s => { s with otherwise := some r.2 })
    | none => b
  cases.cases.foldl (install_case t state) b1

/-- The first `n` iterations of `while (!work_queue.empty())`; an empty queue
ends the loop. -/
def build_loop (t : ExprTree) : Nat → Builder → Builder
  | 0, b => b
  | n + 1, b =>
    match b.work_queue with
    | [] => b
    | src :: work_queue =>
      build_loop t n (update_state_transitions t { b with work_queue := work_queue } src)

/-- The constructor up to the loop: `nonmatching` is created for the empty
node set, `start` for `root->firstpos`, and `start` is queued.  The result
is the builder with the addresses of `nonmatching` and of `start`. -/
def build_start (t : ExprTree) : Builder × StateRef × StateRef :=
  let r0 := add_new_state t ⟨fun _ => default, fun _ => [], [], [], []⟩ []
  let r1 := add_new_state t r0.1 t.firstpos
  ({ r1.1 with work_queue := [r1.2] }, r0.2, r1.2)

/-- The constructor `DFA::DFA`: the automaton that is built when the loop ends
within `fuel` iterations. -/
def DFA.construct (t : ExprTree) (fuel : Nat) : Option DFA :=
  let b := build_loop t fuel (build_start t).1
  if b.work_queue = [] then some ⟨b.heap, b.states, (build_start t).2.2, (build_start t).2.1⟩
  else none

/-- The labels of the states of a list, in the order of the list. -/
def labels (heap : StateRef → State) (states : List StateRef) : List Int :=
  states.map (fun s => (heap s).label)

/-- The expression tree of the pattern `ab`: position 0 is the byte `a`,
position 1 the byte `b`, position 2 the accept leaf with mask 1. -/
def tree_ab : ExprTree where
  firstpos := [0]
  follow := fun i cases =>
    if i = 0 then ⟨cases.otherwise, map_put 97 [1] cases.cases⟩
    else if i = 1 then ⟨cases.otherwise, map_put 98 [2] cases.cases⟩
    else cases
  accept := fun nodes => if 2 ∈ nodes then 1 else 0
  audit := fun _ => 0

/-! ## accept_perms (hfa.cc 784-861) -/

/-- A member of a node set as `accept_perms` sees it: a node that is no
`MatchFlag`, or an accept leaf of one of the three classes with its `flag`
and `audit` (both `uint32_t`). -/
inductive Node
  | other
  | MatchFlag (flag audit : Nat)
  | ExactMatchFlag (flag audit : Nat)
  | DenyMatchFlag (flag audit : Nat)
  deriving DecidableEq

/-- What `accept_perms` takes from outside hfa.cc: the four masks of the
permission layout and the two helpers `is_merged_x_consistent` and
`PACK_AUDIT_CTL`. -/
structure PermEnv where
  AA_USER_EXEC : Nat
  AA_OTHER_EXEC : Nat
  AA_USER_EXEC_TYPE : Nat
  AA_OTHER_EXEC_TYPE : Nat
  is_merged_x_consistent : Nat → Nat → Bool
  PACK_AUDIT_CTL : Nat → Nat → Nat

/-- The complement `~x` as the operand of a `uint32_t` conjunction. -/
def not32 (x : Nat) : Nat := 4294967295 ^^^ (x % 4294967296)

/-- The local variables of `accept_perms`. -/
structure AcceptVars where
  perms : Nat
  exact_match_perms : Nat
  audit : Nat
  exact_audit : Nat
  quiet : Nat
  deny : Nat
  error : Bool

/-- One iteration of the loop over the node set (lines 791-812). -/
def accept_node (e : PermEnv) (a : AcceptVars) : Node → AcceptVars
  | Node.other => a
  | Node.ExactMatchFlag flag audit =>
    { a with
      error := a.error || !e.is_merged_x_consistent a.exact_match_perms flag,
      exact_match_perms := a.exact_match_perms ||| flag,
      exact_audit := a.exact_audit ||| audit }
  | Node.DenyMatchFlag flag audit =>
    { a with deny := a.deny ||| flag, quiet := a.quiet ||| audit }
  | Node.MatchFlag flag audit =>
    { a with
      error := a.error || !e.is_merged_x_consistent a.perms flag,
      perms := a.perms ||| flag,
      audit := a.audit ||| audit }

/-- The loop over the node set, from the initial values of the variables. -/
def accept_scan (e : PermEnv) (state : List Node) : AcceptVars :=
  state.foldl (accept_node e) ⟨0, 0, 0, 0, 0, 0, false⟩

/-- The merge of the exact matches into `perms` and `audit` (lines 817-830). -/
def accept_exact (e : PermEnv) (a : AcceptVars) : AcceptVars :=
  let a1 := { a with
    perms := a.perms |||
      (a.exact_match_perms &&& not32 (e.AA_USER_EXEC_TYPE ||| e.AA_OTHER_EXEC_TYPE)) }
  let a2 :=
    if a1.exact_match_perms &&& e.AA_USER_EXEC_TYPE ≠ 0 then
      { a1 with
        perms := (a1.exact_match_perms &&& e.AA_USER_EXEC_TYPE) |||
          (a1.perms &&& not32 e.AA_USER_EXEC_TYPE),
        audit := (a1.exact_audit &&& e.AA_USER_EXEC_TYPE) |||
          (a1.audit &&& not32 e.AA_USER_EXEC_TYPE) }
    else a1
  if a2.exact_match_perms &&& e.AA_OTHER_EXEC_TYPE ≠ 0 then
    { a2 with
      perms := (a2.exact_match_perms &&& e.AA_OTHER_EXEC_TYPE) |||
        (a2.perms &&& not32 e.AA_OTHER_EXEC_TYPE),
      audit := (a2.exact_audit &&& e.AA_OTHER_EXEC_TYPE) |||
        (a2.audit &&& not32 e.AA_OTHER_EXEC_TYPE) }
  else a2

/-- The subtraction of the denied permissions (lines 831-837). -/
def accept_deny (e : PermEnv) (a : AcceptVars) : AcceptVars :=
  let a1 :=
    if a.perms &&& e.AA_USER_EXEC &&& a.deny ≠ 0 then
      { a with perms := a.perms &&& not32 e.AA_USER_EXEC_TYPE }
    else a
  let a2 :=
    if a1.perms &&& e.AA_OTHER_EXEC &&& a1.deny ≠ 0 then
      { a1 with perms := a1.perms &&& not32 e.AA_OTHER_EXEC_TYPE }
    else a1
  { a2 with perms := a2.perms &&& not32 a2.deny }

/-- The result of `accept_perms`: the returned mask, `*audit_ctl` and
`*error`. -/
structure AcceptResult where
  perms : Nat
  audit_ctl : Nat
  error : Bool

/-- The function `accept_perms`, called with both pointers set. -/
def accept_perms (e : PermEnv) (state : List Node) : AcceptResult :=
  let a := accept_deny e (accept_exact e (accept_scan e state))
  ⟨a.perms, e.PACK_AUDIT_CTL a.audit (a.quiet &&& a.deny), a.error⟩

/-- The union `D` of the flags of the deny leaves of a node set. -/
def deny_flags : List Node → Nat
  | [] => 0
  | Node.DenyMatchFlag flag _ :: state => flag ||| deny_flags state
  | _ :: state => deny_flags state

/-- The union `E` of the flags of the exact leaves of a node set. -/
def exact_flags : List Node → Nat
  | [] => 0
  | Node.ExactMatchFlag flag _ :: state => flag ||| exact_flags state
  | _ :: state => exact_flags state

/-- The node has no deny leaf. -/
def Node.is_deny : Node → Bool
  | Node.DenyMatchFlag _ _ => true
  | _ => false

/-- A permission layout of the shape the kernel interface has: the user class
in the bits 0 to 13, the other class in the bits 14 to 27, the base exec bit
the lowest bit of its class and the exec-type mask of a class made of the
base exec bit and the bits 8 to 13 of the class. -/
def layout_example : PermEnv where
  AA_USER_EXEC := 1
  AA_OTHER_EXEC := 16384
  AA_USER_EXEC_TYPE := 16129
  AA_OTHER_EXEC_TYPE := 264257536
  is_merged_x_consistent := fun _ _ => true
  PACK_AUDIT_CTL := fun audit quiet => audit ||| quiet

/-! ## convert_aaregex_to_pcre (parser_regex.c 86-397)

A pattern and the buffer `pcre` are lists of bytes, written as characters. -/

/-- The enumeration `pattern_t`, the class of a pattern. -/
inductive pattern_t
  | ePatternBasic
  | ePatternTailGlob
  | ePatternRegex
  | ePatternInvalid
  deriving DecidableEq

/-- The enumeration `error_type`. -/
inductive error_type
  | e_no_error
  | e_parse_error
  | e_buffer_overflow
  deriving DecidableEq

/-- The bound `MAX_ALT_DEPTH`, the length of the array `grouping_count`. -/
def MAX_ALT_DEPTH : Int := 50

/-- An `int` after an increment or a narrowing conversion: the value modulo
2^32, read as a signed number. -/
def int_wrap (x : Int) : Int := (x + 2147483648) % 4294967296 - 2147483648

/-- The local variables of `convert_aaregex_to_pcre` while the pattern is
scanned.  `sptr` is the offset `sptr - aare`; `grouping_count` is the array,
indexed by depth. -/
structure ConvState where
  sptr : Nat
  pcre : List Char
  first_re_pos : Int
  error : error_type
  ptype : pattern_t
  bEscape : Bool
  ingrouping : Int
  incharclass : Int
  grouping_count : Int → Int

/-- The macro `update_re_pos(sptr - aare)`. -/
def update_re_pos (st : ConvState) : ConvState :=
  if st.first_re_pos = 0 then { st with first_re_pos := int_wrap st.sptr } else st

/-- Read `grouping_count[i]`; `none` when `i` is not an index of the array. -/
def grouping_get (st : ConvState) (i : Int) : Option Int :=
  if 0 ≤ i ∧ i < MAX_ALT_DEPTH then some (st.grouping_count i) else none

/-- Write `grouping_count[i] = v`; `none` when `i` is not an index of the array. -/
def grouping_set (st : ConvState) (i : Int) (v : Int) : Option ConvState :=
  if 0 ≤ i ∧ i < MAX_ALT_DEPTH then
    some { st with grouping_count := fun j => if j = i then v else st.grouping_count j }
  else none

/-- The unescaped star (lines 148-198).  `rest` is the text after the star.
The flag of the result tells that the star was the first of a pair, so that
`sptr` advances once more. -/
def convert_star (st : ConvState) (rest : List Char) : ConvState × Bool :=
  let s := rest.dropWhile (fun c => c = '*')
  let st1 : ConvState :=
    if st.pcre.getLast? = some '/' ∧ (s.head? = some '/' ∨ s = []) then
      { st with pcre := st.pcre ++ "[^/\\x00]".toList }
    else st
  if rest.head? = some '*' then
    let st2 := update_re_pos st1
    ({ st2 with
        ptype := if rest.tail = [] ∧ st2.ptype = pattern_t.ePatternBasic
                 then pattern_t.ePatternTailGlob else pattern_t.ePatternRegex,
        pcre := st2.pcre ++ "[^\\x00]*".toList }, true)
  else
    let st2 := update_re_pos st1
    ({ st2 with ptype := pattern_t.ePatternRegex, pcre := st2.pcre ++ "[^/\\x00]*".toList }, false)

/-- The case of a star (lines 139-201); the escaped star is stored escaped. -/
def case_star (st : ConvState) (rest : List Char) : ConvState × Bool :=
  if st.bEscape then ({ st with pcre := st.pcre ++ "\\*".toList }, false)
  else convert_star st rest

/-- The case of a question mark (lines 203-215). -/
def case_question (st : ConvState) : ConvState :=
  if st.bEscape then { st with pcre := st.pcre ++ "?".toList }
  else
    let st1 := update_re_pos st
    { st1 with ptype := pattern_t.ePatternRegex, pcre := st1.pcre ++ "[^/\\x00]".toList }

/-- The case of an opening bracket (lines 217-227). -/
def case_open_class (st : ConvState) : ConvState :=
  if st.bEscape then { st with pcre := st.pcre ++ "\\[".toList }
  else
    let st1 := update_re_pos st
    { st1 with incharclass := 1, ptype := pattern_t.ePatternRegex,
               pcre := st1.pcre ++ "[".toList }

/-- The case of a closing bracket (lines 229-241). -/
def case_close_class (st : ConvState) : ConvState :=
  if st.bEscape then { st with pcre := st.pcre ++ "\\]".toList }
  else
    let st1 : ConvState :=
      if st.incharclass = 0 then { st with error := error_type.e_parse_error } else st
    { st1 with incharclass := 0, pcre := st1.pcre ++ "]".toList }

/-- The case of an opening brace (lines 243-265). -/
def case_open_group (st : ConvState) : Option ConvState :=
  if st.bEscape then some { st with pcre := st.pcre ++ "\\\x7b".toList }
  else if st.incharclass ≠ 0 then some { st with pcre := st.pcre ++ "\x7b".toList }
  else
    let st1 := update_re_pos st
    let st2 := { st1 with ingrouping := st1.ingrouping + 1 }
    if st2.ingrouping ≥ MAX_ALT_DEPTH then some { st2 with error := error_type.e_parse_error }
    else
      (grouping_set st2 st2.ingrouping 0).map fun st3 =>
        { st3 with ptype := pattern_t.ePatternRegex, pcre := st3.pcre ++ "(".toList }

/-- The case of a closing brace (lines 267-291). -/
def case_close_group (st : ConvState) : Option ConvState :=
  if st.bEscape then some { st with pcre := st.pcre ++ "\\\x7d".toList }
  else if st.incharclass ≠ 0 then some { st with pcre := st.pcre ++ "\x7d".toList }
  else
    (grouping_get st st.ingrouping).map fun count =>
      let st1 : ConvState :=
        if count = 0 then { st with error := error_type.e_parse_error } else st
      let st2 := { st1 with ingrouping := st1.ingrouping - 1 }
      let st3 : ConvState :=
        if st2.ingrouping < 0 then
          { st2 with error := error_type.e_parse_error, ingrouping := 0 }
        else st2
      { st3 with pcre := st3.pcre ++ ")".toList }

/-- The case of a comma (lines 293-315). -/
def case_comma (st : ConvState) : Option ConvState :=
  if st.bEscape then
    if st.incharclass ≠ 0 then some { st with pcre := st.pcre ++ "\\,".toList }
    else some { st with pcre := st.pcre ++ ",".toList }
  else if st.ingrouping ≠ 0 ∧ st.incharclass = 0 then
    (grouping_get st st.ingrouping).bind fun count =>
      (grouping_set st st.ingrouping (int_wrap (count + 1))).map fun st1 =>
        { st1 with pcre := st1.pcre ++ "|".toList }
  else some { st with pcre := st.pcre ++ ",".toList }

/-- The case of `^` and `$` (lines 319-327). -/
def case_anchor (st : ConvState) (c : Char) : ConvState :=
  if st.incharclass ≠ 0 then { st with pcre := st.pcre ++ [c] }
  else { st with pcre := st.pcre ++ "\\".toList ++ [c] }

/-- The case of `. + | ( )`, which falls through to the default case (lines
335-351). -/
def case_meta (st : ConvState) (c : Char) : ConvState :=
  { st with pcre := st.pcre ++ "\\".toList ++ [c] }

/-- The default case (lines 343-351). -/
def case_default (st : ConvState) (c : Char) : ConvState :=
  { st with pcre := st.pcre ++ [c] }

/-- The `switch` on the byte `c` (lines 120-352), apart from the backslash.
The flag of the result is set by the first star of a pair only. -/
def convert_case (st : ConvState) (c : Char) (rest : List Char) : Option (ConvState × Bool) :=
  if c = '*' then some (case_star st rest)
  else if c = '?' then some (case_question st, false)
  else if c = '[' then some (case_open_class st, false)
  else if c = ']' then some (case_close_class st, false)
  else if c = '\x7b' then (case_open_group st).map fun st1 => (st1, false)
  else if c = '\x7d' then (case_close_group st).map fun st1 => (st1, false)
  else if c = ',' then (case_comma st).map fun st1 => (st1, false)
  else if c = '^' ∨ c = '$' then some (case_anchor st c, false)
  else if c = '.' ∨ c = '+' ∨ c = '|' ∨ c = '(' ∨ c = ')' then some (case_meta st c, false)
  else some (case_default st c, false)

/-- One iteration of the `while` loop on the byte `c` at `sptr`, `rest` being
the text after it: the backslash case (lines 122-138) and the other cases
followed by `bEscape = FALSE; ++sptr`. -/
def convert_iteration (st : ConvState) (c : Char) (rest : List Char) :
    Option (ConvState × Bool) :=
  if c = '\\' ∧ st.bEscape = false then
    some ({ st with bEscape := true, sptr := st.sptr + 1 }, false)
  else if c = '\\' then
    some ({ st with pcre := st.pcre ++ "\\\\".toList, bEscape := false, sptr := st.sptr + 1 },
      false)
  else
    (convert_case st c rest).map fun r =>
      ({ r.1 with bEscape := false, sptr := r.1.sptr + (if r.2 then 2 else 1) }, r.2)

/-- The loop `while (error == e_no_error && *sptr)` on the text from `sptr`
on.  `twice` tells that the iteration before took the first star of a pair:
the byte at `sptr` is the second star, which `sptr++` steps over. -/
def convert_loop : ConvState → Bool → List Char → Option ConvState
  | st, _, [] => some st
  | st, true, _ :: rest => convert_loop st false rest
  | st, false, c :: rest =>
    if st.error ≠ error_type.e_no_error then some st
    else
      match convert_iteration st c rest with
      | none => none
      | some (st1, twice) => convert_loop st1 twice rest

/-- The result of `convert_aaregex_to_pcre`: the returned class, the buffer
`pcre` and `*first_re_pos` after the call. -/
structure ConvResult where
  ptype : pattern_t
  pcre : List Char
  first_re_pos : Int
  deriving DecidableEq

/-- The statements after the loop (lines 358-396): the checks for an open
group or class and for a trailing escape, the closing anchor and the class
that is returned. -/
def convert_finish (anchor : Bool) (st : ConvState) : ConvResult :=
  let error1 :=
    if st.ingrouping > 0 ∨ st.incharclass ≠ 0 then error_type.e_parse_error else st.error
  let error2 :=
    if error1 = error_type.e_no_error ∧ st.bEscape = true then error_type.e_parse_error
    else error1
  let pcre1 :=
    if error2 = error_type.e_no_error ∧ anchor = true then st.pcre ++ "$".toList else st.pcre
  { ptype := if error2 ≠ error_type.e_no_error then pattern_t.ePatternInvalid else st.ptype,
    pcre := pcre1, first_re_pos := st.first_re_pos }

/-- The state in which the loop is entered: the opening anchor is appended
to the buffer, everything else has its initial value. -/
def convert_start (anchor : Bool) (pcre : List Char) (garbage : Int → Int) : ConvState :=
  { sptr := 0, pcre := if anchor then pcre ++ "^".toList else pcre, first_re_pos := 0,
    error := error_type.e_no_error, ptype := pattern_t.ePatternBasic, bEscape := false,
    ingrouping := 0, incharclass := 0, grouping_count := garbage }

/-- The function `convert_aaregex_to_pcre`.  `aare` is the pattern (the bytes
before the terminating NUL), `pcre` the buffer as the caller passes it, and
`garbage` the contents of the uninitialised array `grouping_count` at entry.
The result is `none` when an index outside the array is used. -/
def convert_aaregex_to_pcre (aare : List Char) (anchor : Bool) (pcre : List Char)
    (garbage : Int → Int) : Option ConvResult :=
  (convert_loop (convert_start anchor pcre garbage) false aare).map (convert_finish anchor)

/-! ## The words of the specification about the translator -/

/-- The bytes `^ $ . + | ( )`, which the translator escapes. -/
def is_pcre_meta (c : Char) : Bool :=
  c = '^' || c = '$' || c = '.' || c = '+' || c = '|' || c = '(' || c = ')'

/-- The pattern with a backslash put before every byte of `^ $ . + | ( )`. -/
def escape_meta : List Char → List Char
  | [] => []
  | c :: p => if is_pcre_meta c then '\\' :: c :: escape_meta p else c :: escape_meta p

/-- The bytes that start or end a construct of the pattern syntax:
`\ * ? [ ] { }`. -/
def is_special (c : Char) : Bool :=
  c = '\\' || c = '*' || c = '?' || c = '[' || c = ']' || c = '\x7b' || c = '\x7d'

/-- A byte with no special meaning: none of `\ * ? [ ] { }` and none of
`^ $ . + | ( )`. -/
def is_literal (c : Char) : Bool := !is_special c && !is_pcre_meta c

/-- The atom `[^/\x00]` that is put before a star which stands alone in its
path component. -/
def glob_atom (w v : List Char) : List Char :=
  if w.getLast? = some '/' ∧ (v = [] ∨ v.head? = some '/') then "[^/\\x00]".toList else []

/-- The pattern has an unescaped `*`, `?`, `[` or `{`; `escaped` tells that
the byte before the text was an unescaped backslash. -/
def has_unescaped_glob : Bool → List Char → Bool
  | _, [] => false
  | true, _ :: p => has_unescaped_glob false p
  | false, c :: p =>
    if c = '\\' then has_unescaped_glob true p
    else (c = '*' || c = '?' || c = '[' || c = '\x7b') || has_unescaped_glob false p

/-! ## Invariants of the constructor -/

/-- What the constructor keeps true of the states built so far: the `k`-th
allocated state is the `k`-th of `states` and its label is `k`; at least
`nonmatching` and `start` exist. -/
structure LabelInv (b : Builder) : Prop where
  addr : b.states = List.range b.states.length
  label : ∀ s, s < b.states.length → (b.heap s).label = (s : Int)
  two : 2 ≤ b.states.length

/-- The two situations of `nodemap`: it has one entry for every state, or
`root->firstpos` is empty, `start` found the key of `nonmatching` taken, and
every queued state has the empty node set. -/
def SizeInv (b : Builder) : Prop :=
  b.nodemap.length = b.states.length ∨
    (b.nodemap.length + 1 = b.states.length ∧ ∀ s ∈ b.work_queue, b.nodes s = [])

/-! ## Invariants of the translator -/

/-- While the class is Basic, no group and no character class is open. -/
def BasicClean (st : ConvState) : Prop :=
  st.ptype = pattern_t.ePatternBasic → st.ingrouping = 0 ∧ st.incharclass = 0

/-- The bytes `* ? [ {`, which start a construct when they are not escaped. -/
def is_glob (c : Char) : Bool := c = '*' || c = '?' || c = '[' || c = '\x7b'

/-- The depth of nesting is an index of `grouping_count` for as long as no
error is set, and is never negative. -/
def DepthOk (st : ConvState) : Prop :=
  0 ≤ st.ingrouping ∧ (st.error = error_type.e_no_error → st.ingrouping < MAX_ALT_DEPTH)

/-! ## Patterns built from literal bytes, commas and groups -/

/-- A byte of the text of an alternation: a byte with no special meaning
that is no comma. -/
def is_plain (c : Char) : Bool := is_literal c && !decide (c = ',')

/-- The texts built from literal bytes, unescaped commas and groups in
braces.  `AltText d n s` says that `s` is such a text with its braces
balanced, that groups are nested at most `d` deep in it, that every group has
at least one comma directly at its own level, and that `s` has `n` commas at
its own level. -/
inductive AltText : Nat → Nat → List Char → Prop
  | nil (d : Nat) : AltText d 0 []
  | lit (d n : Nat) (c : Char) (s : List Char) :
      is_plain c = true → AltText d n s → AltText d n (c :: s)
  | comma (d n : Nat) (s : List Char) : AltText d n s → AltText d (n + 1) (',' :: s)
  | group (d n1 n : Nat) (s1 s : List Char) :
      AltText d (n1 + 1) s1 → AltText (d + 1) n s →
      AltText (d + 1) n ('\x7b' :: (s1 ++ '\x7d' :: s))

/-- The text with every opening brace replaced by `(`, every closing brace
by `)` and every comma inside a group by `|`; `depth` is the number of groups
that are open at the start of the text. -/
def alt_subst : Nat → List Char → List Char
  | _, [] => []
  | depth, c :: s =>
    if c = '\x7b' then '(' :: alt_subst (depth + 1) s
    else if c = '\x7d' then ')' :: alt_subst (depth - 1) s
    else if c = ',' ∧ 0 < depth then '|' :: alt_subst depth s
    else c :: alt_subst depth s

/-! ## The nesting of a pattern, in the words of the specification

The reading of a pattern that the claims about rejected patterns use: which
bytes are escaped, where a character class is open, which groups are open
and whether a comma was met at the level of each of them.  It is written
from the words of the specification and is compared with the translator in
the proofs. -/

/-- What is known after a part of the pattern was read.  `esc`: the last
byte was an unescaped backslash, so the next byte is escaped.  `incl`: a
character class is open.  `groups`: the groups that are open, the innermost
first, each with the flag that an unescaped comma was met directly at its
level, outside a character class.  The last four flags record what was met
so far: an unescaped `]` while no class was open, an unescaped `}` outside a
class while no group was open, a group closed with no comma at its level,
and 50 groups open at once. -/
structure SpecScan where
  esc : Bool
  incl : Bool
  groups : List Bool
  stray_class : Bool
  stray_group : Bool
  empty_group : Bool
  too_deep : Bool
  deriving DecidableEq

/-- Nothing was read yet. -/
def spec_scan_start : SpecScan :=
  { esc := false, incl := false, groups := [], stray_class := false, stray_group := false,
    empty_group := false, too_deep := false }

/-- Read one more byte. -/
def spec_scan_step (σ : SpecScan) (c : Char) : SpecScan :=
  if σ.esc = true then { σ with esc := false }
  else if c = '\\' then { σ with esc := true }
  else if c = '[' then { σ with incl := true }
  else if c = ']' then
    if σ.incl = true then { σ with incl := false } else { σ with stray_class := true }
  else if σ.incl = true then σ
  else if c = '\x7b' then
    { σ with
      groups := false :: σ.groups,
      too_deep := σ.too_deep || decide (50 ≤ σ.groups.length + 1) }
  else if c = '\x7d' then
    match σ.groups with
    | [] => { σ with stray_group := true }
    | b :: s => { σ with groups := s, empty_group := σ.empty_group || !b }
  else if c = ',' then
    match σ.groups with
    | [] => σ
    | _ :: s => { σ with groups := true :: s }
  else σ

/-- Read the whole pattern. -/
def spec_scan (p : List Char) : SpecScan := p.foldl spec_scan_step spec_scan_start

/-- The counters of the groups that met no comma are zero; the counter of
the innermost group is at the index that is the number of open groups. -/
def CountsOk (count : Int → Int) : List Bool → Prop
  | [] => True
  | b :: s => (b = false → count ((s.length : Int) + 1) = 0) ∧ CountsOk count s

/-- The state of the translator agrees with the reading of the same text,
and nothing that makes the pattern invalid was met. -/
def ScanAgrees (σ : SpecScan) (st : ConvState) : Prop :=
  st.bEscape = σ.esc ∧ (st.incharclass ≠ 0 ↔ σ.incl = true) ∧
  st.ingrouping = (σ.groups.length : Int) ∧ σ.groups.length < 50 ∧
  CountsOk st.grouping_count σ.groups ∧
  σ.stray_class = false ∧ σ.stray_group = false ∧ σ.empty_group = false ∧
  σ.too_deep = false

/-- The step from `st` to `st1` changed neither the open class, nor the
groups and their counters, nor the error. -/
def SameNesting (st st1 : ConvState) : Prop :=
  st1.incharclass = st.incharclass ∧ st1.ingrouping = st.ingrouping ∧
  st1.grouping_count = st.grouping_count ∧ st1.error = st.error

/-! ## Patterns of the unit tests and of the claims -/

/-- The pattern `{a{a ... {a,b},b} ... ,b}` with `k + 1` groups, each inside
the one before. -/
def nested_inner : Nat → List Char
  | 0 => "\x7ba,b\x7d".toList
  | k + 1 => "\x7ba".toList ++ nested_inner k ++ ",b\x7d".toList

/-- The pattern of the nesting tests of `test_aaregex_to_pcre` (lines
1356-1359), `{a` followed by `nested_inner k` and `b,blort}`: its groups are
nested `k + 2` deep. -/
def nested_test (k : Nat) : List Char :=
  "\x7ba".toList ++ nested_inner k ++ "b,blort\x7d".toList

/-- The 49-deep pattern of the unit test, as it is written at line 1357. -/
def test_nested_49 : List Char :=
  "\x7ba\x7ba\x7ba\x7ba\x7ba\x7ba\x7ba\x7ba\x7ba\x7ba\x7ba\x7ba\x7ba\x7ba\x7ba\x7ba\x7ba\x7ba\x7ba\x7ba\x7ba\x7ba\x7ba\x7ba\x7ba\x7ba\x7ba\x7ba\x7ba\x7ba\x7ba\x7ba\x7ba\x7ba\x7ba\x7ba\x7ba\x7ba\x7ba\x7ba\x7ba\x7ba\x7ba\x7ba\x7ba\x7ba\x7ba\x7ba\x7ba,b\x7d,b\x7d,b\x7d,b\x7d,b\x7d,b\x7d,b\x7d,b\x7d,b\x7d,b\x7d,b\x7d,b\x7d,b\x7d,b\x7d,b\x7d,b\x7d,b\x7d,b\x7d,b\x7d,b\x7d,b\x7d,b\x7d,b\x7d,b\x7d,b\x7d,b\x7d,b\x7d,b\x7d,b\x7d,b\x7d,b\x7d,b\x7d,b\x7d,b\x7d,b\x7d,b\x7d,b\x7d,b\x7d,b\x7d,b\x7d,b\x7d,b\x7d,b\x7d,b\x7d,b\x7d,b\x7d,b\x7d,b\x7db,blort\x7d".toList

/-- The 50-deep pattern of the unit test, as it is written at line 1359. -/
def test_nested_50 : List Char :=
  "\x7ba\x7ba\x7ba\x7ba\x7ba\x7ba\x7ba\x7ba\x7ba\x7ba\x7ba\x7ba\x7ba\x7ba\x7ba\x7ba\x7ba\x7ba\x7ba\x7ba\x7ba\x7ba\x7ba\x7ba\x7ba\x7ba\x7ba\x7ba\x7ba\x7ba\x7ba\x7ba\x7ba\x7ba\x7ba\x7ba\x7ba\x7ba\x7ba\x7ba\x7ba\x7ba\x7ba\x7ba\x7ba\x7ba\x7ba\x7ba\x7ba\x7ba,b\x7d,b\x7d,b\x7d,b\x7d,b\x7d,b\x7d,b\x7d,b\x7d,b\x7d,b\x7d,b\x7d,b\x7d,b\x7d,b\x7d,b\x7d,b\x7d,b\x7d,b\x7d,b\x7d,b\x7d,b\x7d,b\x7d,b\x7d,b\x7d,b\x7d,b\x7d,b\x7d,b\x7d,b\x7d,b\x7d,b\x7d,b\x7d,b\x7d,b\x7d,b\x7d,b\x7d,b\x7d,b\x7d,b\x7d,b\x7d,b\x7d,b\x7d,b\x7d,b\x7d,b\x7d,b\x7d,b\x7d,b\x7d,b\x7db,blort\x7d".toList

/-- The greatest number of braces open at once in a text without escapes
and character classes: `cur` are open at the start, `best` is the greatest
number met before. -/
def open_depth_from : Nat → Nat → List Char → Nat
  | _, best, [] => best
  | cur, best, c :: p =>
    if c = '\x7b' then open_depth_from (cur + 1) (max best (cur + 1)) p
    else if c = '\x7d' then open_depth_from (cur - 1) best p
    else open_depth_from cur best p

/-- The depth of nesting of a pattern without escapes and character
classes. -/
def open_depth (p : List Char) : Nat := open_depth_from 0 0 p

/-- The group `{c1,c2,...,cn}` with the components `cs`. -/
def alt_group (cs : List (List Char)) : List Char :=
  '\x7b' :: (List.intercalate [','] cs ++ ['\x7d'])

/-- The output `(c1|c2|...|cn)` for the components `cs`. -/
def alt_group_out (cs : List (List Char)) : List Char :=
  '(' :: (List.intercalate ['|'] cs ++ [')'])

/-- A byte of the text of a character class in claim C29: a byte with no
special meaning, a brace or a comma. -/
def is_class_byte (c : Char) : Bool :=
  is_plain c || decide (c = '\x7b') || decide (c = '\x7d') || decide (c = ',')

/-- The state with `b` put before the buffer. -/
def ConvState.prepend (b : List Char) (st : ConvState) : ConvState :=
  { st with pcre := b ++ st.pcre }

/-- The state with the buffer emptied. -/
def ConvState.erase (st : ConvState) : ConvState := { st with pcre := [] }

/-- The state with the counters of the groups put to zero. -/
def ConvState.no_counts (st : ConvState) : ConvState :=
  { st with grouping_count := fun _ => 0 }

/-- Two states differ at most in the entries of `grouping_count` that belong
to no open group: the entry 0 and the entries above the depth. -/
def SameButCounts (st1 st2 : ConvState) : Prop :=
  st1.no_counts = st2.no_counts ∧
  (st1.error = error_type.e_no_error →
    ∀ j : Int, 1 ≤ j → j ≤ st1.ingrouping → st1.grouping_count j = st2.grouping_count j)

/-- The result with `b` put before the buffer. -/
def ConvResult.prepend (b : List Char) (r : ConvResult) : ConvResult :=
  { r with pcre := b ++ r.pcre }

/-! ## The comparison of two states, in the words of the specification -/

/-- The default transition of the state is absent or leads to
`nonmatching`. -/
def DFA.DeadDefault (d : DFA) (s : StateRef) : Prop :=
  (d.heap s).otherwise = none ∨ (d.heap s).otherwise = some d.nonmatching

instance (d : DFA) (s : StateRef) : Decidable (d.DeadDefault s) := by
  unfold DFA.DeadDefault; infer_instance

/-- Condition (a): the default transitions of the two states are both absent
or to `nonmatching`, or both present, not to `nonmatching`, and to states of
the same block. -/
def DFA.SameDefault (d : DFA) (s1 s2 : StateRef) : Prop :=
  (d.DeadDefault s1 ∧ d.DeadDefault s2) ∨
  (¬ d.DeadDefault s1 ∧ ¬ d.DeadDefault s2 ∧
    (d.heap s1).otherwise.map (fun o => (d.heap o).partition) =
      (d.heap s2).otherwise.map (fun o => (d.heap o).partition))

instance (d : DFA) (s1 s2 : StateRef) : Decidable (d.SameDefault s1 s2) := by
  unfold DFA.SameDefault; infer_instance

/-- Condition (b): the explicit transition maps of the two states have the
same set of byte keys, and for each key the two targets are in the same
block. -/
def DFA.SameExplicit (d : DFA) (s1 s2 : StateRef) : Prop :=
  (∀ k ∈ (d.heap s1).cases.map Prod.fst, k ∈ (d.heap s2).cases.map Prod.fst) ∧
  (∀ k ∈ (d.heap s2).cases.map Prod.fst, k ∈ (d.heap s1).cases.map Prod.fst) ∧
  ∀ j1 ∈ (d.heap s1).cases, ∀ j2 ∈ (d.heap s2).cases, j1.1 = j2.1 →
    (d.heap j1.2).partition = (d.heap j2.2).partition

instance (d : DFA) (s1 s2 : StateRef) : Decidable (d.SameExplicit s1 s2) := by
  unfold DFA.SameExplicit; infer_instance

/-- What `hash_trans` reads of a state: the byte keys in ascending order,
each with the size of the explicit table of its target, and the size of the
explicit table of the default target when the default is set and is not
`nonmatching`. -/
def DFA.trans_shape (d : DFA) (s : StateRef) : List (Nat × Nat) × Option Nat :=
  ((d.heap s).cases.map (fun j => (j.1, (d.heap j.2).cases.length)),
   (d.live_otherwise s).map (fun k => (d.heap k).cases.length))

/-- A DFA whose `partition` pointers name the blocks of the states by the
number of their explicit transitions: the states 2 and 3 are in block 1,
`start` is in block 2, the states 0 and 4 in block 0. -/
def dfa_by_size : DFA where
  heap := heap_of
    [(0, ⟨0, 0, 0, none, [], 0⟩),
     (1, ⟨1, 0, 0, none, [(97, 2), (98, 3)], 2⟩),
     (2, ⟨2, 0, 0, some 4, [(99, 4)], 1⟩),
     (3, ⟨3, 0, 0, some 0, [(99, 0)], 1⟩),
     (4, ⟨4, 1, 0, none, [], 0⟩),
     (5, ⟨5, 0, 0, some 4, [(99, 0)], 1⟩)]
  states := [0, 1, 2, 3, 4, 5]
  start := 1
  nonmatching := 0

/-! ## The scan of one block in the refinement loop (hfa.cc 429-462) -/

/-- The body of the `for` loop over the partition list for the block at
address `a` with the members `rep :: tl`, when `count` partitions have been
allocated: the members that fail `same_mappings(rep, s)` move to a new
partition, which is inserted right after the block, and only then their
`partition` pointers are set.  The result is the DFA, the blocks that stand
in the place of the scanned one, and the number of partitions allocated. -/
def DFA.scan_block (d : DFA) (a : Nat) (rep : StateRef) (tl : List StateRef) (count : Nat) :
    DFA × List Block × Nat :=
  let kept := tl.filter (fun s => d.same_mappings rep s)
  let new_part := tl.filter (fun s => !d.same_mappings rep s)
  if new_part = [] then (d, [(a, rep :: tl)], count)
  else (d.set_partitions new_part count, [(a, rep :: kept), (count, new_part)], count + 1)

/-! ## Invariant I4 in the constructor -/

/-- No explicit entry of the state stored at `s` targets the default target
of that state. -/
def NoCovered (heap : StateRef → State) (s : StateRef) : Prop :=
  ∀ j ∈ (heap s).cases, (heap s).otherwise ≠ some j.2

instance (heap : StateRef → State) (s : StateRef) : Decidable (NoCovered heap s) := by
  unfold NoCovered; infer_instance

/-- What the constructor keeps true of the work queue while `state` is being
updated: the queued states are allocated, distinct, have no explicit entry
yet, and `state` is allocated and not queued. -/
structure QueueInv (b : Builder) (state : StateRef) : Prop where
  queued : ∀ s ∈ b.work_queue, s < b.states.length ∧ (b.heap s).cases = []
  nodup : b.work_queue.Nodup
  fresh : state ∉ b.work_queue
  valid : state < b.states.length

/-- The expression tree of the pattern `(.|a)b|c`: from position 0 every
byte leads to position 1, the byte `a` too, and the byte `c` leads to no
position. -/
def tree_any_a : ExprTree where
  firstpos := [0]
  follow := fun i cases =>
    if i = 0 then ⟨some [1], map_put 97 [1] (map_put 99 [] cases.cases)⟩
    else if i = 1 then ⟨cases.otherwise, map_put 98 [2] cases.cases⟩
    else cases
  accept := fun nodes => if 2 ∈ nodes then 1 else 0
  audit := fun _ => 0

/-! ## The number of classes of equivalence_classes -/

/-- The number of classes of a class map: the number of distinct class ids
that the map assigns. -/
def class_count (eq : List (Nat × Nat)) : Nat := (eq.map Prod.snd).dedup.length

/-- The number that `equivalence_classes` prints as the number of classes
(lines 697-699): `next_class - 1`, computed in `int` from the `uchar`. -/
def DFA.classes_reported (d : DFA) : Int := (d.equivalence_classes_state.next_class : Int) - 1

/-- A DFA whose `start` goes on each of the first `n` bytes to a state of its
own: the byte `k` leads to the state `k + 2`. -/
def dfa_fan (n : Nat) : DFA where
  heap := fun s =>
    if s = 1 then ⟨1, 0, 0, none, (List.range n).map (fun k => (k, k + 2)), 0⟩
    else ⟨(s : Int), 0, 0, none, [], 0⟩
  states := List.range (n + 2)
  start := 1
  nonmatching := 0

/-! ## filter_slashes (parser_regex.c 45-84)

The argument is a pointer to a C string that the function rewrites in place.
The buffer is the list of its bytes, a pointer into it is an index, and a
read or write outside the buffer makes the function undefined (`none`). -/

/-- The terminator of a C string. -/
def NUL : Char := Char.ofNat 0

/-- The function `strlen`: the number of bytes before the first NUL; `none`
when the buffer holds no NUL. -/
def strlen : List Char → Option Nat
  | [] => none
  | c :: m => if c = NUL then some 0 else (strlen m).map (fun n => n + 1)

/-- The C string stored at the start of a buffer: the bytes before the first
NUL. -/
def c_string : List Char → List Char
  | [] => []
  | c :: m => if c = NUL then [] else c :: c_string m

/-- The variables of `filter_slashes`: the buffer, the read pointer `sptr`,
the write pointer `dptr` and the flag `seen_slash`. -/
structure FilterState where
  mem : List Char
  sptr : Nat
  dptr : Nat
  seen_slash : Bool

/-- The statement `*dptr++ = *sptr++` for the byte `c` read at `sptr`,
followed by the assignment of `seen` to `seen_slash`. -/
def FilterState.copy (st : FilterState) (c : Char) (seen : Bool) : Option FilterState :=
  if st.dptr < st.mem.length then
    some ⟨st.mem.set st.dptr c, st.sptr + 1, st.dptr + 1, seen⟩
  else none

/-- The loop `while (*sptr)` of lines 64-82, at most `fuel` tests of its
condition. -/
def filter_loop : Nat → FilterState → Option FilterState
  | 0, _ => none
  | fuel + 1, st =>
    match st.mem[st.sptr]? with
    | none => none
    | some c =>
      if c = NUL then some st
      else if c = '/' then
        if st.seen_slash = true then filter_loop fuel { st with sptr := st.sptr + 1 }
        else
          match st.copy c true with
          | some st1 => filter_loop fuel st1
          | none => none
      else if st.dptr < st.sptr then
        match st.copy c false with
        | some st1 => filter_loop fuel st1
        | none => none
      else
        filter_loop fuel
          { st with
            sptr := st.sptr + 1,
            dptr := st.dptr + 1,
            seen_slash := false }

/-- The function `filter_slashes` on a buffer (the pointer is not NULL): the
buffer when the function returns.  A string shorter than 2 bytes is left
alone; the two pointers start behind a leading `//` that no third slash
follows; the loop runs; and a NUL is written at `dptr`. -/
def filter_slashes (fuel : Nat) (mem : List Char) : Option (List Char) :=
  match strlen mem with
  | none => none
  | some len =>
    if len < 2 then some mem
    else
      match mem[0]?, mem[1]?, mem[2]? with
      | some c0, some c1, some c2 =>
        let start := if c0 = '/' ∧ c1 = '/' ∧ c2 ≠ '/' then 2 else 0
        match filter_loop fuel ⟨mem, start, start, false⟩ with
        | none => none
        | some st =>
          if st.dptr < st.mem.length then some (st.mem.set st.dptr NUL) else none
      | _, _, _ => none

/-! ## The reference definition of filter_slashes, in the words of the
specification -/

/-- Every maximal run of slashes is replaced by a single slash: a slash that
another slash follows is dropped. -/
def squeeze_slashes : List Char → List Char
  | [] => []
  | [c] => [c]
  | c1 :: c2 :: p =>
    if c1 = '/' ∧ c2 = '/' then squeeze_slashes (c2 :: p)
    else c1 :: squeeze_slashes (c2 :: p)

/-- The reference: a path shorter than 2 bytes is unchanged; when the path
starts with two slashes and the third byte is not a slash, the two slashes
are kept and the runs of slashes of the rest are squeezed; otherwise the runs
of slashes of the whole path are squeezed. -/
def filter_reference (path : List Char) : List Char :=
  if path.length < 2 then path
  else if path.take 2 = ['/', '/'] ∧ (path.drop 2).head? ≠ some '/' then
    path.take 2 ++ squeeze_slashes (path.drop 2)
  else squeeze_slashes path

/-- What the loop of `filter_slashes` writes for the bytes `p`, by the value
of `seen_slash` at its start. -/
def loop_out : Bool → List Char → List Char
  | _, [] => []
  | seen, c :: p =>
    if c = '/' then (if seen = true then loop_out true p else c :: loop_out true p)
    else c :: loop_out false p

/-! # Proofs

All definitions are above this line; the lemmas and the theorems of the claims
follow. -/

/-! ## Lemmas on the ordered containers -/

theorem map_find_put {β : Type} (j k : Nat) (v : β) (m : List (Nat × β)) :
    map_find j (map_put k v m) = if j = k then some v else map_find j m := by
  induction m with
  | nil => simp [map_put, map_find]
  | cons p m ih =>
    obtain ⟨k1, v1⟩ := p
    simp only [map_put]
    by_cases hjk : j = k
    · subst hjk
      rcases Nat.lt_trichotomy j k1 with h | h | h
      · simp [h, map_find]
      · subst h; simp [map_find]
      · have h1 : ¬ j < k1 := Nat.not_lt.2 (Nat.le_of_lt h)
        have h2 : j ≠ k1 := Nat.ne_of_gt h
        simp [h1, h2, map_find, ih]
    · rcases Nat.lt_trichotomy k k1 with h | h | h
      · simp [h, map_find, hjk]
      · subst h; simp [map_find, hjk]
      · have h1 : ¬ k < k1 := Nat.not_lt.2 (Nat.le_of_lt h)
        have h2 : k ≠ k1 := Nat.ne_of_gt h
        simp [h1, h2, map_find, ih, hjk]

theorem map_find_insert_ne {β : Type} {j k : Nat} (v : β) (m : List (Nat × β)) (h : j ≠ k) :
    map_find j (map_insert k v m) = map_find j m := by
  unfold map_insert
  split_ifs
  · rfl
  · simp [map_find_put, h]

theorem map_find_insert_self {β : Type} (k : Nat) (v : β) (m : List (Nat × β)) :
    map_find k (map_insert k v m) = some ((map_find k m).getD v) := by
  unfold map_insert
  cases hk : map_find k m with
  | none => simp [map_find_put]
  | some x => simp [hk]

theorem map_find_some_mem {β : Type} {k : Nat} {v : β} {m : List (Nat × β)}
    (h : map_find k m = some v) : (k, v) ∈ m := by
  induction m with
  | nil => simp [map_find] at h
  | cons p m ih =>
    obtain ⟨k1, v1⟩ := p
    simp only [map_find] at h
    split_ifs at h with h1
    · subst h1; simp at h; subst h; simp
    · exact List.mem_cons_of_mem _ (ih h)

theorem map_find_isSome_iff {β : Type} (k : Nat) (m : List (Nat × β)) :
    (map_find k m).isSome ↔ k ∈ m.map Prod.fst := by
  induction m with
  | nil => simp [map_find]
  | cons p m ih =>
    obtain ⟨k1, v1⟩ := p
    simp only [map_find]
    split_ifs with h1
    · simp [h1]
    · simp [ih, h1]

theorem map_find_eq_none_iff {β : Type} (k : Nat) (m : List (Nat × β)) :
    map_find k m = none ↔ k ∉ m.map Prod.fst := by
  rw [← map_find_isSome_iff]
  cases map_find k m <;> simp

theorem map_find_of_mem {β : Type} {k : Nat} {v : β} {m : List (Nat × β)}
    (hnd : (m.map Prod.fst).Nodup) (h : (k, v) ∈ m) : map_find k m = some v := by
  induction m with
  | nil => simp at h
  | cons p m ih =>
    obtain ⟨k1, v1⟩ := p
    simp only [List.map_cons, List.nodup_cons] at hnd
    simp only [map_find]
    rcases List.mem_cons.1 h with h1 | h1
    · simp only [Prod.mk.injEq] at h1
      simp [h1.1, h1.2]
    · have : k ≠ k1 := by
        rintro rfl
        exact hnd.1 (List.mem_map.2 ⟨(k, v), h1, rfl⟩)
      simp [this, ih hnd.2 h1]

theorem map_find_map_snd {β γ : Type} (f : β → γ) (k : Nat) (m : List (Nat × β)) :
    map_find k (m.map (fun c => (c.1, f c.2))) = (map_find k m).map f := by
  induction m with
  | nil => simp [map_find]
  | cons p m ih =>
    obtain ⟨k1, v1⟩ := p
    simp only [List.map_cons, map_find]
    split_ifs <;> simp [ih]

theorem mem_set_insert (a x : Nat) (l : List Nat) :
    a ∈ set_insert x l ↔ a = x ∨ a ∈ l := by
  unfold set_insert
  split_ifs with h
  · constructor
    · exact fun h1 => Or.inr h1
    · rintro (rfl | h1)
      · exact h
      · exact h1
  · simp [List.mem_orderedInsert]

theorem set_insert_nodup {x : Nat} {l : List Nat} (h : l.Nodup) : (set_insert x l).Nodup := by
  unfold set_insert
  split_ifs with h1
  · exact h
  · exact ((List.perm_orderedInsert _ x l).nodup_iff).2 (List.nodup_cons.2 ⟨h1, h⟩)

theorem set_insert_of_mem {x : Nat} {l : List Nat} (h : x ∈ l) : set_insert x l = l := by
  simp [set_insert, h]

/-! ## remove_unreachable -/

theorem push_targets_sound {R : List StateRef} {s : State} {t : StateRef}
    (h : t ∈ push_targets R s) : t ∈ s.targets ∧ t ∉ R := by
  unfold push_targets at h
  rcases List.mem_append.1 h with h1 | h1
  · cases ho : s.otherwise with
    | none => simp [ho] at h1
    | some o =>
      simp only [ho] at h1
      split_ifs at h1 with h2
      · simp at h1
      · simp only [List.mem_singleton] at h1
        subst h1
        exact ⟨by simp [State.targets, ho], h2⟩
  · obtain ⟨j, hj, rfl⟩ := List.mem_map.1 h1
    have hj1 := List.mem_filter.1 hj
    refine ⟨?_, by simpa using hj1.2⟩
    simp only [State.targets, List.mem_append, List.mem_map]
    exact Or.inr ⟨j, hj1.1, rfl⟩

theorem push_targets_complete {R : List StateRef} {s : State} {t : StateRef}
    (h : t ∈ s.targets) : t ∈ R ∨ t ∈ push_targets R s := by
  by_cases hR : t ∈ R
  · exact Or.inl hR
  · right
    unfold push_targets
    simp only [State.targets, List.mem_append, List.mem_map] at h
    rcases h with h | ⟨j, hj, rfl⟩
    · cases ho : s.otherwise with
      | none => simp [ho] at h
      | some o =>
        simp only [ho, Option.toList, List.mem_singleton] at h
        subst h
        simp [hR]
    · apply List.mem_append_right
      exact List.mem_map.2 ⟨j, List.mem_filter.2 ⟨hj, by simpa using hR⟩, rfl⟩

theorem push_targets_length_le (R : List StateRef) (s : State) :
    (push_targets R s).length ≤ s.targets.length := by
  unfold push_targets State.targets
  simp only [List.length_append, List.length_map]
  apply Nat.add_le_add
  · cases s.otherwise with
    | none => simp
    | some o => simp only [Option.toList]; split_ifs <;> simp
  · exact List.length_filter_le _ _

theorem reach_loop_nil (d : DFA) (fuel : Nat) (R : List StateRef) :
    d.reach_loop fuel R [] = some R := by
  cases fuel <;> rfl

theorem reach_loop_succ (d : DFA) (fuel : Nat) (R Q : List StateRef) (src : StateRef) :
    d.reach_loop (fuel + 1) R (src :: Q) =
      d.reach_loop fuel (set_insert src R)
        (Q ++ push_targets (set_insert src R) (d.heap src)) := rfl

/-- Invariants of the search loop carry over to its result. -/
theorem reach_loop_induct (d : DFA) (I : List StateRef → List StateRef → Prop)
    (hstep : ∀ R src Q, I R (src :: Q) →
      I (set_insert src R) (Q ++ push_targets (set_insert src R) (d.heap src))) :
    ∀ fuel R Q res, I R Q → d.reach_loop fuel R Q = some res → I res [] := by
  intro fuel
  induction fuel with
  | zero =>
    intro R Q res hI h
    cases Q with
    | nil => rw [reach_loop_nil] at h; cases h; exact hI
    | cons src Q => simp [DFA.reach_loop] at h
  | succ fuel ih =>
    intro R Q res hI h
    cases Q with
    | nil => rw [reach_loop_nil] at h; cases h; exact hI
    | cons src Q =>
      rw [reach_loop_succ] at h
      exact ih _ _ res (hstep R src Q hI) h

theorem targets_length_le_out_bound (d : DFA) {s : StateRef} (h : s ∈ d.states) :
    (d.heap s).targets.length ≤ d.out_bound := by
  unfold DFA.out_bound
  generalize d.states = l at h
  induction l with
  | nil => simp at h
  | cons a l ih =>
    simp only [List.map_cons, List.sum_cons]
    rcases List.mem_cons.1 h with h1 | h1
    · subst h1; exact Nat.le_add_right _ _
    · exact Nat.le_trans (ih h1) (Nat.le_add_left _ _)

theorem queue_weight_append (D : Nat) (R a b : List StateRef) :
    queue_weight D R (a ++ b) = queue_weight D R a + queue_weight D R b := by
  simp [queue_weight, List.map_append, List.sum_append]

theorem queue_weight_fresh (D : Nat) (R l : List StateRef) (h : ∀ x ∈ l, x ∉ R) :
    queue_weight D R l = l.length := by
  induction l with
  | nil => simp [queue_weight]
  | cons a l ih =>
    have ha : a ∉ R := h a (List.mem_cons_self _ _)
    have := ih (fun x hx => h x (List.mem_cons_of_mem _ hx))
    simp only [queue_weight, List.map_cons, List.sum_cons, List.length_cons] at this ⊢
    simp only [ha, if_false]
    omega

theorem unreached_insert_lt (d : DFA) {R : List StateRef} {src : StateRef}
    (hs : src ∈ d.states) (hR : src ∉ R) :
    d.unreached (set_insert src R) < d.unreached R := by
  unfold DFA.unreached
  have heq : d.states.filter (fun s => decide (s ∉ set_insert src R)) =
      (d.states.filter (fun s => decide (s ∉ R))).filter
        (fun s => decide (s ∉ set_insert src R)) := by
    rw [List.filter_filter]
    apply List.filter_congr
    intro x _
    simp only [mem_set_insert, not_or, Bool.decide_and, Bool.decide_eq_true]
    by_cases h1 : x ∈ R <;> simp [h1]
  rw [heq]
  apply List.length_filter_lt_length_iff_exists.2
  refine ⟨src, List.mem_filter.2 ⟨hs, by simpa using hR⟩, ?_⟩
  simp [mem_set_insert]

/-- The search loop terminates on a DFA whose targets belong to it. -/
theorem reach_loop_terminates (d : DFA) (hc : d.Closed) :
    ∀ u R, d.unreached R = u → ∀ w Q, queue_weight d.out_bound R Q = w →
      (∀ q ∈ Q, q ∈ d.states) → ∃ fuel res, d.reach_loop fuel R Q = some res := by
  intro u
  induction u using Nat.strong_induction_on with
  | _ u ihu =>
    intro R hu w
    induction w using Nat.strong_induction_on with
    | _ w ihw =>
      intro Q hw hQ
      cases Q with
      | nil => exact ⟨0, R, rfl⟩
      | cons src tl =>
        have hsrc : src ∈ d.states := hQ src (List.mem_cons_self _ _)
        have hQ1 : ∀ q ∈ tl ++ push_targets (set_insert src R) (d.heap src), q ∈ d.states := by
          intro q hq
          rcases List.mem_append.1 hq with h1 | h1
          · exact hQ q (List.mem_cons_of_mem _ h1)
          · exact hc src hsrc q (push_targets_sound h1).1
        by_cases hin : src ∈ R
        · have hR1 : set_insert src R = R := set_insert_of_mem hin
          have hlt : queue_weight d.out_bound R (tl ++ push_targets R (d.heap src)) < w := by
            rw [← hw, queue_weight_append,
              queue_weight_fresh _ _ _ (fun x hx => (push_targets_sound hx).2)]
            have h1 := push_targets_length_le R (d.heap src)
            have h2 := targets_length_le_out_bound d hsrc
            simp only [queue_weight, List.map_cons, List.sum_cons, hin, if_true]
            omega
          rw [hR1] at hQ1
          obtain ⟨fuel, res, h⟩ := ihw _ hlt _ rfl hQ1
          exact ⟨fuel + 1, res, by rw [reach_loop_succ, hR1]; exact h⟩
        · have hlt : d.unreached (set_insert src R) < u := by
            rw [← hu]; exact unreached_insert_lt d hsrc hin
          obtain ⟨fuel, res, h⟩ := ihu _ hlt _ rfl _ _ rfl hQ1
          exact ⟨fuel + 1, res, by rw [reach_loop_succ]; exact h⟩

/-- What the search loop keeps true of `reachable` and the work queue. -/
theorem reachable_set_spec (d : DFA) (hwt : d.WellTyped) (hc : d.Closed)
    {fuel : Nat} {R : List StateRef} (h : d.reachable_set fuel = some R) :
    R.Nodup ∧ (∀ s ∈ R, s ∈ d.states) ∧ d.nonmatching ∈ R ∧ d.start ∈ R ∧
    (∀ s ∈ R, s = d.nonmatching ∨ d.Reach d.start s) ∧
    (∀ s ∈ R, s = d.nonmatching ∨ ∀ t ∈ (d.heap s).targets, t ∈ R) := by
  obtain ⟨_, hstart, hnm, _⟩ := hwt
  have key := reach_loop_induct d
    (fun R Q => R.Nodup ∧ (∀ s ∈ R, s ∈ d.states) ∧ (∀ q ∈ Q, q ∈ d.states) ∧
      d.nonmatching ∈ R ∧ (d.start ∈ R ∨ d.start ∈ Q) ∧
      (∀ s ∈ R, s = d.nonmatching ∨ d.Reach d.start s) ∧
      (∀ q ∈ Q, d.Reach d.start q) ∧
      (∀ s ∈ R, s = d.nonmatching ∨ ∀ t ∈ (d.heap s).targets, t ∈ R ∨ t ∈ Q))
    (by
      rintro R src Q ⟨h1, h2, h3, h4, h5, h6, h7, h8⟩
      have hsrc : src ∈ d.states := h3 src (List.mem_cons_self _ _)
      have hrs : d.Reach d.start src := h7 src (List.mem_cons_self _ _)
      refine ⟨set_insert_nodup h1, ?_, ?_, ?_, ?_, ?_, ?_, ?_⟩
      · intro s hs
        rcases (mem_set_insert _ _ _).1 hs with rfl | hs
        · exact hsrc
        · exact h2 s hs
      · intro q hq
        rcases List.mem_append.1 hq with hq | hq
        · exact h3 q (List.mem_cons_of_mem _ hq)
        · exact hc src hsrc q (push_targets_sound hq).1
      · exact (mem_set_insert _ _ _).2 (Or.inr h4)
      · rcases h5 with h5 | h5
        · exact Or.inl ((mem_set_insert _ _ _).2 (Or.inr h5))
        · rcases List.mem_cons.1 h5 with h5 | h5
          · exact Or.inl ((mem_set_insert _ _ _).2 (Or.inl h5))
          · exact Or.inr (List.mem_append_left _ h5)
      · intro s hs
        rcases (mem_set_insert _ _ _).1 hs with rfl | hs
        · exact Or.inr hrs
        · exact h6 s hs
      · intro q hq
        rcases List.mem_append.1 hq with hq | hq
        · exact h7 q (List.mem_cons_of_mem _ hq)
        · exact DFA.Reach.tail hrs (push_targets_sound hq).1
      · intro s hs
        rcases (mem_set_insert _ _ _).1 hs with rfl | hs
        · right
          intro t ht
          rcases push_targets_complete (R := set_insert s R) ht with h9 | h9
          · exact Or.inl h9
          · exact Or.inr (List.mem_append_right _ h9)
        · rcases h8 s hs with h9 | h9
          · exact Or.inl h9
          · right
            intro t ht
            rcases h9 t ht with h10 | h10
            · exact Or.inl ((mem_set_insert _ _ _).2 (Or.inr h10))
            · rcases List.mem_cons.1 h10 with h10 | h10
              · exact Or.inl ((mem_set_insert _ _ _).2 (Or.inl h10))
              · exact Or.inr (List.mem_append_left _ h10))
    fuel (set_insert d.nonmatching []) [d.start] R
    (by
      refine ⟨set_insert_nodup List.nodup_nil, ?_, ?_, ?_, ?_, ?_, ?_, ?_⟩
      · intro s hs
        rcases (mem_set_insert _ _ _).1 hs with rfl | hs
        · exact hnm
        · simp at hs
      · intro q hq
        rw [List.mem_singleton] at hq; subst hq; exact hstart
      · exact (mem_set_insert _ _ _).2 (Or.inl rfl)
      · exact Or.inr (List.mem_singleton.2 rfl)
      · intro s hs
        rcases (mem_set_insert _ _ _).1 hs with rfl | hs
        · exact Or.inl rfl
        · simp at hs
      · intro q hq
        rw [List.mem_singleton] at hq; subst hq; exact DFA.Reach.refl _
      · intro s hs
        rcases (mem_set_insert _ _ _).1 hs with rfl | hs
        · exact Or.inl rfl
        · simp at hs)
    h
  obtain ⟨k1, k2, _, k4, k5, k6, _, k8⟩ := key
  refine ⟨k1, k2, k4, ?_, k6, ?_⟩
  · rcases k5 with k5 | k5
    · exact k5
    · simp at k5
  · intro s hs
    rcases k8 s hs with k9 | k9
    · exact Or.inl k9
    · right
      intro t ht
      rcases k9 t ht with k10 | k10
      · exact k10
      · simp at k10

theorem reachable_set_terminates (d : DFA) (hwt : d.WellTyped) (hc : d.Closed) :
    ∃ fuel R, d.reachable_set fuel = some R := by
  apply reach_loop_terminates d hc _ _ rfl _ _ rfl
  intro q hq
  rw [List.mem_singleton] at hq; subst hq; exact hwt.2.1

theorem mem_erase_unreachable (d : DFA) {R : List StateRef}
    (hR : R.Nodup) (hsub : ∀ s ∈ R, s ∈ d.states) (s : StateRef) :
    s ∈ (d.erase_unreachable R).states ↔ s ∈ d.states ∧ s ∈ R := by
  unfold DFA.erase_unreachable
  split_ifs with h
  · simp [List.mem_filter]
  · have hperm : R.Perm d.states :=
      (hR.subperm hsub).perm_of_length_le (Nat.not_lt.1 h)
    constructor
    · intro hs; exact ⟨hs, hperm.mem_iff.2 hs⟩
    · intro hs; exact hs.1

theorem erase_unreachable_heap (d : DFA) (R : List StateRef) :
    (d.erase_unreachable R).heap = d.heap ∧ (d.erase_unreachable R).start = d.start ∧
    (d.erase_unreachable R).nonmatching = d.nonmatching := by
  unfold DFA.erase_unreachable
  split_ifs <;> exact ⟨rfl, rfl, rfl⟩

theorem reach_of_heap_eq {d d1 : DFA} (h : d1.heap = d.heap) {a b : StateRef}
    (hr : d.Reach a b) : d1.Reach a b := by
  induction hr with
  | refl => exact DFA.Reach.refl _
  | tail _ ht ih => exact DFA.Reach.tail ih (by rw [h]; exact ht)

theorem run_of_heap_eq {d d1 : DFA} (h : d1.heap = d.heap) (hn : d1.nonmatching = d.nonmatching)
    (q : StateRef) (w : List Nat) : d1.run q w = d.run q w := by
  have hstep : d1.step = d.step := by
    funext q c
    simp [DFA.step, h, hn]
  simp [DFA.run, hstep]

/-- Claim C6.  `DFA::remove_unreachable` returns on every DFA whose
transition targets all belong to the DFA, and in the result every surviving
state other than `nonmatching` is reachable from `start` by a path of
default or explicit transitions. -/
theorem remove_unreachable_survivors_reachable (d : DFA) (hwt : d.WellTyped)
    (hc : d.Closed) :
    (∃ fuel d1, d.remove_unreachable fuel = some d1) ∧
    ∀ fuel d1, d.remove_unreachable fuel = some d1 →
      ∀ s ∈ d1.states, s ≠ d1.nonmatching → d1.Reach d1.start s := by
  constructor
  · obtain ⟨fuel, R, h⟩ := reachable_set_terminates d hwt hc
    exact ⟨fuel, d.erase_unreachable R, by simp [DFA.remove_unreachable, h]⟩
  · intro fuel d1 h s hs hne
    simp only [DFA.remove_unreachable, Option.map_eq_some'] at h
    obtain ⟨R, hR, rfl⟩ := h
    obtain ⟨k1, k2, _, _, k5, _⟩ := reachable_set_spec d hwt hc hR
    obtain ⟨e1, e2, e3⟩ := erase_unreachable_heap d R
    have hsR := ((mem_erase_unreachable d k1 k2 s).1 hs).2
    rw [e3] at hne
    rw [e2]
    rcases k5 s hsR with h1 | h1
    · exact absurd h1 hne
    · exact reach_of_heap_eq e1 h1

/-- Witness of `remove_unreachable_survivors_reachable` on
`dfa_two_accepts`. -/
theorem remove_unreachable_survivors_reachable_witness :
    dfa_two_accepts.WellTyped ∧ dfa_two_accepts.Closed ∧
    (∃ fuel d1, dfa_two_accepts.remove_unreachable fuel = some d1) ∧
    ∀ fuel d1, dfa_two_accepts.remove_unreachable fuel = some d1 →
      ∀ s ∈ d1.states, s ≠ d1.nonmatching → d1.Reach d1.start s :=
  ⟨by decide, by decide,
    remove_unreachable_survivors_reachable dfa_two_accepts (by decide) (by decide)⟩

/-- The frame of `remove_unreachable` with no assumption on `nonmatching`.
On a DFA whose transition targets all belong to it, the function returns; it
only erases states, it leaves every state object, `start` and `nonmatching`
unchanged, and it keeps `start`, `nonmatching` and every state reachable from
`start` by a path that takes no transition out of `nonmatching`.  When
`nonmatching` has no outgoing transitions, every transition target of a
surviving state survives and the state reached on any input string is
unchanged. -/
theorem remove_unreachable_frame (d : DFA) (hwt : d.WellTyped) (hc : d.Closed) :
    (∃ fuel d1, d.remove_unreachable fuel = some d1) ∧
    ∀ fuel d1, d.remove_unreachable fuel = some d1 →
      d1.heap = d.heap ∧ d1.start = d.start ∧ d1.nonmatching = d.nonmatching ∧
      (∀ s ∈ d1.states, s ∈ d.states) ∧
      d.start ∈ d1.states ∧ d.nonmatching ∈ d1.states ∧
      (∀ s, d.ReachLive d.start s → s ∈ d1.states) ∧
      ((d.heap d.nonmatching).targets = [] →
        d1.Closed ∧ ∀ w, d1.run d1.start w = d.run d.start w) := by
  constructor
  · obtain ⟨fuel, R, h⟩ := reachable_set_terminates d hwt hc
    exact ⟨fuel, d.erase_unreachable R, by simp [DFA.remove_unreachable, h]⟩
  · intro fuel d1 h
    simp only [DFA.remove_unreachable, Option.map_eq_some'] at h
    obtain ⟨R, hR, rfl⟩ := h
    obtain ⟨k1, k2, k3, k4, _, k6⟩ := reachable_set_spec d hwt hc hR
    obtain ⟨e1, e2, e3⟩ := erase_unreachable_heap d R
    have hmem := mem_erase_unreachable d k1 k2
    have hlive : ∀ s, d.ReachLive d.start s → s ∈ R := by
      intro s hs
      induction hs with
      | refl => exact k4
      | tail _ hne ht ih =>
        rcases k6 _ ih with h1 | h1
        · exact absurd h1 hne
        · exact h1 _ ht
    refine ⟨e1, e2, e3, fun s hs => ((hmem s).1 hs).1, (hmem _).2 ⟨hwt.2.1, k4⟩,
      (hmem _).2 ⟨hwt.2.2.1, k3⟩, fun s hs => (hmem s).2 ⟨k2 s (hlive s hs), hlive s hs⟩, ?_⟩
    intro hdead
    constructor
    · intro s hs t ht
      rw [e1] at ht
      have hs1 := (hmem s).1 hs
      refine (hmem t).2 ⟨hc s hs1.1 t ht, ?_⟩
      rcases k6 s hs1.2 with h1 | h1
      · subst h1
        rw [hdead] at ht
        simp at ht
      · exact h1 t ht
    · intro w
      rw [e2]
      exact run_of_heap_eq e1 e3 _ w

/-- Witness of `remove_unreachable_frame` on `dfa_covered_default`. -/
theorem remove_unreachable_frame_witness :
    dfa_covered_default.WellTyped ∧ dfa_covered_default.Closed ∧
    (∃ fuel d1, dfa_covered_default.remove_unreachable fuel = some d1) ∧
    ∀ fuel d1, dfa_covered_default.remove_unreachable fuel = some d1 →
      d1.heap = dfa_covered_default.heap ∧ d1.start = dfa_covered_default.start ∧
      d1.nonmatching = dfa_covered_default.nonmatching ∧
      (∀ s ∈ d1.states, s ∈ dfa_covered_default.states) ∧
      dfa_covered_default.start ∈ d1.states ∧ dfa_covered_default.nonmatching ∈ d1.states ∧
      (∀ s, dfa_covered_default.ReachLive dfa_covered_default.start s → s ∈ d1.states) ∧
      ((dfa_covered_default.heap dfa_covered_default.nonmatching).targets = [] →
        d1.Closed ∧
        ∀ w, d1.run d1.start w = dfa_covered_default.run dfa_covered_default.start w) :=
  ⟨by decide, by decide,
    remove_unreachable_frame dfa_covered_default (by decide) (by decide)⟩

/-- When the dead state has no outgoing edges except to itself, a state
reachable from `s` is the dead state or is reachable by a path that takes no
transition out of the dead state. -/
theorem reach_live_or_dead (d : DFA)
    (hdead : ∀ t ∈ (d.heap d.nonmatching).targets, t = d.nonmatching) {s u : StateRef}
    (h : d.Reach s u) : u = d.nonmatching ∨ d.ReachLive s u := by
  induction h with
  | refl => exact Or.inr (DFA.ReachLive.refl _)
  | @tail t u _ ht ih =>
    by_cases hu : u = d.nonmatching
    · exact Or.inl hu
    · right
      rcases ih with h1 | h1
      · rw [h1] at ht
        exact absurd (hdead u ht) hu
      · by_cases htn : t = d.nonmatching
        · rw [htn] at ht
          exact absurd (hdead u ht) hu
        · exact DFA.ReachLive.tail h1 htn ht

/-- Claim C7.  On a DFA of the data model, whose transition targets all
belong to it and whose dead state `nonmatching` has no outgoing edges except
to itself, `DFA::remove_unreachable` returns; it never deletes `start`,
`nonmatching` or any state reachable from `start`; it only erases states and
leaves every state object, with its label, masks and transitions, and
`start` and `nonmatching` unchanged; hence every transition target of a
surviving state is a surviving state (I1) and the state reached on any input
string is unchanged. -/
theorem remove_unreachable_keeps_reachable (d : DFA) (hwt : d.WellTyped) (hc : d.Closed)
    (hdead : ∀ t ∈ (d.heap d.nonmatching).targets, t = d.nonmatching) :
    (∃ fuel d1, d.remove_unreachable fuel = some d1) ∧
    ∀ fuel d1, d.remove_unreachable fuel = some d1 →
      d.start ∈ d1.states ∧ d.nonmatching ∈ d1.states ∧
      (∀ s, d.Reach d.start s → s ∈ d1.states) ∧
      d1.heap = d.heap ∧ d1.start = d.start ∧ d1.nonmatching = d.nonmatching ∧
      (∀ s ∈ d1.states, s ∈ d.states) ∧
      d1.Closed ∧ ∀ w, d1.run d1.start w = d.run d.start w := by
  constructor
  · obtain ⟨fuel, R, h⟩ := reachable_set_terminates d hwt hc
    exact ⟨fuel, d.erase_unreachable R, by simp [DFA.remove_unreachable, h]⟩
  · intro fuel d1 h
    simp only [DFA.remove_unreachable, Option.map_eq_some'] at h
    obtain ⟨R, hR, rfl⟩ := h
    obtain ⟨k1, k2, k3, k4, _, k6⟩ := reachable_set_spec d hwt hc hR
    obtain ⟨e1, e2, e3⟩ := erase_unreachable_heap d R
    have hmem := mem_erase_unreachable d k1 k2
    have hlive : ∀ s, d.ReachLive d.start s → s ∈ R := by
      intro s hs
      induction hs with
      | refl => exact k4
      | tail _ hne ht ih =>
        rcases k6 _ ih with h1 | h1
        · exact absurd h1 hne
        · exact h1 _ ht
    have hreach : ∀ s, d.Reach d.start s → s ∈ R := by
      intro s hs
      rcases reach_live_or_dead d hdead hs with h1 | h1
      · rw [h1]; exact k3
      · exact hlive s h1
    refine ⟨(hmem _).2 ⟨hwt.2.1, k4⟩, (hmem _).2 ⟨hwt.2.2.1, k3⟩,
      fun s hs => (hmem s).2 ⟨k2 s (hreach s hs), hreach s hs⟩, e1, e2, e3,
      fun s hs => ((hmem s).1 hs).1, ?_, ?_⟩
    · intro s hs t ht
      rw [e1] at ht
      have hs1 := (hmem s).1 hs
      refine (hmem t).2 ⟨hc s hs1.1 t ht, ?_⟩
      rcases k6 s hs1.2 with h1 | h1
      · subst h1
        rw [hdead t ht]
        exact k3
      · exact h1 t ht
    · intro w
      rw [e2]
      exact run_of_heap_eq e1 e3 _ w

/-- Witness of `remove_unreachable_keeps_reachable` on `dfa_covered_twin`,
the DFA that the constructor builds for `x(ab|.b)|y.b|z[^c]`, in which a
transition leads to `nonmatching`. -/
theorem remove_unreachable_keeps_reachable_witness :
    dfa_covered_twin.WellTyped ∧ dfa_covered_twin.Closed ∧
    (∀ t ∈ (dfa_covered_twin.heap dfa_covered_twin.nonmatching).targets,
      t = dfa_covered_twin.nonmatching) ∧
    (dfa_covered_twin.remove_unreachable 20).map DFA.states =
      some [0, 1, 2, 3, 4, 5, 6, 7, 8] ∧
    (∃ fuel d1, dfa_covered_twin.remove_unreachable fuel = some d1) ∧
    ∀ fuel d1, dfa_covered_twin.remove_unreachable fuel = some d1 →
      dfa_covered_twin.start ∈ d1.states ∧ dfa_covered_twin.nonmatching ∈ d1.states ∧
      (∀ s, dfa_covered_twin.Reach dfa_covered_twin.start s → s ∈ d1.states) ∧
      d1.heap = dfa_covered_twin.heap ∧ d1.start = dfa_covered_twin.start ∧
      d1.nonmatching = dfa_covered_twin.nonmatching ∧
      (∀ s ∈ d1.states, s ∈ dfa_covered_twin.states) ∧
      d1.Closed ∧
      ∀ w, d1.run d1.start w = dfa_covered_twin.run dfa_covered_twin.start w :=
  ⟨by decide, by decide, by decide, by decide,
    remove_unreachable_keeps_reachable dfa_covered_twin (by decide) (by decide) (by decide)⟩

/-! ## minimize: the refinement loop -/

theorem mem_members {s : StateRef} {ps : List Block} :
    s ∈ members ps ↔ ∃ b ∈ ps, s ∈ b.2 := by
  induction ps with
  | nil => simp [members]
  | cons b ps ih => simp [members, ih]

theorem members_length (ps : List Block) :
    (members ps).length = (ps.map (fun b => b.2.length)).sum := by
  induction ps with
  | nil => simp [members]
  | cons b ps ih => simp [members, ih]

theorem same_but_partition_refl (d : DFA) : d.SameButPartition d :=
  ⟨rfl, rfl, rfl, fun _ => ⟨rfl, rfl, rfl, rfl, rfl⟩⟩

theorem same_but_partition_trans {d2 d1 d : DFA} (h2 : d2.SameButPartition d1)
    (h1 : d1.SameButPartition d) : d2.SameButPartition d := by
  obtain ⟨a1, a2, a3, a4⟩ := h2
  obtain ⟨b1, b2, b3, b4⟩ := h1
  refine ⟨a1.trans b1, a2.trans b2, a3.trans b3, fun r => ?_⟩
  obtain ⟨c1, c2, c3, c4, c5⟩ := a4 r
  obtain ⟨e1, e2, e3, e4, e5⟩ := b4 r
  exact ⟨c1.trans e1, c2.trans e2, c3.trans e3, c4.trans e4, c5.trans e5⟩

theorem set_partitions_heap (l : List StateRef) (p : Nat) :
    ∀ (d : DFA) (r : StateRef), (d.set_partitions l p).heap r =
      if r ∈ l then { d.heap r with partition := p } else d.heap r := by
  induction l with
  | nil => intro d r; simp [DFA.set_partitions]
  | cons m l ih =>
    intro d r
    have := ih (d.modify m (fun s => { s with partition := p })) r
    simp only [DFA.set_partitions, List.foldl_cons] at this ⊢
    rw [this]
    by_cases h1 : r ∈ l
    · by_cases h2 : r = m
      · simp [h1, h2, DFA.modify]
      · simp [h1, h2, DFA.modify]
    · by_cases h2 : r = m
      · simp [h1, h2, DFA.modify]
      · simp [h1, h2, DFA.modify]

theorem set_partitions_fields (l : List StateRef) (p : Nat) :
    ∀ (d : DFA), (d.set_partitions l p).states = d.states ∧
      (d.set_partitions l p).start = d.start ∧
      (d.set_partitions l p).nonmatching = d.nonmatching := by
  induction l with
  | nil => intro d; simp [DFA.set_partitions]
  | cons m l ih =>
    intro d
    have := ih (d.modify m (fun s => { s with partition := p }))
    simp only [DFA.set_partitions, List.foldl_cons] at this ⊢
    simpa [DFA.modify] using this

theorem set_partitions_same (d : DFA) (l : List StateRef) (p : Nat) :
    (d.set_partitions l p).SameButPartition d := by
  obtain ⟨h1, h2, h3⟩ := set_partitions_fields l p d
  refine ⟨h1, h2, h3, fun r => ?_⟩
  rw [set_partitions_heap]
  split_ifs <;> exact ⟨rfl, rfl, rfl, rfl, rfl⟩

theorem refine_pass_nil (d : DFA) (fuel count : Nat) :
    d.refine_pass fuel [] count = some (d, [], count) := by
  cases fuel <;> rfl

theorem refine_pass_succ (d : DFA) (fuel count : Nat) (a : Nat) (rep : StateRef)
    (tl : List StateRef) (rest : List Block) :
    d.refine_pass (fuel + 1) ((a, rep :: tl) :: rest) count =
      if tl.filter (fun s => !d.same_mappings rep s) = [] then
        (d.refine_pass fuel rest count).map
          (fun r => (r.1, (a, rep :: tl) :: r.2.1, r.2.2))
      else
        ((d.set_partitions (tl.filter (fun s => !d.same_mappings rep s)) count).refine_pass fuel
            ((count, tl.filter (fun s => !d.same_mappings rep s)) :: rest) (count + 1)).map
          (fun r => (r.1, (a, rep :: tl.filter (fun s => d.same_mappings rep s)) :: r.2.1, r.2.2)) :=
  rfl

theorem BlocksOk.tail {d : DFA} {b : Block} {rest : List Block} {count : Nat}
    (h : BlocksOk d (b :: rest) count) : BlocksOk d rest count where
  nodup := (List.nodup_append.1 h.nodup).2.1
  back := fun b1 hb1 => h.back b1 (List.mem_cons_of_mem _ hb1)
  addr_lt := fun b1 hb1 => h.addr_lt b1 (List.mem_cons_of_mem _ hb1)
  addr_nodup := (List.nodup_cons.1 h.addr_nodup).2
  nonempty := fun b1 hb1 => h.nonempty b1 (List.mem_cons_of_mem _ hb1)

theorem BlocksOk.head_disjoint {d : DFA} {b : Block} {rest : List Block} {count : Nat}
    (h : BlocksOk d (b :: rest) count) {s : StateRef} (hs : s ∈ b.2) : s ∉ members rest :=
  fun h1 => (List.nodup_append.1 h.nodup).2.2 hs h1

theorem filter_not_disjoint {l : List StateRef} {p : StateRef → Bool} {s : StateRef}
    (h1 : s ∈ l.filter p) : s ∉ l.filter (fun x => !p x) := by
  intro h2
  have a := (List.mem_filter.1 h1).2
  have b := (List.mem_filter.1 h2).2
  simp [a] at b

/-- What one pass of the refinement loop does to the partitions. -/
theorem refine_pass_spec : ∀ (fuel : Nat) (d : DFA) (todo : List Block) (count : Nat)
    (d1 : DFA) (ps1 : List Block) (count1 : Nat),
    BlocksOk d todo count → d.refine_pass fuel todo count = some (d1, ps1, count1) →
    BlocksOk d1 ps1 count1 ∧ d1.SameButPartition d ∧
    (∀ s, s ∉ members todo → d1.heap s = d.heap s) ∧
    (members ps1).Perm (members todo) ∧ count ≤ count1 ∧
    ps1.length + count = todo.length + count1 ∧
    Refines ps1 todo ∧ (∀ b ∈ ps1, b.1 ∈ todo.map Prod.fst ∨ count ≤ b.1) ∧
    (count1 = count → d1 = d ∧ ps1 = todo ∧ d.Stable todo) := by
  intro fuel
  induction fuel with
  | zero =>
    intro d todo count d1 ps1 count1 hok h
    cases todo with
    | nil =>
      rw [refine_pass_nil] at h
      simp only [Option.some.injEq, Prod.mk.injEq] at h
      obtain ⟨rfl, rfl, rfl⟩ := h
      refine ⟨hok, same_but_partition_refl _, fun _ _ => rfl, List.Perm.refl _, Nat.le_refl _, rfl,
        ?_, ?_, fun _ => ⟨rfl, rfl, ?_⟩⟩
      · intro b hb; simp at hb
      · intro b hb; simp at hb
      · intro b hb; simp at hb
    | cons b rest => simp [DFA.refine_pass] at h
  | succ fuel ih =>
    intro d todo count d1 ps1 count1 hok h
    cases todo with
    | nil =>
      rw [refine_pass_nil] at h
      simp only [Option.some.injEq, Prod.mk.injEq] at h
      obtain ⟨rfl, rfl, rfl⟩ := h
      refine ⟨hok, same_but_partition_refl _, fun _ _ => rfl, List.Perm.refl _, Nat.le_refl _, rfl,
        ?_, ?_, fun _ => ⟨rfl, rfl, ?_⟩⟩
      · intro b hb; simp at hb
      · intro b hb; simp at hb
      · intro b hb; simp at hb
    | cons b rest =>
      obtain ⟨a, blk⟩ := b
      cases blk with
      | nil => exact absurd rfl (hok.nonempty (a, []) (List.mem_cons_self _ _))
      | cons rep tl =>
        rw [refine_pass_succ] at h
        have hnd := hok.nodup
        simp only [members] at hnd
        have hnd1 := List.nodup_append.1 hnd
        have hrep_tl : rep ∉ tl := (List.nodup_cons.1 hnd1.1).1
        have hdisj : ∀ s, s ∈ rep :: tl → s ∉ members rest := fun s hs hs1 => hnd1.2.2 hs hs1
        have ha_rest : a ∉ rest.map Prod.fst := (List.nodup_cons.1 hok.addr_nodup).1
        split_ifs at h with hsplit
        · -- no member moves
          simp only [Option.map_eq_some', Prod.exists] at h
          obtain ⟨d2, ps2, c2, hrec, heq⟩ := h
          simp only [Prod.mk.injEq] at heq
          obtain ⟨rfl, rfl, rfl⟩ := heq
          obtain ⟨i1, i2, i3, i4, i5, i6, i7, i8, i9⟩ :=
            ih d rest count d2 ps2 c2 hok.tail hrec
          have hperm : (members ((a, rep :: tl) :: ps2)).Perm (members ((a, rep :: tl) :: rest)) := by
            simp only [members]
            exact List.Perm.append_left _ i4
          refine ⟨⟨?_, ?_, ?_, ?_, ?_⟩, i2, ?_, hperm, i5, ?_, ?_, ?_, ?_⟩
          · exact hperm.nodup_iff.2 hok.nodup
          · intro b hb s hs
            rcases List.mem_cons.1 hb with rfl | hb
            · rw [i3 s (hdisj s hs)]
              exact hok.back _ (List.mem_cons_self _ _) s hs
            · exact i1.back b hb s hs
          · intro b hb
            rcases List.mem_cons.1 hb with rfl | hb
            · exact Nat.lt_of_lt_of_le (hok.addr_lt _ (List.mem_cons_self _ _)) i5
            · exact i1.addr_lt b hb
          · simp only [List.map_cons, List.nodup_cons]
            refine ⟨?_, i1.addr_nodup⟩
            intro hmem
            obtain ⟨b, hb, hba⟩ := List.mem_map.1 hmem
            rcases i8 b hb with h1 | h1
            · rw [hba] at h1; exact ha_rest h1
            · have halt : a < count := hok.addr_lt (a, rep :: tl) (List.mem_cons_self _ _)
              rw [hba] at h1
              exact absurd halt (Nat.not_lt.2 h1)
          · intro b hb
            rcases List.mem_cons.1 hb with rfl | hb
            · simp
            · exact i1.nonempty b hb
          · intro s hs
            apply i3
            intro hs1
            exact hs (by simp only [members]; exact List.mem_append_right _ hs1)
          · simp only [List.length_cons]; omega
          · intro b1 hb1
            rcases List.mem_cons.1 hb1 with rfl | hb1
            · exact ⟨_, List.mem_cons_self _ _, fun s hs => hs⟩
            · obtain ⟨b, hb, hsub⟩ := i7 b1 hb1
              exact ⟨b, List.mem_cons_of_mem _ hb, hsub⟩
          · intro b hb
            rcases List.mem_cons.1 hb with rfl | hb
            · left; simp
            · rcases i8 b hb with h1 | h1
              · left; simp only [List.map_cons, List.mem_cons]; exact Or.inr h1
              · exact Or.inr h1
          · intro hc
            obtain ⟨j1, j2, j3⟩ := i9 hc
            subst j1; subst j2
            refine ⟨rfl, rfl, ?_⟩
            intro b hb r t hbt s hs
            rcases List.mem_cons.1 hb with rfl | hb
            · simp only [List.cons.injEq] at hbt
              obtain ⟨rfl, rfl⟩ := hbt
              have := List.filter_eq_nil_iff.1 hsplit s hs
              simpa using this
            · exact j3 b hb r t hbt s hs
        · -- some members move to a new partition
          simp only [Option.map_eq_some', Prod.exists] at h
          obtain ⟨d3, ps2, c2, hrec, heq⟩ := h
          simp only [Prod.mk.injEq] at heq
          obtain ⟨rfl, rfl, rfl⟩ := heq
          generalize hmoved : tl.filter (fun s => !d.same_mappings rep s) = moved at hrec hsplit
          generalize hkept : tl.filter (fun s => d.same_mappings rep s) = kept
          have hmoved_sub : ∀ s, s ∈ moved → s ∈ tl := by
            intro s hs; rw [← hmoved] at hs; exact (List.mem_filter.1 hs).1
          have hkept_sub : ∀ s, s ∈ kept → s ∈ tl := by
            intro s hs; rw [← hkept] at hs; exact (List.mem_filter.1 hs).1
          have hkm : ∀ s, s ∈ kept → s ∉ moved := by
            intro s hs; rw [← hmoved]; rw [← hkept] at hs
            exact filter_not_disjoint hs
          have hkm_perm : (kept ++ moved).Perm tl := by
            rw [← hmoved, ← hkept]
            exact List.filter_append_perm _ tl
          have hheap2 := set_partitions_heap moved count d
          have hok2 : BlocksOk (d.set_partitions moved count) ((count, moved) :: rest)
              (count + 1) := by
            refine ⟨?_, ?_, ?_, ?_, ?_⟩
            · simp only [members]
              have hsl : (moved ++ members rest).Sublist ((rep :: tl) ++ members rest) := by
                apply List.Sublist.append _ (List.Sublist.refl _)
                rw [← hmoved]
                exact (List.filter_sublist tl).trans (List.sublist_cons_self _ _)
              exact hnd.sublist hsl
            · intro b hb s hs
              rcases List.mem_cons.1 hb with rfl | hb
              · rw [hheap2]; simp only at hs; simp [hs]
              · have hsm : s ∈ members rest := mem_members.2 ⟨b, hb, hs⟩
                have hns : s ∉ moved := fun h1 =>
                  hdisj s (List.mem_cons_of_mem _ (hmoved_sub s h1)) hsm
                rw [hheap2]; simp only [hns, if_false]
                exact hok.back b (List.mem_cons_of_mem _ hb) s hs
            · intro b hb
              rcases List.mem_cons.1 hb with rfl | hb
              · exact Nat.lt_succ_self _
              · exact Nat.lt_succ_of_lt (hok.addr_lt b (List.mem_cons_of_mem _ hb))
            · simp only [List.map_cons, List.nodup_cons]
              refine ⟨?_, (List.nodup_cons.1 hok.addr_nodup).2⟩
              intro hmem
              obtain ⟨b, hb, hbc⟩ := List.mem_map.1 hmem
              have := hok.addr_lt b (List.mem_cons_of_mem _ hb)
              rw [hbc] at this
              omega
            · intro b hb
              rcases List.mem_cons.1 hb with rfl | hb
              · exact hsplit
              · exact hok.nonempty b (List.mem_cons_of_mem _ hb)
          obtain ⟨i1, i2, i3, i4, i5, i6, i7, i8, _⟩ :=
            ih _ _ _ d3 ps2 c2 hok2 hrec
          have halt : a < count := hok.addr_lt (a, rep :: tl) (List.mem_cons_self _ _)
          simp only [List.length_cons] at i6
          have hperm : (members ((a, rep :: kept) :: ps2)).Perm
              (members ((a, rep :: tl) :: rest)) := by
            simp only [members] at i4 ⊢
            have h1 : ((rep :: kept) ++ members ps2).Perm
                ((rep :: kept) ++ (moved ++ members rest)) := List.Perm.append_left _ i4
            refine h1.trans ?_
            simp only [List.cons_append, ← List.append_assoc]
            exact List.Perm.cons _ (List.Perm.append_right _ hkm_perm)
          have hkeep_heap : ∀ s, s ∈ rep :: kept → d3.heap s = d.heap s := by
            intro s hs
            have hns : s ∉ moved := by
              rcases List.mem_cons.1 hs with rfl | hs
              · exact fun h1 => hrep_tl (hmoved_sub _ h1)
              · exact hkm s hs
            have hstl : s ∈ rep :: tl := by
              rcases List.mem_cons.1 hs with rfl | hs
              · exact List.mem_cons_self _ _
              · exact List.mem_cons_of_mem _ (hkept_sub s hs)
            rw [i3 s, hheap2]
            · simp [hns]
            · simp only [members, List.mem_append, not_or]
              exact ⟨hns, hdisj s hstl⟩
          refine ⟨⟨?_, ?_, ?_, ?_, ?_⟩, ?_, ?_, hperm, by omega, ?_, ?_, ?_, ?_⟩
          · exact hperm.nodup_iff.2 hok.nodup
          · intro b hb s hs
            rcases List.mem_cons.1 hb with rfl | hb
            · rw [hkeep_heap s hs]
              refine hok.back _ (List.mem_cons_self _ _) s ?_
              rcases List.mem_cons.1 hs with rfl | hs
              · exact List.mem_cons_self _ _
              · exact List.mem_cons_of_mem _ (hkept_sub s hs)
            · exact i1.back b hb s hs
          · intro b hb
            rcases List.mem_cons.1 hb with rfl | hb
            · show a < c2
              omega
            · exact i1.addr_lt b hb
          · simp only [List.map_cons, List.nodup_cons]
            refine ⟨?_, i1.addr_nodup⟩
            intro hmem
            obtain ⟨b, hb, hba⟩ := List.mem_map.1 hmem
            rcases i8 b hb with h1 | h1
            · simp only [List.map_cons, List.mem_cons] at h1
              rcases h1 with h1 | h1
              · rw [hba] at h1; omega
              · rw [hba] at h1; exact ha_rest h1
            · rw [hba] at h1; omega
          · intro b hb
            rcases List.mem_cons.1 hb with rfl | hb
            · simp
            · exact i1.nonempty b hb
          · exact same_but_partition_trans i2 (set_partitions_same d moved count)
          · intro s hs
            have hs1 : s ∉ members ((count, moved) :: rest) := by
              simp only [members, List.mem_append, not_or] at hs ⊢
              exact ⟨fun h1 => hs.1 (List.mem_cons_of_mem _ (hmoved_sub s h1)), hs.2⟩
            have hns : s ∉ moved := by
              simp only [members, List.mem_append, not_or] at hs1
              exact hs1.1
            rw [i3 s hs1, hheap2]
            simp [hns]
          · simp only [List.length_cons]; omega
          · intro b1 hb1
            rcases List.mem_cons.1 hb1 with rfl | hb1
            · refine ⟨_, List.mem_cons_self _ _, fun s hs => ?_⟩
              rcases List.mem_cons.1 hs with rfl | hs
              · exact List.mem_cons_self _ _
              · exact List.mem_cons_of_mem _ (hkept_sub s hs)
            · obtain ⟨b, hb, hsub⟩ := i7 b1 hb1
              rcases List.mem_cons.1 hb with rfl | hb
              · exact ⟨_, List.mem_cons_self _ _,
                  fun s hs => List.mem_cons_of_mem _ (hmoved_sub s (hsub s hs))⟩
              · exact ⟨b, List.mem_cons_of_mem _ hb, hsub⟩
          · intro b hb
            rcases List.mem_cons.1 hb with rfl | hb
            · left; simp
            · rcases i8 b hb with h1 | h1
              · simp only [List.map_cons, List.mem_cons] at h1 ⊢
                rcases h1 with h1 | h1
                · right; omega
                · exact Or.inl (Or.inr h1)
              · right; omega
          · intro hc; omega

theorem refine_pass_some : ∀ (fuel : Nat) (d : DFA) (todo : List Block) (count : Nat),
    (∀ b ∈ todo, b.2 ≠ []) → pass_fuel todo ≤ fuel →
    ∃ r, d.refine_pass fuel todo count = some r := by
  intro fuel
  induction fuel with
  | zero =>
    intro d todo count hne hf
    cases todo with
    | nil => exact ⟨_, refine_pass_nil d 0 count⟩
    | cons b rest =>
      simp only [pass_fuel, List.map_cons, List.sum_cons] at hf
      omega
  | succ fuel ih =>
    intro d todo count hne hf
    cases todo with
    | nil => exact ⟨_, refine_pass_nil d _ count⟩
    | cons b rest =>
      obtain ⟨a, blk⟩ := b
      cases blk with
      | nil => exact absurd rfl (hne (a, []) (List.mem_cons_self _ _))
      | cons rep tl =>
        have hne1 : ∀ b ∈ rest, b.2 ≠ [] := fun b hb => hne b (List.mem_cons_of_mem _ hb)
        simp only [pass_fuel, List.map_cons, List.sum_cons, List.length_cons] at hf
        rw [refine_pass_succ]
        split_ifs with hsplit
        · obtain ⟨r, hr⟩ := ih d rest count hne1 (by simp only [pass_fuel]; omega)
          exact ⟨_, by rw [hr]; rfl⟩
        · have hlen : (tl.filter (fun s => !d.same_mappings rep s)).length ≤ tl.length :=
            List.length_filter_le _ _
          obtain ⟨r, hr⟩ := ih (d.set_partitions (tl.filter (fun s => !d.same_mappings rep s)) count)
            ((count, tl.filter (fun s => !d.same_mappings rep s)) :: rest) (count + 1)
            (by
              intro b hb
              rcases List.mem_cons.1 hb with rfl | hb
              · exact hsplit
              · exact hne1 b hb)
            (by simp only [pass_fuel, List.map_cons, List.sum_cons]; omega)
          exact ⟨_, by rw [hr]; rfl⟩

theorem refine_loop_succ (d : DFA) (fuel : Nat) (ps : List Block) :
    d.refine_loop (fuel + 1) ps =
      match d.refine_pass (pass_fuel ps) ps ps.length with
      | none => none
      | some (d1, ps1, count1) =>
        if count1 - ps.length = 0 then some (d1, ps1)
        else DFA.refine_loop fuel d1 ps1 := rfl

theorem refines_trans {p3 p2 p1 : List Block} (h32 : Refines p3 p2) (h21 : Refines p2 p1) :
    Refines p3 p1 := by
  intro b3 hb3
  obtain ⟨b2, hb2, h2⟩ := h32 b3 hb3
  obtain ⟨b1, hb1, h1⟩ := h21 b2 hb2
  exact ⟨b1, hb1, fun s hs => h1 s (h2 s hs)⟩

theorem refines_refl (ps : List Block) : Refines ps ps :=
  fun b hb => ⟨b, hb, fun _ hs => hs⟩

/-- What the refinement loop establishes when it returns. -/
theorem refine_loop_spec : ∀ (fuel : Nat) (d : DFA) (ps : List Block) (d1 : DFA)
    (ps1 : List Block), BlocksOk d ps ps.length → d.refine_loop fuel ps = some (d1, ps1) →
    BlocksOk d1 ps1 ps1.length ∧ d1.SameButPartition d ∧
    (members ps1).Perm (members ps) ∧ Refines ps1 ps ∧ d1.Stable ps1 := by
  intro fuel
  induction fuel with
  | zero => intro d ps d1 ps1 _ h; simp [DFA.refine_loop] at h
  | succ fuel ih =>
    intro d ps d1 ps1 hok h
    rw [refine_loop_succ] at h
    cases hp : d.refine_pass (pass_fuel ps) ps ps.length with
    | none => simp [hp] at h
    | some r =>
      obtain ⟨d2, ps2, c2⟩ := r
      simp only [hp] at h
      obtain ⟨i1, i2, _, i4, i5, i6, i7, _, i9⟩ := refine_pass_spec _ d ps _ d2 ps2 c2 hok hp
      have hc2 : c2 = ps2.length := by omega
      split_ifs at h with hz
      · simp only [Option.some.injEq, Prod.mk.injEq] at h
        obtain ⟨rfl, rfl⟩ := h
        obtain ⟨j1, j2, j3⟩ := i9 (by omega)
        subst j1; subst j2
        exact ⟨hok, same_but_partition_refl _, List.Perm.refl _, refines_refl _, j3⟩
      · rw [hc2] at i1
        obtain ⟨k1, k2, k3, k4, k5⟩ := ih d2 ps2 d1 ps1 i1 h
        exact ⟨k1, same_but_partition_trans k2 i2, k3.trans i4, refines_trans k4 i7, k5⟩

theorem length_le_members (ps : List Block) (hne : ∀ b ∈ ps, b.2 ≠ []) :
    ps.length ≤ (members ps).length := by
  induction ps with
  | nil => simp
  | cons b ps ih =>
    have h1 := ih (fun b1 hb1 => hne b1 (List.mem_cons_of_mem _ hb1))
    have h2 : 0 < b.2.length := List.length_pos.2 (hne b (List.mem_cons_self _ _))
    simp only [members, List.length_append, List.length_cons]
    omega

/-- The refinement loop returns as soon as its fuel exceeds the number of
states that are not alone in a partition. -/
theorem refine_loop_some : ∀ (fuel : Nat) (d : DFA) (ps : List Block),
    BlocksOk d ps ps.length → (members ps).length < ps.length + fuel →
    ∃ r, d.refine_loop fuel ps = some r := by
  intro fuel
  induction fuel with
  | zero =>
    intro d ps hok hlt
    have := length_le_members ps hok.nonempty
    omega
  | succ fuel ih =>
    intro d ps hok hlt
    rw [refine_loop_succ]
    obtain ⟨r, hr⟩ := refine_pass_some (pass_fuel ps) d ps ps.length hok.nonempty (Nat.le_refl _)
    obtain ⟨d2, ps2, c2⟩ := r
    rw [hr]
    simp only
    obtain ⟨i1, _, _, i4, i5, i6, _, _, _⟩ := refine_pass_spec _ d ps _ d2 ps2 c2 hok hr
    have hc2 : c2 = ps2.length := by omega
    split_ifs with hz
    · exact ⟨_, rfl⟩
    · rw [hc2] at i1
      apply ih d2 ps2 i1
      have := i4.length_eq
      have := length_le_members ps2 i1.nonempty
      omega

/-! ## minimize: the initial partitions -/

theorem members_append (ps qs : List Block) : members (ps ++ qs) = members ps ++ members qs := by
  induction ps with
  | nil => simp [members]
  | cons b ps ih => simp [members, ih]

theorem block_push_map_fst (p : Nat) (i : StateRef) (ps : List Block) :
    (block_push p i ps).map Prod.fst = ps.map Prod.fst := by
  induction ps with
  | nil => rfl
  | cons b ps ih =>
    simp only [block_push, List.map_cons, List.map_map] at ih ⊢
    rw [ih]
    split_ifs <;> rfl

theorem block_push_of_not_mem (p : Nat) (i : StateRef) (ps : List Block)
    (h : p ∉ ps.map Prod.fst) : block_push p i ps = ps := by
  induction ps with
  | nil => rfl
  | cons b ps ih =>
    simp only [List.map_cons, List.mem_cons, not_or] at h
    simp only [block_push, List.map_cons] at ih ⊢
    rw [ih h.2]
    have : b.1 ≠ p := fun e => h.1 e.symm
    simp [this]

theorem mem_block_push {p : Nat} {i : StateRef} {ps : List Block} {b1 : Block} :
    b1 ∈ block_push p i ps ↔
      ∃ b ∈ ps, b1 = if b.1 = p then (b.1, b.2 ++ [i]) else b := by
  simp only [block_push, List.mem_map]
  constructor
  · rintro ⟨b, hb, rfl⟩; exact ⟨b, hb, rfl⟩
  · rintro ⟨b, hb, rfl⟩; exact ⟨b, hb, rfl⟩

theorem members_block_push_perm (p : Nat) (i : StateRef) (ps : List Block)
    (hnd : (ps.map Prod.fst).Nodup) (hp : p ∈ ps.map Prod.fst) :
    (members (block_push p i ps)).Perm (members ps ++ [i]) := by
  induction ps with
  | nil => simp at hp
  | cons b ps ih =>
    simp only [List.map_cons, List.nodup_cons] at hnd
    have hcons : block_push p i (b :: ps) =
        (if b.1 = p then (b.1, b.2 ++ [i]) else b) :: block_push p i ps := rfl
    rw [hcons]
    by_cases hb : b.1 = p
    · have hnot : p ∉ ps.map Prod.fst := by rw [← hb]; exact hnd.1
      rw [block_push_of_not_mem p i ps hnot]
      simp only [hb, if_true, members, List.append_assoc]
      exact List.Perm.append_left _ List.perm_append_comm
    · have hp1 : p ∈ ps.map Prod.fst := by
        simp only [List.map_cons, List.mem_cons] at hp
        rcases hp with hp | hp
        · exact absurd hp.symm hb
        · exact hp
      simp only [hb, if_false, members, List.append_assoc]
      exact List.Perm.append_left _ (ih hnd.2 hp1)

theorem perm_hash_same {d1 d : DFA} (h : d1.SameButPartition d) (hp : Bool) (s : StateRef) :
    perm_hash hp (d1.heap s) = perm_hash hp (d.heap s) := by
  obtain ⟨_, h2, h3, _⟩ := h.2.2.2 s
  simp [perm_hash, h2, h3]

theorem modify_partition_same (d : DFA) (i : StateRef) (p : Nat) :
    (d.modify i (fun s => { s with partition := p })).SameButPartition d := by
  refine ⟨rfl, rfl, rfl, fun r => ?_⟩
  simp only [DFA.modify]
  split_ifs <;> exact ⟨rfl, rfl, rfl, rfl, rfl⟩

theorem block_addr_unique {ps : List Block} (hnd : (ps.map Prod.fst).Nodup) {b1 b2 : Block}
    (h1 : b1 ∈ ps) (h2 : b2 ∈ ps) (he : b1.1 = b2.1) : b1 = b2 := by
  induction ps with
  | nil => simp at h1
  | cons b ps ih =>
    simp only [List.map_cons, List.nodup_cons] at hnd
    rcases List.mem_cons.1 h1 with e1 | m1
    · rcases List.mem_cons.1 h2 with e2 | m2
      · rw [e1, e2]
      · exfalso
        apply hnd.1
        rw [← e1, he]
        exact List.mem_map.2 ⟨b2, m2, rfl⟩
    · rcases List.mem_cons.1 h2 with e2 | m2
      · exfalso
        apply hnd.1
        rw [← e2, ← he]
        exact List.mem_map.2 ⟨b1, m1, rfl⟩
      · exact ih hnd.2 m1 m2

theorem init_step_ok (d : DFA) (hp ht : Bool) (st : InitState) (L : List StateRef)
    (i : StateRef) (hok : InitOk d hp st L) (hi : i ∉ L) :
    InitOk d hp (init_step hp ht st i) (L ++ [i]) := by
  have hiM : i ∉ members st.partitions := fun h => hi (hok.perm.mem_iff.1 h)
  have hphash : perm_hash hp (st.dfa.heap i) = perm_hash hp (d.heap i) :=
    perm_hash_same hok.same hp i
  unfold init_step
  simp only
  generalize hg : (perm_hash hp (st.dfa.heap i), if ht = true then st.dfa.hash_trans i else 0) = g
  have hg1 : g.1 = perm_hash hp (d.heap i) := by rw [← hg]; exact hphash
  cases hfind : group_find g st.perm_map with
  | none =>
    simp only
    refine ⟨⟨?_, ?_, ?_, ?_, ?_⟩, ?_, ?_, ?_, ?_⟩
    · rw [members_append]
      simp only [members, List.append_nil]
      exact List.nodup_append.2 ⟨hok.blocks.nodup, List.nodup_singleton _, by
        intro s hs1 hs2
        rw [List.mem_singleton] at hs2
        subst hs2
        exact hiM hs1⟩
    · intro b hb s hs
      rcases List.mem_append.1 hb with hb | hb
      · have hsi : s ≠ i := fun e => hiM (mem_members.2 ⟨b, hb, e ▸ hs⟩)
        simp only [DFA.modify, hsi, if_false]
        exact hok.blocks.back b hb s hs
      · rw [List.mem_singleton] at hb
        subst hb
        simp only [List.mem_singleton] at hs
        subst hs
        simp [DFA.modify]
    · intro b hb
      rw [List.length_append, List.length_singleton]
      rcases List.mem_append.1 hb with hb | hb
      · exact Nat.lt_succ_of_lt (hok.blocks.addr_lt b hb)
      · rw [List.mem_singleton] at hb
        subst hb
        exact Nat.lt_succ_self _
    · rw [List.map_append]
      refine List.nodup_append.2 ⟨hok.blocks.addr_nodup, by simp, ?_⟩
      intro a ha1 ha2
      simp only [List.map_cons, List.map_nil, List.mem_singleton] at ha2
      obtain ⟨b, hb, hba⟩ := List.mem_map.1 ha1
      have := hok.blocks.addr_lt b hb
      omega
    · intro b hb
      rcases List.mem_append.1 hb with hb | hb
      · exact hok.blocks.nonempty b hb
      · rw [List.mem_singleton] at hb
        subst hb
        simp
    · rw [members_append]
      simp only [members, List.append_nil]
      exact List.Perm.append_right _ hok.perm
    · exact same_but_partition_trans (modify_partition_same _ _ _) hok.same
    · intro g1 p1 h1
      simp only [group_find] at h1
      split_ifs at h1 with hgg
      · simp only [Option.some.injEq] at h1
        subst h1
        refine ⟨(st.partitions.length, [i]), List.mem_append_right _ (List.mem_singleton.2 rfl),
          rfl, ?_⟩
        intro s hs
        simp only [List.mem_singleton] at hs
        subst hs
        rw [hgg, hg1]
      · obtain ⟨b, hb, hb1, hb2⟩ := hok.keyed g1 p1 h1
        exact ⟨b, List.mem_append_left _ hb, hb1, hb2⟩
    · intro b hb
      rcases List.mem_append.1 hb with hb | hb
      · obtain ⟨g0, hg0⟩ := hok.named b hb
        refine ⟨g0, ?_⟩
        simp only [group_find]
        have : g0 ≠ g := by
          rintro rfl
          rw [hfind] at hg0
          simp at hg0
        simp [this, hg0]
      · rw [List.mem_singleton] at hb
        subst hb
        exact ⟨g, by simp [group_find]⟩
  | some p =>
    simp only
    obtain ⟨b0, hb0, hb0p, hb0h⟩ := hok.keyed g p hfind
    have hpmem : p ∈ st.partitions.map Prod.fst := List.mem_map.2 ⟨b0, hb0, hb0p⟩
    have hperm := members_block_push_perm p i st.partitions hok.blocks.addr_nodup hpmem
    have hlen : (block_push p i st.partitions).length = st.partitions.length := by
      simp [block_push]
    refine ⟨⟨?_, ?_, ?_, ?_, ?_⟩, ?_, ?_, ?_, ?_⟩
    · refine hperm.nodup_iff.2 (List.nodup_append.2 ⟨hok.blocks.nodup, List.nodup_singleton _, ?_⟩)
      intro s hs1 hs2
      rw [List.mem_singleton] at hs2
      subst hs2
      exact hiM hs1
    · intro b1 hb1 s hs
      obtain ⟨b, hb, rfl⟩ := mem_block_push.1 hb1
      by_cases hbp : b.1 = p
      · simp only [hbp, if_true, List.mem_append, List.mem_singleton] at hs ⊢
        rcases hs with hs | hs
        · have hsi : s ≠ i := fun e => hiM (mem_members.2 ⟨b, hb, e ▸ hs⟩)
          simp only [DFA.modify, hsi, if_false]
          rw [← hbp]
          exact hok.blocks.back b hb s hs
        · subst hs
          simp [DFA.modify]
      · simp only [hbp, if_false] at hs ⊢
        have hsi : s ≠ i := fun e => hiM (mem_members.2 ⟨b, hb, e ▸ hs⟩)
        simp only [DFA.modify, hsi, if_false]
        exact hok.blocks.back b hb s hs
    · intro b1 hb1
      rw [hlen]
      obtain ⟨b, hb, rfl⟩ := mem_block_push.1 hb1
      have := hok.blocks.addr_lt b hb
      split_ifs <;> exact this
    · rw [block_push_map_fst]
      exact hok.blocks.addr_nodup
    · intro b1 hb1
      obtain ⟨b, hb, rfl⟩ := mem_block_push.1 hb1
      split_ifs
      · simp
      · exact hok.blocks.nonempty b hb
    · exact hperm.trans (List.Perm.append_right _ hok.perm)
    · exact same_but_partition_trans (modify_partition_same _ _ _) hok.same
    · intro g1 p1 h1
      obtain ⟨b, hb, hb1, hb2⟩ := hok.keyed g1 p1 h1
      refine ⟨if b.1 = p then (b.1, b.2 ++ [i]) else b, mem_block_push.2 ⟨b, hb, rfl⟩, ?_, ?_⟩
      · split_ifs <;> exact hb1
      · by_cases hbp : b.1 = p
        · simp only [hbp, if_true, List.mem_append, List.mem_singleton]
          intro s hs
          rcases hs with hs | hs
          · exact hb2 s hs
          · subst hs
            have hbb : b = b0 := block_addr_unique hok.blocks.addr_nodup hb hb0 (hbp.trans hb0p.symm)
            obtain ⟨s0, hs0⟩ := List.exists_mem_of_ne_nil _ (hok.blocks.nonempty b hb)
            rw [← hg1, ← hb2 s0 hs0]
            rw [hbb] at hs0
            exact (hb0h s0 hs0).symm
        · simp only [hbp, if_false]
          exact hb2
    · intro b1 hb1
      obtain ⟨b, hb, rfl⟩ := mem_block_push.1 hb1
      obtain ⟨g0, hg0⟩ := hok.named b hb
      refine ⟨g0, ?_⟩
      split_ifs <;> exact hg0

theorem init_fold_ok (d : DFA) (hp ht : Bool) : ∀ (rem : List StateRef) (st : InitState)
    (L : List StateRef), InitOk d hp st L → (L ++ rem).Nodup →
    InitOk d hp (rem.foldl (init_step hp ht) st) (L ++ rem) := by
  intro rem
  induction rem with
  | nil => intro st L hok _; simpa using hok
  | cons i rem ih =>
    intro st L hok hnd
    have hi : i ∉ L := by
      intro h
      exact (List.nodup_append.1 hnd).2.2 h (List.mem_cons_self _ _)
    have h1 := init_step_ok d hp ht st L i hok hi
    have h2 := ih (init_step hp ht st i) (L ++ [i]) h1 (by simpa using hnd)
    simpa using h2

/-- The initial partitions are well formed, hold exactly the states of the
DFA, and put states of different `perm_hash` in different partitions. -/
theorem init_partitions_spec (d : DFA) (hp ht : Bool) (hnd : d.states.Nodup) :
    BlocksOk (d.init_partitions hp ht).dfa (d.init_partitions hp ht).partitions
      (d.init_partitions hp ht).partitions.length ∧
    (members (d.init_partitions hp ht).partitions).Perm d.states ∧
    (d.init_partitions hp ht).dfa.SameButPartition d ∧
    SamePerms d hp (d.init_partitions hp ht).partitions := by
  have h0 : InitOk d hp ⟨d, [], []⟩ [] := by
    refine ⟨⟨?_, ?_, ?_, ?_, ?_⟩, ?_, same_but_partition_refl _, ?_, ?_⟩
    · simp [members]
    · intro b hb; simp at hb
    · intro b hb; simp at hb
    · simp
    · intro b hb; simp at hb
    · simp [members]
    · intro g p h; simp [group_find] at h
    · intro b hb; simp at hb
  have h := init_fold_ok d hp ht d.states ⟨d, [], []⟩ [] h0 (by simpa using hnd)
  simp only [List.nil_append] at h
  refine ⟨h.blocks, h.perm, h.same, ?_⟩
  intro b hb s hs t ht1
  obtain ⟨g, hg⟩ := h.named b hb
  obtain ⟨b1, hb1, hb1a, hb1h⟩ := h.keyed g b.1 hg
  have : b1 = b := block_addr_unique h.blocks.addr_nodup hb1 hb hb1a
  subst this
  rw [hb1h s hs, hb1h t ht1]

/-! ## minimize: merging the partitions -/

theorem or_fold_congr (f g : StateRef → Nat) (l : List StateRef) (h : ∀ i ∈ l, f i = g i)
    (a : Nat) : or_fold f l a = or_fold g l a := by
  induction l generalizing a with
  | nil => rfl
  | cons i l ih =>
    simp only [or_fold, List.foldl_cons] at ih ⊢
    rw [h i (List.mem_cons_self _ _)]
    exact ih (fun j hj => h j (List.mem_cons_of_mem _ hj)) _

theorem or_fold_cons (f : StateRef → Nat) (i : StateRef) (l : List StateRef) (a : Nat) :
    or_fold f (i :: l) a = or_fold f l (a ||| f i) := rfl

theorem merge_member_heap (rep i : StateRef) (dx : DFA) (hne : i ≠ rep) :
    ((dx.merge_member rep i).heap rep).label = (dx.heap rep).label ∧
    ((dx.merge_member rep i).heap rep).otherwise = (dx.heap rep).otherwise ∧
    ((dx.merge_member rep i).heap rep).cases = (dx.heap rep).cases ∧
    ((dx.merge_member rep i).heap rep).accept = (dx.heap rep).accept ||| (dx.heap i).accept ∧
    ((dx.merge_member rep i).heap rep).audit = (dx.heap rep).audit ||| (dx.heap i).audit ∧
    ((dx.merge_member rep i).heap i).label = -1 ∧
    (∀ s, ((dx.merge_member rep i).heap s).partition = (dx.heap s).partition) ∧
    (∀ s, s ≠ rep → s ≠ i → (dx.merge_member rep i).heap s = dx.heap s) ∧
    (dx.merge_member rep i).states = dx.states ∧ (dx.merge_member rep i).start = dx.start ∧
    (dx.merge_member rep i).nonmatching = dx.nonmatching := by
  have hne1 : rep ≠ i := fun e => hne e.symm
  refine ⟨?_, ?_, ?_, ?_, ?_, ?_, ?_, ?_, rfl, rfl, rfl⟩
  · simp [DFA.merge_member, DFA.modify, hne1]
  · simp [DFA.merge_member, DFA.modify, hne1]
  · simp [DFA.merge_member, DFA.modify, hne1]
  · simp [DFA.merge_member, DFA.modify, hne1, hne]
  · simp [DFA.merge_member, DFA.modify, hne1, hne]
  · simp [DFA.merge_member, DFA.modify, hne]
  · intro s
    simp only [DFA.merge_member, DFA.modify]
    by_cases h1 : s = rep
    · subst h1
      simp [hne1]
    · by_cases h2 : s = i
      · subst h2
        simp [h1]
      · simp [h1, h2]
  · intro s h1 h2
    simp [DFA.merge_member, DFA.modify, h1, h2]

theorem merge_members_spec (rep : StateRef) : ∀ (tl : List StateRef) (dx : DFA),
    rep ∉ tl → tl.Nodup →
    (tl.foldl (DFA.merge_member rep) dx).states = dx.states ∧
    (tl.foldl (DFA.merge_member rep) dx).start = dx.start ∧
    (tl.foldl (DFA.merge_member rep) dx).nonmatching = dx.nonmatching ∧
    (∀ s, ((tl.foldl (DFA.merge_member rep) dx).heap s).partition = (dx.heap s).partition) ∧
    (∀ s, s ≠ rep → s ∉ tl → (tl.foldl (DFA.merge_member rep) dx).heap s = dx.heap s) ∧
    ((tl.foldl (DFA.merge_member rep) dx).heap rep).label = (dx.heap rep).label ∧
    ((tl.foldl (DFA.merge_member rep) dx).heap rep).otherwise = (dx.heap rep).otherwise ∧
    ((tl.foldl (DFA.merge_member rep) dx).heap rep).cases = (dx.heap rep).cases ∧
    ((tl.foldl (DFA.merge_member rep) dx).heap rep).accept =
      or_fold (fun i => (dx.heap i).accept) tl (dx.heap rep).accept ∧
    ((tl.foldl (DFA.merge_member rep) dx).heap rep).audit =
      or_fold (fun i => (dx.heap i).audit) tl (dx.heap rep).audit ∧
    (∀ i ∈ tl, ((tl.foldl (DFA.merge_member rep) dx).heap i).label = -1) := by
  intro tl
  induction tl with
  | nil =>
    intro dx _ _
    simp [or_fold]
  | cons i tl ih =>
    intro dx hrep hnd
    have hi : i ≠ rep := fun e => hrep (e ▸ List.mem_cons_self _ _)
    have hrep1 : rep ∉ tl := fun h => hrep (List.mem_cons_of_mem _ h)
    obtain ⟨hitl, hnd1⟩ := List.nodup_cons.1 hnd
    obtain ⟨m1, m2, m3, m4, m5, m6, m7, m8, m9, m10, m11⟩ := merge_member_heap rep i dx hi
    obtain ⟨k1, k2, k3, k4, k5, k6, k7, k8, k9, k10, k11⟩ :=
      ih (dx.merge_member rep i) hrep1 hnd1
    simp only [List.foldl_cons]
    refine ⟨k1.trans m9, k2.trans m10, k3.trans m11, fun s => (k4 s).trans (m7 s), ?_,
      k6.trans m1, k7.trans m2, k8.trans m3, ?_, ?_, ?_⟩
    · intro s h1 h2
      simp only [List.mem_cons, not_or] at h2
      rw [k5 s h1 h2.2, m8 s h1 h2.1]
    · rw [k9, or_fold_cons, m4]
      apply or_fold_congr
      intro j hj
      have hj1 : j ≠ rep := fun e => hrep1 (e ▸ hj)
      have hj2 : j ≠ i := fun e => hitl (e ▸ hj)
      rw [m8 j hj1 hj2]
    · rw [k10, or_fold_cons, m5]
      apply or_fold_congr
      intro j hj
      have hj1 : j ≠ rep := fun e => hrep1 (e ▸ hj)
      have hj2 : j ≠ i := fun e => hitl (e ▸ hj)
      rw [m8 j hj1 hj2]
    · intro j hj
      rcases List.mem_cons.1 hj with rfl | hj
      · rw [k5 j hi hitl]
        exact m6
      · exact k11 j hj

theorem rep_of_congr {d1 d2 : DFA} (ps : List Block)
    (h : ∀ s, (d1.heap s).partition = (d2.heap s).partition) (s : StateRef) :
    d1.rep_of ps s = d2.rep_of ps s := by
  simp [DFA.rep_of, h]

/-- The effect of the merge loop body on one partition. -/
theorem merge_block_spec (ps : List Block) (dx : DFA) (a : Nat) (rep : StateRef)
    (tl : List StateRef) (hnd : (rep :: tl).Nodup) :
    (dx.merge_block ps (a, rep :: tl)).states = dx.states ∧
    (dx.merge_block ps (a, rep :: tl)).start = dx.start ∧
    (dx.merge_block ps (a, rep :: tl)).nonmatching = dx.nonmatching ∧
    (∀ s, ((dx.merge_block ps (a, rep :: tl)).heap s).partition = (dx.heap s).partition) ∧
    (∀ s, s ∉ rep :: tl → (dx.merge_block ps (a, rep :: tl)).heap s = dx.heap s) ∧
    ((dx.merge_block ps (a, rep :: tl)).heap rep).label = (dx.heap rep).label ∧
    ((dx.merge_block ps (a, rep :: tl)).heap rep).otherwise =
      (dx.heap rep).otherwise.map (dx.rep_of ps) ∧
    ((dx.merge_block ps (a, rep :: tl)).heap rep).cases =
      (dx.heap rep).cases.map (fun c => (c.1, dx.rep_of ps c.2)) ∧
    ((dx.merge_block ps (a, rep :: tl)).heap rep).accept =
      or_fold (fun i => (dx.heap i).accept) tl (dx.heap rep).accept ∧
    ((dx.merge_block ps (a, rep :: tl)).heap rep).audit =
      or_fold (fun i => (dx.heap i).audit) tl (dx.heap rep).audit ∧
    (∀ i ∈ tl, ((dx.merge_block ps (a, rep :: tl)).heap i).label = -1) := by
  obtain ⟨hrep, hnd1⟩ := List.nodup_cons.1 hnd
  obtain ⟨k1, k2, k3, k4, k5, k6, k7, k8, k9, k10, k11⟩ :=
    merge_members_spec rep tl (dx.remap_rep ps rep) hrep hnd1
  have hother : ∀ s, s ≠ rep → (dx.remap_rep ps rep).heap s = dx.heap s := by
    intro s hs
    simp [DFA.remap_rep, DFA.modify, hs]
  have hself : (dx.remap_rep ps rep).heap rep =
      { dx.heap rep with
        otherwise := (dx.heap rep).otherwise.map (fun o => dx.rep_of ps o),
        cases := (dx.heap rep).cases.map (fun c => (c.1, dx.rep_of ps c.2)) } := by
    simp [DFA.remap_rep, DFA.modify]
  have hmb : dx.merge_block ps (a, rep :: tl) =
      tl.foldl (DFA.merge_member rep) (dx.remap_rep ps rep) := rfl
  rw [hmb]
  refine ⟨k1, k2, k3, ?_, ?_, ?_, ?_, ?_, ?_, ?_, k11⟩
  · intro s
    rw [k4 s]
    by_cases hs : s = rep
    · subst hs; rw [hself]
    · rw [hother s hs]
  · intro s hs
    simp only [List.mem_cons, not_or] at hs
    rw [k5 s hs.1 hs.2, hother s hs.1]
  · rw [k6, hself]
  · rw [k7, hself]
  · rw [k8, hself]
  · rw [k9, hself]
    apply or_fold_congr
    intro j hj
    have hj1 : j ≠ rep := fun e => hrep (e ▸ hj)
    rw [hother j hj1]
  · rw [k10, hself]
    apply or_fold_congr
    intro j hj
    have hj1 : j ≠ rep := fun e => hrep (e ▸ hj)
    rw [hother j hj1]

/-- The effect of the merge loop on all partitions. -/
theorem merge_fold_spec (ps : List Block) : ∀ (bs : List Block) (dx : DFA),
    (members bs).Nodup → (∀ b ∈ bs, b.2 ≠ []) →
    (bs.foldl (DFA.merge_block ps) dx).states = dx.states ∧
    (bs.foldl (DFA.merge_block ps) dx).start = dx.start ∧
    (bs.foldl (DFA.merge_block ps) dx).nonmatching = dx.nonmatching ∧
    (∀ s, ((bs.foldl (DFA.merge_block ps) dx).heap s).partition = (dx.heap s).partition) ∧
    (∀ s, s ∉ members bs → (bs.foldl (DFA.merge_block ps) dx).heap s = dx.heap s) ∧
    (∀ b ∈ bs, ∀ rep tl, b.2 = rep :: tl →
      ((bs.foldl (DFA.merge_block ps) dx).heap rep).label = (dx.heap rep).label ∧
      ((bs.foldl (DFA.merge_block ps) dx).heap rep).otherwise =
        (dx.heap rep).otherwise.map (dx.rep_of ps) ∧
      ((bs.foldl (DFA.merge_block ps) dx).heap rep).cases =
        (dx.heap rep).cases.map (fun c => (c.1, dx.rep_of ps c.2)) ∧
      ((bs.foldl (DFA.merge_block ps) dx).heap rep).accept =
        or_fold (fun i => (dx.heap i).accept) tl (dx.heap rep).accept ∧
      ((bs.foldl (DFA.merge_block ps) dx).heap rep).audit =
        or_fold (fun i => (dx.heap i).audit) tl (dx.heap rep).audit ∧
      (∀ i ∈ tl, ((bs.foldl (DFA.merge_block ps) dx).heap i).label = -1)) := by
  intro bs
  induction bs with
  | nil =>
    intro dx _ _
    refine ⟨rfl, rfl, rfl, fun _ => rfl, fun _ _ => rfl, ?_⟩
    intro b hb; simp at hb
  | cons b bs ih =>
    intro dx hnd hne
    obtain ⟨a, blk⟩ := b
    cases blk with
    | nil => exact absurd rfl (hne (a, []) (List.mem_cons_self _ _))
    | cons rep tl =>
      simp only [members] at hnd
      obtain ⟨hnd1, hnd2, hdisj⟩ := List.nodup_append.1 hnd
      obtain ⟨s1, s2, s3, s4, s5, s6, s7, s8, s9, s10, s11⟩ :=
        merge_block_spec ps dx a rep tl hnd1
      obtain ⟨i1, i2, i3, i4, i5, i6⟩ :=
        ih (dx.merge_block ps (a, rep :: tl)) hnd2
          (fun b hb => hne b (List.mem_cons_of_mem _ hb))
      simp only [List.foldl_cons]
      have hrepof : (dx.merge_block ps (a, rep :: tl)).rep_of ps = dx.rep_of ps :=
        funext (rep_of_congr ps s4)
      have hkeep : ∀ s, s ∈ members bs → (dx.merge_block ps (a, rep :: tl)).heap s = dx.heap s :=
        fun s hs => s5 s (fun h => hdisj h hs)
      refine ⟨i1.trans s1, i2.trans s2, i3.trans s3, fun s => (i4 s).trans (s4 s), ?_, ?_⟩
      · intro s hs
        simp only [members, List.mem_append, not_or] at hs
        rw [i5 s hs.2, s5 s hs.1]
      · intro b hb r t hbt
        rcases List.mem_cons.1 hb with rfl | hb
        · simp only [List.cons.injEq] at hbt
          obtain ⟨rfl, rfl⟩ := hbt
          have hr : rep ∉ members bs := fun h => hdisj (List.mem_cons_self _ _) h
          rw [i5 rep hr]
          refine ⟨s6, s7, s8, s9, s10, ?_⟩
          intro i hi
          have hi1 : i ∉ members bs := fun h => hdisj (List.mem_cons_of_mem _ hi) h
          rw [i5 i hi1]
          exact s11 i hi
        · obtain ⟨j1, j2, j3, j4, j5, j6⟩ := i6 b hb r t hbt
          have hrm : r ∈ members bs :=
            mem_members.2 ⟨b, hb, by rw [hbt]; exact List.mem_cons_self _ _⟩
          have htm : ∀ i ∈ t, i ∈ members bs := fun i hi =>
            mem_members.2 ⟨b, hb, by rw [hbt]; exact List.mem_cons_of_mem _ hi⟩
          rw [hrepof, hkeep r hrm] at j2 j3
          rw [hkeep r hrm] at j1 j4 j5
          refine ⟨j1, j2, j3, ?_, ?_, j6⟩
          · rw [j4]
            exact or_fold_congr _ _ _ (fun i hi => by rw [hkeep i (htm i hi)]) _
          · rw [j5]
            exact or_fold_congr _ _ _ (fun i hi => by rw [hkeep i (htm i hi)]) _

theorem SamePerms.of_refines {d : DFA} {hp : Bool} {ps1 ps : List Block}
    (h : SamePerms d hp ps) (hr : Refines ps1 ps) : SamePerms d hp ps1 := by
  intro b1 hb1 s hs t ht
  obtain ⟨b, hb, hsub⟩ := hr b1 hb1
  exact h b hb s (hsub s hs) t (hsub t ht)

/-- The refinement loop of `minimize` returns, with well-formed partitions. -/
theorem final_partitions_spec (d : DFA) (hp ht : Bool) (hnd : d.states.Nodup) :
    ∃ d1 ps, d.final_partitions hp ht = some (d1, ps) ∧ Refined d d1 ps hp := by
  obtain ⟨h1, h2, h3, h4⟩ := init_partitions_spec d hp ht hnd
  have hlen := h2.length_eq
  obtain ⟨r, hr⟩ := refine_loop_some (d.states.length + 1) _ _ h1 (by omega)
  obtain ⟨d1, ps⟩ := r
  obtain ⟨k1, k2, k3, k4, k5⟩ := refine_loop_spec _ _ _ d1 ps h1 hr
  exact ⟨d1, ps, hr, ⟨k1, k3.trans h2, same_but_partition_trans k2 h3, h4.of_refines k4, k5⟩⟩

theorem block_find_mem {ps : List Block} (hnd : (ps.map Prod.fst).Nodup) {a : Nat}
    {l : List StateRef} (h : (a, l) ∈ ps) : block_find a ps = some l := by
  induction ps with
  | nil => simp at h
  | cons b ps ih =>
    obtain ⟨a1, l1⟩ := b
    simp only [List.map_cons, List.nodup_cons] at hnd
    simp only [block_find]
    rcases List.mem_cons.1 h with e | m
    · simp only [Prod.mk.injEq] at e
      simp [e.1, e.2]
    · have hne : a ≠ a1 := by
        rintro rfl
        exact hnd.1 (List.mem_map.2 ⟨(a, l), m, rfl⟩)
      simp [hne, ih hnd.2 m]

/-- The representative of a state of the DFA is the first member of the
partition that contains the state. -/
theorem rep_of_spec {d d1 : DFA} {ps : List Block} {hp : Bool} (h : Refined d d1 ps hp)
    {s : StateRef} (hs : s ∈ d.states) :
    ∃ a rep tl, (a, rep :: tl) ∈ ps ∧ s ∈ rep :: tl ∧ d1.rep_of ps s = rep := by
  obtain ⟨b, hb, hsb⟩ := mem_members.1 (h.perm.mem_iff.2 hs)
  obtain ⟨a, blk⟩ := b
  cases blk with
  | nil => simp at hsb
  | cons rep tl =>
    refine ⟨a, rep, tl, hb, hsb, ?_⟩
    have hback := h.blocks.back _ hb s hsb
    simp only at hback
    simp [DFA.rep_of, first_of, hback, block_find_mem h.blocks.addr_nodup hb]

theorem rep_mem_states {d d1 : DFA} {ps : List Block} {hp : Bool} (h : Refined d d1 ps hp)
    {a : Nat} {rep : StateRef} {tl : List StateRef} (hb : (a, rep :: tl) ∈ ps)
    {s : StateRef} (hs : s ∈ rep :: tl) : s ∈ d.states :=
  h.perm.mem_iff.1 (mem_members.2 ⟨_, hb, hs⟩)

/-! ## minimize: the merged DFA simulates the original one -/

theorem same_mappings_otherwise {d1 : DFA} {r s : StateRef}
    (h : d1.same_mappings r s = true) :
    (d1.live_otherwise r).map (fun o => (d1.heap o).partition) =
      (d1.live_otherwise s).map (fun o => (d1.heap o).partition) := by
  unfold DFA.same_mappings at h
  simp only [Bool.and_eq_true] at h
  obtain ⟨⟨h1, _⟩, _⟩ := h
  cases hr : d1.live_otherwise r with
  | none =>
    cases hs : d1.live_otherwise s with
    | none => rfl
    | some o2 => simp [hr, hs] at h1
  | some o1 =>
    cases hs : d1.live_otherwise s with
    | none => simp [hr, hs] at h1
    | some o2 =>
      simp only [hr, hs, decide_eq_true_eq] at h1
      simp [h1]

theorem same_mappings_find {d1 : DFA} {r s : StateRef}
    (h : d1.same_mappings r s = true)
    (hr : ((d1.heap r).cases.map Prod.fst).Nodup) (c : Nat) :
    (map_find c (d1.heap r).cases).map (fun o => (d1.heap o).partition) =
      (map_find c (d1.heap s).cases).map (fun o => (d1.heap o).partition) := by
  unfold DFA.same_mappings at h
  simp only [Bool.and_eq_true, decide_eq_true_eq, List.all_eq_true] at h
  obtain ⟨⟨_, hlen⟩, hall⟩ := h
  have hsub : (d1.heap r).cases.map Prod.fst ⊆ (d1.heap s).cases.map Prod.fst := by
    intro k hk
    obtain ⟨j, hj, rfl⟩ := List.mem_map.1 hk
    have := hall j hj
    apply (map_find_isSome_iff _ _).1
    cases hf : map_find j.1 (d1.heap s).cases with
    | none => simp [hf] at this
    | some t => rfl
  have hperm : ((d1.heap r).cases.map Prod.fst).Perm ((d1.heap s).cases.map Prod.fst) :=
    (hr.subperm hsub).perm_of_length_le (by simp [hlen])
  cases hfr : map_find c (d1.heap r).cases with
  | none =>
    have h1 : c ∉ (d1.heap r).cases.map Prod.fst := (map_find_eq_none_iff _ _).1 hfr
    have h2 : c ∉ (d1.heap s).cases.map Prod.fst := fun h3 => h1 (hperm.mem_iff.2 h3)
    rw [(map_find_eq_none_iff _ _).2 h2]
  | some t1 =>
    have := hall (c, t1) (map_find_some_mem hfr)
    simp only at this
    cases hf : map_find c (d1.heap s).cases with
    | none => simp [hf] at this
    | some t2 =>
      simp only [hf, decide_eq_true_eq] at this
      simp [this]

theorem otherwise_getD_live (d1 : DFA) (s : StateRef) :
    (d1.heap s).otherwise.getD d1.nonmatching = (d1.live_otherwise s).getD d1.nonmatching := by
  unfold DFA.live_otherwise
  cases (d1.heap s).otherwise with
  | none => rfl
  | some o =>
    simp only [Option.getD_some]
    split_ifs with h
    · simp [h]
    · rfl

theorem step_mem {d : DFA} (hc : d.Closed) (hnm : d.nonmatching ∈ d.states) {s : StateRef}
    (hs : s ∈ d.states) (c : Nat) : d.step s c ∈ d.states := by
  unfold DFA.step
  cases hf : map_find c (d.heap s).cases with
  | some t =>
    simp only
    apply hc s hs
    simp only [State.targets, List.mem_append, List.mem_map]
    exact Or.inr ⟨(c, t), map_find_some_mem hf, rfl⟩
  | none =>
    simp only
    cases ho : (d.heap s).otherwise with
    | none => simpa using hnm
    | some o =>
      simp only [Option.getD_some]
      apply hc s hs
      simp [State.targets, ho]

theorem run_mem {d : DFA} (hc : d.Closed) (hnm : d.nonmatching ∈ d.states) (w : List Nat) :
    ∀ {s : StateRef}, s ∈ d.states → d.run s w ∈ d.states := by
  induction w with
  | nil => intro s hs; exact hs
  | cons c w ih =>
    intro s hs
    simp only [DFA.run, List.foldl_cons]
    exact ih (step_mem hc hnm hs c)

theorem run_cons (d : DFA) (s : StateRef) (c : Nat) (w : List Nat) :
    d.run s (c :: w) = d.run (d.step s c) w := rfl

/-- One step of the merged DFA from a representative follows one step of
the original DFA from any member of its partition. -/
theorem merged_step {d d1 : DFA} {ps : List Block} {hp : Bool} (h : Refined d d1 ps hp)
    (hwt : d.WellTyped) {s : StateRef} (hs : s ∈ d.states) (c : Nat) :
    (d1.merge_partitions ps).step (d1.rep_of ps s) c = d1.rep_of ps (d.step s c) := by
  obtain ⟨a, rep, tl, hb, hsb, hrho⟩ := rep_of_spec h hs
  obtain ⟨hsame1, hsame2, hsame3, hsame4⟩ := h.same
  obtain ⟨m1, m2, m3, m4, m5, m6⟩ :=
    merge_fold_spec ps ps d1 h.blocks.nodup h.blocks.nonempty
  obtain ⟨_, f2, f3, _, _, _⟩ := m6 _ hb rep tl rfl
  have hrep_states : rep ∈ d.states := rep_mem_states h hb (List.mem_cons_self _ _)
  have hkeys : ((d1.heap rep).cases.map Prod.fst).Nodup := by
    rw [(hsame4 rep).2.2.2.2]
    exact (hwt.2.2.2 rep hrep_states).1.imp (fun hlt => Nat.ne_of_lt hlt)
  have hfind : ∀ c, (map_find c (d1.heap rep).cases).map (fun o => (d1.heap o).partition) =
      (map_find c (d1.heap s).cases).map (fun o => (d1.heap o).partition) := by
    intro c
    rcases List.mem_cons.1 hsb with rfl | hstl
    · rfl
    · exact same_mappings_find (h.stable _ hb rep tl rfl s hstl) hkeys c
  have hlive : (d1.live_otherwise rep).map (fun o => (d1.heap o).partition) =
      (d1.live_otherwise s).map (fun o => (d1.heap o).partition) := by
    rcases List.mem_cons.1 hsb with rfl | hstl
    · rfl
    · exact same_mappings_otherwise (h.stable _ hb rep tl rfl s hstl)
  have hnm : (d1.merge_partitions ps).nonmatching = d1.rep_of ps d1.nonmatching := by
    simp only [DFA.merge_partitions, DFA.rep_of, m3, m4]
  rw [hrho]
  have hheap : (d1.merge_partitions ps).heap = (ps.foldl (DFA.merge_block ps) d1).heap := rfl
  simp only [DFA.step, hheap, f2, f3, hnm, map_find_map_snd]
  rw [← (hsame4 s).2.2.2.2, ← (hsame4 s).2.2.2.1, ← hsame3]
  have hfc := hfind c
  cases hfr : map_find c (d1.heap rep).cases with
  | some t1 =>
    cases hfs : map_find c (d1.heap s).cases with
    | none => simp [hfr, hfs] at hfc
    | some t2 =>
      simp only [hfr, hfs, Option.map_some', Option.some.injEq] at hfc
      simp [DFA.rep_of, hfc]
  | none =>
    cases hfs : map_find c (d1.heap s).cases with
    | some t2 => simp [hfr, hfs] at hfc
    | none =>
      simp only [Option.map_none']
      rw [otherwise_getD_live d1 s]
      have hrw : ((d1.heap rep).otherwise.map (d1.rep_of ps)).getD (d1.rep_of ps d1.nonmatching) =
          d1.rep_of ps ((d1.live_otherwise rep).getD d1.nonmatching) := by
        rw [← otherwise_getD_live d1 rep]
        cases (d1.heap rep).otherwise <;> rfl
      rw [hrw]
      cases hlr : d1.live_otherwise rep with
      | none =>
        cases hls : d1.live_otherwise s with
        | none => rfl
        | some o2 => simp [hlr, hls] at hlive
      | some o1 =>
        cases hls : d1.live_otherwise s with
        | none => simp [hlr, hls] at hlive
        | some o2 =>
          simp only [hlr, hls, Option.map_some', Option.some.injEq] at hlive
          simp [DFA.rep_of, hlive]

/-- The merged DFA, run from the representative of `q`, reaches the
representative of the state the original DFA reaches from `q`. -/
theorem merged_run {d d1 : DFA} {ps : List Block} {hp : Bool} (h : Refined d d1 ps hp)
    (hwt : d.WellTyped) (hc : d.Closed) (w : List Nat) :
    ∀ {q : StateRef}, q ∈ d.states →
      (d1.merge_partitions ps).run (d1.rep_of ps q) w = d1.rep_of ps (d.run q w) := by
  induction w with
  | nil => intro q _; rfl
  | cons c w ih =>
    intro q hq
    rw [run_cons, run_cons, merged_step h hwt hq c]
    exact ih (step_mem hc hwt.2.2.1 hq c)

/-! ## minimize: masks of the merged states -/

theorem nat_or_eq_zero {x y : Nat} (h : x ||| y = 0) : x = 0 ∧ y = 0 := by
  constructor
  · apply Nat.eq_of_testBit_eq
    intro i
    have := congrArg (fun n => n.testBit i) h
    simp only [Nat.testBit_or, Nat.zero_testBit, Bool.or_eq_false_iff] at this
    simp [this.1]
  · apply Nat.eq_of_testBit_eq
    intro i
    have := congrArg (fun n => n.testBit i) h
    simp only [Nat.testBit_or, Nat.zero_testBit, Bool.or_eq_false_iff] at this
    simp [this.2]

theorem or_fold_or (f : StateRef → Nat) (l : List StateRef) (a b : Nat) :
    or_fold f l (a ||| b) = a ||| or_fold f l b := by
  induction l generalizing b with
  | nil => rfl
  | cons i l ih =>
    rw [or_fold_cons, or_fold_cons, Nat.or_assoc, ih]

theorem or_fold_eq_zero (f : StateRef → Nat) (l : List StateRef) (a : Nat) :
    or_fold f l a = 0 ↔ a = 0 ∧ ∀ i ∈ l, f i = 0 := by
  induction l generalizing a with
  | nil => simp [or_fold]
  | cons i l ih =>
    rw [or_fold_cons, ih]
    constructor
    · rintro ⟨h1, h2⟩
      obtain ⟨h3, h4⟩ := nat_or_eq_zero h1
      refine ⟨h3, ?_⟩
      intro j hj
      rcases List.mem_cons.1 hj with rfl | hj
      · exact h4
      · exact h2 j hj
    · rintro ⟨h1, h2⟩
      refine ⟨?_, fun j hj => h2 j (List.mem_cons_of_mem _ hj)⟩
      rw [h1, h2 i (List.mem_cons_self _ _)]
      rfl

theorem or_fold_absorb_mem (f : StateRef → Nat) (l : List StateRef) (a : Nat) (i : StateRef)
    (hi : i ∈ l) : f i ||| or_fold f l a = or_fold f l a := by
  induction l generalizing a with
  | nil => simp at hi
  | cons j l ih =>
    rw [or_fold_cons]
    rcases List.mem_cons.1 hi with rfl | hi
    · rw [Nat.or_comm a (f i), or_fold_or, ← Nat.or_assoc, Nat.or_self]
    · exact ih _ hi

theorem or_fold_const (f : StateRef → Nat) (l : List StateRef) (a : Nat)
    (h : ∀ i ∈ l, f i = a) : or_fold f l a = a := by
  induction l with
  | nil => rfl
  | cons i l ih =>
    rw [or_fold_cons, h i (List.mem_cons_self _ _), Nat.or_self]
    exact ih (fun j hj => h j (List.mem_cons_of_mem _ hj))

theorem or_fold_zero_of_mem (f : StateRef → Nat) (l : List StateRef) (x : Nat) (s : StateRef)
    (hs : s ∈ l) (h : ∀ i ∈ l, f i = x) : or_fold f l 0 = x := by
  cases l with
  | nil => simp at hs
  | cons j l =>
    rw [or_fold_cons, Nat.zero_or, h j (List.mem_cons_self _ _)]
    exact or_fold_const f l x (fun i hi => h i (List.mem_cons_of_mem _ hi))

theorem perm_hash_true_inj {s t : State} (hs : s.accept < 4294967296)
    (ht : t.accept < 4294967296) (h : perm_hash true s = perm_hash true t) :
    s.accept = t.accept ∧ s.audit = t.audit := by
  simp only [perm_hash, if_true, Nat.shiftLeft_eq] at h
  have e1 := Nat.mul_add_lt_is_or (i := 32) (b := s.accept) (by simpa using hs) s.audit
  have e2 := Nat.mul_add_lt_is_or (i := 32) (b := t.accept) (by simpa using ht) t.audit
  rw [Nat.mul_comm] at e1 e2
  rw [← e1, ← e2] at h
  norm_num at h
  omega

theorem perm_hash_false_iff {s t : State} (h : perm_hash false s = perm_hash false t) :
    (s.accept ≠ 0 ∨ s.audit ≠ 0) ↔ (t.accept ≠ 0 ∨ t.audit ≠ 0) := by
  simp only [perm_hash, Bool.false_eq_true, if_false] at h
  by_cases h1 : s.audit ≠ 0 ∨ s.accept ≠ 0
  · by_cases h2 : t.audit ≠ 0 ∨ t.accept ≠ 0
    · constructor
      · intro _; exact h2.symm
      · intro _; exact h1.symm
    · simp [h1, h2] at h
  · by_cases h2 : t.audit ≠ 0 ∨ t.accept ≠ 0
    · simp [h1, h2] at h
    · constructor
      · intro h3; exact absurd h3.symm h1
      · intro h3; exact absurd h3.symm h2

theorem step_same {d1 d : DFA} (h : d1.SameButPartition d) (q : StateRef) (c : Nat) :
    d1.step q c = d.step q c := by
  obtain ⟨_, _, h3, h4⟩ := h
  simp [DFA.step, (h4 q).2.2.2.1, (h4 q).2.2.2.2, h3]

theorem run_same {d1 d : DFA} (h : d1.SameButPartition d) (w : List Nat) :
    ∀ q, d1.run q w = d.run q w := by
  induction w with
  | nil => intro q; rfl
  | cons c w ih => intro q; rw [run_cons, run_cons, step_same h, ih]

theorem targets_same {d1 d : DFA} (h : d1.SameButPartition d) (q : StateRef) :
    (d1.heap q).targets = (d.heap q).targets := by
  simp [State.targets, (h.2.2.2 q).2.2.2.1, (h.2.2.2 q).2.2.2.2]

/-- The result of `minimize`.  The function returns; its result is a DFA
whose targets, `start` and `nonmatching` are surviving states; there is a map
`rho` from the states of the input to surviving states that commutes with
running the DFA; and the masks of `rho s` are the OR of the masks of a list
of states of the partition of `s`, `s` among them. -/
theorem minimize_core (d : DFA) (hp ht : Bool) (hwt : d.WellTyped) (hc : d.Closed) :
    ∃ (d1 : DFA) (ps : List Block) (d2 : DFA) (rho : StateRef → StateRef),
      d.final_partitions hp ht = some (d1, ps) ∧ Refined d d1 ps hp ∧
      d.minimize hp ht = some d2 ∧
      d2.Closed ∧ d2.start ∈ d2.states ∧ d2.nonmatching ∈ d2.states ∧
      (∀ s ∈ d2.states, s ∈ d.states) ∧
      d2.start = rho d.start ∧
      (∀ w q, q ∈ d.states → d2.run (rho q) w = rho (d.run q w)) ∧
      (∀ s ∈ d.states, rho s ∈ d2.states ∧ ∃ b ∈ ps, s ∈ b.2 ∧ ∃ l, s ∈ l ∧ (∀ i ∈ l, i ∈ b.2) ∧
        (d2.heap (rho s)).accept = or_fold (fun i => (d.heap i).accept) l 0 ∧
        (d2.heap (rho s)).audit = or_fold (fun i => (d.heap i).audit) l 0) := by
  obtain ⟨d1, ps, hfin, href⟩ := final_partitions_spec d hp ht hwt.1
  obtain ⟨hsame1, hsame2, hsame3, hsame4⟩ := href.same
  by_cases hlen : ps.length = d1.states.length
  · -- no state is removed
    refine ⟨d1, ps, d1, id, hfin, href, by simp [DFA.minimize, hfin, hlen], ?_, ?_, ?_, ?_, ?_,
      ?_, ?_⟩
    · intro s hs t htt
      rw [hsame1] at hs ⊢
      rw [targets_same href.same] at htt
      exact hc s hs t htt
    · rw [hsame1, hsame2]; exact hwt.2.1
    · rw [hsame1, hsame3]; exact hwt.2.2.1
    · intro s hs; rw [hsame1] at hs; exact hs
    · exact hsame2
    · intro w q _; exact run_same href.same w q
    · intro s hs
      obtain ⟨b, hb, hsb⟩ := mem_members.1 (href.perm.mem_iff.2 hs)
      refine ⟨by rw [hsame1]; exact hs, b, hb, hsb, [s], List.mem_singleton.2 rfl, ?_, ?_, ?_⟩
      · intro i hi; rw [List.mem_singleton] at hi; subst hi; exact hsb
      · simp [or_fold, (hsame4 s).2.1]
      · simp [or_fold, (hsame4 s).2.2.1]
  · -- the partitions are merged
    obtain ⟨m1, m2, m3, m4, m5, m6⟩ :=
      merge_fold_spec ps ps d1 href.blocks.nodup href.blocks.nonempty
    have hheap : (d1.merge_partitions ps).heap = (ps.foldl (DFA.merge_block ps) d1).heap := rfl
    have hstates : ∀ s, s ∈ (d1.merge_partitions ps).states ↔
        s ∈ d.states ∧ ((ps.foldl (DFA.merge_block ps) d1).heap s).label ≠ -1 := by
      intro s
      simp only [DFA.merge_partitions, List.mem_filter, m1, hsame1, decide_eq_true_eq]
    have hrho_mem : ∀ s ∈ d.states, d1.rep_of ps s ∈ (d1.merge_partitions ps).states := by
      intro s hs
      obtain ⟨a, rep, tl, hb, hsb, hrho⟩ := rep_of_spec href hs
      obtain ⟨f1, _, _, _, _, _⟩ := m6 _ hb rep tl rfl
      have hrep_states : rep ∈ d.states := rep_mem_states href hb (List.mem_cons_self _ _)
      rw [hrho, hstates]
      refine ⟨hrep_states, ?_⟩
      rw [f1, (hsame4 rep).1]
      have := (hwt.2.2.2 rep hrep_states).2.2.2.2
      omega
    have hstart : (d1.merge_partitions ps).start = d1.rep_of ps d.start := by
      simp only [DFA.merge_partitions, DFA.rep_of, m2, m4, hsame2]
    have hnm : (d1.merge_partitions ps).nonmatching = d1.rep_of ps d.nonmatching := by
      simp only [DFA.merge_partitions, DFA.rep_of, m3, m4, hsame3]
    refine ⟨d1, ps, d1.merge_partitions ps, d1.rep_of ps, hfin, href,
      by simp [DFA.minimize, hfin, hlen], ?_, ?_, ?_, ?_, hstart, ?_, ?_⟩
    · intro s hs t htt
      obtain ⟨hs1, hlabel⟩ := (hstates s).1 hs
      obtain ⟨a, rep, tl, hb, hsb, hrho⟩ := rep_of_spec href hs1
      obtain ⟨_, f2, f3, _, _, f6⟩ := m6 _ hb rep tl rfl
      rcases List.mem_cons.1 hsb with rfl | hstl
      · rw [hheap] at htt
        simp only [State.targets, f2, f3, List.mem_append, List.mem_map] at htt
        have hclosed := hc s hs1
        rw [← targets_same href.same] at hclosed
        rcases htt with htt | ⟨j, hj, rfl⟩
        · cases ho : (d1.heap s).otherwise with
          | none => simp [ho] at htt
          | some o =>
            simp only [ho, Option.map_some', Option.toList, List.mem_singleton] at htt
            rw [htt]
            apply hrho_mem
            apply hclosed
            simp [State.targets, ho]
        · obtain ⟨c, hc1, rfl⟩ := hj
          apply hrho_mem
          apply hclosed
          simp only [State.targets, List.mem_append, List.mem_map]
          exact Or.inr ⟨c, hc1, rfl⟩
      · exact absurd (f6 s hstl) hlabel
    · rw [hstart]; exact hrho_mem _ hwt.2.1
    · rw [hnm]; exact hrho_mem _ hwt.2.2.1
    · intro s hs; exact ((hstates s).1 hs).1
    · intro w q hq; exact merged_run href hwt hc w hq
    · intro s hs
      obtain ⟨a, rep, tl, hb, hsb, hrho⟩ := rep_of_spec href hs
      obtain ⟨_, _, _, f4, f5, _⟩ := m6 _ hb rep tl rfl
      refine ⟨hrho_mem s hs, (a, rep :: tl), hb, hsb, rep :: tl, hsb, fun i hi => hi, ?_, ?_⟩
      · rw [hrho, hheap, f4, or_fold_cons, Nat.zero_or, (hsame4 rep).2.1]
        exact or_fold_congr _ _ _ (fun i _ => (hsame4 i).2.1) _
      · rw [hrho, hheap, f5, or_fold_cons, Nat.zero_or, (hsame4 rep).2.2.1]
        exact or_fold_congr _ _ _ (fun i _ => (hsame4 i).2.2.1) _

/-! ## Claims on minimize and remove_unreachable -/

/-- Claim C1 fails as stated.  Without the hash-perms flag, `minimize` merges
the two accepting states of `dfa_two_accepts`: on the input `a` the state
reached carries the mask (1, 0) before and (3, 0) after. -/
theorem minimize_changes_mask :
    dfa_two_accepts.WellTyped ∧ dfa_two_accepts.Closed ∧
    dfa_two_accepts.mask (dfa_two_accepts.run dfa_two_accepts.start [97]) = (1, 0) ∧
    (dfa_two_accepts.minimize false false).map
      (fun d2 => d2.mask (d2.run d2.start [97])) = some (3, 0) := by
  decide

/-- Claim C1, as amended.  For every DFA whose transition targets all belong
to the DFA, every flag combination and every input byte string, `minimize`
returns, the state reached from `start` afterwards is a surviving state, and
its accept and audit masks contain every bit of the masks of the state
reached before (`before ||| after = after`); with the hash-perms flag the
masks are the same. -/
theorem minimize_mask_contains (d : DFA) (hash_perms hash_trans : Bool)
    (hwt : d.WellTyped) (hc : d.Closed) :
    ∃ d2, d.minimize hash_perms hash_trans = some d2 ∧
      ∀ w : List Nat,
        d2.run d2.start w ∈ d2.states ∧
        (d.heap (d.run d.start w)).accept ||| (d2.heap (d2.run d2.start w)).accept =
          (d2.heap (d2.run d2.start w)).accept ∧
        (d.heap (d.run d.start w)).audit ||| (d2.heap (d2.run d2.start w)).audit =
          (d2.heap (d2.run d2.start w)).audit ∧
        (hash_perms = true → d2.mask (d2.run d2.start w) = d.mask (d.run d.start w)) := by
  obtain ⟨d1, ps, d2, rho, _, href, hmin, _, _, _, _, hstart, hrun, hmask⟩ :=
    minimize_core d hash_perms hash_trans hwt hc
  refine ⟨d2, hmin, fun w => ?_⟩
  have hq : d.run d.start w ∈ d.states := run_mem hc hwt.2.2.1 w hwt.2.1
  obtain ⟨hmem, b, hb, hsb, l, hsl, hlb, hacc, haud⟩ := hmask _ hq
  rw [hstart, hrun w _ hwt.2.1]
  refine ⟨hmem, ?_, ?_, ?_⟩
  · rw [hacc]
    exact or_fold_absorb_mem (fun i => (d.heap i).accept) l 0 _ hsl
  · rw [haud]
    exact or_fold_absorb_mem (fun i => (d.heap i).audit) l 0 _ hsl
  · intro hhp
    subst hhp
    have hall : ∀ i ∈ l, (d.heap i).accept = (d.heap (d.run d.start w)).accept ∧
        (d.heap i).audit = (d.heap (d.run d.start w)).audit := by
      intro i hi
      have hi1 : i ∈ d.states := href.perm.mem_iff.1 (mem_members.2 ⟨b, hb, hlb i hi⟩)
      exact perm_hash_true_inj (hwt.2.2.2 i hi1).2.2.1 (hwt.2.2.2 _ hq).2.2.1
        (href.perms b hb i (hlb i hi) _ hsb)
    simp only [DFA.mask, hacc, haud, Prod.mk.injEq]
    exact ⟨or_fold_zero_of_mem _ l _ _ hsl (fun i hi => (hall i hi).1),
      or_fold_zero_of_mem _ l _ _ hsl (fun i hi => (hall i hi).2)⟩

/-- Witness of `minimize_mask_contains` on `dfa_two_accepts`. -/
theorem minimize_mask_contains_witness :
    dfa_two_accepts.WellTyped ∧ dfa_two_accepts.Closed ∧
    ∃ d2, dfa_two_accepts.minimize false true = some d2 ∧
      ∀ w : List Nat,
        d2.run d2.start w ∈ d2.states ∧
        (dfa_two_accepts.heap (dfa_two_accepts.run dfa_two_accepts.start w)).accept |||
            (d2.heap (d2.run d2.start w)).accept =
          (d2.heap (d2.run d2.start w)).accept ∧
        (dfa_two_accepts.heap (dfa_two_accepts.run dfa_two_accepts.start w)).audit |||
            (d2.heap (d2.run d2.start w)).audit =
          (d2.heap (d2.run d2.start w)).audit ∧
        (false = true →
          d2.mask (d2.run d2.start w) =
            dfa_two_accepts.mask (dfa_two_accepts.run dfa_two_accepts.start w)) :=
  ⟨by decide, by decide,
    minimize_mask_contains dfa_two_accepts false true (by decide) (by decide)⟩

/-- Claim C2.  For every DFA whose transition targets all belong to the DFA,
every combination of the two flags and every input byte string, `minimize`
returns, the state reached from `start` afterwards is a surviving state, and
it is accepting if and only if the state reached before is accepting. -/
theorem minimize_preserves_acceptance (d : DFA) (hash_perms hash_trans : Bool)
    (hwt : d.WellTyped) (hc : d.Closed) :
    ∃ d2, d.minimize hash_perms hash_trans = some d2 ∧
      ∀ w : List Nat,
        d2.run d2.start w ∈ d2.states ∧
        (d2.accepting (d2.run d2.start w) ↔ d.accepting (d.run d.start w)) := by
  obtain ⟨d1, ps, d2, rho, _, href, hmin, _, _, _, _, hstart, hrun, hmask⟩ :=
    minimize_core d hash_perms hash_trans hwt hc
  refine ⟨d2, hmin, fun w => ?_⟩
  have hq : d.run d.start w ∈ d.states := run_mem hc hwt.2.2.1 w hwt.2.1
  obtain ⟨hmem, b, hb, hsb, l, hsl, hlb, hacc, haud⟩ := hmask _ hq
  rw [hstart, hrun w _ hwt.2.1]
  refine ⟨hmem, ?_⟩
  have hall : ∀ i ∈ l, ((d.heap i).accept ≠ 0 ∨ (d.heap i).audit ≠ 0) ↔
      ((d.heap (d.run d.start w)).accept ≠ 0 ∨ (d.heap (d.run d.start w)).audit ≠ 0) := by
    intro i hi
    have hi1 : i ∈ d.states := href.perm.mem_iff.1 (mem_members.2 ⟨b, hb, hlb i hi⟩)
    have hph := href.perms b hb i (hlb i hi) _ hsb
    cases hash_perms with
    | false => exact perm_hash_false_iff hph
    | true =>
      obtain ⟨e1, e2⟩ := perm_hash_true_inj (hwt.2.2.2 i hi1).2.2.1 (hwt.2.2.2 _ hq).2.2.1 hph
      rw [e1, e2]
  simp only [DFA.accepting, hacc, haud]
  constructor
  · intro h
    by_contra hn
    have hz : ∀ i ∈ l, (d.heap i).accept = 0 ∧ (d.heap i).audit = 0 := by
      intro i hi
      have := (hall i hi).not.2 hn
      simp only [not_or, not_not] at this
      exact this
    rcases h with h | h
    · exact h ((or_fold_eq_zero _ l 0).2 ⟨rfl, fun i hi => (hz i hi).1⟩)
    · exact h ((or_fold_eq_zero _ l 0).2 ⟨rfl, fun i hi => (hz i hi).2⟩)
  · intro h
    rcases h with h | h
    · left
      intro hz
      exact h (((or_fold_eq_zero _ l 0).1 hz).2 _ hsl)
    · right
      intro hz
      exact h (((or_fold_eq_zero _ l 0).1 hz).2 _ hsl)

/-- Witness of `minimize_preserves_acceptance` on `dfa_covered_default`. -/
theorem minimize_preserves_acceptance_witness :
    dfa_covered_default.WellTyped ∧ dfa_covered_default.Closed ∧
    ∃ d2, dfa_covered_default.minimize false false = some d2 ∧
      ∀ w : List Nat,
        d2.run d2.start w ∈ d2.states ∧
        (d2.accepting (d2.run d2.start w) ↔
          dfa_covered_default.accepting
            (dfa_covered_default.run dfa_covered_default.start w)) :=
  ⟨by decide, by decide,
    minimize_preserves_acceptance dfa_covered_default false false (by decide) (by decide)⟩

/-- Claim C3.  With the hash-perms flag set, for every DFA whose transition
targets all belong to the DFA, the refinement loop and `minimize` return,
all members of a final partition (the states merged into its first member)
have the same (accept, audit) mask, and for every input byte string the
state reached from `start` after `minimize` is a surviving state with the
mask of the state reached before. -/
theorem minimize_hash_perms_keeps_mask (d : DFA) (hash_trans : Bool)
    (hwt : d.WellTyped) (hc : d.Closed) :
    ∃ d1 ps d2, d.final_partitions true hash_trans = some (d1, ps) ∧
      d.minimize true hash_trans = some d2 ∧
      (∀ b ∈ ps, ∀ s ∈ b.2, ∀ t ∈ b.2, d.mask s = d.mask t) ∧
      ∀ w : List Nat,
        d2.run d2.start w ∈ d2.states ∧
        d2.mask (d2.run d2.start w) = d.mask (d.run d.start w) := by
  obtain ⟨d1, ps, d2, rho, hfin, href, hmin, _, _, _, _, hstart, hrun, hmask⟩ :=
    minimize_core d true hash_trans hwt hc
  have hsame : ∀ b ∈ ps, ∀ s ∈ b.2, ∀ t ∈ b.2, d.mask s = d.mask t := by
    intro b hb s hs t htt
    have hs1 : s ∈ d.states := href.perm.mem_iff.1 (mem_members.2 ⟨b, hb, hs⟩)
    have ht1 : t ∈ d.states := href.perm.mem_iff.1 (mem_members.2 ⟨b, hb, htt⟩)
    obtain ⟨e1, e2⟩ := perm_hash_true_inj (hwt.2.2.2 s hs1).2.2.1 (hwt.2.2.2 t ht1).2.2.1
      (href.perms b hb s hs t htt)
    simp [DFA.mask, e1, e2]
  refine ⟨d1, ps, d2, hfin, hmin, hsame, fun w => ?_⟩
  have hq : d.run d.start w ∈ d.states := run_mem hc hwt.2.2.1 w hwt.2.1
  obtain ⟨hmem, b, hb, hsb, l, hsl, hlb, hacc, haud⟩ := hmask _ hq
  rw [hstart, hrun w _ hwt.2.1]
  refine ⟨hmem, ?_⟩
  have hall : ∀ i ∈ l, d.mask i = d.mask (d.run d.start w) :=
    fun i hi => hsame b hb i (hlb i hi) _ hsb
  simp only [DFA.mask, Prod.mk.injEq] at hall
  simp only [DFA.mask, hacc, haud, Prod.mk.injEq]
  exact ⟨or_fold_zero_of_mem _ l _ _ hsl (fun i hi => (hall i hi).1),
    or_fold_zero_of_mem _ l _ _ hsl (fun i hi => (hall i hi).2)⟩

/-- Witness of `minimize_hash_perms_keeps_mask` on `dfa_two_accepts`. -/
theorem minimize_hash_perms_keeps_mask_witness :
    dfa_two_accepts.WellTyped ∧ dfa_two_accepts.Closed ∧
    ∃ d1 ps d2, dfa_two_accepts.final_partitions true false = some (d1, ps) ∧
      dfa_two_accepts.minimize true false = some d2 ∧
      (∀ b ∈ ps, ∀ s ∈ b.2, ∀ t ∈ b.2, dfa_two_accepts.mask s = dfa_two_accepts.mask t) ∧
      ∀ w : List Nat,
        d2.run d2.start w ∈ d2.states ∧
        d2.mask (d2.run d2.start w) =
          dfa_two_accepts.mask (dfa_two_accepts.run dfa_two_accepts.start w) :=
  ⟨by decide, by decide,
    minimize_hash_perms_keeps_mask dfa_two_accepts false (by decide) (by decide)⟩

/-- Claim C4 fails on `dfa_covered_twin`, the DFA of `x(ab|.b)|y.b|z[^c]`,
all of whose states are reachable from `start`: with both flags off
`minimize` merges the states 6 and 7 into state 5 and keeps the distinct
states 2 and 3, which both go to state 5 on every byte; every byte string
leads both of them to states that are both accepting or both non-accepting. -/
theorem minimize_keeps_equivalent_states :
    dfa_covered_twin.WellTyped ∧ dfa_covered_twin.Closed ∧ dfa_covered_twin.NoCoveredEdge ∧
    (∀ s ∈ dfa_covered_twin.states, dfa_covered_twin.Reach dfa_covered_twin.start s) ∧
    ∃ d2, dfa_covered_twin.minimize false false = some d2 ∧
      d2.states = [0, 1, 2, 3, 4, 5, 8] ∧
      ∀ w : List Nat, d2.accepting (d2.run 2 w) ↔ d2.accepting (d2.run 3 w) := by
  refine ⟨by decide, by decide, by decide, ?_, ?_⟩
  · have h1 : dfa_covered_twin.Reach 1 1 := DFA.Reach.refl 1
    have h2 : dfa_covered_twin.Reach 1 2 := DFA.Reach.tail h1 (by decide)
    have h3 : dfa_covered_twin.Reach 1 3 := DFA.Reach.tail h1 (by decide)
    have h4 : dfa_covered_twin.Reach 1 4 := DFA.Reach.tail h1 (by decide)
    have h5 : dfa_covered_twin.Reach 1 5 := DFA.Reach.tail h2 (by decide)
    have h6 : dfa_covered_twin.Reach 1 6 := DFA.Reach.tail h2 (by decide)
    have h7 : dfa_covered_twin.Reach 1 7 := DFA.Reach.tail h3 (by decide)
    have h8 : dfa_covered_twin.Reach 1 8 := DFA.Reach.tail h4 (by decide)
    have h0 : dfa_covered_twin.Reach 1 0 := DFA.Reach.tail h4 (by decide)
    intro s hs
    simp only [dfa_covered_twin, List.mem_cons, List.mem_singleton, List.not_mem_nil,
      or_false] at hs
    rcases hs with rfl | rfl | rfl | rfl | rfl | rfl | rfl | rfl | rfl
    · exact h0
    · exact h1
    · exact h2
    · exact h3
    · exact h4
    · exact h5
    · exact h6
    · exact h7
    · exact h8
  · have key : (dfa_covered_twin.minimize false false).map (fun d2 => d2.states) =
        some [0, 1, 2, 3, 4, 5, 8] := by decide
    have key2 : (dfa_covered_twin.minimize false false).map
        (fun d2 => ((d2.heap 2).otherwise, (d2.heap 2).cases)) =
        some (some 5, [(97, 5)]) := by decide
    have key3 : (dfa_covered_twin.minimize false false).map
        (fun d2 => ((d2.heap 3).otherwise, (d2.heap 3).cases)) =
        some (some 5, []) := by decide
    cases hmin : dfa_covered_twin.minimize false false with
    | none => rw [hmin] at key; simp at key
    | some d2 =>
      rw [hmin] at key key2 key3
      simp only [Option.map_some', Option.some.injEq, Prod.mk.injEq] at key key2 key3
      have k1 := key
      obtain ⟨k2, k3⟩ := key2
      obtain ⟨k4, k5⟩ := key3
      refine ⟨d2, rfl, k1, ?_⟩
      intro w
      cases w with
      | nil =>
        have hacc : (dfa_covered_twin.minimize false false).map
            (fun d2 => ((d2.heap 2).accept, (d2.heap 2).audit, (d2.heap 3).accept,
              (d2.heap 3).audit)) = some (0, 0, 0, 0) := by decide
        rw [hmin] at hacc
        simp only [Option.map_some', Option.some.injEq, Prod.mk.injEq] at hacc
        simp [DFA.run, DFA.accepting, hacc.1, hacc.2.1, hacc.2.2.1, hacc.2.2.2]
      | cons c w =>
        have e2 : d2.step 2 c = 5 := by
          simp only [DFA.step, k2, k3, map_find]
          split_ifs <;> rfl
        have e3 : d2.step 3 c = 5 := by simp [DFA.step, k4, k5, map_find]
        rw [run_cons, run_cons, e2, e3]

/-- Claim C5 fails on `dfa_covered_default`, the DFA of `(ab|.b)`: no
explicit entry targets the default target of its state before `minimize`,
and afterwards the entry of `start` for `a` and the default of `start` both
target the representative of the merged states 2 and 3. -/
theorem minimize_breaks_no_covered_edge :
    dfa_covered_default.WellTyped ∧ dfa_covered_default.Closed ∧
    dfa_covered_default.NoCoveredEdge ∧
    (dfa_covered_default.minimize false false).map
      (fun d2 => (d2.states, (d2.heap 1).otherwise, (d2.heap 1).cases)) =
      some ([0, 1, 2, 4], some 2, [(97, 2)]) ∧
    (dfa_covered_default.minimize false false).map (fun d2 => decide d2.NoCoveredEdge) =
      some false := by
  decide

/-- The assumption on `nonmatching` is needed to keep every reachable state.
In `dfa_behind_dead`, where `nonmatching` has a default transition, state 2
is reachable from `start` only through `nonmatching`, and
`remove_unreachable` erases it: the search never follows a transition out of
`nonmatching`. -/
theorem remove_unreachable_erases_reachable :
    dfa_behind_dead.WellTyped ∧ dfa_behind_dead.Closed ∧
    dfa_behind_dead.Reach dfa_behind_dead.start 2 ∧
    (dfa_behind_dead.remove_unreachable 3).map DFA.states = some [0, 1] := by
  have h1 : dfa_behind_dead.Reach 1 1 := DFA.Reach.refl 1
  have h0 : dfa_behind_dead.Reach 1 0 := DFA.Reach.tail h1 (by decide)
  have h2 : dfa_behind_dead.Reach 1 2 := DFA.Reach.tail h0 (by decide)
  exact ⟨by decide, by decide, h2, by decide⟩

/-! ## equivalence_classes: ordered maps -/

theorem keys_map_put {β : Type} (k : Nat) (v : β) (m : List (Nat × β)) :
    ∀ x ∈ (map_put k v m).map Prod.fst, x = k ∨ x ∈ m.map Prod.fst := by
  induction m with
  | nil => intro x hx; simp [map_put] at hx; exact Or.inl hx
  | cons p m ih =>
    obtain ⟨k1, v1⟩ := p
    intro x hx
    simp only [map_put] at hx
    split_ifs at hx with h1 h2
    · simp only [List.map_cons, List.mem_cons] at hx ⊢
      rcases hx with hx | hx | hx
      · exact Or.inl hx
      · exact Or.inr (Or.inl hx)
      · exact Or.inr (Or.inr hx)
    · simp only [List.map_cons, List.mem_cons] at hx ⊢
      rcases hx with hx | hx
      · exact Or.inl hx
      · exact Or.inr (Or.inr hx)
    · simp only [List.map_cons, List.mem_cons] at hx ⊢
      rcases hx with hx | hx
      · exact Or.inr (Or.inl hx)
      · rcases ih x hx with h | h
        · exact Or.inl h
        · exact Or.inr (Or.inr h)

theorem map_put_sorted {β : Type} (k : Nat) (v : β) (m : List (Nat × β))
    (h : KeysSorted m) : KeysSorted (map_put k v m) := by
  induction m with
  | nil => simp [map_put, KeysSorted]
  | cons p m ih =>
    obtain ⟨k1, v1⟩ := p
    simp only [KeysSorted, List.map_cons, List.pairwise_cons] at h
    simp only [map_put]
    split_ifs with h1 h2
    · simp only [KeysSorted, List.map_cons, List.pairwise_cons, List.mem_cons]
      refine ⟨?_, h.1, h.2⟩
      rintro x (rfl | hx)
      · exact h1
      · exact Nat.lt_trans h1 (h.1 x hx)
    · subst h2
      simp only [KeysSorted, List.map_cons, List.pairwise_cons]
      exact h
    · simp only [KeysSorted, List.map_cons, List.pairwise_cons]
      refine ⟨?_, ih h.2⟩
      intro x hx
      rcases keys_map_put k v m x hx with rfl | hx
      · omega
      · exact h.1 x hx

theorem mem_map_put {β : Type} (k : Nat) (v : β) (m : List (Nat × β)) (h : KeysSorted m)
    (p : Nat × β) : p ∈ map_put k v m ↔ p = (k, v) ∨ (p ∈ m ∧ p.1 ≠ k) := by
  induction m with
  | nil => simp [map_put]
  | cons q m ih =>
    obtain ⟨k1, v1⟩ := q
    simp only [KeysSorted, List.map_cons, List.pairwise_cons] at h
    have hkeys : ∀ r ∈ m, k1 < r.1 := fun r hr => h.1 r.1 (List.mem_map.2 ⟨r, hr, rfl⟩)
    simp only [map_put]
    split_ifs with h1 h2
    · simp only [List.mem_cons]
      constructor
      · rintro (hp | hp | hp)
        · exact Or.inl hp
        · subst hp; exact Or.inr ⟨Or.inl rfl, by simp; omega⟩
        · exact Or.inr ⟨Or.inr hp, by have := hkeys p hp; omega⟩
      · rintro (hp | ⟨hp | hp, _⟩)
        · exact Or.inl hp
        · exact Or.inr (Or.inl hp)
        · exact Or.inr (Or.inr hp)
    · subst h2
      simp only [List.mem_cons]
      constructor
      · rintro (hp | hp)
        · exact Or.inl hp
        · exact Or.inr ⟨Or.inr hp, by have := hkeys p hp; omega⟩
      · rintro (hp | ⟨hp | hp, hne⟩)
        · exact Or.inl hp
        · subst hp; simp at hne
        · exact Or.inr hp
    · simp only [List.mem_cons, ih h.2]
      constructor
      · rintro (hp | hp | ⟨hp, hne⟩)
        · subst hp; exact Or.inr ⟨Or.inl rfl, fun e => h2 e.symm⟩
        · exact Or.inl hp
        · exact Or.inr ⟨Or.inr hp, hne⟩
      · rintro (hp | ⟨hp | hp, hne⟩)
        · exact Or.inr (Or.inl hp)
        · exact Or.inl hp
        · exact Or.inr (Or.inr ⟨hp, hne⟩)

theorem keys_nodup_of_sorted {β : Type} {m : List (Nat × β)} (h : KeysSorted m) :
    (m.map Prod.fst).Nodup :=
  h.imp (fun hlt => Nat.ne_of_lt hlt)

theorem mem_iff_map_find {β : Type} {m : List (Nat × β)} (h : KeysSorted m) (k : Nat) (v : β) :
    (k, v) ∈ m ↔ map_find k m = some v :=
  ⟨map_find_of_mem (keys_nodup_of_sorted h), map_find_some_mem⟩

theorem map_insert_sorted {β : Type} (k : Nat) (v : β) (m : List (Nat × β))
    (h : KeysSorted m) : KeysSorted (map_insert k v m) := by
  unfold map_insert
  split_ifs
  · exact h
  · exact map_put_sorted k v m h

/-- The groups of `node_sets`: every group is the non-empty set of the bytes
that have an explicit entry to the group's target. -/
theorem group_edges_spec (cases : List (Nat × StateRef)) :
    KeysSorted (group_edges cases) ∧
    (∀ t S, (t, S) ∈ group_edges cases → S ≠ [] ∧ ∀ k, k ∈ S ↔ (k, t) ∈ cases) ∧
    (∀ j ∈ cases, ∃ S, (j.2, S) ∈ group_edges cases) := by
  have key : ∀ (rem done : List (Nat × StateRef)) (ns : List (StateRef × List Nat)),
      (KeysSorted ns ∧ (∀ t S, (t, S) ∈ ns → S ≠ [] ∧ ∀ k, k ∈ S ↔ (k, t) ∈ done) ∧
        (∀ j ∈ done, ∃ S, (j.2, S) ∈ ns)) →
      (KeysSorted (rem.foldl (fun node_sets j =>
          map_put j.2 (set_insert j.1 ((map_find j.2 node_sets).getD [])) node_sets) ns) ∧
        (∀ t S, (t, S) ∈ rem.foldl (fun node_sets j =>
          map_put j.2 (set_insert j.1 ((map_find j.2 node_sets).getD [])) node_sets) ns →
          S ≠ [] ∧ ∀ k, k ∈ S ↔ (k, t) ∈ done ++ rem) ∧
        (∀ j ∈ done ++ rem, ∃ S, (j.2, S) ∈ rem.foldl (fun node_sets j =>
          map_put j.2 (set_insert j.1 ((map_find j.2 node_sets).getD [])) node_sets) ns)) := by
    intro rem
    induction rem with
    | nil => intro done ns h; simpa using h
    | cons j rem ih =>
      intro done ns h
      obtain ⟨h1, h2, h3⟩ := h
      simp only [List.foldl_cons]
      have := ih (done ++ [j])
        (map_put j.2 (set_insert j.1 ((map_find j.2 ns).getD [])) ns) (by
        refine ⟨map_put_sorted _ _ _ h1, ?_, ?_⟩
        · intro t S hmem
          rcases (mem_map_put _ _ _ h1 _).1 hmem with he | ⟨hold, hne⟩
          · simp only [Prod.mk.injEq] at he
            obtain ⟨rfl, rfl⟩ := he
            refine ⟨?_, ?_⟩
            · intro hnil
              have : j.1 ∈ set_insert j.1 ((map_find j.2 ns).getD []) :=
                (mem_set_insert _ _ _).2 (Or.inl rfl)
              rw [hnil] at this
              simp at this
            · intro k
              rw [mem_set_insert, List.mem_append, List.mem_singleton]
              cases hf : map_find j.2 ns with
              | none =>
                simp only [Option.getD_none, List.not_mem_nil, or_false]
                constructor
                · rintro rfl; exact Or.inr rfl
                · rintro (hd | he)
                  · obtain ⟨S1, hS1⟩ := h3 (k, j.2) hd
                    rw [(mem_iff_map_find h1 _ _).1 hS1] at hf
                    simp at hf
                  · simp only [Prod.ext_iff] at he
                    exact he.1
              | some S0 =>
                simp only [Option.getD_some]
                have hS0 := (h2 j.2 S0 (map_find_some_mem hf)).2 k
                constructor
                · rintro (rfl | hk)
                  · exact Or.inr rfl
                  · exact Or.inl (hS0.1 hk)
                · rintro (hd | he)
                  · exact Or.inr (hS0.2 hd)
                  · simp only [Prod.ext_iff] at he
                    exact Or.inl he.1
          · obtain ⟨g1, g2⟩ := h2 t S hold
            refine ⟨g1, fun k => ?_⟩
            rw [g2 k, List.mem_append, List.mem_singleton]
            constructor
            · exact fun hd => Or.inl hd
            · rintro (hd | he)
              · exact hd
              · exfalso
                apply hne
                simp only [Prod.ext_iff] at he
                exact he.2
        · intro j1 hj1
          rcases List.mem_append.1 hj1 with hd | he
          · obtain ⟨S1, hS1⟩ := h3 j1 hd
            by_cases hjj : j1.2 = j.2
            · exact ⟨_, (mem_map_put _ _ _ h1 _).2 (Or.inl (by rw [hjj]))⟩
            · exact ⟨S1, (mem_map_put _ _ _ h1 _).2 (Or.inr ⟨hS1, hjj⟩)⟩
          · rw [List.mem_singleton] at he
            subst he
            exact ⟨_, (mem_map_put _ _ _ h1 _).2 (Or.inl rfl)⟩)
      simpa using this
  have := key cases [] [] (by
    refine ⟨by simp [KeysSorted], ?_, ?_⟩
    · intro t S h; simp at h
    · intro j h; simp at h)
  simpa [group_edges] using this

/-! ## equivalence_classes: the loop over the characters of a group -/

theorem class_char_inv (n : Nat) (cl0 : List (Nat × Nat)) (P : List Nat)
    (acc : List (Nat × Nat) × List (Nat × List Nat) × Bool) (k : Nat)
    (h : CharInv n cl0 P acc) : CharInv n cl0 (P ++ [k]) (class_char n acc k) := by
  obtain ⟨cl, nc, used⟩ := acc
  have hfk : map_find k (map_insert k n cl) = some ((map_find k cl).getD n) :=
    map_find_insert_self k n cl
  have hfx : ∀ x, x ≠ k → map_find x (map_insert k n cl) = map_find x cl :=
    fun x hx => map_find_insert_ne n cl hx
  have hcls : (map_find k (map_insert k n cl)).getD n = (map_find k cl).getD n := by
    rw [hfk]; rfl
  simp only [class_char, hcls]
  generalize hc : (map_find k cl).getD n = cls
  rw [hc] at hfk
  have h1 := h.sorted_cl
  have h2 := h.fresh
  have h3 := h.old
  have h4 := h.out
  have h5 := h.sorted_nc
  have h6 := h.entry
  have h7 := h.complete
  have h8 := h.used
  have h9 := h.same
  simp only at h1 h2 h3 h4 h5 h6 h7 h8 h9
  refine ⟨map_insert_sorted k n cl h1, ?_, ?_, ?_, map_put_sorted _ _ _ h5, ?_, ?_, ?_, ?_⟩
  · intro x hx hnone
    simp only
    by_cases hxk : x = k
    · subst hxk
      rw [hfk, ← hc]
      by_cases hxP : x ∈ P
      · rw [h2 x hxP hnone]; rfl
      · rw [h4 x hxP, hnone]; rfl
    · rw [hfx x hxk]
      rcases List.mem_append.1 hx with hx | hx
      · exact h2 x hx hnone
      · exact absurd (List.mem_singleton.1 hx) hxk
  · intro x v hv
    simp only
    by_cases hxk : x = k
    · subst hxk
      rw [hfk, ← hc, h3 x v hv]; rfl
    · rw [hfx x hxk]; exact h3 x v hv
  · intro x hx
    simp only [List.mem_append, List.mem_singleton, not_or] at hx
    simp only
    rw [hfx x hx.2]
    exact h4 x hx.1
  · intro c S hmem
    simp only at hmem
    rcases (mem_map_put _ _ _ h5 _).1 hmem with he | ⟨hold, hne⟩
    · simp only [Prod.mk.injEq] at he
      obtain ⟨rfl, rfl⟩ := he
      refine ⟨?_, ?_⟩
      · intro hnil
        have : k ∈ set_insert k ((map_find c nc).getD []) :=
          (mem_set_insert _ _ _).2 (Or.inl rfl)
        rw [hnil] at this
        simp at this
      · intro x
        simp only
        rw [mem_set_insert, List.mem_append, List.mem_singleton]
        by_cases hxk : x = k
        · subst hxk
          simp [hfk]
        · rw [hfx x hxk]
          simp only [hxk, false_or, or_false]
          cases hf : map_find c nc with
          | none =>
            simp only [Option.getD_none, List.not_mem_nil, false_iff, not_and]
            intro hxP hxc
            obtain ⟨c1, S1, hc1, hS1⟩ := h7 x hxP
            rw [hxc] at hc1
            simp only [Option.some.injEq] at hc1
            subst hc1
            rw [(mem_iff_map_find h5 _ _).1 hS1] at hf
            simp at hf
          | some S0 =>
            simp only [Option.getD_some]
            exact (h6 c S0 (map_find_some_mem hf)).2 x
    · obtain ⟨g1, g2⟩ := h6 c S hold
      refine ⟨g1, fun x => ?_⟩
      simp only
      rw [g2 x, List.mem_append, List.mem_singleton]
      simp only at hne
      by_cases hxk : x = k
      · subst hxk
        rw [hfk]
        constructor
        · rintro ⟨hxP, hxc⟩
          exfalso
          apply hne
          rw [← hc, hxc]
          rfl
        · rintro ⟨_, hxc⟩
          exfalso
          apply hne
          simp only [Option.some.injEq] at hxc
          exact hxc.symm
      · rw [hfx x hxk]
        simp [hxk]
  · intro x hx
    simp only
    by_cases hxk : x = k
    · subst hxk
      exact ⟨cls, _, hfk, (mem_map_put _ _ _ h5 _).2 (Or.inl rfl)⟩
    · have hxP : x ∈ P := by
        rcases List.mem_append.1 hx with hx | hx
        · exact hx
        · exact absurd (List.mem_singleton.1 hx) hxk
      obtain ⟨c1, S1, hc1, hS1⟩ := h7 x hxP
      rw [hfx x hxk]
      by_cases hcc : c1 = cls
      · subst hcc
        exact ⟨c1, _, hc1, (mem_map_put _ _ _ h5 _).2 (Or.inl rfl)⟩
      · exact ⟨c1, S1, hc1, (mem_map_put _ _ _ h5 _).2 (Or.inr ⟨hS1, hcc⟩)⟩
  · simp only [Bool.or_eq_true, h8, Option.isNone_iff_eq_none]
    constructor
    · rintro (⟨x, hx, hn⟩ | hn)
      · exact ⟨x, List.mem_append_left _ hx, hn⟩
      · refine ⟨k, List.mem_append_right _ (List.mem_singleton.2 rfl), ?_⟩
        by_cases hkP : k ∈ P
        · cases hk0 : map_find k cl0 with
          | none => rfl
          | some v => rw [h3 k v hk0] at hn; simp at hn
        · rw [← h4 k hkP]; exact hn
    · rintro ⟨x, hx, hn⟩
      rcases List.mem_append.1 hx with hx | hx
      · exact Or.inl ⟨x, hx, hn⟩
      · rw [List.mem_singleton] at hx
        subst hx
        by_cases hkP : x ∈ P
        · exact Or.inl ⟨x, hkP, hn⟩
        · right; rw [h4 x hkP]; exact hn
  · intro hall
    simp only
    have hP : ∀ x ∈ P, (map_find x cl0).isSome :=
      fun x hx => hall x (List.mem_append_left _ hx)
    have hk := hall k (List.mem_append_right _ (List.mem_singleton.2 rfl))
    have hcl : cl = cl0 := h9 hP
    subst hcl
    simp [map_insert, hk]

theorem class_chars_inv (n : Nat) (cl0 : List (Nat × Nat)) : ∀ (chars P : List Nat)
    (acc : List (Nat × Nat) × List (Nat × List Nat) × Bool),
    CharInv n cl0 P acc → CharInv n cl0 (P ++ chars) (chars.foldl (class_char n) acc) := by
  intro chars
  induction chars with
  | nil => intro P acc h; simpa using h
  | cons k chars ih =>
    intro P acc h
    have := ih (P ++ [k]) _ (class_char_inv n cl0 P acc k h)
    simpa using this

theorem class_chars_spec (n : Nat) (cl0 : List (Nat × Nat)) (h0 : KeysSorted cl0)
    (chars : List Nat) :
    CharInv n cl0 chars (chars.foldl (class_char n) (cl0, [], false)) := by
  have h : CharInv n cl0 [] (cl0, [], false) := by
    refine ⟨h0, ?_, ?_, ?_, by simp [KeysSorted], ?_, ?_, ?_, ?_⟩
    · intro x hx; simp at hx
    · intro x v hv; exact hv
    · intro x _; rfl
    · intro c S hm; simp at hm
    · intro k hk; simp at hk
    · simp
    · intro _; rfl
  simpa using class_chars_inv n cl0 chars [] _ h

/-! ## equivalence_classes: class ids are never reused -/

/-- While a byte is missing from the map, or two bytes share a class, fewer
than 256 classes have been handed out. -/
theorem cnt_room {m : List (Nat × Nat)} {n N : Nat} (h : Cnt m n N)
    (hroom : (∃ k, k < 256 ∧ map_find k m = none) ∨
      (∃ x y c, x ≠ y ∧ map_find x m = some c ∧ map_find y m = some c)) : N ≤ 256 := by
  classical
  let K : Finset Nat := (Finset.range 256).filter (fun k => (map_find k m).isSome)
  let f : Nat → Nat := fun k => (map_find k m).getD 0
  have hKmem : ∀ k v, map_find k m = some v → k ∈ K := by
    intro k v hk
    simp only [K, Finset.mem_filter, Finset.mem_range]
    exact ⟨h.byte k v hk, by simp [hk]⟩
  have hsub : (Finset.Ico 1 N).image (fun i => i % 256) ⊆ K.image f := by
    intro v hv
    obtain ⟨i, hi, rfl⟩ := Finset.mem_image.1 hv
    rw [Finset.mem_Ico] at hi
    obtain ⟨k, hk⟩ := h.full i hi.1 hi.2
    exact Finset.mem_image.2 ⟨k, hKmem k _ hk, by simp [f, hk]⟩
  have hinj : Set.InjOn (fun i => i % 256) (Finset.Ico 1 N : Finset Nat) := by
    intro i hi j hj hij
    simp only [Finset.coe_Ico, Set.mem_Ico] at hi hj
    simp only at hij
    have := h.le
    omega
  have hcardI : ((Finset.Ico 1 N).image (fun i => i % 256)).card = N - 1 := by
    rw [Finset.card_image_of_injOn hinj, Nat.card_Ico]
  have hle : N - 1 ≤ (K.image f).card := by
    rw [← hcardI]; exact Finset.card_le_card hsub
  have hK : K.card ≤ 256 := by
    have := Finset.card_le_card (Finset.filter_subset (fun k => (map_find k m).isSome)
      (Finset.range 256))
    simpa using this
  have hlt : (K.image f).card ≤ 255 := by
    rcases hroom with ⟨k0, hk0, hnone⟩ | ⟨x, y, c, hxy, hx, hy⟩
    · have hsub2 : K ⊆ (Finset.range 256).erase k0 := by
        intro k hk
        simp only [K, Finset.mem_filter, Finset.mem_range] at hk
        rw [Finset.mem_erase, Finset.mem_range]
        refine ⟨?_, hk.1⟩
        rintro rfl
        rw [hnone] at hk
        simp at hk
      have h1 := Finset.card_le_card hsub2
      rw [Finset.card_erase_of_mem (Finset.mem_range.2 hk0), Finset.card_range] at h1
      exact Nat.le_trans Finset.card_image_le h1
    · have hxK := hKmem x c hx
      have hyK := hKmem y c hy
      have heq : K.image f ⊆ (K.erase x).image f := by
        intro v hv
        obtain ⟨k, hk, rfl⟩ := Finset.mem_image.1 hv
        by_cases hkx : k = x
        · subst hkx
          refine Finset.mem_image.2 ⟨y, Finset.mem_erase.2 ⟨fun e => hxy e.symm, hyK⟩, ?_⟩
          simp [f, hx, hy]
        · exact Finset.mem_image.2 ⟨k, Finset.mem_erase.2 ⟨hkx, hk⟩, rfl⟩
      have h1 := Finset.card_le_card heq
      have h2 : ((K.erase x).image f).card ≤ (K.erase x).card := Finset.card_image_le
      rw [Finset.card_erase_of_mem hxK] at h2
      omega
  omega

theorem cnt_fresh {m : List (Nat × Nat)} {n N : Nat} (h : Cnt m n N) (hN : N ≤ 256) :
    ∀ k v, map_find k m = some v → v ≠ n := by
  intro k v hk
  obtain ⟨i, h1, h2, h3⟩ := h.used k v hk
  have := h.next
  omega

theorem reassign_find (n : Nat) (S : List Nat) : ∀ (cl : List (Nat × Nat)) (x : Nat),
    map_find x (S.foldl (fun classes l => map_put l n classes) cl) =
      if x ∈ S then some n else map_find x cl := by
  induction S with
  | nil => intro cl x; simp
  | cons l S ih =>
    intro cl x
    simp only [List.foldl_cons]
    rw [ih, map_find_put]
    by_cases h1 : x ∈ S
    · simp [h1]
    · by_cases h2 : x = l
      · simp [h1, h2]
      · simp [h1, h2]

theorem reassign_sorted (n : Nat) (S : List Nat) : ∀ (cl : List (Nat × Nat)),
    KeysSorted cl → KeysSorted (S.foldl (fun classes l => map_put l n classes) cl) := by
  induction S with
  | nil => intro cl h; exact h
  | cons l S ih =>
    intro cl h
    simp only [List.foldl_cons]
    exact ih _ (map_put_sorted _ _ _ h)

/-- A new class: every byte of `S` gets the fresh id `n`, while the old
class of a byte of `S` keeps a member outside `S`, or the bytes of `S` are
new to the map. -/
theorem cnt_alloc {m m1 : List (Nat × Nat)} {n N : Nat} {S : List Nat} (h : Cnt m n N)
    (hN : N ≤ 256) (hne : S ≠ []) (hS : ∀ x ∈ S, x < 256) (hs1 : KeysSorted m1)
    (hfind : ∀ x, map_find x m1 = if x ∈ S then some n else map_find x m)
    (hkeep : ∀ x ∈ S, ∀ c, map_find x m = some c → ∃ l, l ∉ S ∧ map_find l m = some c) :
    Cnt m1 ((n + 1) % 256) (N + 1) := by
  obtain ⟨x0, hx0⟩ := List.exists_mem_of_ne_nil S hne
  refine ⟨hs1, ?_, by omega, by omega, ?_, ?_, ?_⟩
  · have := h.next; omega
  · intro k v hk
    rw [hfind] at hk
    split_ifs at hk with hkS
    · simp only [Option.some.injEq] at hk
      exact ⟨N, h.pos, Nat.lt_succ_self _, by rw [← hk]; exact h.next⟩
    · obtain ⟨i, h1, h2, h3⟩ := h.used k v hk
      exact ⟨i, h1, Nat.lt_succ_of_lt h2, h3⟩
  · intro i h1 h2
    by_cases hiN : i = N
    · subst hiN
      exact ⟨x0, by rw [hfind]; simp [hx0, h.next]⟩
    · obtain ⟨k, hk⟩ := h.full i h1 (by omega)
      by_cases hkS : k ∈ S
      · obtain ⟨l, hl1, hl2⟩ := hkeep k hkS _ hk
        exact ⟨l, by rw [hfind]; simp [hl1, hl2]⟩
      · exact ⟨k, by rw [hfind]; simp [hkS, hk]⟩
  · intro k v hk
    rw [hfind] at hk
    split_ifs at hk with hkS
    · exact hS k hkS
    · exact h.byte k v hk

/-! ## equivalence_classes: the loop over the entries of node_classes -/

theorem class_split_inv (cl1 : List (Nat × Nat)) (chars : List Nat) (c : Nat) (S : List Nat)
    (rest : List (Nat × List Nat)) (st : ClassState)
    (hsorted : KeysSorted ((c, S) :: rest))
    (hentry : ∀ c1 S1, (c1, S1) ∈ (c, S) :: rest →
      S1 ≠ [] ∧ ∀ k, k ∈ S1 ↔ (k ∈ chars ∧ map_find k cl1 = some c1))
    (hbyte : ∀ x ∈ chars, x < 256)
    (h : SplitInv cl1 chars st ((c, S) :: rest)) :
    SplitInv cl1 chars (class_split st (c, S)) rest := by
  obtain ⟨N, hcnt⟩ := h.cnt
  have hhead : (c, S) ∈ (c, S) :: rest := List.mem_cons_self _ _
  obtain ⟨hSne, hSmem⟩ := hentry c S hhead
  have hSc : ∀ k ∈ S, map_find k st.classes = some c :=
    fun k hk => (h.untouched c S hhead k).2 ((hSmem k).1 hk).2
  have hSchars : ∀ k ∈ S, k ∈ chars := fun k hk => ((hSmem k).1 hk).1
  have hrest_ne : ∀ c1 S1, (c1, S1) ∈ rest → c1 ≠ c := by
    intro c1 S1 hm
    simp only [KeysSorted, List.map_cons, List.pairwise_cons] at hsorted
    have := hsorted.1 c1 (List.mem_map.2 ⟨(c1, S1), hm, rfl⟩)
    omega
  unfold class_split
  split_ifs with hcond
  · -- the characters of S move to the class next_class
    simp only [List.any_eq_true, Bool.and_eq_true, decide_eq_true_eq] at hcond
    obtain ⟨l, hl, hl2, hl1⟩ := hcond
    have hlc : map_find l.1 st.classes = some c := by
      rw [← hl2]; exact (mem_iff_map_find hcnt.sorted _ _).1 hl
    obtain ⟨x0, hx0⟩ := List.exists_mem_of_ne_nil S hSne
    have hN : N ≤ 256 := cnt_room hcnt (Or.inr ⟨x0, l.1, c,
      fun e => hl1 (e ▸ hx0), hSc x0 hx0, hlc⟩)
    have hfresh := cnt_fresh hcnt hN
    have hfind := reassign_find st.next_class S st.classes
    have hcnt1 : Cnt (S.foldl (fun classes l => map_put l st.next_class classes) st.classes)
        ((st.next_class + 1) % 256) (N + 1) :=
      cnt_alloc hcnt hN hSne (fun x hx => hbyte x (hSchars x hx))
        (reassign_sorted _ _ _ hcnt.sorted) hfind
        (fun x hx c1 hc1 => ⟨l.1, hl1, by
          rw [hSc x hx] at hc1
          simp only [Option.some.injEq] at hc1
          rw [← hc1]; exact hlc⟩)
    refine ⟨⟨N + 1, hcnt1⟩, ?_, ?_, ?_, ?_⟩
    · intro x
      simp only
      rw [hfind]
      by_cases hxS : x ∈ S
      · simp [hxS, ((hSmem x).1 hxS).2]
      · simp only [hxS, if_false]; exact h.keys x
    · intro c1 S1 hm k
      simp only
      rw [hfind]
      by_cases hkS : k ∈ S
      · simp only [hkS, if_true, Option.some.injEq]
        obtain ⟨hS1ne, hS1mem⟩ := hentry c1 S1 (List.mem_cons_of_mem _ hm)
        obtain ⟨k1, hk1⟩ := List.exists_mem_of_ne_nil S1 hS1ne
        have hk1c : map_find k1 st.classes = some c1 :=
          (h.untouched c1 S1 (List.mem_cons_of_mem _ hm) k1).2 ((hS1mem k1).1 hk1).2
        have hne1 : c1 ≠ st.next_class := hfresh k1 c1 hk1c
        have hne2 : c1 ≠ c := hrest_ne c1 S1 hm
        rw [((hSmem k).1 hkS).2]
        simp only [Option.some.injEq]
        constructor
        · intro e; exact absurd e.symm hne1
        · intro e; exact absurd e.symm hne2
      · simp only [hkS, if_false]
        exact h.untouched c1 S1 (List.mem_cons_of_mem _ hm) k
    · intro x y c1 hx hy
      simp only at hx hy
      rw [hfind] at hx hy
      by_cases hxS : x ∈ S
      · by_cases hyS : y ∈ S
        · exact ⟨c, ((hSmem x).1 hxS).2, ((hSmem y).1 hyS).2⟩
        · simp only [hxS, if_true, Option.some.injEq] at hx
          simp only [hyS, if_false] at hy
          exact absurd hx.symm (hfresh y c1 hy)
      · by_cases hyS : y ∈ S
        · simp only [hyS, if_true, Option.some.injEq] at hy
          simp only [hxS, if_false] at hx
          exact absurd hy.symm (hfresh x c1 hx)
        · simp only [hxS, if_false] at hx
          simp only [hyS, if_false] at hy
          exact h.finer x y c1 hx hy
    · intro x hxc hxrest y c1 hx hy
      simp only at hx hy
      rw [hfind] at hx hy
      by_cases hyS : y ∈ S
      · exact hSchars y hyS
      · simp only [hyS, if_false] at hy
        by_cases hxS : x ∈ S
        · simp only [hxS, if_true, Option.some.injEq] at hx
          exact absurd hx.symm (hfresh y c1 hy)
        · simp only [hxS, if_false] at hx
          refine h.sep x hxc ?_ y c1 hx hy
          intro c2 S2 hm
          rcases List.mem_cons.1 hm with e | hm
          · simp only [Prod.mk.injEq] at e
            rw [e.2]; exact hxS
          · exact hxrest c2 S2 hm
  · -- nothing moves
    simp only [List.any_eq_true, Bool.and_eq_true, decide_eq_true_eq, not_exists, not_and,
      not_not] at hcond
    refine ⟨⟨N, hcnt⟩, h.keys, ?_, h.finer, ?_⟩
    · intro c1 S1 hm
      exact h.untouched c1 S1 (List.mem_cons_of_mem _ hm)
    · intro x hxc hxrest y c1 hx hy
      by_cases hxS : x ∈ S
      · rw [hSc x hxS] at hx
        simp only [Option.some.injEq] at hx
        subst hx
        exact hSchars y (hcond (y, c) (map_find_some_mem hy) rfl)
      · refine h.sep x hxc ?_ y c1 hx hy
        intro c2 S2 hm
        rcases List.mem_cons.1 hm with e | hm
        · simp only [Prod.mk.injEq] at e
          rw [e.2]; exact hxS
        · exact hxrest c2 S2 hm

theorem class_splits_inv (cl1 : List (Nat × Nat)) (chars : List Nat)
    (hbyte : ∀ x ∈ chars, x < 256) : ∀ (todo : List (Nat × List Nat)) (st : ClassState),
    KeysSorted todo →
    (∀ c1 S1, (c1, S1) ∈ todo →
      S1 ≠ [] ∧ ∀ k, k ∈ S1 ↔ (k ∈ chars ∧ map_find k cl1 = some c1)) →
    SplitInv cl1 chars st todo → SplitInv cl1 chars (todo.foldl class_split st) [] := by
  intro todo
  induction todo with
  | nil => intro st _ _ h; exact h
  | cons e todo ih =>
    intro st hsorted hentry h
    obtain ⟨c, S⟩ := e
    simp only [List.foldl_cons]
    apply ih
    · simp only [KeysSorted, List.map_cons, List.pairwise_cons] at hsorted
      exact hsorted.2
    · intro c1 S1 hm
      exact hentry c1 S1 (List.mem_cons_of_mem _ hm)
    · exact class_split_inv cl1 chars c S todo st hsorted hentry hbyte h

/-! ## equivalence_classes: one group, one state, all states -/

theorem class_group_eq (st : ClassState) (chars : List Nat) :
    class_group st chars =
      (chars.foldl (class_char st.next_class) (st.classes, [], false)).2.1.foldl class_split
        ⟨(chars.foldl (class_char st.next_class) (st.classes, [], false)).1,
          if (chars.foldl (class_char st.next_class) (st.classes, [], false)).2.2 then
            (st.next_class + 1) % 256 else st.next_class⟩ := rfl

theorem class_group_inv (st : ClassState) (groups : List (List Nat)) (chars : List Nat)
    (h : ClassInv st groups) (hbyte : ∀ x ∈ chars, x < 256) :
    ClassInv (class_group st chars) (groups ++ [chars]) := by
  obtain ⟨N, hcnt⟩ := h.cnt
  have hci := class_chars_spec st.next_class st.classes hcnt.sorted chars
  rw [class_group_eq]
  generalize chars.foldl (class_char st.next_class) (st.classes, [], false) = r at hci
  obtain ⟨cl1, nc, used⟩ := r
  have h1 := hci.sorted_cl
  have h2 := hci.fresh
  have h3 := hci.old
  have h4 := hci.out
  have h5 := hci.sorted_nc
  have h6 := hci.entry
  have h7 := hci.complete
  have h8 := hci.used
  have h9 := hci.same
  simp only at h1 h2 h3 h4 h5 h6 h7 h8 h9 ⊢
  have hstart : (∃ N1, Cnt cl1 (if used = true then (st.next_class + 1) % 256
        else st.next_class) N1) ∧
      (∀ x y c, map_find x cl1 = some c → map_find y cl1 = some c →
        (∃ c0, map_find x st.classes = some c0 ∧ map_find y st.classes = some c0) ∨
        (map_find x st.classes = none ∧ map_find y st.classes = none)) := by
    by_cases hused : ∃ k ∈ chars, map_find k st.classes = none
    · have hu : used = true := h8.2 hused
      obtain ⟨k0, hk0, hk0n⟩ := hused
      have hN : N ≤ 256 := cnt_room hcnt (Or.inl ⟨k0, hbyte k0 hk0, hk0n⟩)
      have hfresh := cnt_fresh hcnt hN
      have hfind : ∀ x, map_find x cl1 =
          if x ∈ chars.filter (fun x => (map_find x st.classes).isNone) then
            some st.next_class else map_find x st.classes := by
        intro x
        by_cases hx : x ∈ chars
        · cases hx0 : map_find x st.classes with
          | none => simp [hx, hx0, h2 x hx hx0]
          | some v => simp [hx0, h3 x v hx0]
        · simp [hx, h4 x hx]
      refine ⟨⟨N + 1, ?_⟩, ?_⟩
      · simp only [hu, if_true]
        refine cnt_alloc hcnt hN ?_ ?_ h1 hfind ?_
        · intro hnil
          have : k0 ∈ chars.filter (fun x => (map_find x st.classes).isNone) :=
            List.mem_filter.2 ⟨hk0, by simp [hk0n]⟩
          rw [hnil] at this
          simp at this
        · intro x hx; exact hbyte x (List.mem_filter.1 hx).1
        · intro x hx c hc
          have := (List.mem_filter.1 hx).2
          rw [hc] at this
          simp at this
      · intro x y c hx hy
        cases hx0 : map_find x st.classes with
        | some vx =>
          cases hy0 : map_find y st.classes with
          | some vy =>
            left
            rw [h3 x vx hx0] at hx
            rw [h3 y vy hy0] at hy
            simp only [Option.some.injEq] at hx hy
            exact ⟨c, by rw [hx], by rw [hy]⟩
          | none =>
            exfalso
            rw [h3 x vx hx0] at hx
            simp only [Option.some.injEq] at hx
            have hyc : y ∈ chars := by
              by_contra hyn
              rw [h4 y hyn, hy0] at hy
              simp at hy
            rw [h2 y hyc hy0] at hy
            simp only [Option.some.injEq] at hy
            exact hfresh x vx hx0 (hx.trans hy.symm)
        | none =>
          cases hy0 : map_find y st.classes with
          | some vy =>
            exfalso
            rw [h3 y vy hy0] at hy
            simp only [Option.some.injEq] at hy
            have hxc : x ∈ chars := by
              by_contra hxn
              rw [h4 x hxn, hx0] at hx
              simp at hx
            rw [h2 x hxc hx0] at hx
            simp only [Option.some.injEq] at hx
            exact hfresh y vy hy0 (hy.trans hx.symm)
          | none => exact Or.inr ⟨rfl, rfl⟩
    · have hu : used = false := by
        cases hused1 : used with
        | false => rfl
        | true => exact absurd (h8.1 hused1) hused
      have hall : ∀ k ∈ chars, (map_find k st.classes).isSome := by
        intro k hk
        cases hk0 : map_find k st.classes with
        | none => exact absurd ⟨k, hk, hk0⟩ hused
        | some v => rfl
      have hcl : cl1 = st.classes := h9 hall
      subst hcl
      refine ⟨⟨N, by simpa [hu] using hcnt⟩, ?_⟩
      intro x y c hx hy
      exact Or.inl ⟨c, hx, hy⟩
  obtain ⟨hcnt1, href1⟩ := hstart
  have hsplit0 : SplitInv cl1 chars
      ⟨cl1, if used = true then (st.next_class + 1) % 256 else st.next_class⟩ nc := by
    refine ⟨hcnt1, fun _ => Iff.rfl, fun _ _ _ _ => Iff.rfl, fun x y c hx hy => ⟨c, hx, hy⟩, ?_⟩
    intro x hx hno
    exfalso
    obtain ⟨c, S, hc, hS⟩ := h7 x hx
    exact hno c S hS (((h6 c S hS).2 x).2 ⟨hx, hc⟩)
  have hfinal := class_splits_inv cl1 chars hbyte nc _ h5 h6 hsplit0
  generalize nc.foldl class_split
    ⟨cl1, if used = true then (st.next_class + 1) % 256 else st.next_class⟩ = fin at hfinal
  have hnone : ∀ c S, (c, S) ∈ ([] : List (Nat × List Nat)) → ∀ x : Nat, x ∉ S := by
    intro c S hm; simp at hm
  refine ⟨hfinal.cnt, ?_, ?_⟩
  · intro S hS x hx
    rw [hfinal.keys]
    rcases List.mem_append.1 hS with hS | hS
    · have := h.covered S hS x hx
      cases hx0 : map_find x st.classes with
      | none => rw [hx0] at this; simp at this
      | some v => rw [h3 x v hx0]; rfl
    · rw [List.mem_singleton] at hS
      subst hS
      obtain ⟨c, _, hc, _⟩ := h7 x hx
      rw [hc]; rfl
  · intro x y c hx hy S hS
    rcases List.mem_append.1 hS with hS | hS
    · obtain ⟨c1, hx1, hy1⟩ := hfinal.finer x y c hx hy
      rcases href1 x y c1 hx1 hy1 with ⟨c0, hx0, hy0⟩ | ⟨hx0, hy0⟩
      · exact h.sound x y c0 hx0 hy0 S hS
      · have hxS : x ∉ S := by
          intro hxS
          have := h.covered S hS x hxS
          rw [hx0] at this
          simp at this
        have hyS : y ∉ S := by
          intro hyS
          have := h.covered S hS y hyS
          rw [hy0] at this
          simp at this
        simp [hxS, hyS]
    · rw [List.mem_singleton] at hS
      subst hS
      exact ⟨fun hxS => hfinal.sep x hxS (fun c1 S1 hm => hnone c1 S1 hm x) y c hx hy,
        fun hyS => hfinal.sep y hyS (fun c1 S1 hm => hnone c1 S1 hm y) x c hy hx⟩

theorem class_groups_inv : ∀ (more : List (List Nat)) (st : ClassState)
    (groups : List (List Nat)), ClassInv st groups → (∀ S ∈ more, ∀ x ∈ S, x < 256) →
    ClassInv (more.foldl class_group st) (groups ++ more) := by
  intro more
  induction more with
  | nil => intro st groups h _; simpa using h
  | cons S more ih =>
    intro st groups h hb
    have h1 := class_group_inv st groups S h (hb S (List.mem_cons_self _ _))
    have h2 := ih (class_group st S) (groups ++ [S]) h1
      (fun S1 hS1 => hb S1 (List.mem_cons_of_mem _ hS1))
    simpa using h2

theorem class_states_inv (d : DFA) : ∀ (states : List StateRef) (st : ClassState)
    (groups : List (List Nat)), ClassInv st groups →
    (∀ S ∈ all_groups d states, ∀ x ∈ S, x < 256) →
    ClassInv (states.foldl (fun st i => class_state st (d.heap i)) st)
      (groups ++ all_groups d states) := by
  intro states
  induction states with
  | nil => intro st groups h _; simpa [all_groups] using h
  | cons s states ih =>
    intro st groups h hb
    have hb1 : ∀ S ∈ (group_edges (d.heap s).cases).map Prod.snd, ∀ x ∈ S, x < 256 := by
      intro S hS
      exact hb S (by simp only [all_groups, List.flatMap_cons]; exact List.mem_append_left _ hS)
    have hb2 : ∀ S ∈ all_groups d states, ∀ x ∈ S, x < 256 := by
      intro S hS
      exact hb S (by
        simp only [all_groups, List.flatMap_cons]
        exact List.mem_append_right _ hS)
    have h1 := class_groups_inv _ st groups h hb1
    have h2 := ih (class_state st (d.heap s)) _ h1 hb2
    simp only [List.foldl_cons]
    simpa [all_groups, class_state] using h2

theorem mem_all_groups {d : DFA} {states : List StateRef} {S : List Nat} :
    S ∈ all_groups d states ↔
      ∃ s ∈ states, ∃ t, (t, S) ∈ group_edges (d.heap s).cases := by
  simp only [all_groups, List.mem_flatMap, List.mem_map]
  constructor
  · rintro ⟨s, hs, ⟨t, S1⟩, hm, rfl⟩
    exact ⟨s, hs, t, hm⟩
  · rintro ⟨s, hs, t, hm⟩
    exact ⟨s, hs, (t, S), hm, rfl⟩

/-- The invariant of `equivalence_classes` at its end. -/
theorem equivalence_classes_inv (d : DFA) (hwt : d.WellTyped) :
    ClassInv d.equivalence_classes_state (all_groups d d.states) := by
  have h0 : ClassInv ⟨[], 1⟩ [] := by
    refine ⟨⟨1, ?_⟩, ?_, ?_⟩
    · refine ⟨by simp [KeysSorted], rfl, Nat.le_refl _, by omega, ?_, ?_, ?_⟩
      · intro k v h; simp [map_find] at h
      · intro i h1 h2; omega
      · intro k v h; simp [map_find] at h
    · intro S hS; simp at hS
    · intro x y c hx; simp [map_find] at hx
  have := class_states_inv d d.states ⟨[], 1⟩ [] h0 (by
    intro S hS x hx
    obtain ⟨s, hs, t, hm⟩ := mem_all_groups.1 hS
    have hxt := ((group_edges_spec (d.heap s).cases).2.1 t S hm).2 x
    have hmem : (x, t) ∈ (d.heap s).cases := hxt.1 hx
    exact (hwt.2.2.2 s hs).2.1 x (List.mem_map.2 ⟨(x, t), hmem, rfl⟩))
  simpa [DFA.equivalence_classes_state] using this

/-! ## equivalence_classes: bytes that no group separates stay together -/

theorem class_split_agree (a b : Nat) (st : ClassState) (e : Nat × List Nat)
    (hs : KeysSorted st.classes) (hag : map_find a st.classes = map_find b st.classes)
    (hiff : a ∈ e.2 ↔ b ∈ e.2) :
    map_find a (class_split st e).classes = map_find b (class_split st e).classes ∧
    KeysSorted (class_split st e).classes := by
  unfold class_split
  split_ifs with hcond
  · simp only
    rw [reassign_find, reassign_find]
    refine ⟨?_, reassign_sorted _ _ _ hs⟩
    by_cases ha : a ∈ e.2
    · simp [ha, hiff.1 ha]
    · have hb : b ∉ e.2 := fun h => ha (hiff.2 h)
      simp [ha, hb, hag]
  · exact ⟨hag, hs⟩

theorem class_splits_agree (a b : Nat) : ∀ (todo : List (Nat × List Nat)) (st : ClassState),
    KeysSorted st.classes → map_find a st.classes = map_find b st.classes →
    (∀ e ∈ todo, (a ∈ e.2 ↔ b ∈ e.2)) →
    map_find a (todo.foldl class_split st).classes =
      map_find b (todo.foldl class_split st).classes ∧
    KeysSorted (todo.foldl class_split st).classes := by
  intro todo
  induction todo with
  | nil => intro st hs hag _; exact ⟨hag, hs⟩
  | cons e todo ih =>
    intro st hs hag hiff
    obtain ⟨h1, h2⟩ := class_split_agree a b st e hs hag (hiff e (List.mem_cons_self _ _))
    simp only [List.foldl_cons]
    exact ih _ h2 h1 (fun e1 he1 => hiff e1 (List.mem_cons_of_mem _ he1))

theorem class_group_agree (a b : Nat) (st : ClassState) (chars : List Nat)
    (hs : KeysSorted st.classes) (hag : map_find a st.classes = map_find b st.classes)
    (hiff : a ∈ chars ↔ b ∈ chars) :
    map_find a (class_group st chars).classes = map_find b (class_group st chars).classes ∧
    KeysSorted (class_group st chars).classes := by
  have hci := class_chars_spec st.next_class st.classes hs chars
  rw [class_group_eq]
  generalize chars.foldl (class_char st.next_class) (st.classes, [], false) = r at hci
  obtain ⟨cl1, nc, used⟩ := r
  have h1 := hci.sorted_cl
  have h2 := hci.fresh
  have h3 := hci.old
  have h4 := hci.out
  have h6 := hci.entry
  simp only at h1 h2 h3 h4 h6 ⊢
  have hag1 : map_find a cl1 = map_find b cl1 := by
    by_cases ha : a ∈ chars
    · have hb := hiff.1 ha
      cases ha0 : map_find a st.classes with
      | none =>
        have hb0 : map_find b st.classes = none := by rw [← hag]; exact ha0
        rw [h2 a ha ha0, h2 b hb hb0]
      | some v =>
        have hb0 : map_find b st.classes = some v := by rw [← hag]; exact ha0
        rw [h3 a v ha0, h3 b v hb0]
    · have hb : b ∉ chars := fun h => ha (hiff.2 h)
      rw [h4 a ha, h4 b hb, hag]
  apply class_splits_agree a b nc _ h1 hag1
  intro e he
  obtain ⟨c, S⟩ := e
  have := (h6 c S he).2
  simp only
  rw [this a, this b, hag1]
  constructor
  · rintro ⟨ha, hc⟩; exact ⟨hiff.1 ha, hc⟩
  · rintro ⟨hb, hc⟩; exact ⟨hiff.2 hb, hc⟩

theorem class_groups_agree (a b : Nat) : ∀ (groups : List (List Nat)) (st : ClassState),
    KeysSorted st.classes → map_find a st.classes = map_find b st.classes →
    (∀ S ∈ groups, (a ∈ S ↔ b ∈ S)) →
    map_find a (groups.foldl class_group st).classes =
      map_find b (groups.foldl class_group st).classes ∧
    KeysSorted (groups.foldl class_group st).classes := by
  intro groups
  induction groups with
  | nil => intro st hs hag _; exact ⟨hag, hs⟩
  | cons S groups ih =>
    intro st hs hag hiff
    obtain ⟨h1, h2⟩ := class_group_agree a b st S hs hag (hiff S (List.mem_cons_self _ _))
    simp only [List.foldl_cons]
    exact ih _ h2 h1 (fun S1 hS1 => hiff S1 (List.mem_cons_of_mem _ hS1))

theorem class_states_agree (a b : Nat) (d : DFA) : ∀ (states : List StateRef)
    (st : ClassState), KeysSorted st.classes →
    map_find a st.classes = map_find b st.classes →
    (∀ S ∈ all_groups d states, (a ∈ S ↔ b ∈ S)) →
    map_find a (states.foldl (fun st i => class_state st (d.heap i)) st).classes =
      map_find b (states.foldl (fun st i => class_state st (d.heap i)) st).classes ∧
    KeysSorted (states.foldl (fun st i => class_state st (d.heap i)) st).classes := by
  intro states
  induction states with
  | nil => intro st hs hag _; exact ⟨hag, hs⟩
  | cons s states ih =>
    intro st hs hag hiff
    obtain ⟨h1, h2⟩ := class_groups_agree a b ((group_edges (d.heap s).cases).map Prod.snd)
      st hs hag (fun S hS => hiff S (by
        simp only [all_groups, List.flatMap_cons]; exact List.mem_append_left _ hS))
    simp only [List.foldl_cons]
    exact ih _ h2 h1 (fun S hS => hiff S (by
      simp only [all_groups, List.flatMap_cons]; exact List.mem_append_right _ hS))

/-- Two bytes that are together in or together out of every group get the
same entry in the class map. -/
theorem equivalence_classes_agree (d : DFA) (a b : Nat)
    (h : ∀ S ∈ all_groups d d.states, (a ∈ S ↔ b ∈ S)) :
    map_find a d.equivalence_classes = map_find b d.equivalence_classes :=
  (class_states_agree a b d d.states ⟨[], 1⟩ (by simp [KeysSorted]) rfl h).1

/-- Two bytes of the same class are together in or together out of every
group of every state. -/
theorem equivalence_classes_sound (d : DFA) (hwt : d.WellTyped) (a b c : Nat)
    (ha : map_find a d.equivalence_classes = some c)
    (hb : map_find b d.equivalence_classes = some c) :
    ∀ S ∈ all_groups d d.states, (a ∈ S ↔ b ∈ S) :=
  (equivalence_classes_inv d hwt).sound a b c ha hb

theorem explicit_of_group {d : DFA} (hwt : d.WellTyped) {s : StateRef} (hs : s ∈ d.states)
    {a : Nat} {t : StateRef} :
    map_find a (d.heap s).cases = some t ↔
      ∃ S, (t, S) ∈ group_edges (d.heap s).cases ∧ a ∈ S := by
  obtain ⟨_, g2, g3⟩ := group_edges_spec (d.heap s).cases
  have hsorted : KeysSorted (d.heap s).cases := (hwt.2.2.2 s hs).1
  constructor
  · intro h
    have hm := map_find_some_mem h
    obtain ⟨S, hS⟩ := g3 (a, t) hm
    exact ⟨S, hS, ((g2 t S hS).2 a).2 hm⟩
  · rintro ⟨S, hS, haS⟩
    exact (mem_iff_map_find hsorted a t).1 (((g2 t S hS).2 a).1 haS)

/-- Bytes that the class map does not tell apart have the same target in
every state. -/
theorem target_eq_of_groups {d : DFA} (hwt : d.WellTyped) {a b : Nat}
    (h : ∀ S ∈ all_groups d d.states, (a ∈ S ↔ b ∈ S)) {s : StateRef} (hs : s ∈ d.states) :
    (d.heap s).target a = (d.heap s).target b := by
  have key : ∀ x y : Nat, (∀ S ∈ all_groups d d.states, (x ∈ S ↔ y ∈ S)) → ∀ t,
      map_find x (d.heap s).cases = some t → map_find y (d.heap s).cases = some t := by
    intro x y hxy t hx
    obtain ⟨S, hS, hxS⟩ := (explicit_of_group hwt hs).1 hx
    exact (explicit_of_group hwt hs).2
      ⟨S, hS, (hxy S (mem_all_groups.2 ⟨s, hs, t, hS⟩)).1 hxS⟩
  unfold State.target
  cases ha : map_find a (d.heap s).cases with
  | some t => rw [key a b h t ha]
  | none =>
    cases hb : map_find b (d.heap s).cases with
    | some t =>
      rw [key b a (fun S hS => (h S hS).symm) t hb] at ha
      simp at ha
    | none => rfl

/-- Under I4, bytes with the same target in every state are together in or
together out of every group. -/
theorem groups_of_target_eq {d : DFA} (hwt : d.WellTyped) (hi4 : d.NoCoveredEdge) {a b : Nat}
    (h : ∀ s ∈ d.states, (d.heap s).target a = (d.heap s).target b) :
    ∀ S ∈ all_groups d d.states, (a ∈ S ↔ b ∈ S) := by
  have key : ∀ x y : Nat, (∀ s ∈ d.states, (d.heap s).target x = (d.heap s).target y) →
      ∀ S ∈ all_groups d d.states, x ∈ S → y ∈ S := by
    intro x y hxy S hS hxS
    obtain ⟨s, hs, t, hm⟩ := mem_all_groups.1 hS
    have hx : map_find x (d.heap s).cases = some t := (explicit_of_group hwt hs).2 ⟨S, hm, hxS⟩
    have ht := hxy s hs
    simp only [State.target, hx] at ht
    cases hy : map_find y (d.heap s).cases with
    | some t1 =>
      simp only [hy, Option.some.injEq] at ht
      subst ht
      obtain ⟨S1, hS1, hyS1⟩ := (explicit_of_group hwt hs).1 hy
      have hsorted := (group_edges_spec (d.heap s).cases).1
      have e1 := (mem_iff_map_find hsorted _ _).1 hm
      have e2 := (mem_iff_map_find hsorted _ _).1 hS1
      rw [e1] at e2
      simp only [Option.some.injEq] at e2
      rw [e2]; exact hyS1
    | none =>
      simp only [hy] at ht
      exact absurd ht.symm (hi4 s hs (x, t) (map_find_some_mem hx))
  intro S hS
  exact ⟨key a b h S hS, key b a (fun s hs => (h s hs).symm) S hS⟩

/-! ## Claims on equivalence_classes and apply_equivalence_classes -/

/-- Claim C8 fails as stated.  In `dfa_explicit_default` the bytes `a` and
`c` both occur in the class map and go to the same target in every state
(in `start` the byte `a` by its explicit entry, the byte `c` by the default),
and `equivalence_classes` gives them the classes 1 and 2. -/
theorem equivalence_classes_splits_same_targets :
    dfa_explicit_default.WellTyped ∧ dfa_explicit_default.Closed ∧
    dfa_explicit_default.equivalence_classes = [(97, 1), (99, 2)] ∧
    ∀ s ∈ dfa_explicit_default.states,
      (dfa_explicit_default.heap s).target 97 = (dfa_explicit_default.heap s).target 99 := by
  decide

/-- Claim C8, as amended.  For every DFA and any two bytes that both occur
in the map returned by `equivalence_classes`: if they are mapped to the same
class id then in every state they have the same target; and when no explicit
entry of a state targets the state's default target (I4), they are mapped to
the same class id if and only if in every state they have the same target.
A byte without an explicit entry takes the state's default target. -/
theorem equivalence_classes_same_class_iff (d : DFA) (hwt : d.WellTyped) (a b ca cb : Nat)
    (ha : map_find a d.equivalence_classes = some ca)
    (hb : map_find b d.equivalence_classes = some cb) :
    (ca = cb → ∀ s ∈ d.states, (d.heap s).target a = (d.heap s).target b) ∧
    (d.NoCoveredEdge →
      (ca = cb ↔ ∀ s ∈ d.states, (d.heap s).target a = (d.heap s).target b)) := by
  have hfwd : ca = cb → ∀ s ∈ d.states, (d.heap s).target a = (d.heap s).target b := by
    intro hc s hs
    subst hc
    exact target_eq_of_groups hwt (equivalence_classes_sound d hwt a b ca ha hb) hs
  refine ⟨hfwd, fun hi4 => ⟨hfwd, ?_⟩⟩
  intro ht
  have := equivalence_classes_agree d a b (groups_of_target_eq hwt hi4 ht)
  rw [ha, hb] at this
  simpa using this

/-- Witness of `equivalence_classes_same_class_iff` on `dfa_three_bytes`,
where the bytes `a` and `b` share the class 1. -/
theorem equivalence_classes_same_class_iff_witness :
    dfa_three_bytes.WellTyped ∧
    map_find 97 dfa_three_bytes.equivalence_classes = some 1 ∧
    map_find 98 dfa_three_bytes.equivalence_classes = some 1 ∧
    ((1 = 1 → ∀ s ∈ dfa_three_bytes.states,
        (dfa_three_bytes.heap s).target 97 = (dfa_three_bytes.heap s).target 98) ∧
      (dfa_three_bytes.NoCoveredEdge →
        ((1 = 1) ↔ ∀ s ∈ dfa_three_bytes.states,
          (dfa_three_bytes.heap s).target 97 = (dfa_three_bytes.heap s).target 98))) :=
  ⟨by decide, by decide, by decide,
    equivalence_classes_same_class_iff dfa_three_bytes (by decide) 97 98 1 1
      (by decide) (by decide)⟩

theorem apply_cases_find (eq : List (Nat × Nat)) : ∀ (rem done : List (Nat × StateRef))
    (T : List (Nat × StateRef)),
    ((∀ c t, map_find c T = some t → ∃ j ∈ done, (map_find j.1 eq).getD 0 = c ∧ j.2 = t) ∧
      (∀ j ∈ done, (map_find ((map_find j.1 eq).getD 0) T).isSome)) →
    ((∀ c t, map_find c (rem.foldl
        (fun cases j => map_insert ((map_find j.1 eq).getD 0) j.2 cases) T) = some t →
        ∃ j ∈ done ++ rem, (map_find j.1 eq).getD 0 = c ∧ j.2 = t) ∧
      (∀ j ∈ done ++ rem, (map_find ((map_find j.1 eq).getD 0) (rem.foldl
        (fun cases j => map_insert ((map_find j.1 eq).getD 0) j.2 cases) T)).isSome)) := by
  intro rem
  induction rem with
  | nil => intro done T h; simpa using h
  | cons j rem ih =>
    intro done T h
    obtain ⟨h1, h2⟩ := h
    simp only [List.foldl_cons]
    have := ih (done ++ [j]) (map_insert ((map_find j.1 eq).getD 0) j.2 T) (by
      constructor
      · intro c t hc
        by_cases hcj : c = (map_find j.1 eq).getD 0
        · subst hcj
          rw [map_find_insert_self] at hc
          simp only [Option.some.injEq] at hc
          cases hT : map_find ((map_find j.1 eq).getD 0) T with
          | none =>
            rw [hT] at hc
            simp only [Option.getD_none] at hc
            exact ⟨j, List.mem_append_right _ (List.mem_singleton.2 rfl), rfl, hc⟩
          | some t1 =>
            rw [hT] at hc
            simp only [Option.getD_some] at hc
            subst hc
            obtain ⟨j1, hj1, e1, e2⟩ := h1 _ _ hT
            exact ⟨j1, List.mem_append_left _ hj1, e1, e2⟩
        · rw [map_find_insert_ne _ _ hcj] at hc
          obtain ⟨j1, hj1, e1, e2⟩ := h1 c t hc
          exact ⟨j1, List.mem_append_left _ hj1, e1, e2⟩
      · intro j1 hj1
        by_cases hcj : (map_find j1.1 eq).getD 0 = (map_find j.1 eq).getD 0
        · rw [hcj, map_find_insert_self]; rfl
        · rw [map_find_insert_ne _ _ hcj]
          rcases List.mem_append.1 hj1 with hd | he
          · exact h2 j1 hd
          · rw [List.mem_singleton] at he
            subst he
            exact absurd rfl hcj)
    simpa using this

theorem apply_cases_spec (eq : List (Nat × Nat)) (cases : List (Nat × StateRef)) :
    (∀ c t, map_find c (apply_cases eq cases) = some t →
      ∃ j ∈ cases, (map_find j.1 eq).getD 0 = c ∧ j.2 = t) ∧
    (∀ j ∈ cases, (map_find ((map_find j.1 eq).getD 0) (apply_cases eq cases)).isSome) := by
  have := apply_cases_find eq cases [] [] (by
    constructor
    · intro c t h; simp [map_find] at h
    · intro j hj; simp at hj)
  simpa [apply_cases] using this

theorem apply_fold_heap (eq : List (Nat × Nat)) : ∀ (l : List StateRef) (d0 : DFA), l.Nodup →
    (∀ s ∈ l, ((l.foldl (fun d1 i => d1.modify i
        (fun s => { s with cases := apply_cases eq s.cases })) d0).heap s).cases =
          apply_cases eq (d0.heap s).cases) ∧
    (∀ s, ((l.foldl (fun d1 i => d1.modify i
        (fun s => { s with cases := apply_cases eq s.cases })) d0).heap s).otherwise =
          (d0.heap s).otherwise) ∧
    (∀ s, s ∉ l → (l.foldl (fun d1 i => d1.modify i
        (fun s => { s with cases := apply_cases eq s.cases })) d0).heap s = d0.heap s) := by
  intro l
  induction l with
  | nil => intro d0 _; simp
  | cons i l ih =>
    intro d0 hnd
    obtain ⟨hil, hnd1⟩ := List.nodup_cons.1 hnd
    obtain ⟨h1, h2, h3⟩ :=
      ih (d0.modify i (fun s => { s with cases := apply_cases eq s.cases })) hnd1
    simp only [List.foldl_cons]
    refine ⟨?_, ?_, ?_⟩
    · intro s hs
      rcases List.mem_cons.1 hs with rfl | hs
      · rw [h3 s hil]
        simp [DFA.modify]
      · rw [h1 s hs]
        have hne : s ≠ i := fun e => hil (e ▸ hs)
        simp [DFA.modify, hne]
    · intro s
      rw [h2 s]
      simp only [DFA.modify]
      split_ifs <;> rfl
    · intro s hs
      simp only [List.mem_cons, not_or] at hs
      rw [h3 s hs.2]
      simp [DFA.modify, hs.1]

/-- Claim C9.  Let `eq` be the map returned by `equivalence_classes` on a
DFA.  After `apply_equivalence_classes(eq)`, for every state and every byte
`b` that is a key of `eq`, looking up `eq[b]` in the rewritten table gives
what looking up `b` gave in the original table (the same target, or no entry
in both), and the default transition of every state is unchanged. -/
theorem apply_equivalence_classes_lookup (d : DFA) (hwt : d.WellTyped) (b c : Nat)
    (hb : map_find b d.equivalence_classes = some c) :
    (∀ s ∈ d.states,
      map_find c ((d.apply_equivalence_classes d.equivalence_classes).heap s).cases =
        map_find b (d.heap s).cases) ∧
    (∀ s, ((d.apply_equivalence_classes d.equivalence_classes).heap s).otherwise =
      (d.heap s).otherwise) := by
  obtain ⟨h1, h2, _⟩ := apply_fold_heap d.equivalence_classes d.states d hwt.1
  refine ⟨?_, h2⟩
  intro s hs
  have hheap : ((d.apply_equivalence_classes d.equivalence_classes).heap s).cases =
      apply_cases d.equivalence_classes (d.heap s).cases := h1 s hs
  rw [hheap]
  obtain ⟨p1, p2⟩ := apply_cases_spec d.equivalence_classes (d.heap s).cases
  have hinv := equivalence_classes_inv d hwt
  have hsorted : KeysSorted (d.heap s).cases := (hwt.2.2.2 s hs).1
  have key : ∀ j ∈ (d.heap s).cases, (map_find j.1 d.equivalence_classes).getD 0 = c →
      map_find b (d.heap s).cases = some j.2 := by
    intro j hj hjc
    have hjf : map_find j.1 (d.heap s).cases = some j.2 :=
      (mem_iff_map_find hsorted j.1 j.2).1 hj
    obtain ⟨S, hS, hjS⟩ := (explicit_of_group hwt hs).1 hjf
    have hSall : S ∈ all_groups d d.states := mem_all_groups.2 ⟨s, hs, j.2, hS⟩
    have hcov := hinv.covered S hSall j.1 hjS
    have hjclass : map_find j.1 d.equivalence_classes = some c := by
      cases hq : map_find j.1 d.equivalence_classes with
      | none =>
        have : (map_find j.1 d.equivalence_classes_state.classes).isSome := hcov
        rw [show d.equivalence_classes_state.classes = d.equivalence_classes from rfl, hq] at this
        simp at this
      | some v =>
        rw [hq] at hjc
        simp only [Option.getD_some] at hjc
        rw [hjc]
    have hiff := equivalence_classes_sound d hwt j.1 b c hjclass hb S hSall
    exact (explicit_of_group hwt hs).2 ⟨S, hS, hiff.1 hjS⟩
  cases hT : map_find c (apply_cases d.equivalence_classes (d.heap s).cases) with
  | some t =>
    obtain ⟨j, hj, hjc, hjt⟩ := p1 c t hT
    rw [key j hj hjc, hjt]
  | none =>
    cases hbf : map_find b (d.heap s).cases with
    | none => rfl
    | some t =>
      exfalso
      have := p2 (b, t) (map_find_some_mem hbf)
      simp only [hb, Option.getD_some, hT] at this
      simp at this

/-- Witness of `apply_equivalence_classes_lookup` on `dfa_three_bytes`: the
byte `b` has the class 1. -/
theorem apply_equivalence_classes_lookup_witness :
    dfa_three_bytes.WellTyped ∧
    map_find 98 dfa_three_bytes.equivalence_classes = some 1 ∧
    (∀ s ∈ dfa_three_bytes.states,
      map_find 1 ((dfa_three_bytes.apply_equivalence_classes
          dfa_three_bytes.equivalence_classes).heap s).cases =
        map_find 98 (dfa_three_bytes.heap s).cases) ∧
    (∀ s, ((dfa_three_bytes.apply_equivalence_classes
        dfa_three_bytes.equivalence_classes).heap s).otherwise =
      (dfa_three_bytes.heap s).otherwise) :=
  ⟨by decide, by decide,
    apply_equivalence_classes_lookup dfa_three_bytes (by decide) 98 1 (by decide)⟩

theorem map_find_rename {β : Type} (sigma : Nat → Nat) (hinj : Function.Injective sigma)
    (t : Nat) (m : List (Nat × β)) :
    map_find (sigma t) (m.map (fun g => (sigma g.1, g.2))) = map_find t m := by
  induction m with
  | nil => rfl
  | cons p m ih =>
    obtain ⟨k1, v1⟩ := p
    simp only [List.map_cons, map_find, ih]
    by_cases h : t = k1
    · simp [h]
    · have : sigma t ≠ sigma k1 := fun e => h (hinj e)
      simp [h, this]

theorem map_put_rename {β : Type} (sigma : Nat → Nat) (hmono : StrictMono sigma)
    (t : Nat) (v : β) (m : List (Nat × β)) :
    map_put (sigma t) v (m.map (fun g => (sigma g.1, g.2))) =
      (map_put t v m).map (fun g => (sigma g.1, g.2)) := by
  induction m with
  | nil => rfl
  | cons p m ih =>
    obtain ⟨k1, v1⟩ := p
    simp only [List.map_cons, map_put]
    by_cases h1 : t < k1
    · have : sigma t < sigma k1 := hmono h1
      simp [h1, this]
    · by_cases h2 : t = k1
      · subst h2
        simp
      · have h3 : ¬ sigma t < sigma k1 := fun h => h1 (hmono.lt_iff_lt.1 h)
        have h4 : sigma t ≠ sigma k1 := fun e => h2 (hmono.injective e)
        simp [h1, h2, h3, h4, ih]

theorem group_edges_rename (sigma : Nat → Nat) (hmono : StrictMono sigma)
    (cases : List (Nat × StateRef)) :
    group_edges (cases.map (fun j => (j.1, sigma j.2))) =
      (group_edges cases).map (fun g => (sigma g.1, g.2)) := by
  have key : ∀ (rem : List (Nat × StateRef)) (ns : List (StateRef × List Nat)),
      (rem.map (fun j => (j.1, sigma j.2))).foldl
        (fun node_sets j =>
          map_put j.2 (set_insert j.1 ((map_find j.2 node_sets).getD [])) node_sets)
        (ns.map (fun g => (sigma g.1, g.2))) =
      (rem.foldl
        (fun node_sets j =>
          map_put j.2 (set_insert j.1 ((map_find j.2 node_sets).getD [])) node_sets)
        ns).map (fun g => (sigma g.1, g.2)) := by
    intro rem
    induction rem with
    | nil => intro ns; rfl
    | cons j rem ih =>
      intro ns
      simp only [List.map_cons, List.foldl_cons]
      rw [map_find_rename sigma hmono.injective, map_put_rename sigma hmono, ih]
  exact key cases []

theorem foldl_congr_mem {α β : Type} (f g : α → β → α) : ∀ (l : List β) (a : α),
    (∀ x ∈ l, ∀ a, f a x = g a x) → l.foldl f a = l.foldl g a := by
  intro l
  induction l with
  | nil => intro a _; rfl
  | cons x l ih =>
    intro a h
    simp only [List.foldl_cons]
    rw [h x (List.mem_cons_self _ _)]
    exact ih _ (fun y hy => h y (List.mem_cons_of_mem _ hy))

theorem nodemap_insert_length (nodes : NodeSet) (state : StateRef)
    (m : List (NodeSet × StateRef)) (h : nodemap_find nodes m = none) :
    (nodemap_insert nodes state m).length = m.length + 1 := by
  simp [nodemap_insert, h]

theorem add_new_state_label (t : ExprTree) (b : Builder) (nodes : NodeSet)
    (hb : LabelInv b) (hs : b.nodemap.length = b.states.length) :
    LabelInv (add_new_state t b nodes).1 := by
  refine ⟨?_, ?_, ?_⟩
  · simp only [add_new_state, List.length_append, List.length_singleton]
    rw [List.range_succ, ← hb.addr]
  · intro s hlt
    simp only [add_new_state, List.length_append, List.length_singleton] at hlt ⊢
    by_cases h : s = b.states.length
    · simp [h, hs]
    · rw [if_neg h]
      exact hb.label s (by omega)
  · have := hb.two
    simp only [add_new_state, List.length_append, List.length_singleton]
    omega

theorem modify_label (b : Builder) (r : StateRef) (f : State → State)
    (hf : ∀ s, (f s).label = s.label) (hb : LabelInv b) : LabelInv (b.modify r f) := by
  refine ⟨hb.addr, ?_, hb.two⟩
  intro s hlt
  simp only [Builder.modify]
  by_cases h : s = r
  · rw [if_pos h, hf]
    exact hb.label s hlt
  · rw [if_neg h]
    exact hb.label s hlt

theorem find_target_state_label (t : ExprTree) (b : Builder) (nodes : NodeSet)
    (hb : LabelInv b) (hs : b.nodemap.length = b.states.length) :
    LabelInv (find_target_state t b nodes).1 ∧
      (find_target_state t b nodes).1.nodemap.length =
        (find_target_state t b nodes).1.states.length := by
  unfold find_target_state
  cases hfind : nodemap_find nodes b.nodemap with
  | some x => exact ⟨hb, hs⟩
  | none =>
    refine ⟨⟨(add_new_state_label t b nodes hb hs).addr,
      (add_new_state_label t b nodes hb hs).label, (add_new_state_label t b nodes hb hs).two⟩, ?_⟩
    simp [add_new_state, nodemap_insert_length _ _ _ hfind, hs]

theorem install_case_label (t : ExprTree) (state : StateRef) (b : Builder) (j : Nat × NodeSet)
    (hb : LabelInv b) (hs : b.nodemap.length = b.states.length) :
    LabelInv (install_case t state b j) ∧
      (install_case t state b j).nodemap.length = (install_case t state b j).states.length := by
  have h := find_target_state_label t b j.2 hb hs
  unfold install_case
  simp only
  split_ifs
  · exact h
  · exact ⟨modify_label _ _ _ (fun _ => rfl) h.1, h.2⟩

theorem install_cases_label (t : ExprTree) (state : StateRef) (l : List (Nat × NodeSet)) :
    ∀ b : Builder, LabelInv b → b.nodemap.length = b.states.length →
      LabelInv (l.foldl (install_case t state) b) ∧
        (l.foldl (install_case t state) b).nodemap.length =
          (l.foldl (install_case t state) b).states.length := by
  induction l with
  | nil => intro b hb hs; exact ⟨hb, hs⟩
  | cons j l ih =>
    intro b hb hs
    have h := install_case_label t state b j hb hs
    exact ih _ h.1 h.2

theorem update_state_transitions_label (t : ExprTree) (b : Builder) (state : StateRef)
    (hb : LabelInv b) (hs : b.nodemap.length = b.states.length) :
    LabelInv (update_state_transitions t b state) ∧
      (update_state_transitions t b state).nodemap.length =
        (update_state_transitions t b state).states.length := by
  unfold update_state_transitions
  simp only
  apply install_cases_label
  · cases (node_cases t (b.nodes state)).otherwise with
    | none => exact hb
    | some nodes =>
      exact modify_label _ _ _ (fun _ => rfl) (find_target_state_label t b nodes hb hs).1
  · cases (node_cases t (b.nodes state)).otherwise with
    | none => exact hs
    | some nodes => exact (find_target_state_label t b nodes hb hs).2

theorem update_state_transitions_empty (t : ExprTree) (b : Builder) (state : StateRef)
    (h : b.nodes state = []) : update_state_transitions t b state = b := by
  simp [update_state_transitions, node_cases, h]

theorem build_loop_label (t : ExprTree) (n : Nat) :
    ∀ b : Builder, LabelInv b → SizeInv b →
      LabelInv (build_loop t n b) ∧ SizeInv (build_loop t n b) := by
  induction n with
  | zero => intro b hb hs; exact ⟨hb, hs⟩
  | succ n ih =>
    intro b hb hs
    unfold build_loop
    cases hq : b.work_queue with
    | nil => exact ⟨hb, hs⟩
    | cons src work_queue =>
      simp only
      have hb1 : LabelInv { b with work_queue := work_queue } := ⟨hb.addr, hb.label, hb.two⟩
      rcases hs with hs | ⟨hs, hempty⟩
      · have h := update_state_transitions_label t { b with work_queue := work_queue } src hb1 hs
        exact ih _ h.1 (Or.inl h.2)
      · have hsrc : b.nodes src = [] := hempty src (by simp [hq])
        rw [update_state_transitions_empty t { b with work_queue := work_queue } src hsrc]
        refine ih _ hb1 (Or.inr ⟨hs, ?_⟩)
        intro s hmem
        exact hempty s (by simp [hq, hmem])

theorem build_start_label (t : ExprTree) :
    LabelInv (build_start t).1 ∧ SizeInv (build_start t).1 := by
  refine ⟨⟨rfl, ?_, by simp [build_start, add_new_state]⟩, ?_⟩
  · intro s hlt
    have hlt2 : s < 2 := by simpa [build_start, add_new_state] using hlt
    have hs : s = 0 ∨ s = 1 := by omega
    rcases hs with rfl | rfl
    · simp [build_start, add_new_state]
    · simp [build_start, add_new_state, nodemap_insert, nodemap_find]
  · by_cases h : t.firstpos = []
    · right
      simp [build_start, add_new_state, nodemap_insert, nodemap_find, h]
    · left
      have h2 : ¬ ([] = t.firstpos) := fun e => h e.symm
      simp [build_start, add_new_state, nodemap_insert, nodemap_find, h, h2]

theorem labels_of_inv (b : Builder) (hb : LabelInv b) :
    labels b.heap b.states = (List.range b.states.length).map Int.ofNat := by
  unfold labels
  conv_lhs => rw [hb.addr]
  apply List.map_congr_left
  intro s hs
  exact hb.label s (List.mem_range.1 hs)

/-- Claim C11.  At every point of the constructor's loop, and so in every DFA
the constructor returns, the labels of the states, read in the order of their
creation, are 0, 1, 2, ...: `nonmatching` is the first state and has label 0,
`start` is the second and has label 1, and the labels are pairwise distinct. -/
theorem constructor_labels (t : ExprTree) :
    (∀ n : Nat,
      labels (build_loop t n (build_start t).1).heap (build_loop t n (build_start t).1).states =
        (List.range (build_loop t n (build_start t).1).states.length).map Int.ofNat) ∧
    ∀ (fuel : Nat) (d : DFA), DFA.construct t fuel = some d →
      labels d.heap d.states = (List.range d.states.length).map Int.ofNat ∧
      (labels d.heap d.states).Nodup ∧
      d.states[0]? = some d.nonmatching ∧ (d.heap d.nonmatching).label = 0 ∧
      d.states[1]? = some d.start ∧ (d.heap d.start).label = 1 := by
  have key : ∀ n, LabelInv (build_loop t n (build_start t).1) := fun n =>
    (build_loop_label t n _ (build_start_label t).1 (build_start_label t).2).1
  refine ⟨fun n => labels_of_inv _ (key n), ?_⟩
  intro fuel d hd
  unfold DFA.construct at hd
  simp only at hd
  split_ifs at hd with hq
  simp only [Option.some.injEq] at hd
  subst hd
  have hb := key fuel
  have hl := labels_of_inv _ hb
  have h2 := hb.two
  refine ⟨hl, ?_, ?_, ?_, ?_, ?_⟩
  · show (labels _ _).Nodup
    rw [hl]
    exact (List.nodup_range _).map (fun a b h => by simpa using h)
  · show (build_loop t fuel (build_start t).1).states[0]? = some 0
    rw [hb.addr, List.getElem?_range (by omega)]
  · simpa using hb.label 0 (by omega)
  · show (build_loop t fuel (build_start t).1).states[1]? = some 1
    rw [hb.addr, List.getElem?_range (by omega)]
  · simpa using hb.label 1 (by omega)

theorem constructor_labels_witness :
    (DFA.construct tree_ab 4).isSome = true ∧
    ∀ d : DFA, DFA.construct tree_ab 4 = some d →
      labels d.heap d.states = (List.range d.states.length).map Int.ofNat ∧
      (labels d.heap d.states).Nodup ∧
      d.states[0]? = some d.nonmatching ∧ (d.heap d.nonmatching).label = 0 ∧
      d.states[1]? = some d.start ∧ (d.heap d.start).label = 1 :=
  ⟨by decide, fun d hd => (constructor_labels tree_ab).2 4 d hd⟩

/-! ## accept_perms (C12-C15) -/

theorem testBit_not32 (x i : Nat) :
    (not32 x).testBit i = (decide (i < 32) && !x.testBit i) := by
  have h : (4294967295 : Nat) = 2 ^ 32 - 1 := by norm_num
  have h2 : (4294967296 : Nat) = 2 ^ 32 := by norm_num
  unfold not32
  rw [Nat.testBit_xor, h, h2, Nat.testBit_two_pow_sub_one, Nat.testBit_mod_two_pow]
  by_cases hi : i < 32 <;> simp [hi]

theorem not32_lt (x : Nat) : not32 x < 4294967296 := by
  have h2 : (4294967296 : Nat) = 2 ^ 32 := by norm_num
  unfold not32
  rw [h2]
  apply Nat.xor_lt_two_pow
  · norm_num
  · exact Nat.mod_lt _ (by norm_num)

theorem testBit_of_lt32 {x : Nat} (hx : x < 4294967296) {i : Nat} (h : x.testBit i = true) :
    i < 32 := by
  by_contra hi
  have h2 : x < 2 ^ i :=
    lt_of_lt_of_le hx (by
      have : (4294967296 : Nat) = 2 ^ 32 := by norm_num
      rw [this]
      exact Nat.pow_le_pow_right (by norm_num) (by omega))
  rw [Nat.testBit_eq_false_of_lt h2] at h
  exact Bool.false_ne_true h

theorem and_not32_self (x d : Nat) : (x &&& not32 d) &&& d = 0 := by
  apply Nat.eq_of_testBit_eq
  intro i
  simp only [Nat.testBit_and, testBit_not32, Nat.zero_testBit]
  cases d.testBit i <;> simp

theorem and_not32_zero {x : Nat} (hx : x < 4294967296) : x &&& not32 0 = x := by
  apply Nat.eq_of_testBit_eq
  intro i
  simp only [Nat.testBit_and, testBit_not32, Nat.zero_testBit]
  cases h : x.testBit i
  · simp
  · simp [testBit_of_lt32 hx h]

theorem accept_fold_deny (e : PermEnv) (state : List Node) :
    ∀ a : AcceptVars, (state.foldl (accept_node e) a).deny = a.deny ||| deny_flags state := by
  induction state with
  | nil => intro a; simp [deny_flags]
  | cons n state ih =>
    intro a
    rw [List.foldl_cons, ih]
    cases n <;> simp [accept_node, deny_flags, Nat.lor_assoc]

theorem accept_fold_exact (e : PermEnv) (state : List Node) :
    ∀ a : AcceptVars, (state.foldl (accept_node e) a).exact_match_perms =
      a.exact_match_perms ||| exact_flags state := by
  induction state with
  | nil => intro a; simp [exact_flags]
  | cons n state ih =>
    intro a
    rw [List.foldl_cons, ih]
    cases n <;> simp [accept_node, exact_flags, Nat.lor_assoc]

theorem accept_scan_deny (e : PermEnv) (state : List Node) :
    (accept_scan e state).deny = deny_flags state := by
  simp [accept_scan, accept_fold_deny]

theorem accept_scan_exact (e : PermEnv) (state : List Node) :
    (accept_scan e state).exact_match_perms = exact_flags state := by
  simp [accept_scan, accept_fold_exact]

theorem accept_exact_deny (e : PermEnv) (a : AcceptVars) : (accept_exact e a).deny = a.deny := by
  unfold accept_exact
  simp only
  split_ifs <;> rfl

theorem accept_exact_exact (e : PermEnv) (a : AcceptVars) :
    (accept_exact e a).exact_match_perms = a.exact_match_perms := by
  unfold accept_exact
  simp only
  split_ifs <;> rfl

theorem accept_deny_deny (e : PermEnv) (a : AcceptVars) : (accept_deny e a).deny = a.deny := by
  unfold accept_deny
  simp only
  split_ifs <;> rfl

theorem accept_deny_perms (e : PermEnv) (a : AcceptVars) :
    ∃ x, (accept_deny e a).perms = x &&& not32 a.deny := by
  unfold accept_deny
  simp only
  split_ifs <;> exact ⟨_, rfl⟩

theorem accept_perms_lt (e : PermEnv) (state : List Node) :
    (accept_perms e state).perms < 4294967296 := by
  obtain ⟨x, hx⟩ := accept_deny_perms e (accept_exact e (accept_scan e state))
  show (accept_deny e (accept_exact e (accept_scan e state))).perms < 4294967296
  rw [hx]
  have h2 : (4294967296 : Nat) = 2 ^ 32 := by norm_num
  rw [h2]
  apply Nat.and_lt_two_pow
  rw [← h2]
  exact not32_lt _

/-- Claim C12.  The mask returned by `accept_perms` has no bit in common with
the union of the flags of the deny leaves of the node set. -/
theorem accept_perms_excludes_deny (e : PermEnv) (state : List Node) :
    (accept_perms e state).perms &&& deny_flags state = 0 := by
  obtain ⟨x, hx⟩ := accept_deny_perms e (accept_exact e (accept_scan e state))
  show (accept_deny e (accept_exact e (accept_scan e state))).perms &&& deny_flags state = 0
  rw [hx, accept_exact_deny, accept_scan_deny]
  exact and_not32_self x _

theorem and_ne_zero_testBit {x : Nat} (h : x ≠ 0) : ∃ i, x.testBit i = true := by
  by_contra hno
  apply h
  apply Nat.eq_of_testBit_eq
  intro i
  rw [Nat.zero_testBit]
  cases hx : x.testBit i
  · rfl
  · exact absurd ⟨i, hx⟩ hno

theorem disjoint_testBit {x y : Nat} (h : x &&& y = 0) (i : Nat) (hx : x.testBit i = true) :
    y.testBit i = false := by
  have := congrArg (fun z => z.testBit i) h
  simp only [Nat.testBit_and, Nat.zero_testBit, hx, Bool.true_and] at this
  exact this

/-- Claim C13 fails.  In the example layout the node set of a normal leaf
with the flag 256, an exec-type bit of the user class other than the base
exec bit, and a deny leaf with the flag 1, the base exec bit of the user
class, gets the mask 256: the deny flags contain the base exec bit and the
mask still has an exec-type bit of the class.  The same holds in every
layout whose user exec-type mask has a bit besides the base exec bit. -/
theorem accept_perms_keeps_exec_type :
    (deny_flags [Node.MatchFlag 256 0, Node.DenyMatchFlag 1 0] &&&
        layout_example.AA_USER_EXEC = layout_example.AA_USER_EXEC ∧
      (accept_perms layout_example [Node.MatchFlag 256 0, Node.DenyMatchFlag 1 0]).perms = 256 ∧
      (accept_perms layout_example [Node.MatchFlag 256 0, Node.DenyMatchFlag 1 0]).perms &&&
        layout_example.AA_USER_EXEC_TYPE ≠ 0) ∧
    ∀ e : PermEnv, e.AA_USER_EXEC_TYPE &&& not32 e.AA_USER_EXEC ≠ 0 →
      deny_flags [Node.MatchFlag (e.AA_USER_EXEC_TYPE &&& not32 e.AA_USER_EXEC) 0,
          Node.DenyMatchFlag e.AA_USER_EXEC 0] = e.AA_USER_EXEC ∧
      (accept_perms e [Node.MatchFlag (e.AA_USER_EXEC_TYPE &&& not32 e.AA_USER_EXEC) 0,
          Node.DenyMatchFlag e.AA_USER_EXEC 0]).perms &&& e.AA_USER_EXEC_TYPE ≠ 0 := by
  refine ⟨by decide, ?_⟩
  intro e hne
  refine ⟨by simp [deny_flags], ?_⟩
  have h1 : (e.AA_USER_EXEC_TYPE &&& not32 e.AA_USER_EXEC) &&& e.AA_USER_EXEC &&&
      e.AA_USER_EXEC = 0 := by
    rw [and_not32_self, Nat.zero_and]
  have h2 : (e.AA_USER_EXEC_TYPE &&& not32 e.AA_USER_EXEC) &&& e.AA_OTHER_EXEC &&&
      e.AA_USER_EXEC = 0 := by
    rw [Nat.and_assoc, Nat.and_comm e.AA_OTHER_EXEC, ← Nat.and_assoc, and_not32_self,
      Nat.zero_and]
  have h3 : (accept_perms e [Node.MatchFlag (e.AA_USER_EXEC_TYPE &&& not32 e.AA_USER_EXEC) 0,
      Node.DenyMatchFlag e.AA_USER_EXEC 0]).perms =
      e.AA_USER_EXEC_TYPE &&& not32 e.AA_USER_EXEC := by
    simp only [accept_perms, accept_scan, List.foldl_cons, List.foldl_nil, accept_node,
      accept_exact, accept_deny, Nat.zero_or, Nat.zero_and, Nat.or_zero, ne_eq,
      not_true_eq_false, if_false, h1, h2]
    apply Nat.eq_of_testBit_eq
    intro i
    simp only [Nat.testBit_and, testBit_not32]
    cases e.AA_USER_EXEC_TYPE.testBit i <;> cases e.AA_USER_EXEC.testBit i <;> simp
  rw [h3]
  intro h0
  apply hne
  apply Nat.eq_of_testBit_eq
  intro i
  have := congrArg (fun z => z.testBit i) h0
  simp only [Nat.testBit_and, testBit_not32, Nat.zero_testBit] at this ⊢
  revert this
  cases e.AA_USER_EXEC_TYPE.testBit i <;> cases e.AA_USER_EXEC.testBit i <;> simp

/-- Claim C13, amended.  With `P` the mask merged from the normal and the
exact leaves and `D` the union of the deny flags, for each class: if `P` and
`D` have the base exec bit of the class in common, the mask returned by
`accept_perms` has none of the exec-type bits of the class.  (The base exec
bit of the other class is a 32-bit value outside the exec-type mask of the
user class.)  When the exec-type masks of the two classes are disjoint and
`P` and `D` do not have the base exec bit of the class in common, the
exec-type bits of the class in the returned mask are those of `P` that are
not in `D`, whether `D` has the base exec bit or not. -/
theorem accept_perms_clears_exec_type (e : PermEnv) (state : List Node)
    (hdis : e.AA_USER_EXEC_TYPE &&& e.AA_OTHER_EXEC = 0)
    (hlt : e.AA_OTHER_EXEC < 4294967296) :
    ((accept_exact e (accept_scan e state)).perms &&& e.AA_USER_EXEC &&& deny_flags state ≠ 0 →
      (accept_perms e state).perms &&& e.AA_USER_EXEC_TYPE = 0) ∧
    ((accept_exact e (accept_scan e state)).perms &&& e.AA_OTHER_EXEC &&& deny_flags state ≠ 0 →
      (accept_perms e state).perms &&& e.AA_OTHER_EXEC_TYPE = 0) ∧
    (e.AA_USER_EXEC_TYPE &&& e.AA_OTHER_EXEC_TYPE = 0 →
      ((accept_exact e (accept_scan e state)).perms &&& e.AA_USER_EXEC &&& deny_flags state = 0 →
        (accept_perms e state).perms &&& e.AA_USER_EXEC_TYPE =
          (accept_exact e (accept_scan e state)).perms &&& e.AA_USER_EXEC_TYPE &&&
            not32 (deny_flags state)) ∧
      ((accept_exact e (accept_scan e state)).perms &&& e.AA_OTHER_EXEC &&& deny_flags state = 0 →
        (accept_perms e state).perms &&& e.AA_OTHER_EXEC_TYPE =
          (accept_exact e (accept_scan e state)).perms &&& e.AA_OTHER_EXEC_TYPE &&&
            not32 (deny_flags state))) := by
  have hd : (accept_exact e (accept_scan e state)).deny = deny_flags state := by
    rw [accept_exact_deny, accept_scan_deny]
  have hp : (accept_perms e state).perms =
      (accept_deny e (accept_exact e (accept_scan e state))).perms := rfl
  rw [hp]
  generalize accept_exact e (accept_scan e state) = a at hd ⊢
  rw [← hd]
  have hkeep : (a.perms &&& not32 e.AA_USER_EXEC_TYPE) &&& e.AA_OTHER_EXEC &&& a.deny =
      a.perms &&& e.AA_OTHER_EXEC &&& a.deny := by
    apply Nat.eq_of_testBit_eq
    intro i
    simp only [Nat.testBit_and, testBit_not32]
    cases ho : e.AA_OTHER_EXEC.testBit i
    · simp
    · have hi : i < 32 := testBit_of_lt32 hlt ho
      have hu : e.AA_USER_EXEC_TYPE.testBit i = false := by
        cases hu : e.AA_USER_EXEC_TYPE.testBit i
        · rfl
        · rw [disjoint_testBit hdis i hu] at ho
          exact absurd ho Bool.false_ne_true
      simp [hi, hu]
  refine ⟨?_, ?_, ?_⟩
  · intro h
    unfold accept_deny
    simp only [h, ne_eq, not_false_eq_true, if_true]
    split_ifs <;>
    · apply Nat.eq_of_testBit_eq
      intro i
      simp only [Nat.testBit_and, testBit_not32, Nat.zero_testBit]
      cases e.AA_USER_EXEC_TYPE.testBit i <;> simp
  · intro h
    unfold accept_deny
    simp only
    split_ifs with h1 h2
    · apply Nat.eq_of_testBit_eq
      intro i
      simp only [Nat.testBit_and, testBit_not32, Nat.zero_testBit]
      cases e.AA_OTHER_EXEC_TYPE.testBit i <;> simp
    · exfalso
      apply h2
      simp only
      rw [hkeep]
      exact h
    · apply Nat.eq_of_testBit_eq
      intro i
      simp only [Nat.testBit_and, testBit_not32, Nat.zero_testBit]
      cases e.AA_OTHER_EXEC_TYPE.testBit i <;> simp
  · intro htypes
    have huo : ∀ i, e.AA_USER_EXEC_TYPE.testBit i = true → e.AA_OTHER_EXEC_TYPE.testBit i = false :=
      fun i hu => disjoint_testBit htypes i hu
    constructor
    · intro h
      unfold accept_deny
      simp only [h, ne_eq, not_true_eq_false, if_false]
      split_ifs <;>
      · apply Nat.eq_of_testBit_eq
        intro i
        simp only [Nat.testBit_and, testBit_not32]
        cases hu : e.AA_USER_EXEC_TYPE.testBit i
        · simp
        · by_cases hi : i < 32 <;> simp [huo i hu, hi]
    · intro h
      unfold accept_deny
      simp only
      split_ifs with h1 h2 h3
      · exfalso
        apply h2
        simp only
        rw [hkeep]
        exact h
      · apply Nat.eq_of_testBit_eq
        intro i
        simp only [Nat.testBit_and, testBit_not32]
        cases ho : e.AA_OTHER_EXEC_TYPE.testBit i
        · simp
        · have hu : e.AA_USER_EXEC_TYPE.testBit i = false := by
            cases hu : e.AA_USER_EXEC_TYPE.testBit i
            · rfl
            · rw [huo i hu] at ho
              exact absurd ho Bool.false_ne_true
          by_cases hi : i < 32 <;> simp [hu, hi]
      · exact absurd h h3
      · apply Nat.eq_of_testBit_eq
        intro i
        simp only [Nat.testBit_and, testBit_not32]
        cases e.AA_OTHER_EXEC_TYPE.testBit i <;> simp

/-- Witness of `accept_perms_clears_exec_type` in the example layout.  A
normal leaf with both base exec bits and two exec-type bits against a deny
leaf with both base exec bits: no exec-type bit is left.  A normal leaf with
the exec-type bit 256 of the user class against a deny leaf with the base
exec bit of that class: the bit 256 stays. -/
theorem accept_perms_clears_exec_type_witness :
    (accept_exact layout_example (accept_scan layout_example
        [Node.MatchFlag 4210945 0, Node.DenyMatchFlag 16385 0])).perms = 4210945 ∧
    (accept_perms layout_example
        [Node.MatchFlag 4210945 0, Node.DenyMatchFlag 16385 0]).perms &&& 16129 = 0 ∧
    (accept_perms layout_example
        [Node.MatchFlag 4210945 0, Node.DenyMatchFlag 16385 0]).perms &&& 264257536 = 0 ∧
    (accept_exact layout_example (accept_scan layout_example
        [Node.MatchFlag 256 0, Node.DenyMatchFlag 1 0])).perms = 256 ∧
    (accept_perms layout_example [Node.MatchFlag 256 0, Node.DenyMatchFlag 1 0]).perms &&&
        layout_example.AA_USER_EXEC_TYPE =
      (accept_exact layout_example (accept_scan layout_example
        [Node.MatchFlag 256 0, Node.DenyMatchFlag 1 0])).perms &&&
        layout_example.AA_USER_EXEC_TYPE &&&
        not32 (deny_flags [Node.MatchFlag 256 0, Node.DenyMatchFlag 1 0]) ∧
    (accept_perms layout_example [Node.MatchFlag 256 0, Node.DenyMatchFlag 1 0]).perms &&&
        layout_example.AA_USER_EXEC_TYPE = 256 :=
  ⟨by decide,
   (accept_perms_clears_exec_type layout_example
      [Node.MatchFlag 4210945 0, Node.DenyMatchFlag 16385 0] (by decide) (by decide)).1
      (by decide),
   (accept_perms_clears_exec_type layout_example
      [Node.MatchFlag 4210945 0, Node.DenyMatchFlag 16385 0] (by decide) (by decide)).2.1
      (by decide),
   by decide,
   ((accept_perms_clears_exec_type layout_example
      [Node.MatchFlag 256 0, Node.DenyMatchFlag 1 0] (by decide) (by decide)).2.2
      (by decide)).1 (by decide),
   by decide⟩

theorem deny_flags_of_no_deny (state : List Node) (h : ∀ n ∈ state, n.is_deny = false) :
    deny_flags state = 0 := by
  induction state with
  | nil => rfl
  | cons n state ih =>
    have hn := h n (List.mem_cons_self _ _)
    have ih2 := ih (fun m hm => h m (List.mem_cons_of_mem _ hm))
    cases n <;> simp_all [deny_flags, Node.is_deny]

theorem accept_deny_of_no_deny (e : PermEnv) (a : AcceptVars) (h : a.deny = 0) :
    (accept_deny e a).perms = a.perms &&& not32 0 := by
  simp [accept_deny, h]

/-- Claim C14.  For a node set without deny leaves, in a layout whose two
exec-type masks are disjoint 32-bit values: when the exact leaves have a bit
of the exec-type mask of a class, the returned mask agrees on that class mask
with the union of the exact flags; and the bits of the exact flags outside
both exec-type masks are all in the returned mask. -/
theorem accept_perms_exact_overrides (e : PermEnv) (state : List Node)
    (hno : ∀ n ∈ state, n.is_deny = false)
    (hdis : e.AA_USER_EXEC_TYPE &&& e.AA_OTHER_EXEC_TYPE = 0)
    (hu : e.AA_USER_EXEC_TYPE < 4294967296) (ho : e.AA_OTHER_EXEC_TYPE < 4294967296) :
    (exact_flags state &&& e.AA_USER_EXEC_TYPE ≠ 0 →
      (accept_perms e state).perms &&& e.AA_USER_EXEC_TYPE =
        exact_flags state &&& e.AA_USER_EXEC_TYPE) ∧
    (exact_flags state &&& e.AA_OTHER_EXEC_TYPE ≠ 0 →
      (accept_perms e state).perms &&& e.AA_OTHER_EXEC_TYPE =
        exact_flags state &&& e.AA_OTHER_EXEC_TYPE) ∧
    (exact_flags state &&& not32 (e.AA_USER_EXEC_TYPE ||| e.AA_OTHER_EXEC_TYPE)) &&&
        (accept_perms e state).perms =
      exact_flags state &&& not32 (e.AA_USER_EXEC_TYPE ||| e.AA_OTHER_EXEC_TYPE) := by
  have hp : (accept_perms e state).perms =
      (accept_exact e (accept_scan e state)).perms &&& not32 0 :=
    accept_deny_of_no_deny e _ (by
      rw [accept_exact_deny, accept_scan_deny, deny_flags_of_no_deny state hno])
  have hE := accept_scan_exact e state
  rw [hp, ← hE]
  generalize accept_scan e state = a
  have hbitu : ∀ i, e.AA_USER_EXEC_TYPE.testBit i = true →
      i < 32 ∧ e.AA_OTHER_EXEC_TYPE.testBit i = false :=
    fun i h => ⟨testBit_of_lt32 hu h, disjoint_testBit hdis i h⟩
  have hbito : ∀ i, e.AA_OTHER_EXEC_TYPE.testBit i = true →
      i < 32 ∧ e.AA_USER_EXEC_TYPE.testBit i = false :=
    fun i h => ⟨testBit_of_lt32 ho h,
      disjoint_testBit (by rw [Nat.and_comm]; exact hdis) i h⟩
  refine ⟨?_, ?_, ?_⟩
  · intro h
    unfold accept_exact
    simp only [h, ne_eq, not_false_eq_true, if_true]
    split_ifs <;>
    · apply Nat.eq_of_testBit_eq
      intro i
      simp only [Nat.testBit_and, Nat.testBit_or, testBit_not32, Nat.zero_testBit]
      cases hbu : e.AA_USER_EXEC_TYPE.testBit i
      · simp
      · obtain ⟨hi, hbo⟩ := hbitu i hbu
        simp [hi, hbo]
  · intro h
    unfold accept_exact
    simp only [h, ne_eq, not_false_eq_true, if_true]
    split_ifs <;>
    · apply Nat.eq_of_testBit_eq
      intro i
      simp only [Nat.testBit_and, Nat.testBit_or, testBit_not32, Nat.zero_testBit]
      cases hbo : e.AA_OTHER_EXEC_TYPE.testBit i
      · simp
      · obtain ⟨hi, hbu⟩ := hbito i hbo
        simp [hi, hbu]
  · unfold accept_exact
    simp only
    split_ifs <;>
    · apply Nat.eq_of_testBit_eq
      intro i
      simp only [Nat.testBit_and, Nat.testBit_or, testBit_not32, Nat.zero_testBit]
      cases a.exact_match_perms.testBit i <;> cases e.AA_USER_EXEC_TYPE.testBit i <;>
        cases e.AA_OTHER_EXEC_TYPE.testBit i <;> cases a.perms.testBit i <;> simp

theorem accept_perms_exact_overrides_witness :
    (accept_perms layout_example
        [Node.MatchFlag 1029 0, Node.ExactMatchFlag 513 0, Node.other]).perms &&& 16129 = 513 ∧
    (accept_perms layout_example
        [Node.MatchFlag 16777220 0, Node.ExactMatchFlag 8404994 0]).perms &&& 264257536
      = 8404992 ∧
    (accept_perms layout_example
        [Node.MatchFlag 16777220 0, Node.ExactMatchFlag 8404994 0]).perms = 8404998 :=
  ⟨(accept_perms_exact_overrides layout_example
      [Node.MatchFlag 1029 0, Node.ExactMatchFlag 513 0, Node.other]
      (by decide) (by decide) (by decide) (by decide)).1 (by decide),
   (accept_perms_exact_overrides layout_example
      [Node.MatchFlag 16777220 0, Node.ExactMatchFlag 8404994 0]
      (by decide) (by decide) (by decide) (by decide)).2.1 (by decide),
   by decide⟩

theorem accept_fold_other (e : PermEnv) (state : List Node) (h : ∀ n ∈ state, n = Node.other) :
    ∀ a : AcceptVars, state.foldl (accept_node e) a = a := by
  induction state with
  | nil => intro a; rfl
  | cons n state ih =>
    intro a
    have hn := h n (List.mem_cons_self _ _)
    subst hn
    rw [List.foldl_cons]
    exact ih (fun m hm => h m (List.mem_cons_of_mem _ hm)) _

/-- Claim C15.  Let `P` be the mask `accept_perms` returns for a node set.
For every node set whose only accept leaf is a normal leaf with the flag `P`
(the other members are no accept leaves), `accept_perms` returns `P`. -/
theorem accept_perms_idempotent (e : PermEnv) (state : List Node) (audit : Nat)
    (before after : List Node)
    (hb : ∀ n ∈ before, n = Node.other) (ha : ∀ n ∈ after, n = Node.other) :
    (accept_perms e
      (before ++ Node.MatchFlag (accept_perms e state).perms audit :: after)).perms =
      (accept_perms e state).perms := by
  have hlt := accept_perms_lt e state
  generalize (accept_perms e state).perms = P at hlt ⊢
  have hscan : accept_scan e (before ++ Node.MatchFlag P audit :: after) =
      ⟨P, 0, audit, 0, 0, 0, !e.is_merged_x_consistent 0 P⟩ := by
    unfold accept_scan
    rw [List.foldl_append, accept_fold_other e before hb, List.foldl_cons,
      accept_fold_other e after ha]
    simp [accept_node]
  show (accept_deny e (accept_exact e (accept_scan e _))).perms = P
  rw [hscan]
  simp [accept_exact, accept_deny, and_not32_zero hlt]

theorem accept_perms_idempotent_witness :
    (accept_perms layout_example
      [Node.other, Node.MatchFlag (accept_perms layout_example
        [Node.MatchFlag 1029 0, Node.ExactMatchFlag 513 0, Node.DenyMatchFlag 4 0]).perms 7,
       Node.other]).perms =
    (accept_perms layout_example
        [Node.MatchFlag 1029 0, Node.ExactMatchFlag 513 0, Node.DenyMatchFlag 4 0]).perms :=
  accept_perms_idempotent layout_example
    [Node.MatchFlag 1029 0, Node.ExactMatchFlag 513 0, Node.DenyMatchFlag 4 0] 7
    [Node.other] [Node.other] (by decide) (by decide)

/-! ## The translator on bytes without special meaning (C16, C17) -/

theorem convert_loop_nil (st : ConvState) (twice : Bool) : convert_loop st twice [] = some st := by
  cases twice <;> rfl

theorem convert_loop_skip (st : ConvState) (c : Char) (rest : List Char) :
    convert_loop st true (c :: rest) = convert_loop st false rest := rfl

theorem convert_loop_cons (st : ConvState) (c : Char) (rest : List Char)
    (h : st.error = error_type.e_no_error) :
    convert_loop st false (c :: rest) =
      (convert_iteration st c rest).bind (fun r => convert_loop r.1 r.2 rest) := by
  rw [convert_loop]
  simp only [h, ne_eq, not_true_eq_false, if_false]
  cases convert_iteration st c rest with
  | none => rfl
  | some r => rfl

theorem convert_loop_error (st : ConvState) (s : List Char)
    (h : st.error ≠ error_type.e_no_error) : convert_loop st false s = some st := by
  cases s with
  | nil => rfl
  | cons c rest => rw [convert_loop]; simp [h]

/-- One iteration on a byte that is none of `\ * ? [ ] { }`, outside groups
and classes: the byte is appended, after a backslash when it is one of
`^ $ . + | ( )`. -/
theorem convert_iteration_plain (st : ConvState) (c : Char) (rest : List Char)
    (hc : is_special c = false) (hg : st.ingrouping = 0) (hcl : st.incharclass = 0) :
    convert_iteration st c rest =
      some ({ st with pcre := st.pcre ++ escape_meta [c], bEscape := false,
                      sptr := st.sptr + 1 }, false) := by
  simp only [is_special, Bool.or_eq_false_iff, decide_eq_false_iff_not] at hc
  obtain ⟨⟨⟨⟨⟨⟨h1, h2⟩, h3⟩, h4⟩, h5⟩, h6⟩, h7⟩ := hc
  unfold convert_iteration convert_case
  simp only [h1, h2, h3, h4, h5, h6, h7, false_and, if_false]
  by_cases hcomma : c = ','
  · subst hcomma
    cases hb : st.bEscape <;>
      simp [case_comma, hb, hg, hcl, escape_meta, is_pcre_meta, String.toList]
  · simp only [hcomma, if_false]
    by_cases hm : c = '^' ∨ c = '$'
    · rcases hm with rfl | rfl <;>
        simp [case_anchor, hcl, escape_meta, is_pcre_meta, String.toList]
    · simp only [hm, if_false]
      by_cases hm2 : c = '.' ∨ c = '+' ∨ c = '|' ∨ c = '(' ∨ c = ')'
      · rcases hm2 with rfl | rfl | rfl | rfl | rfl <;>
          simp [case_meta, escape_meta, is_pcre_meta, String.toList]
      · simp only [hm2, if_false]
        have hmeta : is_pcre_meta c = false := by
          simp only [not_or] at hm hm2
          simp [is_pcre_meta, hm.1, hm.2, hm2.1, hm2.2.1, hm2.2.2.1, hm2.2.2.2.1, hm2.2.2.2.2]
        simp [case_default, escape_meta, hmeta]

theorem escape_meta_append (p q : List Char) :
    escape_meta (p ++ q) = escape_meta p ++ escape_meta q := by
  induction p with
  | nil => rfl
  | cons c p ih =>
    simp only [List.cons_append, escape_meta]
    split_ifs <;> simp [ih]

/-- The loop on a text without `\ * ? [ ] { }`, outside groups and classes,
followed by any text `r`. -/
theorem convert_loop_plain (p : List Char) (hp : ∀ c ∈ p, is_special c = false) :
    ∀ (st : ConvState) (r : List Char), st.error = error_type.e_no_error →
      st.ingrouping = 0 → st.incharclass = 0 →
      convert_loop st false (p ++ r) =
        convert_loop { st with pcre := st.pcre ++ escape_meta p, sptr := st.sptr + p.length,
                               bEscape := if p = [] then st.bEscape else false } false r := by
  induction p with
  | nil => intro st r _ _ _; simp [escape_meta]
  | cons c p ih =>
    intro st r he hg hcl
    have hc := hp c (List.mem_cons_self _ _)
    rw [List.cons_append, convert_loop_cons _ _ _ he, convert_iteration_plain st c _ hc hg hcl]
    simp only [Option.some_bind]
    rw [ih (fun x hx => hp x (List.mem_cons_of_mem _ hx))
      { st with pcre := st.pcre ++ escape_meta [c], bEscape := false, sptr := st.sptr + 1 }
      r he hg hcl]
    have e1 : escape_meta (c :: p) = escape_meta [c] ++ escape_meta p :=
      escape_meta_append [c] p
    congr 1
    simp only [e1, List.append_assoc, List.length_cons, reduceCtorEq, if_false]
    congr 1
    · omega
    · split_ifs <;> rfl

/-- Claim C16.  For a pattern without the bytes `\ * ? [ ] { }`, the call
with the anchor off and an empty buffer returns the class Basic and leaves in
the buffer the pattern with a backslash before every byte of `^ $ . + | ( )`
and every other byte as it is. -/
theorem convert_plain_pattern (p : List Char) (garbage : Int → Int)
    (hp : ∀ c ∈ p, is_special c = false) :
    convert_aaregex_to_pcre p false [] garbage =
      some ⟨pattern_t.ePatternBasic, escape_meta p, 0⟩ := by
  have h := convert_loop_plain p hp (convert_start false [] garbage) [] rfl rfl rfl
  rw [List.append_nil, convert_loop_nil] at h
  unfold convert_aaregex_to_pcre
  rw [h]
  simp [convert_finish, convert_start]

theorem convert_plain_pattern_witness :
    convert_aaregex_to_pcre "/most/basic/test".toList false [] (fun _ => 0) =
      some ⟨pattern_t.ePatternBasic, "/most/basic/test".toList, 0⟩ ∧
    convert_aaregex_to_pcre "a.b,(c)".toList false [] (fun _ => 0) =
      some ⟨pattern_t.ePatternBasic, "a\\.b,\\(c\\)".toList, 0⟩ :=
  ⟨convert_plain_pattern "/most/basic/test".toList (fun _ => 0) (by decide),
   convert_plain_pattern "a.b,(c)".toList (fun _ => 0) (by decide)⟩

theorem update_re_pos_eq (st : ConvState) :
    update_re_pos st =
      { st with first_re_pos := if st.first_re_pos = 0 then int_wrap st.sptr
                                else st.first_re_pos } := by
  unfold update_re_pos
  split_ifs <;> rfl

theorem escape_meta_literal (p : List Char) (hp : ∀ c ∈ p, is_literal c = true) :
    escape_meta p = p := by
  induction p with
  | nil => rfl
  | cons c p ih =>
    have hc := hp c (List.mem_cons_self _ _)
    simp only [is_literal, Bool.and_eq_true, Bool.not_eq_true'] at hc
    simp [escape_meta, hc.2, ih (fun x hx => hp x (List.mem_cons_of_mem _ hx))]

theorem special_of_literal {c : Char} (h : is_literal c = true) : is_special c = false := by
  simp only [is_literal, Bool.and_eq_true, Bool.not_eq_true'] at h
  exact h.1

theorem literal_ne_star {c : Char} (h : is_literal c = true) : c ≠ '*' := by
  intro e
  subst e
  exact absurd h (by decide)

theorem dropWhile_star_literal (v : List Char) (hv : ∀ c ∈ v, is_literal c = true) :
    v.dropWhile (fun c => decide (c = '*')) = v := by
  cases v with
  | nil => rfl
  | cons c v =>
    have := literal_ne_star (hv c (List.mem_cons_self _ _))
    simp [List.dropWhile, this]

theorem head_ne_star (v : List Char) (hv : ∀ c ∈ v, is_literal c = true) :
    ¬ (v.head? = some '*') := by
  cases v with
  | nil => simp
  | cons c v =>
    have := literal_ne_star (hv c (List.mem_cons_self _ _))
    simpa using this

/-- The unescaped star, as one update of the state. -/
theorem convert_star_eq (st : ConvState) (rest : List Char) :
    convert_star st rest =
      ({ st with
          pcre := st.pcre ++
            (if st.pcre.getLast? = some '/' ∧
                ((rest.dropWhile (fun c => decide (c = '*'))).head? = some '/' ∨
                  rest.dropWhile (fun c => decide (c = '*')) = [])
             then "[^/\\x00]".toList else []) ++
            (if rest.head? = some '*' then "[^\\x00]*".toList else "[^/\\x00]*".toList),
          first_re_pos := if st.first_re_pos = 0 then int_wrap st.sptr else st.first_re_pos,
          ptype := if rest.head? = some '*' ∧ rest.tail = [] ∧
                      st.ptype = pattern_t.ePatternBasic
                   then pattern_t.ePatternTailGlob else pattern_t.ePatternRegex },
        decide (rest.head? = some '*')) := by
  unfold convert_star
  simp only [update_re_pos_eq]
  split_ifs <;> simp_all

/-- One iteration on an unescaped star. -/
theorem convert_iteration_star (st : ConvState) (rest : List Char) (h : st.bEscape = false) :
    convert_iteration st '*' rest =
      some ({ (convert_star st rest).1 with
                bEscape := false,
                sptr := st.sptr + (if rest.head? = some '*' then 2 else 1) },
        decide (rest.head? = some '*')) := by
  unfold convert_iteration convert_case case_star
  simp [h, convert_star_eq]

/-- Claim C17.  For texts `w` and `v` of bytes with no special meaning, the
call on `w*v` and on `w**v` with the anchor off and an empty buffer leaves in
the buffer `w`, then the atom `[^/\x00]` exactly when `w` ends with a slash
and `v` is empty or starts with a slash, then `[^/\x00]*` for one star and
`[^\x00]*` for two, then `v`.  The class is Regex, except that it is TailGlob
for two stars with `v` empty. -/
theorem convert_star_between (w v : List Char) (garbage : Int → Int)
    (hw : ∀ c ∈ w, is_literal c = true) (hv : ∀ c ∈ v, is_literal c = true) :
    (convert_aaregex_to_pcre (w ++ "*".toList ++ v) false [] garbage).map
        (fun r => (r.ptype, r.pcre)) =
      some (pattern_t.ePatternRegex, w ++ glob_atom w v ++ "[^/\\x00]*".toList ++ v) ∧
    (convert_aaregex_to_pcre (w ++ "**".toList ++ v) false [] garbage).map
        (fun r => (r.ptype, r.pcre)) =
      some (if v = [] then pattern_t.ePatternTailGlob else pattern_t.ePatternRegex,
        w ++ glob_atom w v ++ "[^\\x00]*".toList ++ v) := by
  have hw1 : ∀ c ∈ w, is_special c = false := fun c hc => special_of_literal (hw c hc)
  have hv1 : ∀ c ∈ v, is_special c = false := fun c hc => special_of_literal (hv c hc)
  have ew := escape_meta_literal w hw
  have ev := escape_meta_literal v hv
  have hd := dropWhile_star_literal v hv
  have hh := head_ne_star v hv
  have key := fun st he hg hcl => convert_loop_plain v hv1 st [] he hg hcl
  simp only [List.append_nil, convert_loop_nil] at key
  have hatom : (if w.getLast? = some '/' ∧ (v.head? = some '/' ∨ v = [])
      then "[^/\\x00]".toList else []) = glob_atom w v := by
    unfold glob_atom
    by_cases hc : w.getLast? = some '/' ∧ (v = [] ∨ v.head? = some '/')
    · rw [if_pos hc, if_pos ⟨hc.1, hc.2.symm⟩]
    · rw [if_neg hc, if_neg (fun h => hc ⟨h.1, h.2.symm⟩)]
  constructor
  · unfold convert_aaregex_to_pcre
    rw [List.append_assoc, convert_loop_plain w hw1 _ _ rfl rfl rfl, ew]
    simp only [String.toList, List.cons_append, List.nil_append]
    rw [convert_loop_cons _ _ _ rfl, convert_iteration_star _ _ (by simp [convert_start])]
    simp only [Option.some_bind, hh, decide_False, convert_star_eq, if_false]
    rw [key _ rfl rfl rfl, ev]
    simp only [convert_start, List.nil_append, hd, Option.map_some', convert_finish]
    rw [← hatom]
    simp [String.toList]
  · unfold convert_aaregex_to_pcre
    rw [List.append_assoc, convert_loop_plain w hw1 _ _ rfl rfl rfl, ew]
    simp only [String.toList, List.cons_append, List.nil_append]
    rw [convert_loop_cons _ _ _ rfl, convert_iteration_star _ _ (by simp [convert_start])]
    simp only [Option.some_bind, List.head?_cons, decide_True, convert_star_eq, if_true,
      convert_loop_skip, List.tail_cons, true_and]
    rw [key _ rfl rfl rfl, ev]
    have hd2 : List.dropWhile (fun c => decide (c = '*')) ('*' :: v) = v := by
      simp [List.dropWhile, hd]
    simp only [convert_start, List.nil_append, hd2, Option.map_some', convert_finish]
    rw [← hatom]
    by_cases hvn : v = [] <;> simp [String.toList, hvn]

theorem convert_star_between_witness :
    ((convert_aaregex_to_pcre ("/foo/".toList ++ "*".toList ++ []) false [] (fun _ => 0)).map
        (fun r => (r.ptype, r.pcre)) =
      some (pattern_t.ePatternRegex, "/foo/[^/\\x00][^/\\x00]*".toList) ∧
     (convert_aaregex_to_pcre ("/".toList ++ "**".toList ++ []) false [] (fun _ => 0)).map
        (fun r => (r.ptype, r.pcre)) =
      some (pattern_t.ePatternTailGlob, "/[^/\\x00][^\\x00]*".toList)) ∧
    (convert_aaregex_to_pcre ("blort".toList ++ "*".toList ++ []) false [] (fun _ => 0)).map
        (fun r => (r.ptype, r.pcre)) =
      some (pattern_t.ePatternRegex, "blort[^/\\x00]*".toList) :=
  ⟨⟨(convert_star_between "/foo/".toList [] (fun _ => 0) (by decide) (by decide)).1,
    (convert_star_between "/".toList [] (fun _ => 0) (by decide) (by decide)).2⟩,
   (convert_star_between "blort".toList [] (fun _ => 0) (by decide) (by decide)).1⟩

/-! ## How one iteration changes the class (C18, C19) -/

theorem case_star_not_basic (st : ConvState) (rest : List Char)
    (hp : st.ptype ≠ pattern_t.ePatternBasic) :
    (case_star st rest).1.ptype ≠ pattern_t.ePatternBasic := by
  unfold case_star
  split_ifs
  · exact hp
  · rw [convert_star_eq]
    simp only
    split_ifs <;> simp

theorem case_question_not_basic (st : ConvState) (hp : st.ptype ≠ pattern_t.ePatternBasic) :
    (case_question st).ptype ≠ pattern_t.ePatternBasic := by
  unfold case_question
  split_ifs
  · exact hp
  · simp

theorem case_open_class_not_basic (st : ConvState) (hp : st.ptype ≠ pattern_t.ePatternBasic) :
    (case_open_class st).ptype ≠ pattern_t.ePatternBasic := by
  unfold case_open_class
  split_ifs
  · exact hp
  · simp

theorem case_close_class_ptype (st : ConvState) : (case_close_class st).ptype = st.ptype := by
  unfold case_close_class
  split_ifs <;> rfl

theorem case_open_group_not_basic (st st1 : ConvState) (h : case_open_group st = some st1)
    (hp : st.ptype ≠ pattern_t.ePatternBasic) : st1.ptype ≠ pattern_t.ePatternBasic := by
  unfold case_open_group at h
  simp only [update_re_pos_eq, grouping_set] at h
  split_ifs at h <;> simp only [Option.map_some', Option.some.injEq, Option.map_none',
    reduceCtorEq] at h <;> subst h <;> first | exact hp | simp

theorem case_close_group_ptype (st st1 : ConvState) (h : case_close_group st = some st1) :
    st1.ptype = st.ptype := by
  unfold case_close_group at h
  simp only [grouping_get] at h
  split_ifs at h <;> simp only [Option.map_some', Option.some.injEq, Option.map_none',
    reduceCtorEq] at h <;> subst h <;> first | rfl | (simp only; split_ifs <;> rfl)

theorem case_comma_ptype (st st1 : ConvState) (h : case_comma st = some st1) :
    st1.ptype = st.ptype := by
  unfold case_comma at h
  simp only [grouping_get, grouping_set] at h
  split_ifs at h <;> simp only [Option.map_some', Option.some.injEq, Option.map_none',
    Option.some_bind, Option.none_bind, reduceCtorEq] at h <;> subst h <;> rfl

/-- An iteration never sets the class back to Basic. -/
theorem convert_iteration_not_basic (st st1 : ConvState) (c : Char) (rest : List Char)
    (twice : Bool) (h : convert_iteration st c rest = some (st1, twice))
    (hp : st.ptype ≠ pattern_t.ePatternBasic) : st1.ptype ≠ pattern_t.ePatternBasic := by
  unfold convert_iteration at h
  split_ifs at h
  · simp only [Option.some.injEq, Prod.mk.injEq] at h
    rw [← h.1]; exact hp
  · simp only [Option.some.injEq, Prod.mk.injEq] at h
    rw [← h.1]; exact hp
  · simp only [Option.map_eq_some', Prod.mk.injEq] at h
    obtain ⟨r, hr, h1, _⟩ := h
    rw [← h1]
    show r.1.ptype ≠ _
    unfold convert_case at hr
    split_ifs at hr <;> simp only [Option.some.injEq, Option.map_eq_some'] at hr
    · rw [← hr]; exact case_star_not_basic st rest hp
    · rw [← hr]; exact case_question_not_basic st hp
    · rw [← hr]; exact case_open_class_not_basic st hp
    · rw [← hr, case_close_class_ptype]; exact hp
    · obtain ⟨x, hx, rfl⟩ := hr; exact case_open_group_not_basic st x hx hp
    · obtain ⟨x, hx, rfl⟩ := hr; rw [case_close_group_ptype st x hx]; exact hp
    · obtain ⟨x, hx, rfl⟩ := hr; rw [case_comma_ptype st x hx]; exact hp
    · rw [← hr]; unfold case_anchor; split_ifs <;> exact hp
    · rw [← hr]; exact hp
    · rw [← hr]; exact hp

/-- The loop never sets the class back to Basic. -/
theorem convert_loop_not_basic (s : List Char) :
    ∀ (st st1 : ConvState) (twice : Bool), convert_loop st twice s = some st1 →
      st.ptype ≠ pattern_t.ePatternBasic → st1.ptype ≠ pattern_t.ePatternBasic := by
  induction s with
  | nil =>
    intro st st1 twice h hp
    rw [convert_loop_nil] at h
    simp only [Option.some.injEq] at h
    rw [← h]; exact hp
  | cons c rest ih =>
    intro st st1 twice h hp
    cases twice with
    | true => exact ih st st1 false h hp
    | false =>
      by_cases he : st.error = error_type.e_no_error
      · rw [convert_loop_cons _ _ _ he] at h
        cases hit : convert_iteration st c rest with
        | none => rw [hit] at h; simp at h
        | some r =>
          rw [hit] at h
          exact ih r.1 st1 r.2 h (convert_iteration_not_basic st r.1 c rest r.2 hit hp)
      · rw [convert_loop_error _ _ he] at h
        simp only [Option.some.injEq] at h
        rw [← h]; exact hp

/-- The three ways an iteration goes: the backslash that starts an escape,
the escaped backslash, and the `switch` on any other byte. -/
theorem convert_iteration_some (st st1 : ConvState) (c : Char) (rest : List Char)
    (twice : Bool) (h : convert_iteration st c rest = some (st1, twice)) :
    (c = '\\' ∧ st.bEscape = false ∧ twice = false ∧
      st1 = { st with bEscape := true, sptr := st.sptr + 1 }) ∨
    (c = '\\' ∧ st.bEscape = true ∧ twice = false ∧
      st1 = { st with pcre := st.pcre ++ "\\\\".toList, bEscape := false,
                      sptr := st.sptr + 1 }) ∨
    (c ≠ '\\' ∧ ∃ r, convert_case st c rest = some r ∧ twice = r.2 ∧
      st1 = { r.1 with bEscape := false, sptr := r.1.sptr + (if r.2 then 2 else 1) }) := by
  unfold convert_iteration at h
  split_ifs at h with h1 h2
  · simp only [Option.some.injEq, Prod.mk.injEq] at h
    left
    exact ⟨h1.1, h1.2, h.2.symm, h.1.symm⟩
  · simp only [Option.some.injEq, Prod.mk.injEq] at h
    right; left
    have hb : st.bEscape = true := by
      cases hb : st.bEscape
      · exact absurd ⟨h2, hb⟩ h1
      · rfl
    exact ⟨h2, hb, h.2.symm, h.1.symm⟩
  · simp only [Option.map_eq_some', Prod.mk.injEq] at h
    obtain ⟨r, hr, h3, h4⟩ := h
    right; right
    exact ⟨h2, r, hr, h4.symm, h3.symm⟩

/-- Only the unescaped star looks at the text after the byte. -/
theorem convert_iteration_rest (st : ConvState) (c : Char) (rest1 rest2 : List Char)
    (h : ¬ (c = '*' ∧ st.bEscape = false)) :
    convert_iteration st c rest1 = convert_iteration st c rest2 := by
  unfold convert_iteration convert_case
  by_cases hc : c = '*'
  · have hb : st.bEscape = true := by
      cases hb : st.bEscape
      · exact absurd ⟨hc, hb⟩ h
      · rfl
    simp [hc, case_star, hb]
  · simp [hc]


theorem case_star_escaped (st : ConvState) (rest : List Char) (hb : st.bEscape = true) :
    case_star st rest = ({ st with pcre := st.pcre ++ "\\*".toList }, false) := by
  unfold case_star
  rw [if_pos hb]

theorem case_question_ptype (st : ConvState) :
    (case_question st).ptype = st.ptype ∨ (case_question st).ptype = pattern_t.ePatternRegex := by
  unfold case_question
  split_ifs
  · left; rfl
  · right; rfl

theorem case_open_class_ptype (st : ConvState) :
    (case_open_class st).ptype = st.ptype ∨
      (case_open_class st).ptype = pattern_t.ePatternRegex := by
  unfold case_open_class
  split_ifs
  · left; rfl
  · right; rfl

theorem case_open_group_ptype (st st1 : ConvState) (h : case_open_group st = some st1) :
    st1.ptype = st.ptype ∨ st1.ptype = pattern_t.ePatternRegex := by
  unfold case_open_group at h
  simp only [update_re_pos_eq, grouping_set] at h
  split_ifs at h <;> simp only [Option.map_some', Option.some.injEq, Option.map_none',
    reduceCtorEq] at h <;> subst h <;> simp

theorem case_anchor_ptype (st : ConvState) (c : Char) : (case_anchor st c).ptype = st.ptype := by
  unfold case_anchor
  split_ifs <;> rfl

/-- The class after the `switch`, for a byte that is no unescaped star. -/
theorem convert_case_ptype (st : ConvState) (c : Char) (rest : List Char)
    (r : ConvState × Bool) (hc : ¬ (c = '*' ∧ st.bEscape = false))
    (hr : convert_case st c rest = some r) :
    r.1.ptype = st.ptype ∨ r.1.ptype = pattern_t.ePatternRegex := by
  unfold convert_case at hr
  split_ifs at hr with h1
  · have hb : st.bEscape = true := by
      cases hb : st.bEscape
      · exact absurd ⟨h1, hb⟩ hc
      · rfl
    rw [case_star_escaped st rest hb] at hr
    simp only [Option.some.injEq] at hr
    left; rw [← hr]
  · simp only [Option.some.injEq] at hr
    rw [← hr]; exact case_question_ptype st
  · simp only [Option.some.injEq] at hr
    rw [← hr]; exact case_open_class_ptype st
  · simp only [Option.some.injEq] at hr
    rw [← hr]; left; exact case_close_class_ptype st
  · simp only [Option.map_eq_some'] at hr
    obtain ⟨x, hx, rfl⟩ := hr
    exact case_open_group_ptype st x hx
  · simp only [Option.map_eq_some'] at hr
    obtain ⟨x, hx, rfl⟩ := hr
    left; exact case_close_group_ptype st x hx
  · simp only [Option.map_eq_some'] at hr
    obtain ⟨x, hx, rfl⟩ := hr
    left; exact case_comma_ptype st x hx
  · simp only [Option.some.injEq] at hr
    rw [← hr]; left; exact case_anchor_ptype st c
  · simp only [Option.some.injEq] at hr
    rw [← hr]; left; rfl
  · simp only [Option.some.injEq] at hr
    rw [← hr]; left; rfl


/-- The flag of the `switch` is set by an unescaped star that another star
follows, only. -/
theorem convert_case_flag (st : ConvState) (c : Char) (rest : List Char)
    (r : ConvState × Bool) (hr : convert_case st c rest = some r) (ht : r.2 = true) :
    c = '*' ∧ st.bEscape = false ∧ rest.head? = some '*' := by
  unfold convert_case at hr
  split_ifs at hr with h1
  · cases hb : st.bEscape
    · simp only [case_star, hb, Bool.false_eq_true, if_false, convert_star_eq,
        Option.some.injEq] at hr
      rw [← hr] at ht
      simp only [decide_eq_true_eq] at ht
      exact ⟨h1, rfl, ht⟩
    · rw [case_star_escaped st rest hb] at hr
      simp only [Option.some.injEq] at hr
      rw [← hr] at ht
      exact absurd ht Bool.false_ne_true
  all_goals first
    | (simp only [Option.some.injEq] at hr; rw [← hr] at ht; exact absurd ht Bool.false_ne_true)
    | (simp only [Option.map_eq_some'] at hr; obtain ⟨x, _, rfl⟩ := hr;
       exact absurd ht Bool.false_ne_true)

theorem convert_iteration_twice (st st1 : ConvState) (c : Char) (rest : List Char)
    (h : convert_iteration st c rest = some (st1, true)) :
    c = '*' ∧ st.bEscape = false ∧ rest.head? = some '*' := by
  rcases convert_iteration_some st st1 c rest true h with
    ⟨_, _, h1, _⟩ | ⟨_, _, h1, _⟩ | ⟨_, r, hr, h1, _⟩
  · exact absurd h1 (by simp)
  · exact absurd h1 (by simp)
  · exact convert_case_flag st c rest r hr h1.symm

/-- After an iteration the class is what it was, or Regex, or TailGlob; the
last only when the pattern ends with the two stars that the iteration takes
and the class was Basic. -/
theorem convert_iteration_ptype (st st1 : ConvState) (c : Char) (rest : List Char)
    (twice : Bool) (h : convert_iteration st c rest = some (st1, twice)) :
    st1.ptype = st.ptype ∨ st1.ptype = pattern_t.ePatternRegex ∨
      (c = '*' ∧ st.bEscape = false ∧ rest = ['*'] ∧ st.ptype = pattern_t.ePatternBasic ∧
        st1.ptype = pattern_t.ePatternTailGlob) := by
  by_cases hc : c = '*' ∧ st.bEscape = false
  · obtain ⟨rfl, hb⟩ := hc
    rw [convert_iteration_star st rest hb, convert_star_eq] at h
    simp only [Option.some.injEq, Prod.mk.injEq] at h
    obtain ⟨h1, _⟩ := h
    have hp : st1.ptype = (if rest.head? = some '*' ∧ rest.tail = [] ∧
        st.ptype = pattern_t.ePatternBasic then pattern_t.ePatternTailGlob
        else pattern_t.ePatternRegex) := by rw [← h1]
    clear h1
    by_cases hcond : rest.head? = some '*' ∧ rest.tail = [] ∧
        st.ptype = pattern_t.ePatternBasic
    · right; right
      rw [if_pos hcond] at hp
      refine ⟨rfl, hb, ?_, hcond.2.2, hp⟩
      obtain ⟨h1, h2, _⟩ := hcond
      cases rest with
      | nil => simp at h1
      | cons x rest =>
        simp only [List.head?_cons, Option.some.injEq, List.tail_cons] at h1 h2
        rw [h1, h2]
    · right; left
      rw [if_neg hcond] at hp
      exact hp
  · rcases convert_iteration_some st st1 c rest twice h with
      ⟨_, _, _, h1⟩ | ⟨_, _, _, h1⟩ | ⟨_, r, hr, _, h1⟩
    · left; rw [h1]
    · left; rw [h1]
    · rcases convert_case_ptype st c rest r hc hr with h2 | h2
      · left; rw [h1]; exact h2
      · right; left; rw [h1]; exact h2

/-- An unescaped star never leaves the class Basic. -/
theorem convert_iteration_star_ptype (st st1 : ConvState) (rest : List Char) (twice : Bool)
    (hb : st.bEscape = false) (h : convert_iteration st '*' rest = some (st1, twice)) :
    st1.ptype ≠ pattern_t.ePatternBasic := by
  rw [convert_iteration_star st rest hb, convert_star_eq] at h
  simp only [Option.some.injEq, Prod.mk.injEq] at h
  obtain ⟨h1, _⟩ := h
  have hp : st1.ptype = (if rest.head? = some '*' ∧ rest.tail = [] ∧
      st.ptype = pattern_t.ePatternBasic then pattern_t.ePatternTailGlob
      else pattern_t.ePatternRegex) := by rw [← h1]
  rw [hp]
  split_ifs <;> simp

/-- The state after the two stars that end a pattern, and its class. -/
theorem convert_loop_two_stars (st : ConvState) (he : st.error = error_type.e_no_error)
    (hb : st.bEscape = false) :
    ∃ st1, convert_loop st false ['*', '*'] = some st1 ∧
      st1.error = error_type.e_no_error ∧ st1.bEscape = false ∧
      st1.ingrouping = st.ingrouping ∧ st1.incharclass = st.incharclass ∧
      st1.ptype = (if st.ptype = pattern_t.ePatternBasic then pattern_t.ePatternTailGlob
                   else pattern_t.ePatternRegex) := by
  rw [convert_loop_cons _ _ _ he, convert_iteration_star st _ hb, convert_star_eq]
  simp only [Option.some_bind, List.head?_cons, decide_True, convert_loop_skip,
    convert_loop_nil]
  refine ⟨_, rfl, he, rfl, rfl, rfl, ?_⟩
  simp

/-! ## The class TailGlob (C18) -/

/-- The class that is returned, from the state the loop ends in. -/
theorem convert_finish_ptype (anchor : Bool) (st : ConvState) :
    (convert_finish anchor st).ptype =
      if st.error = error_type.e_no_error ∧ st.ingrouping ≤ 0 ∧ st.incharclass = 0 ∧
          st.bEscape = false
      then st.ptype else pattern_t.ePatternInvalid := by
  unfold convert_finish
  simp only
  by_cases he : st.error = error_type.e_no_error <;>
    by_cases hg : st.ingrouping ≤ 0 <;>
    by_cases hc : st.incharclass = 0 <;>
    cases hb : st.bEscape <;>
    simp [he, hg, hc, not_le.1, not_lt.2, lt_of_not_ge]

theorem tail_glob_forward (s : List Char) :
    ∀ (st st1 : ConvState) (twice : Bool), st.ptype ≠ pattern_t.ePatternTailGlob →
      convert_loop st twice s = some st1 → st1.ptype = pattern_t.ePatternTailGlob →
      ∃ (w : List Char) (st2 : ConvState), s = w ++ ['*', '*'] ∧
        convert_loop st twice w = some st2 ∧ st2.error = error_type.e_no_error ∧
        st2.bEscape = false ∧ st2.ptype = pattern_t.ePatternBasic ∧
        st2.ingrouping = st1.ingrouping ∧ st2.incharclass = st1.incharclass := by
  induction s with
  | nil =>
    intro st st1 twice hp h h1
    rw [convert_loop_nil] at h
    simp only [Option.some.injEq] at h
    rw [← h] at h1
    exact absurd h1 hp
  | cons c rest ih =>
    intro st st1 twice hp h h1
    cases twice with
    | true =>
      rw [convert_loop_skip] at h
      obtain ⟨w, st2, hw, h2, h3⟩ := ih st st1 false hp h h1
      exact ⟨c :: w, st2, by rw [hw]; rfl, by rw [convert_loop_skip]; exact h2, h3⟩
    | false =>
      by_cases he : st.error = error_type.e_no_error
      · rw [convert_loop_cons _ _ _ he] at h
        cases hit : convert_iteration st c rest with
        | none => rw [hit] at h; simp at h
        | some r =>
          obtain ⟨r1, twice⟩ := r
          rw [hit] at h
          simp only [Option.some_bind] at h
          have hcases : r1.ptype ≠ pattern_t.ePatternTailGlob ∨
              (c = '*' ∧ st.bEscape = false ∧ rest = ['*'] ∧
                st.ptype = pattern_t.ePatternBasic) := by
            rcases convert_iteration_ptype st r1 c rest twice hit with
              hk | hk | ⟨e1, e2, e3, e4, _⟩
            · left; rw [hk]; exact hp
            · left; rw [hk]; simp
            · right; exact ⟨e1, e2, e3, e4⟩
          rcases hcases with hr1 | ⟨rfl, hb, rfl, hbasic⟩
          · obtain ⟨w, st2, hw, h2, h3, h4, h5, h6, h7⟩ := ih r1 st1 twice hr1 h h1
            by_cases hc : c = '*' ∧ st.bEscape = false
            · obtain ⟨rfl, hb⟩ := hc
              exact absurd h5 (convert_loop_not_basic w r1 st2 twice h2
                (convert_iteration_star_ptype st r1 rest twice hb hit))
            · have htw : twice = false := by
                cases twice with
                | false => rfl
                | true =>
                  have := convert_iteration_twice st r1 c rest hit
                  exact absurd ⟨this.1, this.2.1⟩ hc
              subst htw
              refine ⟨c :: w, st2, by rw [hw]; rfl, ?_, h3, h4, h5, h6, h7⟩
              rw [convert_loop_cons _ _ _ he, convert_iteration_rest st c w rest hc, hit]
              exact h2
          · obtain ⟨st3, h3, _, _, h6, h7, _⟩ := convert_loop_two_stars st he hb
            rw [convert_loop_cons _ _ _ he, hit] at h3
            simp only [Option.some_bind] at h3
            rw [h3] at h
            simp only [Option.some.injEq] at h
            subst h
            exact ⟨[], st, rfl, rfl, he, hb, hbasic, h6.symm, h7.symm⟩
      · rw [convert_loop_error _ _ he] at h
        simp only [Option.some.injEq] at h
        rw [← h] at h1
        exact absurd h1 hp

theorem tail_glob_backward (w : List Char) :
    ∀ (st st2 : ConvState) (twice : Bool), convert_loop st twice w = some st2 →
      (twice = true → w ≠ []) →
      st2.error = error_type.e_no_error → st2.bEscape = false →
      st2.ptype = pattern_t.ePatternBasic →
      ∃ st1, convert_loop st twice (w ++ ['*', '*']) = some st1 ∧
        st1.ptype = pattern_t.ePatternTailGlob ∧ st1.error = error_type.e_no_error ∧
        st1.bEscape = false ∧ st1.ingrouping = st2.ingrouping ∧
        st1.incharclass = st2.incharclass := by
  induction w with
  | nil =>
    intro st st2 twice h htw he hb hp
    cases twice with
    | true => exact absurd rfl (htw rfl)
    | false =>
      rw [convert_loop_nil] at h
      simp only [Option.some.injEq] at h
      subst h
      obtain ⟨st1, h1, h2, h3, h4, h5, h6⟩ := convert_loop_two_stars st he hb
      rw [hp] at h6
      exact ⟨st1, h1, h6, h2, h3, h4, h5⟩
  | cons c w ih =>
    intro st st2 twice h htw he2 hb2 hp2
    cases twice with
    | true =>
      rw [convert_loop_skip] at h
      rw [List.cons_append, convert_loop_skip]
      exact ih st st2 false h (by simp) he2 hb2 hp2
    | false =>
      by_cases he : st.error = error_type.e_no_error
      · rw [convert_loop_cons _ _ _ he] at h
        cases hit : convert_iteration st c w with
        | none => rw [hit] at h; simp at h
        | some r =>
          obtain ⟨r1, twice⟩ := r
          rw [hit] at h
          simp only [Option.some_bind] at h
          by_cases hc : c = '*' ∧ st.bEscape = false
          · obtain ⟨rfl, hb⟩ := hc
            exact absurd hp2 (convert_loop_not_basic w r1 st2 twice h
              (convert_iteration_star_ptype st r1 w twice hb hit))
          · have htw2 : twice = false := by
              cases twice with
              | false => rfl
              | true =>
                have := convert_iteration_twice st r1 c w hit
                exact absurd ⟨this.1, this.2.1⟩ hc
            subst htw2
            rw [List.cons_append, convert_loop_cons _ _ _ he,
              convert_iteration_rest st c (w ++ ['*', '*']) w hc, hit]
            exact ih r1 st2 false h (by simp) he2 hb2 hp2
      · rw [convert_loop_error _ _ he] at h
        simp only [Option.some.injEq] at h
        rw [← h] at he2
        exact absurd he2 he

/-- Claim C18.  The class returned for a pattern is TailGlob if and only if
the pattern is a text `w` followed by two stars at its very end, where the
class returned for `w` alone is Basic.  So `**` and `/blort/**` get TailGlob,
`/**/blort` and `/**/` get Regex. -/
theorem convert_tail_glob_iff :
    (∀ (p : List Char) (anchor : Bool) (pcre : List Char) (garbage : Int → Int),
      (convert_aaregex_to_pcre p anchor pcre garbage).map (fun r => r.ptype) =
          some pattern_t.ePatternTailGlob ↔
        ∃ w : List Char, p = w ++ "**".toList ∧
          (convert_aaregex_to_pcre w anchor pcre garbage).map (fun r => r.ptype) =
            some pattern_t.ePatternBasic) ∧
    (convert_aaregex_to_pcre "**".toList false [] (fun _ => 0)).map (fun r => r.ptype) =
      some pattern_t.ePatternTailGlob ∧
    (convert_aaregex_to_pcre "/blort/**".toList false [] (fun _ => 0)).map (fun r => r.ptype) =
      some pattern_t.ePatternTailGlob ∧
    (convert_aaregex_to_pcre "/**/blort".toList false [] (fun _ => 0)).map (fun r => r.ptype) =
      some pattern_t.ePatternRegex ∧
    (convert_aaregex_to_pcre "/**/".toList false [] (fun _ => 0)).map (fun r => r.ptype) =
      some pattern_t.ePatternRegex := by
  refine ⟨?_, by decide, by decide, by decide, by decide⟩
  intro p anchor pcre garbage
  unfold convert_aaregex_to_pcre
  simp only [Option.map_map, Option.map_eq_some', Function.comp_apply, convert_finish_ptype]
  constructor
  · rintro ⟨st1, h, h1⟩
    split_ifs at h1 with hc
    obtain ⟨w, st2, hw, h2, h3, h4, h5, h6, h7⟩ :=
      tail_glob_forward p _ st1 false (by simp [convert_start]) h h1
    refine ⟨w, hw, st2, h2, ?_⟩
    rw [if_pos ⟨h3, by rw [h6]; exact hc.2.1, by rw [h7]; exact hc.2.2.1, h4⟩]
    exact h5
  · rintro ⟨w, hw, st2, h, h1⟩
    split_ifs at h1 with hc
    obtain ⟨st1, h2, h3, h4, h5, h6, h7⟩ :=
      tail_glob_backward w _ st2 false h (by simp) hc.1 hc.2.2.2 h1
    refine ⟨st1, by rw [hw]; exact h2, ?_⟩
    rw [if_pos ⟨h4, by rw [h6]; exact hc.2.1, by rw [h7]; exact hc.2.2.1, h5⟩]
    exact h3

/-! ## The cases of the braces and the comma, and the indices of `grouping_count` -/

/-- An unescaped opening brace outside a character class, at a depth below
the bound: a group is opened and its counter is cleared. -/
theorem case_open_group_eq (st : ConvState) (hb : st.bEscape = false)
    (hc : st.incharclass = 0) (h0 : 0 ≤ st.ingrouping) (h1 : st.ingrouping + 1 < 50) :
    case_open_group st =
      some { st with
        first_re_pos := if st.first_re_pos = 0 then int_wrap st.sptr else st.first_re_pos,
        ingrouping := st.ingrouping + 1,
        grouping_count := fun j => if j = st.ingrouping + 1 then 0 else st.grouping_count j,
        ptype := pattern_t.ePatternRegex,
        pcre := st.pcre ++ ['('] } := by
  have hb2 : ¬ st.bEscape = true := by rw [hb]; simp
  unfold case_open_group
  rw [if_neg hb2, if_neg (not_not.2 hc)]
  simp only [update_re_pos_eq, MAX_ALT_DEPTH, ge_iff_le, grouping_set]
  rw [if_neg (by omega), if_pos ⟨by omega, h1⟩]
  rfl

/-- An unescaped opening brace outside a character class at the bound: the
depth is raised and the error is set. -/
theorem case_open_group_overflow (st : ConvState) (hb : st.bEscape = false)
    (hc : st.incharclass = 0) (h1 : 50 ≤ st.ingrouping + 1) :
    case_open_group st =
      some { st with
        first_re_pos := if st.first_re_pos = 0 then int_wrap st.sptr else st.first_re_pos,
        ingrouping := st.ingrouping + 1,
        error := error_type.e_parse_error } := by
  have hb2 : ¬ st.bEscape = true := by rw [hb]; simp
  unfold case_open_group
  rw [if_neg hb2, if_neg (not_not.2 hc)]
  simp only [update_re_pos_eq, MAX_ALT_DEPTH, ge_iff_le]
  rw [if_pos h1]

/-- An unescaped closing brace outside a character class, at a depth that is
an index of the array. -/
theorem case_close_group_eq (st : ConvState) (hb : st.bEscape = false)
    (hc : st.incharclass = 0) (h0 : 0 ≤ st.ingrouping) (h1 : st.ingrouping < 50) :
    case_close_group st =
      some { st with
        error := if st.grouping_count st.ingrouping = 0 ∨ st.ingrouping - 1 < 0
                 then error_type.e_parse_error else st.error,
        ingrouping := if st.ingrouping - 1 < 0 then 0 else st.ingrouping - 1,
        pcre := st.pcre ++ [')'] } := by
  have hb2 : ¬ st.bEscape = true := by rw [hb]; simp
  unfold case_close_group
  rw [if_neg hb2, if_neg (not_not.2 hc)]
  simp only [grouping_get, MAX_ALT_DEPTH]
  rw [if_pos ⟨h0, h1⟩]
  simp only [Option.map_some']
  by_cases hz : st.grouping_count st.ingrouping = 0 <;>
    by_cases hn : st.ingrouping - 1 < 0 <;> simp [hz, hn, String.toList]

/-- An unescaped comma in a group, outside a character class, at a depth that
is an index of the array: the counter of the group is incremented. -/
theorem case_comma_eq (st : ConvState) (hb : st.bEscape = false) (hg : st.ingrouping ≠ 0)
    (hc : st.incharclass = 0) (h0 : 0 ≤ st.ingrouping) (h1 : st.ingrouping < 50) :
    case_comma st =
      some { st with
        grouping_count := fun j =>
          if j = st.ingrouping then int_wrap (st.grouping_count st.ingrouping + 1)
          else st.grouping_count j,
        pcre := st.pcre ++ ['|'] } := by
  have hb2 : ¬ st.bEscape = true := by rw [hb]; simp
  unfold case_comma
  rw [if_neg hb2, if_pos ⟨hg, hc⟩]
  simp only [grouping_get, grouping_set, MAX_ALT_DEPTH, h0, h1, and_self, if_true,
    Option.some_bind, Option.map_some']
  rfl

theorem case_open_group_total (st : ConvState) (h : DepthOk st) :
    ∃ st1, case_open_group st = some st1 ∧ DepthOk st1 := by
  obtain ⟨h0, h1⟩ := h
  cases hb : st.bEscape
  · by_cases hc : st.incharclass = 0
    · by_cases hd : st.ingrouping + 1 < 50
      · rw [case_open_group_eq st hb hc h0 hd]
        refine ⟨_, rfl, by simp only; omega, fun _ => ?_⟩
        simp only [MAX_ALT_DEPTH]
        exact hd
      · rw [case_open_group_overflow st hb hc (by omega)]
        exact ⟨_, rfl, by simp only; omega, fun he => absurd he (by simp)⟩
    · unfold case_open_group
      rw [if_neg (by simp [hb]), if_pos hc]
      exact ⟨_, rfl, h0, h1⟩
  · unfold case_open_group
    rw [if_pos hb]
    exact ⟨_, rfl, h0, h1⟩

theorem case_close_group_total (st : ConvState) (h : DepthOk st)
    (he : st.error = error_type.e_no_error) :
    ∃ st1, case_close_group st = some st1 ∧ DepthOk st1 := by
  obtain ⟨h0, h1⟩ := h
  have h2 := h1 he
  simp only [MAX_ALT_DEPTH] at h2
  cases hb : st.bEscape
  · by_cases hc : st.incharclass = 0
    · rw [case_close_group_eq st hb hc h0 h2]
      refine ⟨_, rfl, ?_, fun _ => ?_⟩
      · simp only
        split_ifs <;> omega
      · simp only [MAX_ALT_DEPTH]
        split_ifs <;> omega
    · unfold case_close_group
      rw [if_neg (by simp [hb]), if_pos hc]
      exact ⟨_, rfl, h0, h1⟩
  · unfold case_close_group
    rw [if_pos hb]
    exact ⟨_, rfl, h0, h1⟩

theorem case_comma_total (st : ConvState) (h : DepthOk st)
    (he : st.error = error_type.e_no_error) :
    ∃ st1, case_comma st = some st1 ∧ DepthOk st1 := by
  obtain ⟨h0, h1⟩ := h
  have h2 := h1 he
  simp only [MAX_ALT_DEPTH] at h2
  cases hb : st.bEscape
  · by_cases hg : st.ingrouping ≠ 0 ∧ st.incharclass = 0
    · rw [case_comma_eq st hb hg.1 hg.2 h0 h2]
      exact ⟨_, rfl, h0, h1⟩
    · unfold case_comma
      rw [if_neg (by simp [hb]), if_neg hg]
      exact ⟨_, rfl, h0, h1⟩
  · by_cases hc : st.incharclass ≠ 0
    · unfold case_comma
      rw [if_pos hb, if_pos hc]
      exact ⟨_, rfl, h0, h1⟩
    · unfold case_comma
      rw [if_pos hb, if_neg hc]
      exact ⟨_, rfl, h0, h1⟩

theorem convert_star_depth (st : ConvState) (rest : List Char) :
    (convert_star st rest).1.ingrouping = st.ingrouping ∧
      (convert_star st rest).1.error = st.error := by
  rw [convert_star_eq]
  exact ⟨rfl, rfl⟩

theorem convert_case_total (st : ConvState) (c : Char) (rest : List Char) (h : DepthOk st)
    (he : st.error = error_type.e_no_error) :
    ∃ r, convert_case st c rest = some r ∧ DepthOk r.1 := by
  unfold convert_case
  split_ifs
  · refine ⟨_, rfl, ?_⟩
    unfold case_star
    split_ifs
    · exact h
    · unfold DepthOk
      rw [(convert_star_depth st rest).1, (convert_star_depth st rest).2]
      exact h
  · refine ⟨_, rfl, ?_⟩
    unfold case_question
    split_ifs
    · exact h
    · simp only [update_re_pos_eq]; exact h
  · refine ⟨_, rfl, ?_⟩
    unfold case_open_class
    split_ifs
    · exact h
    · simp only [update_re_pos_eq]; exact h
  · refine ⟨_, rfl, ?_⟩
    unfold case_close_class
    split_ifs
    · exact h
    · exact ⟨h.1, fun e => absurd e (by simp)⟩
    · exact h
  · obtain ⟨x, hx, hd⟩ := case_open_group_total st h
    exact ⟨(x, false), by rw [hx]; rfl, hd⟩
  · obtain ⟨x, hx, hd⟩ := case_close_group_total st h he
    exact ⟨(x, false), by rw [hx]; rfl, hd⟩
  · obtain ⟨x, hx, hd⟩ := case_comma_total st h he
    exact ⟨(x, false), by rw [hx]; rfl, hd⟩
  · refine ⟨_, rfl, ?_⟩
    unfold case_anchor
    split_ifs <;> exact h
  · exact ⟨_, rfl, h⟩
  · exact ⟨_, rfl, h⟩

theorem convert_iteration_total (st : ConvState) (c : Char) (rest : List Char)
    (h : DepthOk st) (he : st.error = error_type.e_no_error) :
    ∃ r, convert_iteration st c rest = some r ∧ DepthOk r.1 := by
  unfold convert_iteration
  split_ifs
  · exact ⟨_, rfl, h⟩
  · exact ⟨_, rfl, h⟩
  · obtain ⟨r, hr, hd⟩ := convert_case_total st c rest h he
    rw [hr]
    exact ⟨_, rfl, hd⟩

/-- The loop never uses an index outside `grouping_count`: it returns. -/
theorem convert_loop_total (s : List Char) :
    ∀ (st : ConvState) (twice : Bool), DepthOk st →
      ∃ st1, convert_loop st twice s = some st1 ∧ DepthOk st1 := by
  induction s with
  | nil => intro st twice h; exact ⟨st, convert_loop_nil st twice, h⟩
  | cons c rest ih =>
    intro st twice h
    cases twice with
    | true => rw [convert_loop_skip]; exact ih st false h
    | false =>
      by_cases he : st.error = error_type.e_no_error
      · obtain ⟨r, hr, hd⟩ := convert_iteration_total st c rest h he
        rw [convert_loop_cons _ _ _ he, hr]
        exact ih r.1 r.2 hd
      · exact ⟨st, convert_loop_error st _ he, h⟩

theorem convert_start_depth (anchor : Bool) (pcre : List Char) (garbage : Int → Int) :
    DepthOk (convert_start anchor pcre garbage) := by
  constructor
  · simp [convert_start]
  · intro _
    simp [convert_start, MAX_ALT_DEPTH]

/-- The function returns for every pattern. -/
theorem convert_total (p : List Char) (anchor : Bool) (pcre : List Char)
    (garbage : Int → Int) : ∃ r, convert_aaregex_to_pcre p anchor pcre garbage = some r := by
  obtain ⟨st1, h, _⟩ :=
    convert_loop_total p (convert_start anchor pcre garbage) false
      (convert_start_depth anchor pcre garbage)
  exact ⟨_, by unfold convert_aaregex_to_pcre; rw [h]; rfl⟩

/-! ## The class Basic (C19) -/

/-- The `switch` from a state with the class Basic and nothing open: an
unescaped `* ? [ {` leaves the class Basic, every other byte keeps it and
opens nothing. -/
theorem convert_case_basic (st : ConvState) (c : Char) (rest : List Char)
    (r : ConvState × Bool) (hp : st.ptype = pattern_t.ePatternBasic)
    (hg : st.ingrouping = 0) (hcl : st.incharclass = 0)
    (hr : convert_case st c rest = some r) :
    (st.bEscape = false ∧ is_glob c = true → r.1.ptype ≠ pattern_t.ePatternBasic) ∧
    (¬ (st.bEscape = false ∧ is_glob c = true) →
      r.1.ptype = pattern_t.ePatternBasic ∧ r.1.ingrouping = 0 ∧ r.1.incharclass = 0 ∧
        r.2 = false) := by
  unfold convert_case at hr
  split_ifs at hr with h1 h2 h3 h4 h5 h6 h7 h8 h9
  · -- star
    subst h1
    simp only [Option.some.injEq] at hr
    subst hr
    cases hb : st.bEscape
    · refine ⟨fun _ => ?_, fun hn => absurd ⟨rfl, by decide⟩ hn⟩
      simp only [case_star, hb, Bool.false_eq_true, if_false, convert_star_eq]
      split_ifs <;> simp
    · refine ⟨fun h => absurd h.1 (by simp), fun _ => ?_⟩
      rw [case_star_escaped st rest hb]
      exact ⟨hp, hg, hcl, rfl⟩
  · -- question mark
    subst h2
    simp only [Option.some.injEq] at hr
    subst hr
    cases hb : st.bEscape
    · refine ⟨fun _ => ?_, fun hn => absurd ⟨rfl, by decide⟩ hn⟩
      simp [case_question, hb]
    · refine ⟨fun h => absurd h.1 (by simp), fun _ => ?_⟩
      simp [case_question, hb, hp, hg, hcl]
  · -- opening bracket
    subst h3
    simp only [Option.some.injEq] at hr
    subst hr
    cases hb : st.bEscape
    · refine ⟨fun _ => ?_, fun hn => absurd ⟨rfl, by decide⟩ hn⟩
      simp [case_open_class, hb]
    · refine ⟨fun h => absurd h.1 (by simp), fun _ => ?_⟩
      simp [case_open_class, hb, hp, hg, hcl]
  · -- closing bracket
    subst h4
    simp only [Option.some.injEq] at hr
    subst hr
    refine ⟨fun h => absurd h.2 (by decide), fun _ => ?_⟩
    unfold case_close_class
    split_ifs <;> refine ⟨hp, hg, ?_, rfl⟩ <;> first | exact hcl | rfl
  · -- opening brace
    subst h5
    simp only [Option.map_eq_some'] at hr
    obtain ⟨x, hx, rfl⟩ := hr
    cases hb : st.bEscape
    · refine ⟨fun _ => ?_, fun hn => absurd ⟨rfl, by decide⟩ hn⟩
      rw [case_open_group_eq st hb hcl (by omega) (by omega)] at hx
      simp only [Option.some.injEq] at hx
      subst hx
      simp
    · refine ⟨fun h => absurd h.1 (by simp), fun _ => ?_⟩
      unfold case_open_group at hx
      rw [if_pos hb] at hx
      simp only [Option.some.injEq] at hx
      subst hx
      exact ⟨hp, hg, hcl, rfl⟩
  · -- closing brace
    subst h6
    simp only [Option.map_eq_some'] at hr
    obtain ⟨x, hx, rfl⟩ := hr
    refine ⟨fun h => absurd h.2 (by decide), fun _ => ?_⟩
    cases hb : st.bEscape
    · rw [case_close_group_eq st hb hcl (by omega) (by omega)] at hx
      simp only [Option.some.injEq] at hx
      subst hx
      refine ⟨hp, ?_, hcl, rfl⟩
      simp only [hg]
      rfl
    · unfold case_close_group at hx
      rw [if_pos hb] at hx
      simp only [Option.some.injEq] at hx
      subst hx
      exact ⟨hp, hg, hcl, rfl⟩
  · -- comma
    subst h7
    simp only [Option.map_eq_some'] at hr
    obtain ⟨x, hx, rfl⟩ := hr
    refine ⟨fun h => absurd h.2 (by decide), fun _ => ?_⟩
    unfold case_comma at hx
    cases hb : st.bEscape
    · rw [if_neg (by simp [hb]), if_neg (by simp [hg])] at hx
      simp only [Option.some.injEq] at hx
      subst hx
      exact ⟨hp, hg, hcl, rfl⟩
    · rw [if_pos hb, if_neg (by simp [hcl])] at hx
      simp only [Option.some.injEq] at hx
      subst hx
      exact ⟨hp, hg, hcl, rfl⟩
  · -- the anchors
    simp only [Option.some.injEq] at hr
    subst hr
    refine ⟨fun h => ?_, fun _ => ?_⟩
    · exact absurd h.2 (by simp [is_glob, h1, h2, h3, h5])
    · unfold case_anchor
      split_ifs <;> exact ⟨hp, hg, hcl, rfl⟩
  · -- the other bytes that are escaped
    simp only [Option.some.injEq] at hr
    subst hr
    refine ⟨fun h => ?_, fun _ => ⟨hp, hg, hcl, rfl⟩⟩
    exact absurd h.2 (by simp [is_glob, h1, h2, h3, h5])
  · -- the default case
    simp only [Option.some.injEq] at hr
    subst hr
    refine ⟨fun h => ?_, fun _ => ⟨hp, hg, hcl, rfl⟩⟩
    exact absurd h.2 (by simp [is_glob, h1, h2, h3, h5])

theorem convert_iteration_basic (st st1 : ConvState) (c : Char) (rest : List Char)
    (twice : Bool) (hp : st.ptype = pattern_t.ePatternBasic)
    (hg : st.ingrouping = 0) (hcl : st.incharclass = 0)
    (h : convert_iteration st c rest = some (st1, twice)) :
    (st.bEscape = false ∧ is_glob c = true → st1.ptype ≠ pattern_t.ePatternBasic) ∧
    (¬ (st.bEscape = false ∧ is_glob c = true) →
      st1.ptype = pattern_t.ePatternBasic ∧ st1.ingrouping = 0 ∧ st1.incharclass = 0 ∧
        twice = false ∧ st1.bEscape = decide (c = '\\' ∧ st.bEscape = false)) := by
  rcases convert_iteration_some st st1 c rest twice h with
    ⟨rfl, hb, ht, h1⟩ | ⟨rfl, hb, ht, h1⟩ | ⟨hc, r, hr, ht, h1⟩
  · refine ⟨fun h => absurd h.2 (by decide), fun _ => ?_⟩
    subst h1
    exact ⟨hp, hg, hcl, ht, by simp [hb]⟩
  · refine ⟨fun h => absurd h.2 (by decide), fun _ => ?_⟩
    subst h1
    exact ⟨hp, hg, hcl, ht, by simp [hb]⟩
  · obtain ⟨k1, k2⟩ := convert_case_basic st c rest r hp hg hcl hr
    subst h1
    refine ⟨k1, fun hn => ?_⟩
    obtain ⟨e1, e2, e3, e4⟩ := k2 hn
    exact ⟨e1, e2, e3, by rw [ht, e4], by simp [hc]⟩

/-- The loop from a state with the class Basic and nothing open, when it ends
without an error: the class is still Basic exactly when the text has no
unescaped `* ? [ {`. -/
theorem convert_loop_basic (s : List Char) :
    ∀ st st1 : ConvState, st.ptype = pattern_t.ePatternBasic → st.ingrouping = 0 →
      st.incharclass = 0 → convert_loop st false s = some st1 →
      st1.error = error_type.e_no_error →
      (st1.ptype = pattern_t.ePatternBasic ↔ has_unescaped_glob st.bEscape s = false) := by
  induction s with
  | nil =>
    intro st st1 hp _ _ h _
    rw [convert_loop_nil] at h
    simp only [Option.some.injEq] at h
    subst h
    cases hb : st.bEscape <;> simp [has_unescaped_glob, hp]
  | cons c rest ih =>
    intro st st1 hp hg hcl h he1
    by_cases he : st.error = error_type.e_no_error
    swap
    · rw [convert_loop_error _ _ he] at h
      simp only [Option.some.injEq] at h
      subst h
      exact absurd he1 he
    rw [convert_loop_cons _ _ _ he] at h
    cases hit : convert_iteration st c rest with
    | none => rw [hit] at h; simp at h
    | some r =>
      obtain ⟨r1, twice⟩ := r
      rw [hit] at h
      simp only [Option.some_bind] at h
      obtain ⟨k1, k2⟩ := convert_iteration_basic st r1 c rest twice hp hg hcl hit
      by_cases hglob : st.bEscape = false ∧ is_glob c = true
      · have hne := convert_loop_not_basic rest r1 st1 twice h (k1 hglob)
        have hc : c ≠ '\\' := by
          intro e
          rw [e] at hglob
          exact absurd hglob.2 (by decide)
        have hu : has_unescaped_glob st.bEscape (c :: rest) = true := by
          have hgl := hglob.2
          simp only [is_glob] at hgl
          rw [hglob.1]
          simp only [has_unescaped_glob, hc, if_false, hgl, Bool.true_or]
        rw [hu]
        simp [hne]
      · obtain ⟨e1, e2, e3, e4, e5⟩ := k2 hglob
        subst e4
        rw [ih r1 st1 e1 e2 e3 h he1, e5]
        cases hb : st.bEscape
        · by_cases hc : c = '\\'
          · simp [has_unescaped_glob, hc]
          · have hgl : is_glob c = false := by
              cases hgl : is_glob c
              · rfl
              · exact absurd ⟨hb, hgl⟩ hglob
            simp only [is_glob] at hgl
            simp [has_unescaped_glob, hc, hgl]
        · simp [has_unescaped_glob]

/-- The class kept in the state is never Invalid. -/
theorem convert_loop_valid (s : List Char) :
    ∀ (st st1 : ConvState) (twice : Bool), st.ptype ≠ pattern_t.ePatternInvalid →
      convert_loop st twice s = some st1 → st1.ptype ≠ pattern_t.ePatternInvalid := by
  induction s with
  | nil =>
    intro st st1 twice hp h
    rw [convert_loop_nil] at h
    simp only [Option.some.injEq] at h
    rw [← h]; exact hp
  | cons c rest ih =>
    intro st st1 twice hp h
    cases twice with
    | true => exact ih st st1 false hp h
    | false =>
      by_cases he : st.error = error_type.e_no_error
      · rw [convert_loop_cons _ _ _ he] at h
        cases hit : convert_iteration st c rest with
        | none => rw [hit] at h; simp at h
        | some r =>
          rw [hit] at h
          refine ih r.1 st1 r.2 ?_ h
          rcases convert_iteration_ptype st r.1 c rest r.2 hit with hk | hk | ⟨_, _, _, _, hk⟩
          · rw [hk]; exact hp
          · rw [hk]; simp
          · rw [hk]; simp
      · rw [convert_loop_error _ _ he] at h
        simp only [Option.some.injEq] at h
        rw [← h]; exact hp

/-- Claim C19.  The function returns, and the class it returns is Basic if
and only if the class is not Invalid (no fatal error) and the pattern has no
unescaped `*`, `?`, `[` or `{`. -/
theorem convert_basic_iff (p : List Char) (anchor : Bool) (pcre : List Char)
    (garbage : Int → Int) :
    ∃ r, convert_aaregex_to_pcre p anchor pcre garbage = some r ∧
      (r.ptype = pattern_t.ePatternBasic ↔
        r.ptype ≠ pattern_t.ePatternInvalid ∧ has_unescaped_glob false p = false) := by
  obtain ⟨st1, h, _⟩ :=
    convert_loop_total p (convert_start anchor pcre garbage) false
      (convert_start_depth anchor pcre garbage)
  refine ⟨convert_finish anchor st1, by unfold convert_aaregex_to_pcre; rw [h]; rfl, ?_⟩
  have hv := convert_loop_valid p _ st1 false (by simp [convert_start]) h
  rw [convert_finish_ptype]
  split_ifs with hc
  · have hb := convert_loop_basic p _ st1 rfl rfl rfl h hc.1
    simp only [convert_start] at hb
    rw [hb]
    simp [hv]
  · simp

/-! ## Alternations (C20) -/

theorem int_wrap_small (x : Int) (h0 : -2147483648 ≤ x) (h1 : x < 2147483648) :
    int_wrap x = x := by
  unfold int_wrap
  omega

theorem plain_facts {c : Char} (h : is_plain c = true) :
    is_special c = false ∧ is_pcre_meta c = false ∧ c ≠ ',' ∧ c ≠ '\x7b' ∧ c ≠ '\x7d' := by
  simp only [is_plain, is_literal, Bool.and_eq_true, Bool.not_eq_true', decide_eq_false_iff_not]
    at h
  obtain ⟨⟨h1, h2⟩, h3⟩ := h
  refine ⟨h1, h2, h3, ?_, ?_⟩
  · intro e; subst e; exact absurd h1 (by decide)
  · intro e; subst e; exact absurd h1 (by decide)

/-- One iteration on a byte with no special meaning that is no comma. -/
theorem convert_iteration_literal (st : ConvState) (c : Char) (rest : List Char)
    (hc : is_plain c = true) :
    convert_iteration st c rest =
      some ({ st with pcre := st.pcre ++ [c], bEscape := false, sptr := st.sptr + 1 }, false) := by
  obtain ⟨h1, h2, h3, _, _⟩ := plain_facts hc
  simp only [is_special, Bool.or_eq_false_iff, decide_eq_false_iff_not] at h1
  obtain ⟨⟨⟨⟨⟨⟨k1, k2⟩, k3⟩, k4⟩, k5⟩, k6⟩, k7⟩ := h1
  simp only [is_pcre_meta, Bool.or_eq_false_iff, decide_eq_false_iff_not] at h2
  obtain ⟨⟨⟨⟨⟨⟨m1, m2⟩, m3⟩, m4⟩, m5⟩, m6⟩, m7⟩ := h2
  unfold convert_iteration convert_case
  simp [k1, k2, k3, k4, k5, k6, k7, m1, m2, m3, m4, m5, m6, m7, h3, case_default]

theorem alt_subst_append (d n : Nat) (s : List Char) (h : AltText d n s) :
    ∀ (k : Nat) (t : List Char), alt_subst k (s ++ t) = alt_subst k s ++ alt_subst k t := by
  induction h with
  | nil d => intro k t; rfl
  | lit d n c s hc _ ih =>
    intro k t
    obtain ⟨_, _, h3, h4, h5⟩ := plain_facts hc
    simp [alt_subst, h3, h4, h5, ih]
  | comma d n s _ ih =>
    intro k t
    by_cases hk : 0 < k <;> simp [alt_subst, hk, ih]
  | group d n1 n s1 s _ _ ih1 ih2 =>
    intro k t
    simp [alt_subst, ih1, ih2]

theorem alt_commas_le (d n : Nat) (s : List Char) (h : AltText d n s) : n ≤ s.length := by
  induction h with
  | nil d => simp
  | lit d n c s _ _ ih => simp; omega
  | comma d n s _ ih => simp; omega
  | group d n1 n s1 s _ _ _ ih2 => simp; omega

/-- The loop on a text of literal bytes, commas and groups, followed by any
text `r`, from a state with `k` groups open. -/
theorem convert_loop_alt (d n : Nat) (s : List Char) (h : AltText d n s) :
    ∀ (st : ConvState) (k : Nat) (r : List Char),
      st.error = error_type.e_no_error → st.bEscape = false → st.incharclass = 0 →
      st.ingrouping = (k : Int) → k + d < 50 → s.length < 2147483648 →
      (k ≠ 0 → 0 ≤ st.grouping_count k ∧ st.grouping_count k + s.length < 2147483648) →
      ∃ st1, convert_loop st false (s ++ r) = convert_loop st1 false r ∧
        st1.error = error_type.e_no_error ∧ st1.bEscape = false ∧ st1.incharclass = 0 ∧
        st1.ingrouping = (k : Int) ∧ st1.pcre = st.pcre ++ alt_subst k s ∧
        st1.ptype = (if '\x7b' ∈ s then pattern_t.ePatternRegex else st.ptype) ∧
        (k ≠ 0 → st1.grouping_count k = st.grouping_count k + n) ∧
        ∀ j : Int, j < k → st1.grouping_count j = st.grouping_count j := by
  induction h with
  | nil d =>
    intro st k r he hb hc hk _ _ _
    exact ⟨st, rfl, he, hb, hc, hk, by simp [alt_subst], by simp, by simp, fun _ _ => rfl⟩
  | lit d n c s hpl _ ih =>
    intro st k r he hb hc hk hd hlen hcount
    obtain ⟨_, _, h3, h4, h5⟩ := plain_facts hpl
    simp only [List.length_cons] at hlen hcount
    obtain ⟨st1, e1, e2, e3, e4, e5, e6, e7, e8, e9⟩ :=
      ih { st with pcre := st.pcre ++ [c], bEscape := false, sptr := st.sptr + 1 } k r
        he rfl hc hk hd (by omega) (fun h0 => by
          have := hcount h0
          exact ⟨this.1, by push_cast at this ⊢; omega⟩)
    refine ⟨st1, ?_, e2, e3, e4, e5, ?_, ?_, e8, e9⟩
    · rw [List.cons_append, convert_loop_cons _ _ _ he, convert_iteration_literal st c _ hpl]
      exact e1
    · rw [e6]
      simp [alt_subst, h3, h4, h5]
    · rw [e7]
      simp [h4.symm]
  | comma d n s _ ih =>
    intro st k r he hb hc hk hd hlen hcount
    simp only [List.length_cons] at hlen hcount
    by_cases hk0 : k = 0
    · subst hk0
      have hit : convert_iteration st ',' (s ++ r) =
          some ({ st with pcre := st.pcre ++ [','], bEscape := false, sptr := st.sptr + 1 },
            false) := by
        unfold convert_iteration convert_case case_comma
        simp [hb, hk, hc, String.toList]
      obtain ⟨st1, e1, e2, e3, e4, e5, e6, e7, e8, e9⟩ :=
        ih { st with pcre := st.pcre ++ [','], bEscape := false, sptr := st.sptr + 1 } 0 r
          he rfl hc hk hd (by omega) (fun h0 => absurd rfl h0)
      refine ⟨st1, ?_, e2, e3, e4, e5, ?_, ?_, fun h0 => absurd rfl h0, e9⟩
      · rw [List.cons_append, convert_loop_cons _ _ _ he, hit]
        exact e1
      · rw [e6]
        simp [alt_subst]
      · rw [e7]
        simp
    · obtain ⟨hc0, hc1⟩ := hcount hk0
      have hg0 : st.ingrouping ≠ 0 := by rw [hk]; exact_mod_cast hk0
      have hit : convert_iteration st ',' (s ++ r) =
          some ({ st with
            grouping_count := fun j =>
              if j = st.ingrouping then int_wrap (st.grouping_count st.ingrouping + 1)
              else st.grouping_count j,
            pcre := st.pcre ++ ['|'], bEscape := false, sptr := st.sptr + 1 }, false) := by
        unfold convert_iteration convert_case
        simp [case_comma_eq st hb hg0 hc (by omega) (by omega)]
      have hw : int_wrap (st.grouping_count k + 1) = st.grouping_count k + 1 :=
        int_wrap_small _ (by omega) (by push_cast at hc1; omega)
      obtain ⟨st1, e1, e2, e3, e4, e5, e6, e7, e8, e9⟩ :=
        ih { st with
            grouping_count := fun j =>
              if j = st.ingrouping then int_wrap (st.grouping_count st.ingrouping + 1)
              else st.grouping_count j,
            pcre := st.pcre ++ ['|'], bEscape := false, sptr := st.sptr + 1 } k r
          he rfl hc hk hd (by omega) (fun _ => by
            simp only [hk, if_true, hw]
            push_cast at hc1
            constructor <;> omega)
      refine ⟨st1, ?_, e2, e3, e4, e5, ?_, ?_, ?_, ?_⟩
      · rw [List.cons_append, convert_loop_cons _ _ _ he, hit]
        exact e1
      · rw [e6]
        simp [alt_subst, Nat.pos_of_ne_zero hk0]
      · rw [e7]
        simp
      · intro _
        rw [e8 hk0]
        simp only [hk, if_true, hw]
        push_cast
        omega
      · intro j hj
        rw [e9 j hj]
        simp only [hk]
        rw [if_neg (by omega)]
  | group d n1 n s1 s h1 _ ih1 ih2 =>
    intro st k r he hb hc hk hd hlen hcount
    simp only [List.length_cons, List.length_append] at hlen hcount
    have hopen : convert_iteration st '\x7b' (s1 ++ '\x7d' :: s ++ r) =
        some ({ st with
          first_re_pos := if st.first_re_pos = 0 then int_wrap st.sptr else st.first_re_pos,
          ingrouping := st.ingrouping + 1,
          grouping_count := fun j => if j = st.ingrouping + 1 then 0 else st.grouping_count j,
          ptype := pattern_t.ePatternRegex,
          pcre := st.pcre ++ ['('], bEscape := false, sptr := st.sptr + 1 }, false) := by
      unfold convert_iteration convert_case
      simp [case_open_group_eq st hb hc (by omega) (by omega)]
    obtain ⟨st1, e1, e2, e3, e4, e5, e6, e7, e8, e9⟩ :=
      ih1 { st with
          first_re_pos := if st.first_re_pos = 0 then int_wrap st.sptr else st.first_re_pos,
          ingrouping := st.ingrouping + 1,
          grouping_count := fun j => if j = st.ingrouping + 1 then 0 else st.grouping_count j,
          ptype := pattern_t.ePatternRegex,
          pcre := st.pcre ++ ['('], bEscape := false, sptr := st.sptr + 1 } (k + 1)
        ('\x7d' :: s ++ r) he rfl hc (by simp only [hk]; push_cast; rfl) (by omega) (by omega)
        (fun _ => by
          simp only [hk]
          push_cast
          simp only [if_true]
          constructor <;> omega)
    have hcnt : st1.grouping_count st1.ingrouping = (n1 : Int) + 1 := by
      rw [e5, e8 (by omega)]
      simp only [hk]
      push_cast
      simp
    have hI : st1.ingrouping = (k : Int) + 1 := by rw [e5]; push_cast; rfl
    rw [hI] at hcnt
    have hn1 : ¬ ((n1 : Int) + 1 = 0) := by omega
    have hn2 : ¬ ((k : Int) + 1 - 1 < 0) := by omega
    have hclose : convert_iteration st1 '\x7d' (s ++ r) =
        some ({ st1 with
          ingrouping := (k : Int),
          pcre := st1.pcre ++ [')'], bEscape := false, sptr := st1.sptr + 1 }, false) := by
      unfold convert_iteration convert_case
      simp [case_close_group_eq st1 e3 e4 (by omega) (by omega), hI, hcnt, e2, hn1, hn2]
    obtain ⟨st2, f1, f2, f3, f4, f5, f6, f7, f8, f9⟩ :=
      ih2 { st1 with
          ingrouping := (k : Int),
          pcre := st1.pcre ++ [')'], bEscape := false, sptr := st1.sptr + 1 } k r
        e2 rfl e4 rfl hd (by omega) (fun h0 => by
          simp only
          rw [e9 k (by push_cast; omega)]
          simp only [hk]
          rw [if_neg (by omega)]
          have := hcount h0
          constructor
          · exact this.1
          · push_cast at this ⊢
            omega)
    refine ⟨st2, ?_, f2, f3, f4, f5, ?_, ?_, ?_, ?_⟩
    · rw [List.cons_append, convert_loop_cons _ _ _ he]
      have e : s1 ++ '\x7d' :: s ++ r = s1 ++ ('\x7d' :: s ++ r) := by simp
      rw [hopen]
      simp only [Option.some_bind]
      rw [e, e1]
      simp only [List.cons_append]
      rw [convert_loop_cons _ _ _ e2, hclose]
      exact f1
    · rw [f6]
      simp only [e6]
      have hs := alt_subst_append d (n1 + 1) s1 h1 (k + 1) ('\x7d' :: s)
      simp [alt_subst, hs]
    · have e7b : st1.ptype = pattern_t.ePatternRegex := by
        rw [e7]
        simp
      rw [f7]
      simp [e7b]
    · intro h0
      rw [f8 h0]
      simp only
      rw [e9 k (by push_cast; omega)]
      simp only [hk]
      rw [if_neg (by omega)]
    · intro j hj
      rw [f9 j hj]
      simp only
      rw [e9 j (by push_cast; omega)]
      simp only [hk]
      rw [if_neg (by omega)]

/-- Claim C20 fails for a pattern without a group: `abc` is built only from
literal bytes, its braces are balanced and it has no group, and the class it
gets is Basic, not Regex. -/
theorem convert_no_group_basic :
    AltText 0 0 "abc".toList ∧
    convert_aaregex_to_pcre "abc".toList false [] (fun _ => 0) =
      some ⟨pattern_t.ePatternBasic, "abc".toList, 0⟩ :=
  ⟨AltText.lit 0 0 'a' _ (by decide) (AltText.lit 0 0 'b' _ (by decide)
      (AltText.lit 0 0 'c' _ (by decide) (AltText.nil 0))),
   by decide⟩

/-- Claim C20, amended.  For a pattern shorter than 2^31 bytes that is built
from literal bytes, unescaped commas and groups in braces, with the braces
balanced, the groups nested at most 49 deep and at least one comma at the
level of every group, the call with the anchor off and an empty buffer leaves
in the buffer the pattern with `(` for every opening brace, `)` for every
closing brace and `|` for every comma inside a group; the class is Regex when
the pattern has a group and Basic when it has none. -/
theorem convert_alternation (d n : Nat) (p : List Char) (garbage : Int → Int)
    (h : AltText d n p) (hd : d ≤ 49) (hlen : p.length < 2147483648) :
    (convert_aaregex_to_pcre p false [] garbage).map (fun r => (r.ptype, r.pcre)) =
      some (if '\x7b' ∈ p then pattern_t.ePatternRegex else pattern_t.ePatternBasic,
        alt_subst 0 p) := by
  obtain ⟨st1, e1, e2, e3, e4, e5, e6, e7, _, _⟩ :=
    convert_loop_alt d n p h (convert_start false [] garbage) 0 [] rfl rfl rfl rfl
      (by omega) hlen (fun h0 => absurd rfl h0)
  rw [List.append_nil, convert_loop_nil] at e1
  unfold convert_aaregex_to_pcre
  rw [e1]
  simp only [Option.map_some', convert_finish, e2, e3, e4, e5, e6, e7, Option.some.injEq,
    Prod.mk.injEq]
  simp [convert_start]

/-- The pattern `{{alpha,{blort,nested}},beta}` is built from literal bytes,
commas and groups nested 3 deep. -/
theorem alt_text_nested :
    AltText 3 0 "\x7b\x7balpha,\x7bblort,nested\x7d\x7d,beta\x7d".toList :=
  (AltText.group 2 0 0 "\x7balpha,\x7bblort,nested\x7d\x7d,beta".toList []
    (AltText.group 1 0 1 "alpha,\x7bblort,nested\x7d".toList ",beta".toList
      (AltText.lit 1 1 'a' _ (by decide)
      (AltText.lit 1 1 'l' _ (by decide)
      (AltText.lit 1 1 'p' _ (by decide)
      (AltText.lit 1 1 'h' _ (by decide)
      (AltText.lit 1 1 'a' _ (by decide)
      (AltText.comma 1 0 _
      (AltText.group 0 0 0 "blort,nested".toList []
        (AltText.lit 0 1 'b' _ (by decide)
        (AltText.lit 0 1 'l' _ (by decide)
        (AltText.lit 0 1 'o' _ (by decide)
        (AltText.lit 0 1 'r' _ (by decide)
        (AltText.lit 0 1 't' _ (by decide)
        (AltText.comma 0 0 _
        (AltText.lit 0 0 'n' _ (by decide)
        (AltText.lit 0 0 'e' _ (by decide)
        (AltText.lit 0 0 's' _ (by decide)
        (AltText.lit 0 0 't' _ (by decide)
        (AltText.lit 0 0 'e' _ (by decide)
        (AltText.lit 0 0 'd' _ (by decide)
        (AltText.nil 0)))))))))))))
        (AltText.nil 1))))))))
      (AltText.comma 2 0 _
      (AltText.lit 2 0 'b' _ (by decide)
      (AltText.lit 2 0 'e' _ (by decide)
      (AltText.lit 2 0 't' _ (by decide)
      (AltText.lit 2 0 'a' _ (by decide)
      (AltText.nil 2)))))))
    (AltText.nil 3))

theorem convert_alternation_witness :
    (convert_aaregex_to_pcre "\x7b\x7balpha,\x7bblort,nested\x7d\x7d,beta\x7d".toList
        false [] (fun _ => 0)).map (fun r => (r.ptype, r.pcre)) =
      some (pattern_t.ePatternRegex, "((alpha|(blort|nested))|beta)".toList) :=
  convert_alternation 3 0 _ (fun _ => 0) alt_text_nested (by decide) (by decide)

/-! ## The translator follows the nesting of the pattern -/

theorem counts_ok_congr (count1 count2 : Int → Int) (s : List Bool)
    (h : ∀ j : Int, j ≤ s.length → count2 j = count1 j) (h1 : CountsOk count1 s) :
    CountsOk count2 s := by
  induction s with
  | nil => trivial
  | cons b s ih =>
    obtain ⟨h2, h3⟩ := h1
    constructor
    · intro hb
      rw [h _ (by simp)]
      exact h2 hb
    · refine ih (fun j hj => h j ?_) h3
      simp only [List.length_cons, Nat.cast_add, Nat.cast_one]
      omega

theorem same_nesting_refl (st : ConvState) : SameNesting st st := ⟨rfl, rfl, rfl, rfl⟩

theorem convert_star_nesting (st : ConvState) (rest : List Char) :
    SameNesting st (convert_star st rest).1 := by
  rw [convert_star_eq]
  exact ⟨rfl, rfl, rfl, rfl⟩

theorem case_star_nesting (st : ConvState) (rest : List Char) :
    SameNesting st (case_star st rest).1 := by
  unfold case_star
  split_ifs
  · exact ⟨rfl, rfl, rfl, rfl⟩
  · exact convert_star_nesting st rest

theorem case_question_nesting (st : ConvState) : SameNesting st (case_question st) := by
  unfold case_question
  simp only [update_re_pos_eq]
  split_ifs <;> exact ⟨rfl, rfl, rfl, rfl⟩

theorem case_anchor_nesting (st : ConvState) (c : Char) :
    SameNesting st (case_anchor st c) := by
  unfold case_anchor
  split_ifs <;> exact ⟨rfl, rfl, rfl, rfl⟩

/-- A byte that is none of `[ ] { } ,` changes nothing of the nesting. -/
theorem convert_case_inert (st : ConvState) (c : Char) (rest : List Char)
    (h1 : c ≠ '[') (h2 : c ≠ ']') (h3 : c ≠ '\x7b') (h4 : c ≠ '\x7d') (h5 : c ≠ ',') :
    ∃ r, convert_case st c rest = some r ∧ SameNesting st r.1 := by
  unfold convert_case
  rw [if_neg h1, if_neg h2, if_neg h3, if_neg h4, if_neg h5]
  split_ifs
  · exact ⟨_, rfl, case_star_nesting st rest⟩
  · exact ⟨_, rfl, case_question_nesting st⟩
  · exact ⟨_, rfl, case_anchor_nesting st c⟩
  · exact ⟨_, rfl, rfl, rfl, rfl, rfl⟩
  · exact ⟨_, rfl, rfl, rfl, rfl, rfl⟩

/-- An escaped byte changes nothing of the nesting. -/
theorem convert_case_escaped (st : ConvState) (c : Char) (rest : List Char)
    (hb : st.bEscape = true) :
    ∃ r, convert_case st c rest = some r ∧ SameNesting st r.1 := by
  by_cases h1 : c = '['
  · unfold convert_case case_open_class
    rw [if_pos hb]
    simp only [h1, Char.reduceEq, if_false, if_true]
    exact ⟨_, rfl, rfl, rfl, rfl, rfl⟩
  by_cases h2 : c = ']'
  · unfold convert_case case_close_class
    rw [if_pos hb]
    simp only [h2, Char.reduceEq, if_false, if_true]
    exact ⟨_, rfl, rfl, rfl, rfl, rfl⟩
  by_cases h3 : c = '\x7b'
  · unfold convert_case case_open_group
    rw [if_pos hb]
    simp only [h3, Char.reduceEq, if_false, if_true, Option.map_some']
    exact ⟨_, rfl, rfl, rfl, rfl, rfl⟩
  by_cases h4 : c = '\x7d'
  · unfold convert_case case_close_group
    rw [if_pos hb]
    simp only [h4, Char.reduceEq, if_false, if_true, Option.map_some']
    exact ⟨_, rfl, rfl, rfl, rfl, rfl⟩
  by_cases h5 : c = ','
  · unfold convert_case case_comma
    rw [if_pos hb]
    simp only [h5, Char.reduceEq, if_false, if_true]
    split_ifs <;> exact ⟨_, rfl, rfl, rfl, rfl, rfl⟩
  exact convert_case_inert st c rest h1 h2 h3 h4 h5

/-- Inside a character class an unescaped brace or comma is appended and
changes nothing else. -/
theorem convert_case_in_class (st : ConvState) (c : Char) (rest : List Char)
    (hb : st.bEscape = false) (hc : st.incharclass ≠ 0)
    (h : c = '\x7b' ∨ c = '\x7d' ∨ c = ',') :
    convert_case st c rest = some ({ st with pcre := st.pcre ++ [c] }, false) := by
  have hb2 : ¬ st.bEscape = true := by rw [hb]; simp
  rcases h with h | h | h
  · unfold convert_case case_open_group
    rw [if_neg hb2, if_pos hc]
    simp only [h, Char.reduceEq, if_false, if_true, Option.map_some']
    rfl
  · unfold convert_case case_close_group
    rw [if_neg hb2, if_pos hc]
    simp only [h, Char.reduceEq, if_false, if_true, Option.map_some']
    rfl
  · unfold convert_case case_comma
    have hn : ¬ (st.ingrouping ≠ 0 ∧ st.incharclass = 0) := fun k => hc k.2
    rw [if_neg hb2, if_neg hn]
    simp only [h, Char.reduceEq, if_false, if_true, Option.map_some']
    rfl

theorem scan_agrees_same (σ : SpecScan) (st r : ConvState) (k : Nat)
    (hs : ScanAgrees σ st) (hn : SameNesting st r) :
    ScanAgrees { σ with esc := false } { r with bEscape := false, sptr := k } := by
  obtain ⟨_, s2, s3, s4, s5, s6, s7, s8, s9⟩ := hs
  obtain ⟨n1, n2, n3, _⟩ := hn
  refine ⟨rfl, ?_, ?_, s4, ?_, s6, s7, s8, s9⟩
  · show r.incharclass ≠ 0 ↔ σ.incl = true
    rw [n1]
    exact s2
  · show r.ingrouping = _
    rw [n2]
    exact s3
  · show CountsOk r.grouping_count σ.groups
    rw [n3]
    exact s5

theorem spec_scan_esc_eta (σ : SpecScan) (h : σ.esc = false) : { σ with esc := false } = σ := by
  cases σ
  simp only at h
  subst h
  rfl

/-- The scan ignores an unescaped byte that is none of `\ [ ] { } ,`. -/
theorem spec_scan_step_inert (σ : SpecScan) (c : Char) (h0 : σ.esc = false) (hc : c ≠ '\\')
    (h1 : c ≠ '[') (h2 : c ≠ ']') (h3 : c ≠ '\x7b') (h4 : c ≠ '\x7d') (h5 : c ≠ ',') :
    spec_scan_step σ c = σ := by
  unfold spec_scan_step
  rw [if_neg (by rw [h0]; simp), if_neg hc, if_neg h1, if_neg h2, if_neg h3, if_neg h4,
    if_neg h5]
  split_ifs <;> rfl

/-- The scan ignores an unescaped brace or comma inside a character class. -/
theorem spec_scan_step_in_class (σ : SpecScan) (c : Char) (h0 : σ.esc = false)
    (hi : σ.incl = true) (hc : c ≠ '\\') (h1 : c ≠ '[') (h2 : c ≠ ']') :
    spec_scan_step σ c = σ := by
  unfold spec_scan_step
  rw [if_neg (by rw [h0]; simp), if_neg hc, if_neg h1, if_neg h2, if_pos hi]

theorem case_open_class_eq (st : ConvState) (hb : st.bEscape = false) :
    case_open_class st =
      { st with
        first_re_pos := if st.first_re_pos = 0 then int_wrap st.sptr else st.first_re_pos,
        incharclass := 1, ptype := pattern_t.ePatternRegex, pcre := st.pcre ++ ['['] } := by
  unfold case_open_class
  rw [if_neg (by rw [hb]; simp)]
  simp only [update_re_pos_eq]
  rfl

theorem case_close_class_eq (st : ConvState) (hb : st.bEscape = false) :
    case_close_class st =
      { st with
        error := if st.incharclass = 0 then error_type.e_parse_error else st.error,
        incharclass := 0, pcre := st.pcre ++ [']'] } := by
  unfold case_close_class
  rw [if_neg (by rw [hb]; simp)]
  split_ifs <;> rfl

/-- One iteration of the translator and one step of the scan keep the
agreement, as long as the iteration sets no error. -/
theorem scan_agrees_step (σ : SpecScan) (st r : ConvState) (c : Char) (rest : List Char)
    (tw : Bool) (hs : ScanAgrees σ st) (h : convert_iteration st c rest = some (r, tw))
    (hr : r.error = error_type.e_no_error) :
    ScanAgrees (spec_scan_step σ c) r := by
  have hs0 := hs
  obtain ⟨s1, s2, s3, s4, s5, s6, s7, s8, s9⟩ := hs
  rcases convert_iteration_some st r c rest tw h with
    ⟨hc, hb, _, e⟩ | ⟨hc, hb, _, e⟩ | ⟨hc, r0, hr0, _, e⟩
  · have he0 : ¬ σ.esc = true := by rw [← s1, hb]; simp
    unfold spec_scan_step
    rw [if_neg he0, if_pos hc, e]
    exact ⟨rfl, s2, s3, s4, s5, s6, s7, s8, s9⟩
  · have he1 : σ.esc = true := by rw [← s1, hb]
    unfold spec_scan_step
    rw [if_pos he1, e]
    exact ⟨rfl, s2, s3, s4, s5, s6, s7, s8, s9⟩
  · cases hb : st.bEscape with
    | true =>
      have he1 : σ.esc = true := by rw [← s1, hb]
      obtain ⟨r1, hr1, hn⟩ := convert_case_escaped st c rest hb
      rw [hr1, Option.some.injEq] at hr0
      subst hr0
      unfold spec_scan_step
      rw [if_pos he1, e]
      exact scan_agrees_same σ st r1.1 _ hs0 hn
    | false =>
      have he0 : σ.esc = false := by rw [← s1, hb]
      have he2 : ¬ σ.esc = true := by rw [he0]; simp
      by_cases h1 : c = '['
      · have hcase : convert_case st c rest = some (case_open_class st, false) := by
          unfold convert_case; simp [h1]
        rw [hcase, Option.some.injEq] at hr0
        subst hr0
        unfold spec_scan_step
        rw [if_neg he2, if_neg hc, if_pos h1, e, case_open_class_eq st hb]
        exact ⟨he0.symm, by simp, s3, s4, s5, s6, s7, s8, s9⟩
      by_cases h2 : c = ']'
      · have hcase : convert_case st c rest = some (case_close_class st, false) := by
          unfold convert_case; simp [h2]
        rw [hcase, Option.some.injEq] at hr0
        subst hr0
        rw [e, case_close_class_eq st hb] at hr
        have hcl : st.incharclass ≠ 0 := by
          intro k
          simp [k] at hr
        unfold spec_scan_step
        rw [if_neg he2, if_neg hc, if_neg h1, if_pos h2, if_pos (s2.1 hcl), e,
          case_close_class_eq st hb]
        exact ⟨he0.symm, by simp, s3, s4, s5, s6, s7, s8, s9⟩
      by_cases hin : st.incharclass ≠ 0
      · have hsc : spec_scan_step σ c = σ :=
          spec_scan_step_in_class σ c he0 (s2.1 hin) hc h1 h2
        rw [hsc, ← spec_scan_esc_eta σ he0, e]
        refine scan_agrees_same σ st r0.1 _ hs0 ?_
        by_cases hbr : c = '\x7b' ∨ c = '\x7d' ∨ c = ','
        · rw [convert_case_in_class st c rest hb hin hbr, Option.some.injEq] at hr0
          subst hr0
          exact ⟨rfl, rfl, rfl, rfl⟩
        · obtain ⟨r1, hr1, hn⟩ :=
            convert_case_inert st c rest h1 h2 (fun k => hbr (Or.inl k))
              (fun k => hbr (Or.inr (Or.inl k))) (fun k => hbr (Or.inr (Or.inr k)))
          rw [hr1, Option.some.injEq] at hr0
          subst hr0
          exact hn
      have hcl : st.incharclass = 0 := not_not.1 hin
      have hi0 : ¬ σ.incl = true := fun k => hin (s2.2 k)
      have hg0 : (0 : Int) ≤ st.ingrouping := by rw [s3]; exact Int.natCast_nonneg _
      have hg1 : st.ingrouping < 50 := by rw [s3]; exact_mod_cast s4
      by_cases h3 : c = '\x7b'
      · have hcase : convert_case st c rest = (case_open_group st).map fun x => (x, false) := by
          unfold convert_case; simp [h3]
        by_cases hd : st.ingrouping + 1 < 50
        · rw [hcase, case_open_group_eq st hb hcl hg0 hd, Option.map_some',
            Option.some.injEq] at hr0
          subst hr0
          have hd2 : σ.groups.length + 1 < 50 := by
            rw [s3] at hd
            exact_mod_cast hd
          unfold spec_scan_step
          rw [if_neg he2, if_neg hc, if_neg h1, if_neg h2, if_neg hi0, if_pos h3, e]
          refine ⟨he0.symm, s2, ?_, ?_, ⟨fun _ => ?_, ?_⟩, s6, s7, s8, ?_⟩
          · show st.ingrouping + 1 = ((false :: σ.groups).length : Int)
            rw [s3]
            simp
          · exact hd2
          · show (if (σ.groups.length : Int) + 1 = st.ingrouping + 1 then (0 : Int)
              else st.grouping_count ((σ.groups.length : Int) + 1)) = 0
            rw [if_pos (by rw [s3])]
          · refine counts_ok_congr st.grouping_count _ σ.groups (fun j hj => ?_) s5
            show (if j = st.ingrouping + 1 then (0 : Int) else st.grouping_count j) =
              st.grouping_count j
            rw [if_neg (by rw [s3]; omega)]
          · show (σ.too_deep || decide (50 ≤ σ.groups.length + 1)) = false
            rw [s9]
            simp
            omega
        · rw [hcase, case_open_group_overflow st hb hcl (by omega), Option.map_some',
            Option.some.injEq] at hr0
          subst hr0
          rw [e] at hr
          exact absurd hr (by simp)
      by_cases h4 : c = '\x7d'
      · have hcase : convert_case st c rest = (case_close_group st).map fun x => (x, false) := by
          unfold convert_case; simp [h4]
        rw [hcase, case_close_group_eq st hb hcl hg0 hg1, Option.map_some',
          Option.some.injEq] at hr0
        subst hr0
        rw [e] at hr
        have hr2 : (if st.grouping_count st.ingrouping = 0 ∨ st.ingrouping - 1 < 0
            then error_type.e_parse_error else st.error) = error_type.e_no_error := hr
        have hno : ¬ (st.grouping_count st.ingrouping = 0 ∨ st.ingrouping - 1 < 0) := by
          intro k
          rw [if_pos k] at hr2
          exact absurd hr2 (by simp)
        unfold spec_scan_step
        rw [if_neg he2, if_neg hc, if_neg h1, if_neg h2, if_neg hi0, if_neg h3, if_pos h4, e]
        cases hgr : σ.groups with
        | nil =>
          rw [hgr] at s3
          exact absurd (Or.inr (by rw [s3]; simp)) hno
        | cons b s =>
          rw [hgr] at s3 s4 s5
          simp only [List.length_cons, Nat.cast_add, Nat.cast_one] at s3 s4
          have hb1 : b = true := by
            cases hbv : b with
            | true => rfl
            | false =>
              exact absurd (Or.inl (by rw [s3]; exact s5.1 hbv)) hno
          have hlt : ¬ st.ingrouping - 1 < 0 := fun k => hno (Or.inr k)
          refine ⟨he0.symm, s2, ?_, ?_, s5.2, s6, s7, ?_, s9⟩
          · show (if st.ingrouping - 1 < 0 then (0 : Int) else st.ingrouping - 1) = (s.length : Int)
            rw [if_neg hlt, s3]
            omega
          · show s.length < 50
            omega
          · show (σ.empty_group || !b) = false
            rw [s8, hb1]
            rfl
      by_cases h5 : c = ','
      · have hcase : convert_case st c rest = (case_comma st).map fun x => (x, false) := by
          unfold convert_case; simp [h5]
        unfold spec_scan_step
        rw [if_neg he2, if_neg hc, if_neg h1, if_neg h2, if_neg hi0, if_neg h3, if_neg h4,
          if_pos h5, e]
        cases hgr : σ.groups with
        | nil =>
          rw [hgr] at s3
          have hn : ¬ (st.ingrouping ≠ 0 ∧ st.incharclass = 0) := fun k => k.1 (by rw [s3]; rfl)
          have hcm : case_comma st = some { st with pcre := st.pcre ++ ",".toList } := by
            unfold case_comma
            rw [if_neg (by rw [hb]; simp), if_neg hn]
          rw [hcase, hcm, Option.map_some', Option.some.injEq] at hr0
          subst hr0
          have := scan_agrees_same σ st { st with pcre := st.pcre ++ ",".toList }
            (st.sptr + 1) hs0 ⟨rfl, rfl, rfl, rfl⟩
          rw [spec_scan_esc_eta σ he0] at this
          exact this
        | cons b s =>
          rw [hgr] at s3 s4 s5
          simp only [List.length_cons, Nat.cast_add, Nat.cast_one] at s3
          have hne : st.ingrouping ≠ 0 := by rw [s3]; omega
          rw [hcase, case_comma_eq st hb hne hcl hg0 hg1, Option.map_some',
            Option.some.injEq] at hr0
          subst hr0
          refine ⟨he0.symm, s2, ?_, s4, ⟨fun k => absurd k (by simp), ?_⟩, s6, s7, s8, s9⟩
          · show st.ingrouping = (((true :: s).length : Nat) : Int)
            rw [s3]
            simp
          · refine counts_ok_congr st.grouping_count _ s (fun j hj => ?_) s5.2
            show (if j = st.ingrouping then int_wrap (st.grouping_count st.ingrouping + 1)
              else st.grouping_count j) = st.grouping_count j
            rw [if_neg (by rw [s3]; omega)]
      obtain ⟨r1, hr1, hn⟩ := convert_case_inert st c rest h1 h2 h3 h4 h5
      rw [hr1, Option.some.injEq] at hr0
      subst hr0
      rw [spec_scan_step_inert σ c he0 hc h1 h2 h3 h4 h5, ← spec_scan_esc_eta σ he0, e]
      exact scan_agrees_same σ st r1.1 _ hs0 hn

theorem convert_loop_error_any (st : ConvState) (tw : Bool) (s : List Char)
    (h : st.error ≠ error_type.e_no_error) : convert_loop st tw s = some st := by
  cases tw with
  | false => exact convert_loop_error st s h
  | true =>
    cases s with
    | nil => rfl
    | cons c rest => rw [convert_loop_skip]; exact convert_loop_error st rest h

theorem convert_iteration_twice_escape (st st1 : ConvState) (c : Char) (rest : List Char)
    (h : convert_iteration st c rest = some (st1, true)) : st1.bEscape = false := by
  rcases convert_iteration_some st st1 c rest true h with
    ⟨_, _, h1, _⟩ | ⟨_, _, h1, _⟩ | ⟨_, r, _, _, e⟩
  · exact absurd h1 (by simp)
  · exact absurd h1 (by simp)
  · rw [e]

/-- When the loop ends with no error set, the state agrees with the scan of
the text, and the scan met nothing that makes a pattern invalid. -/
theorem scan_agrees_loop (s : List Char) :
    ∀ (σ : SpecScan) (st st1 : ConvState) (tw : Bool), ScanAgrees σ st →
      (tw = true → s.head? = some '*' ∧ st.bEscape = false) →
      convert_loop st tw s = some st1 → st1.error = error_type.e_no_error →
      ScanAgrees (s.foldl spec_scan_step σ) st1 := by
  induction s with
  | nil =>
    intro σ st st1 tw hs _ h _
    rw [convert_loop_nil, Option.some.injEq] at h
    rw [← h]
    exact hs
  | cons c rest ih =>
    intro σ st st1 tw hs htw h h1
    rw [List.foldl_cons]
    cases tw with
    | true =>
      obtain ⟨hc, hb⟩ := htw rfl
      simp only [List.head?_cons, Option.some.injEq] at hc
      rw [convert_loop_skip] at h
      have he0 : σ.esc = false := by rw [← hs.1, hb]
      rw [spec_scan_step_inert σ c he0 (by rw [hc]; decide) (by rw [hc]; decide)
        (by rw [hc]; decide) (by rw [hc]; decide) (by rw [hc]; decide) (by rw [hc]; decide)]
      exact ih σ st st1 false hs (fun k => absurd k (by simp)) h h1
    | false =>
      by_cases he : st.error = error_type.e_no_error
      · rw [convert_loop_cons st c rest he] at h
        cases hit : convert_iteration st c rest with
        | none => rw [hit] at h; exact absurd h (by simp)
        | some r =>
          obtain ⟨r1, tw1⟩ := r
          rw [hit, Option.some_bind] at h
          by_cases hr : r1.error = error_type.e_no_error
          · refine ih _ r1 st1 tw1 (scan_agrees_step σ st r1 c rest tw1 hs hit hr) ?_ h h1
            intro k
            subst k
            exact ⟨(convert_iteration_twice st r1 c rest hit).2.2,
              convert_iteration_twice_escape st r1 c rest hit⟩
          · rw [convert_loop_error_any r1 tw1 rest hr, Option.some.injEq] at h
            rw [← h] at h1
            exact absurd h1 hr
      · rw [convert_loop_error st _ he, Option.some.injEq] at h
        rw [← h] at h1
        exact absurd h1 he

theorem scan_agrees_start (anchor : Bool) (b : List Char) (garbage : Int → Int) :
    ScanAgrees spec_scan_start (convert_start anchor b garbage) :=
  ⟨rfl, by simp [convert_start, spec_scan_start], rfl, by simp [spec_scan_start], trivial,
    rfl, rfl, rfl, rfl⟩

/-- A pattern that gets a class other than Invalid is well nested: its scan
ends outside an escape, a class and a group, and met no stray `]` or `}`, no
group without a comma and no 50 open groups. -/
theorem convert_valid_scan (p : List Char) (anchor : Bool) (b : List Char)
    (garbage : Int → Int) (r : ConvResult)
    (h : convert_aaregex_to_pcre p anchor b garbage = some r)
    (hv : r.ptype ≠ pattern_t.ePatternInvalid) :
    (spec_scan p).esc = false ∧ (spec_scan p).incl = false ∧ (spec_scan p).groups = [] ∧
    (spec_scan p).stray_class = false ∧ (spec_scan p).stray_group = false ∧
    (spec_scan p).empty_group = false ∧ (spec_scan p).too_deep = false := by
  unfold convert_aaregex_to_pcre at h
  simp only [Option.map_eq_some'] at h
  obtain ⟨st1, hl, hf⟩ := h
  rw [← hf, convert_finish_ptype] at hv
  have hok : st1.error = error_type.e_no_error ∧ st1.ingrouping ≤ 0 ∧ st1.incharclass = 0 ∧
      st1.bEscape = false := by
    by_contra k
    rw [if_neg k] at hv
    exact hv rfl
  obtain ⟨k1, k2, k3, k4⟩ := hok
  have hag : ScanAgrees (spec_scan p) st1 :=
    scan_agrees_loop p spec_scan_start _ st1 false (scan_agrees_start anchor b garbage)
      (fun k => absurd k (by simp)) hl k1
  obtain ⟨s1, s2, s3, _, _, s6, s7, s8, s9⟩ := hag
  refine ⟨by rw [← s1, k4], ?_, ?_, s6, s7, s8, s9⟩
  · cases hi : (spec_scan p).incl with
    | false => rfl
    | true => exact absurd k3 (s2.2 hi)
  · apply List.eq_nil_of_length_eq_zero
    rw [s3] at k2
    omega

/-- A pattern whose scan is not well nested gets the class Invalid. -/
theorem convert_invalid_of_scan (p : List Char) (anchor : Bool) (b : List Char)
    (garbage : Int → Int)
    (h : ¬ ((spec_scan p).esc = false ∧ (spec_scan p).incl = false ∧
      (spec_scan p).groups = [] ∧ (spec_scan p).stray_class = false ∧
      (spec_scan p).stray_group = false ∧ (spec_scan p).empty_group = false ∧
      (spec_scan p).too_deep = false)) :
    (convert_aaregex_to_pcre p anchor b garbage).map (fun r => r.ptype) =
      some pattern_t.ePatternInvalid := by
  obtain ⟨r, hr⟩ := convert_total p anchor b garbage
  rw [hr, Option.map_some', Option.some.injEq]
  by_contra hv
  exact h (convert_valid_scan p anchor b garbage r hr hv)

/-! ## The escape at the end of a pattern -/

theorem spec_scan_step_backslash (σ : SpecScan) :
    (spec_scan_step σ '\\').esc = !σ.esc := by
  unfold spec_scan_step
  cases h : σ.esc <;> simp

theorem spec_scan_step_other (σ : SpecScan) (c : Char) (hc : c ≠ '\\') :
    (spec_scan_step σ c).esc = false := by
  unfold spec_scan_step
  cases h : σ.esc
  · simp only [Bool.false_eq_true, if_false, if_neg hc]
    split_ifs
    · rfl
    · rfl
    · rfl
    · exact h
    · rfl
    · cases σ.groups <;> rfl
    · cases σ.groups <;> first | rfl | exact h
    · exact h
  · simp

theorem spec_scan_run_even (k : Nat) :
    ∀ σ : SpecScan, ((List.replicate (2 * k) '\\').foldl spec_scan_step σ).esc = σ.esc := by
  induction k with
  | zero => intro σ; rfl
  | succ k ih =>
    intro σ
    have e : 2 * (k + 1) = 2 * k + 1 + 1 := by ring
    rw [e, List.replicate_succ, List.replicate_succ, List.foldl_cons, List.foldl_cons, ih,
      spec_scan_step_backslash, spec_scan_step_backslash, Bool.not_not]

theorem spec_scan_foldl_not_backslash (u : List Char) (σ : SpecScan)
    (hu : u.getLast? ≠ some '\\') (h0 : σ.esc = false) :
    (u.foldl spec_scan_step σ).esc = false := by
  rcases List.eq_nil_or_concat u with h | ⟨v, c, h⟩
  · rw [h]; exact h0
  · subst h
    rw [List.concat_eq_append, List.foldl_append, List.foldl_cons, List.foldl_nil]
    apply spec_scan_step_other
    intro hc
    apply hu
    rw [List.concat_eq_append, List.getLast?_append, hc]
    rfl

/-- After a text that does not end with a backslash, followed by a run of
backslashes of odd length, the scan is inside an escape. -/
theorem spec_scan_odd_run (u : List Char) (k : Nat) (hu : u.getLast? ≠ some '\\') :
    (spec_scan (u ++ List.replicate (2 * k + 1) '\\')).esc = true := by
  unfold spec_scan
  rw [List.foldl_append, List.replicate_succ, List.foldl_cons, spec_scan_run_even,
    spec_scan_step_backslash, spec_scan_foldl_not_backslash u spec_scan_start hu rfl]
  rfl

/-- Two backslashes, the first of them not escaped, put two backslashes in
the buffer and change nothing else. -/
theorem convert_loop_two_backslashes (st : ConvState) (r : List Char)
    (he : st.error = error_type.e_no_error) (hb : st.bEscape = false) :
    convert_loop st false ('\\' :: '\\' :: r) =
      convert_loop { st with pcre := st.pcre ++ ['\\', '\\'], sptr := st.sptr + 2 } false r := by
  have h1 : convert_iteration st '\\' ('\\' :: r) =
      some ({ st with bEscape := true, sptr := st.sptr + 1 }, false) := by
    unfold convert_iteration
    rw [if_pos ⟨rfl, hb⟩]
  rw [convert_loop_cons st _ _ he, h1, Option.some_bind]
  have h2 : convert_iteration { st with bEscape := true, sptr := st.sptr + 1 } '\\' r =
      some ({ st with pcre := st.pcre ++ ['\\', '\\'], sptr := st.sptr + 2 }, false) := by
    unfold convert_iteration
    rw [if_neg (by simp), if_pos rfl]
    simp only [Option.some.injEq, Prod.mk.injEq, and_true]
    cases st
    simp only at hb
    subst hb
    rfl
  show convert_loop { st with bEscape := true, sptr := st.sptr + 1 } false ('\\' :: r) = _
  rw [convert_loop_cons { st with bEscape := true, sptr := st.sptr + 1 } _ _ he, h2,
    Option.some_bind]

/-! ## The buffer is only appended to -/

theorem update_re_pos_prepend (b : List Char) (st : ConvState) :
    update_re_pos (st.prepend b) = (update_re_pos st).prepend b := by
  simp only [update_re_pos_eq, ConvState.prepend]

theorem case_question_prepend (b : List Char) (st : ConvState) :
    case_question (st.prepend b) = (case_question st).prepend b := by
  unfold case_question
  simp only [update_re_pos_eq, ConvState.prepend]
  split_ifs <;> simp [List.append_assoc]

theorem case_open_class_prepend (b : List Char) (st : ConvState) :
    case_open_class (st.prepend b) = (case_open_class st).prepend b := by
  unfold case_open_class
  simp only [update_re_pos_eq, ConvState.prepend]
  split_ifs <;> simp [List.append_assoc]

theorem case_close_class_prepend (b : List Char) (st : ConvState) :
    case_close_class (st.prepend b) = (case_close_class st).prepend b := by
  unfold case_close_class
  simp only [ConvState.prepend]
  split_ifs <;> simp [List.append_assoc]

theorem case_open_group_prepend (b : List Char) (st : ConvState) :
    case_open_group (st.prepend b) = (case_open_group st).map (ConvState.prepend b) := by
  unfold case_open_group
  simp only [update_re_pos_eq, ConvState.prepend, grouping_set]
  split_ifs <;> simp [List.append_assoc, ConvState.prepend]

theorem case_close_group_prepend (b : List Char) (st : ConvState) :
    case_close_group (st.prepend b) = (case_close_group st).map (ConvState.prepend b) := by
  cases hb : st.bEscape with
  | true =>
    unfold case_close_group
    rw [if_pos hb, if_pos (show (st.prepend b).bEscape = true from hb)]
    simp [ConvState.prepend, List.append_assoc]
  | false =>
    have hb2 : ¬ st.bEscape = true := by rw [hb]; simp
    by_cases hc : st.incharclass = 0
    · by_cases hr : 0 ≤ st.ingrouping ∧ st.ingrouping < 50
      · rw [case_close_group_eq st hb hc hr.1 hr.2,
          case_close_group_eq (st.prepend b) hb hc hr.1 hr.2]
        simp [ConvState.prepend, List.append_assoc]
      · unfold case_close_group
        rw [if_neg hb2, if_neg (not_not.2 hc),
          if_neg (show ¬ (st.prepend b).bEscape = true from hb2),
          if_neg (show ¬ (st.prepend b).incharclass ≠ 0 from not_not.2 hc)]
        have e1 : grouping_get st st.ingrouping = none := by
          unfold grouping_get
          simp only [MAX_ALT_DEPTH]
          rw [if_neg hr]
        have e2 : grouping_get (st.prepend b) (st.prepend b).ingrouping = none := e1
        rw [e1, e2]
        rfl
    · unfold case_close_group
      rw [if_neg hb2, if_pos hc, if_neg (show ¬ (st.prepend b).bEscape = true from hb2),
        if_pos (show (st.prepend b).incharclass ≠ 0 from hc)]
      simp [ConvState.prepend, List.append_assoc]

theorem case_comma_prepend (b : List Char) (st : ConvState) :
    case_comma (st.prepend b) = (case_comma st).map (ConvState.prepend b) := by
  unfold case_comma
  simp only [ConvState.prepend, grouping_get, grouping_set]
  split_ifs <;> simp [List.append_assoc, ConvState.prepend]

theorem case_anchor_prepend (b : List Char) (st : ConvState) (c : Char) :
    case_anchor (st.prepend b) c = (case_anchor st c).prepend b := by
  unfold case_anchor
  simp only [ConvState.prepend]
  split_ifs <;> simp [List.append_assoc]

theorem case_star_prepend (b : List Char) (st : ConvState) (rest : List Char)
    (h : (b ++ st.pcre).getLast? = some '/' ↔ st.pcre.getLast? = some '/') :
    case_star (st.prepend b) rest = ((case_star st rest).1.prepend b, (case_star st rest).2) := by
  unfold case_star
  simp only [convert_star_eq, ConvState.prepend, h]
  split_ifs <;> simp [List.append_assoc]

theorem convert_case_prepend (b : List Char) (st : ConvState) (c : Char)
    (rest : List Char)
    (h : (b ++ st.pcre).getLast? = some '/' ↔ st.pcre.getLast? = some '/') :
    convert_case (st.prepend b) c rest =
      (convert_case st c rest).map (fun r => (r.1.prepend b, r.2)) := by
  unfold convert_case
  by_cases h1 : c = '*'
  · rw [if_pos h1, if_pos h1, case_star_prepend b st rest h]
    rfl
  rw [if_neg h1, if_neg h1]
  by_cases h2 : c = '?'
  · rw [if_pos h2, if_pos h2, case_question_prepend b st]
    rfl
  rw [if_neg h2, if_neg h2]
  by_cases h3 : c = '['
  · rw [if_pos h3, if_pos h3, case_open_class_prepend b st]
    rfl
  rw [if_neg h3, if_neg h3]
  by_cases h4 : c = ']'
  · rw [if_pos h4, if_pos h4, case_close_class_prepend b st]
    rfl
  rw [if_neg h4, if_neg h4]
  by_cases h5 : c = '\x7b'
  · rw [if_pos h5, if_pos h5, case_open_group_prepend b st, Option.map_map, Option.map_map]
    rfl
  rw [if_neg h5, if_neg h5]
  by_cases h6 : c = '\x7d'
  · rw [if_pos h6, if_pos h6, case_close_group_prepend b st, Option.map_map, Option.map_map]
    rfl
  rw [if_neg h6, if_neg h6]
  by_cases h7 : c = ','
  · rw [if_pos h7, if_pos h7, case_comma_prepend b st, Option.map_map, Option.map_map]
    rfl
  rw [if_neg h7, if_neg h7]
  by_cases h8 : c = '^' ∨ c = '$'
  · rw [if_pos h8, if_pos h8, case_anchor_prepend b st c]
    rfl
  rw [if_neg h8, if_neg h8]
  by_cases h9 : c = '.' ∨ c = '+' ∨ c = '|' ∨ c = '(' ∨ c = ')'
  · rw [if_pos h9, if_pos h9]
    simp [case_meta, ConvState.prepend, List.append_assoc]
  · rw [if_neg h9, if_neg h9]
    simp [case_default, ConvState.prepend, List.append_assoc]

/-- An iteration on a buffer with `b` before it does what it does without
`b`, provided the two buffers agree on whether their last byte is a slash. -/
theorem convert_iteration_prepend (b : List Char) (st : ConvState) (c : Char)
    (rest : List Char)
    (h : (b ++ st.pcre).getLast? = some '/' ↔ st.pcre.getLast? = some '/') :
    convert_iteration (st.prepend b) c rest =
      (convert_iteration st c rest).map (fun r => (r.1.prepend b, r.2)) := by
  unfold convert_iteration
  by_cases h1 : c = '\\' ∧ st.bEscape = false
  · rw [if_pos h1, if_pos (show c = '\\' ∧ (st.prepend b).bEscape = false from h1)]
    rfl
  by_cases h2 : c = '\\'
  · rw [if_neg h1, if_pos h2, if_neg (show ¬ (c = '\\' ∧ (st.prepend b).bEscape = false) from h1),
      if_pos h2]
    simp [ConvState.prepend, List.append_assoc]
  · rw [if_neg h1, if_neg h2, if_neg (show ¬ (c = '\\' ∧ (st.prepend b).bEscape = false) from h1),
      if_neg h2, convert_case_prepend b st c rest h, Option.map_map, Option.map_map]
    rfl

theorem getLast_append_slash (b x : List Char) (hb : b.getLast? ≠ some '/') :
    (b ++ x).getLast? = some '/' ↔ x.getLast? = some '/' := by
  rw [List.getLast?_append]
  cases h : x.getLast? with
  | none => simpa using hb
  | some y => simp

/-- The loop on a buffer with `b` before it, `b` not ending with a slash. -/
theorem convert_loop_prepend (b : List Char) (hb : b.getLast? ≠ some '/') (s : List Char) :
    ∀ (st : ConvState) (tw : Bool),
      convert_loop (st.prepend b) tw s = (convert_loop st tw s).map (ConvState.prepend b) := by
  induction s with
  | nil => intro st tw; rw [convert_loop_nil, convert_loop_nil]; rfl
  | cons c rest ih =>
    intro st tw
    cases tw with
    | true => rw [convert_loop_skip, convert_loop_skip]; exact ih st false
    | false =>
      by_cases he : st.error = error_type.e_no_error
      · have he2 : (st.prepend b).error = error_type.e_no_error := he
        rw [convert_loop_cons _ c rest he2, convert_loop_cons st c rest he,
          convert_iteration_prepend b st c rest (getLast_append_slash b st.pcre hb)]
        cases convert_iteration st c rest with
        | none => rfl
        | some r => exact ih r.1 r.2
      · have he2 : (st.prepend b).error ≠ error_type.e_no_error := he
        rw [convert_loop_error _ _ he2, convert_loop_error _ _ he]
        rfl

/-! ## Nothing but the buffer depends on the buffer -/

theorem case_star_erase (st : ConvState) (rest : List Char) :
    ((case_star st rest).1.erase, (case_star st rest).2) =
      ((case_star st.erase rest).1.erase, (case_star st.erase rest).2) := by
  unfold case_star
  simp only [convert_star_eq, ConvState.erase]
  split_ifs <;> rfl

theorem case_question_erase (st : ConvState) :
    (case_question st).erase = (case_question st.erase).erase := by
  unfold case_question
  simp only [update_re_pos_eq, ConvState.erase]
  split_ifs <;> rfl

theorem case_open_class_erase (st : ConvState) :
    (case_open_class st).erase = (case_open_class st.erase).erase := by
  unfold case_open_class
  simp only [update_re_pos_eq, ConvState.erase]
  split_ifs <;> rfl

theorem case_close_class_erase (st : ConvState) :
    (case_close_class st).erase = (case_close_class st.erase).erase := by
  unfold case_close_class
  simp only [ConvState.erase]
  split_ifs <;> rfl

theorem case_open_group_erase (st : ConvState) :
    (case_open_group st).map ConvState.erase =
      (case_open_group st.erase).map ConvState.erase := by
  unfold case_open_group
  simp only [update_re_pos_eq, ConvState.erase, grouping_set]
  split_ifs <;> rfl

theorem case_close_group_erase (st : ConvState) :
    (case_close_group st).map ConvState.erase =
      (case_close_group st.erase).map ConvState.erase := by
  cases hb : st.bEscape with
  | true =>
    unfold case_close_group
    rw [if_pos hb, if_pos (show st.erase.bEscape = true from hb)]
    rfl
  | false =>
    have hb2 : ¬ st.bEscape = true := by rw [hb]; simp
    by_cases hc : st.incharclass = 0
    · by_cases hr : 0 ≤ st.ingrouping ∧ st.ingrouping < 50
      · rw [case_close_group_eq st hb hc hr.1 hr.2,
          case_close_group_eq st.erase hb hc hr.1 hr.2]
        rfl
      · unfold case_close_group
        rw [if_neg hb2, if_neg (not_not.2 hc),
          if_neg (show ¬ st.erase.bEscape = true from hb2),
          if_neg (show ¬ st.erase.incharclass ≠ 0 from not_not.2 hc)]
        have e1 : grouping_get st st.ingrouping = none := by
          unfold grouping_get
          simp only [MAX_ALT_DEPTH]
          rw [if_neg hr]
        have e2 : grouping_get st.erase st.erase.ingrouping = none := e1
        rw [e1, e2]
        rfl
    · unfold case_close_group
      rw [if_neg hb2, if_pos hc, if_neg (show ¬ st.erase.bEscape = true from hb2),
        if_pos (show st.erase.incharclass ≠ 0 from hc)]
      rfl

theorem case_comma_erase (st : ConvState) :
    (case_comma st).map ConvState.erase = (case_comma st.erase).map ConvState.erase := by
  unfold case_comma
  simp only [ConvState.erase, grouping_get, grouping_set]
  split_ifs <;> rfl

theorem case_anchor_erase (st : ConvState) (c : Char) :
    (case_anchor st c).erase = (case_anchor st.erase c).erase := by
  unfold case_anchor
  simp only [ConvState.erase]
  split_ifs <;> rfl

theorem convert_case_erase (st : ConvState) (c : Char) (rest : List Char) :
    (convert_case st c rest).map (fun r => (r.1.erase, r.2)) =
      (convert_case st.erase c rest).map (fun r => (r.1.erase, r.2)) := by
  unfold convert_case
  by_cases h1 : c = '*'
  · rw [if_pos h1, if_pos h1]
    exact congrArg some (case_star_erase st rest)
  rw [if_neg h1, if_neg h1]
  by_cases h2 : c = '?'
  · rw [if_pos h2, if_pos h2]
    exact congrArg (fun x => some (x, false)) (case_question_erase st)
  rw [if_neg h2, if_neg h2]
  by_cases h3 : c = '['
  · rw [if_pos h3, if_pos h3]
    exact congrArg (fun x => some (x, false)) (case_open_class_erase st)
  rw [if_neg h3, if_neg h3]
  by_cases h4 : c = ']'
  · rw [if_pos h4, if_pos h4]
    exact congrArg (fun x => some (x, false)) (case_close_class_erase st)
  rw [if_neg h4, if_neg h4]
  by_cases h5 : c = '\x7b'
  · rw [if_pos h5, if_pos h5, Option.map_map, Option.map_map]
    have := congrArg (Option.map (fun x : ConvState => (x, false))) (case_open_group_erase st)
    rw [Option.map_map, Option.map_map] at this
    exact this
  rw [if_neg h5, if_neg h5]
  by_cases h6 : c = '\x7d'
  · rw [if_pos h6, if_pos h6, Option.map_map, Option.map_map]
    have := congrArg (Option.map (fun x : ConvState => (x, false))) (case_close_group_erase st)
    rw [Option.map_map, Option.map_map] at this
    exact this
  rw [if_neg h6, if_neg h6]
  by_cases h7 : c = ','
  · rw [if_pos h7, if_pos h7, Option.map_map, Option.map_map]
    have := congrArg (Option.map (fun x : ConvState => (x, false))) (case_comma_erase st)
    rw [Option.map_map, Option.map_map] at this
    exact this
  rw [if_neg h7, if_neg h7]
  by_cases h8 : c = '^' ∨ c = '$'
  · rw [if_pos h8, if_pos h8]
    exact congrArg (fun x => some (x, false)) (case_anchor_erase st c)
  rw [if_neg h8, if_neg h8]
  by_cases h9 : c = '.' ∨ c = '+' ∨ c = '|' ∨ c = '(' ∨ c = ')'
  · rw [if_pos h9, if_pos h9]
    rfl
  · rw [if_neg h9, if_neg h9]
    rfl

/-- What an iteration does to everything but the buffer does not depend on
the buffer. -/
theorem convert_iteration_erase (st : ConvState) (c : Char) (rest : List Char) :
    (convert_iteration st c rest).map (fun r => (r.1.erase, r.2)) =
      (convert_iteration st.erase c rest).map (fun r => (r.1.erase, r.2)) := by
  unfold convert_iteration
  by_cases h1 : c = '\\' ∧ st.bEscape = false
  · rw [if_pos h1, if_pos (show c = '\\' ∧ st.erase.bEscape = false from h1)]
    rfl
  by_cases h2 : c = '\\'
  · rw [if_neg h1, if_pos h2, if_neg (show ¬ (c = '\\' ∧ st.erase.bEscape = false) from h1),
      if_pos h2]
    rfl
  · rw [if_neg h1, if_neg h2, if_neg (show ¬ (c = '\\' ∧ st.erase.bEscape = false) from h1),
      if_neg h2, Option.map_map, Option.map_map]
    have := congrArg (Option.map (fun r : ConvState × Bool =>
      (({ r.1 with bEscape := false, sptr := r.1.sptr + (if r.2 then 2 else 1) } : ConvState),
        r.2))) (convert_case_erase st c rest)
    rw [Option.map_map, Option.map_map] at this
    exact this

theorem convert_loop_erase (s : List Char) :
    ∀ (st : ConvState) (tw : Bool),
      (convert_loop st tw s).map ConvState.erase =
        (convert_loop st.erase tw s).map ConvState.erase := by
  induction s with
  | nil => intro st tw; rw [convert_loop_nil, convert_loop_nil]; rfl
  | cons c rest ih =>
    intro st tw
    cases tw with
    | true => rw [convert_loop_skip, convert_loop_skip]; exact ih st false
    | false =>
      by_cases he : st.error = error_type.e_no_error
      · have he2 : st.erase.error = error_type.e_no_error := he
        rw [convert_loop_cons st c rest he, convert_loop_cons st.erase c rest he2]
        have hit := convert_iteration_erase st c rest
        cases h1 : convert_iteration st c rest with
        | none =>
          rw [h1] at hit
          cases h2 : convert_iteration st.erase c rest with
          | none => rfl
          | some r2 => rw [h2] at hit; exact absurd hit (by simp)
        | some r1 =>
          rw [h1] at hit
          cases h2 : convert_iteration st.erase c rest with
          | none => rw [h2] at hit; exact absurd hit (by simp)
          | some r2 =>
            rw [h2] at hit
            simp only [Option.map_some', Option.some.injEq, Prod.mk.injEq] at hit
            rw [Option.some_bind, Option.some_bind, ih r1.1 r1.2, ih r2.1 r2.2, hit.1, hit.2]
      · have he2 : st.erase.error ≠ error_type.e_no_error := he
        rw [convert_loop_error _ _ he2, convert_loop_error _ _ he]
        rfl

/-- The class and `first_re_pos` of the result do not depend on the buffer
that is passed. -/
theorem convert_class_buffer (p : List Char) (anchor : Bool) (b1 b2 : List Char)
    (garbage : Int → Int) :
    (convert_aaregex_to_pcre p anchor b1 garbage).map (fun r => (r.ptype, r.first_re_pos)) =
      (convert_aaregex_to_pcre p anchor b2 garbage).map
        (fun r => (r.ptype, r.first_re_pos)) := by
  have key : ∀ b : List Char,
      (convert_aaregex_to_pcre p anchor b garbage).map (fun r => (r.ptype, r.first_re_pos)) =
        ((convert_loop (convert_start anchor [] garbage).erase false p).map
          ConvState.erase).map
          (fun st => ((convert_finish anchor st).ptype, st.first_re_pos)) := by
    intro b
    have e : (convert_start anchor b garbage).erase = (convert_start anchor [] garbage).erase :=
      rfl
    rw [← e, ← convert_loop_erase p (convert_start anchor b garbage) false]
    unfold convert_aaregex_to_pcre
    rw [Option.map_map, Option.map_map]
    rfl
  rw [key b1, key b2]

/-! ## Texts of groups: appending, nesting, components -/

theorem alt_text_append (d n1 : Nat) (s1 : List Char) (h1 : AltText d n1 s1) :
    ∀ (n2 : Nat) (s2 : List Char), AltText d n2 s2 → AltText d (n1 + n2) (s1 ++ s2) := by
  induction h1 with
  | nil d => intro n2 s2 h2; rw [Nat.zero_add]; exact h2
  | lit d n c s hc _ ih => intro n2 s2 h2; exact AltText.lit d _ c _ hc (ih n2 s2 h2)
  | comma d n s _ ih =>
    intro n2 s2 h2
    have e : n + 1 + n2 = (n + n2) + 1 := by omega
    rw [e]
    exact AltText.comma d _ _ (ih n2 s2 h2)
  | group d n1 n s1 s hs1 _ _ ih2 =>
    intro n2 s2 h2
    have e : '\x7b' :: (s1 ++ '\x7d' :: s) ++ s2 = '\x7b' :: (s1 ++ '\x7d' :: (s ++ s2)) := by
      simp
    rw [e]
    exact AltText.group d n1 _ s1 _ hs1 (ih2 n2 s2 h2)

theorem alt_text_plain (d : Nat) (w : List Char) (hw : ∀ c ∈ w, is_plain c = true) :
    AltText d 0 w := by
  induction w with
  | nil => exact AltText.nil d
  | cons c w ih =>
    exact AltText.lit d 0 c w (hw c (List.mem_cons_self _ _))
      (ih (fun x hx => hw x (List.mem_cons_of_mem _ hx)))

theorem alt_subst_plain (k : Nat) (w : List Char) (hw : ∀ c ∈ w, is_plain c = true) :
    alt_subst k w = w := by
  induction w with
  | nil => rfl
  | cons c w ih =>
    obtain ⟨_, _, h3, h4, h5⟩ := plain_facts (hw c (List.mem_cons_self _ _))
    simp [alt_subst, h3, h4, h5, ih (fun x hx => hw x (List.mem_cons_of_mem _ hx))]

/-- The call on a text of literal bytes, commas and groups nested at most 49
deep, with the anchor off and an empty buffer. -/
theorem convert_alt_text (d n : Nat) (p : List Char) (garbage : Int → Int)
    (h : AltText d n p) (hd : d ≤ 49) (hlen : p.length < 2147483648) :
    (convert_aaregex_to_pcre p false [] garbage).map (fun r => (r.ptype, r.pcre)) =
      some (if '\x7b' ∈ p then pattern_t.ePatternRegex else pattern_t.ePatternBasic,
        alt_subst 0 p) := by
  obtain ⟨st1, e1, e2, e3, e4, e5, e6, e7, _, _⟩ :=
    convert_loop_alt d n p h (convert_start false [] garbage) 0 [] rfl rfl rfl rfl
      (by omega) hlen (fun h0 => absurd rfl h0)
  rw [List.append_nil, convert_loop_nil] at e1
  unfold convert_aaregex_to_pcre
  rw [e1]
  simp only [Option.map_some', convert_finish, e2, e3, e4, e5, e6, e7, Option.some.injEq,
    Prod.mk.injEq]
  simp [convert_start]

/-! ### The nested patterns of the unit test -/

theorem nested_inner_alt (k : Nat) : AltText (k + 1) 0 (nested_inner k) := by
  induction k with
  | zero =>
    exact AltText.group 0 0 0 "a,b".toList []
      (AltText.lit 0 1 'a' _ (by decide) (AltText.comma 0 0 _
        (AltText.lit 0 0 'b' _ (by decide) (AltText.nil 0))))
      (AltText.nil 1)
  | succ k ih =>
    have e : nested_inner (k + 1) =
        '\x7b' :: (('a' :: (nested_inner k ++ ",b".toList)) ++ '\x7d' :: []) := by
      simp [nested_inner]
    rw [e]
    refine AltText.group (k + 1) 0 0 _ [] ?_ (AltText.nil _)
    refine AltText.lit _ _ 'a' _ (by decide) ?_
    exact alt_text_append (k + 1) 0 _ ih 1 _
      (AltText.comma _ 0 _ (AltText.lit _ 0 'b' _ (by decide) (AltText.nil _)))

/-- The pattern `nested_test k` is built from literal bytes, commas and
groups nested `k + 2` deep, with a comma at the level of every group. -/
theorem nested_test_alt (k : Nat) : AltText (k + 2) 0 (nested_test k) := by
  have e : nested_test k =
      '\x7b' :: (('a' :: (nested_inner k ++ "b,blort".toList)) ++ '\x7d' :: []) := by
    simp [nested_test]
  rw [e]
  refine AltText.group (k + 1) 0 0 _ [] ?_ (AltText.nil _)
  refine AltText.lit _ _ 'a' _ (by decide) ?_
  exact alt_text_append (k + 1) 0 _ (nested_inner_alt k) 1 _
    (AltText.lit _ 1 'b' _ (by decide) (AltText.comma _ 0 _
      (AltText.lit _ 0 'b' _ (by decide) (AltText.lit _ 0 'l' _ (by decide)
      (AltText.lit _ 0 'o' _ (by decide) (AltText.lit _ 0 'r' _ (by decide)
      (AltText.lit _ 0 't' _ (by decide) (AltText.nil _))))))))

theorem nested_inner_length (k : Nat) : (nested_inner k).length = 5 * k + 5 := by
  induction k with
  | zero => rfl
  | succ k ih => simp [nested_inner, ih]; omega

theorem nested_test_length (k : Nat) : (nested_test k).length = 5 * k + 15 := by
  simp [nested_test, nested_inner_length]

theorem spec_scan_step_deep (σ : SpecScan) (c : Char) (h : σ.too_deep = true) :
    (spec_scan_step σ c).too_deep = true := by
  unfold spec_scan_step
  split_ifs
  · exact h
  · exact h
  · exact h
  · exact h
  · exact h
  · exact h
  · show (σ.too_deep || _) = true
    rw [h]
    rfl
  · cases σ.groups <;> exact h
  · cases σ.groups <;> exact h
  · exact h

theorem spec_scan_foldl_deep (s : List Char) :
    ∀ σ : SpecScan, σ.too_deep = true → (s.foldl spec_scan_step σ).too_deep = true := by
  induction s with
  | nil => intro σ h; exact h
  | cons c s ih => intro σ h; exact ih _ (spec_scan_step_deep σ c h)

theorem spec_scan_nested_inner (k : Nat) :
    ∀ (σ : SpecScan) (t : List Char), σ.esc = false → σ.incl = false →
      50 ≤ σ.groups.length + k + 1 →
      ((nested_inner k ++ t).foldl spec_scan_step σ).too_deep = true := by
  induction k with
  | zero =>
    intro σ t h1 h2 h3
    have e : nested_inner 0 ++ t = '\x7b' :: ("a,b\x7d".toList ++ t) := rfl
    rw [e, List.foldl_cons]
    apply spec_scan_foldl_deep
    unfold spec_scan_step
    simp [h1, h2]
    right
    omega
  | succ k ih =>
    intro σ t h1 h2 h3
    have e : nested_inner (k + 1) ++ t =
        '\x7b' :: 'a' :: (nested_inner k ++ (",b\x7d".toList ++ t)) := by
      simp [nested_inner]
    rw [e, List.foldl_cons, List.foldl_cons]
    have e1 : spec_scan_step σ '\x7b' =
        { σ with
          groups := false :: σ.groups,
          too_deep := σ.too_deep || decide (50 ≤ σ.groups.length + 1) } := by
      unfold spec_scan_step
      simp [h1, h2]
    rw [e1, spec_scan_step_inert
      { σ with
        groups := false :: σ.groups,
        too_deep := σ.too_deep || decide (50 ≤ σ.groups.length + 1) }
      'a' h1 (by decide) (by decide) (by decide) (by decide) (by decide) (by decide)]
    refine ih
      { σ with
        groups := false :: σ.groups,
        too_deep := σ.too_deep || decide (50 ≤ σ.groups.length + 1) } _ h1 h2 ?_
    show 50 ≤ (false :: σ.groups).length + k + 1
    simp only [List.length_cons]
    omega

/-- The scan of `nested_test k` meets 50 open groups when `k + 2` is at
least 50. -/
theorem spec_scan_nested_test (k : Nat) (h : 50 ≤ k + 2) :
    (spec_scan (nested_test k)).too_deep = true := by
  have e : nested_test k = '\x7b' :: 'a' :: (nested_inner k ++ "b,blort\x7d".toList) := by
    simp [nested_test]
  unfold spec_scan
  rw [e, List.foldl_cons, List.foldl_cons]
  have e1 : spec_scan_step spec_scan_start '\x7b' =
      { spec_scan_start with groups := [false] } := rfl
  rw [e1, spec_scan_step_inert _ 'a' rfl (by decide) (by decide) (by decide) (by decide)
    (by decide) (by decide)]
  refine spec_scan_nested_inner k { spec_scan_start with groups := [false] } _ rfl rfl ?_
  show 50 ≤ [false].length + k + 1
  simp only [List.length_cons, List.length_nil]
  omega

/-! ### A group of components -/

theorem intercalate_cons_cons (sep c d : List Char) (cs : List (List Char)) :
    List.intercalate sep (c :: d :: cs) = c ++ sep ++ List.intercalate sep (d :: cs) := by
  simp [List.intercalate, List.intersperse]

theorem intercalate_single (sep c : List Char) : List.intercalate sep [c] = c := by
  simp [List.intercalate, List.intersperse]

theorem alt_text_components (d : Nat) (c : List Char) (cs : List (List Char)) :
    (∀ x ∈ c :: cs, ∀ y ∈ x, is_plain y = true) →
      AltText d cs.length (List.intercalate [','] (c :: cs)) := by
  induction cs generalizing c with
  | nil =>
    intro h
    rw [intercalate_single]
    exact alt_text_plain d c (h c (List.mem_cons_self _ _))
  | cons e cs ih =>
    intro h
    rw [intercalate_cons_cons, List.append_assoc]
    have h1 := alt_text_append d 0 c (alt_text_plain d c (h c (List.mem_cons_self _ _)))
      (cs.length + 1) _
      (AltText.comma d _ _ (ih e (fun x hx => h x (List.mem_cons_of_mem _ hx))))
    rw [Nat.zero_add] at h1
    exact h1

theorem alt_subst_components (c : List Char) (cs : List (List Char)) :
    (∀ x ∈ c :: cs, ∀ y ∈ x, is_plain y = true) →
      alt_subst 1 (List.intercalate [','] (c :: cs)) = List.intercalate ['|'] (c :: cs) := by
  induction cs generalizing c with
  | nil =>
    intro h
    rw [intercalate_single, intercalate_single]
    exact alt_subst_plain 1 c (h c (List.mem_cons_self _ _))
  | cons e cs ih =>
    intro h
    have hc := h c (List.mem_cons_self _ _)
    rw [intercalate_cons_cons, intercalate_cons_cons, List.append_assoc, List.append_assoc,
      alt_subst_append 1 0 c (alt_text_plain 1 c hc), alt_subst_plain 1 c hc]
    have e1 : alt_subst 1 ([','] ++ List.intercalate [','] (e :: cs)) =
        ['|'] ++ alt_subst 1 (List.intercalate [','] (e :: cs)) := by
      simp [alt_subst]
    rw [e1, ih e (fun x hx => h x (List.mem_cons_of_mem _ hx))]

/-! ## The text of a character class -/

theorem convert_iteration_class_byte (st : ConvState) (c : Char) (rest : List Char)
    (hb : st.bEscape = false) (hc : st.incharclass ≠ 0) (h : is_class_byte c = true) :
    convert_iteration st c rest =
      some ({ st with pcre := st.pcre ++ [c], bEscape := false, sptr := st.sptr + 1 }, false) := by
  simp only [is_class_byte, Bool.or_eq_true, decide_eq_true_eq] at h
  rcases h with ((h | h) | h) | h
  · exact convert_iteration_literal st c rest h
  · unfold convert_iteration
    rw [if_neg (by rw [h]; simp), if_neg (by rw [h]; decide),
      convert_case_in_class st c rest hb hc (Or.inl h)]
    rfl
  · unfold convert_iteration
    rw [if_neg (by rw [h]; simp), if_neg (by rw [h]; decide),
      convert_case_in_class st c rest hb hc (Or.inr (Or.inl h))]
    rfl
  · unfold convert_iteration
    rw [if_neg (by rw [h]; simp), if_neg (by rw [h]; decide),
      convert_case_in_class st c rest hb hc (Or.inr (Or.inr h))]
    rfl

/-- Inside a character class, a text of bytes with no special meaning,
braces and commas is appended to the buffer as it is, and nothing else
changes. -/
theorem convert_loop_class_body (w : List Char) :
    ∀ (st : ConvState) (r : List Char), st.error = error_type.e_no_error →
      st.bEscape = false → st.incharclass ≠ 0 → (∀ c ∈ w, is_class_byte c = true) →
      convert_loop st false (w ++ r) =
        convert_loop { st with pcre := st.pcre ++ w, sptr := st.sptr + w.length } false r := by
  induction w with
  | nil =>
    intro st r _ _ _ _
    simp
  | cons c w ih =>
    intro st r he hb hc hw
    rw [List.cons_append, convert_loop_cons st c _ he,
      convert_iteration_class_byte st c _ hb hc (hw c (List.mem_cons_self _ _)),
      Option.some_bind,
      ih { st with pcre := st.pcre ++ [c], bEscape := false, sptr := st.sptr + 1 } r he rfl hc
        (fun x hx => hw x (List.mem_cons_of_mem _ hx))]
    have e : ({ st with pcre := st.pcre ++ [c] ++ w, bEscape := false,
                        sptr := st.sptr + 1 + w.length } : ConvState) =
        { st with pcre := st.pcre ++ c :: w, sptr := st.sptr + (c :: w).length } := by
      cases st
      simp only at hb
      subst hb
      simp only [List.append_assoc, List.singleton_append, List.length_cons, ConvState.mk.injEq,
        and_true, true_and]
      omega
    exact congrArg (fun x => convert_loop x false r) e

theorem convert_iteration_open_class (st : ConvState) (rest : List Char)
    (hb : st.bEscape = false) :
    convert_iteration st '[' rest =
      some ({ st with
        first_re_pos := if st.first_re_pos = 0 then int_wrap st.sptr else st.first_re_pos,
        incharclass := 1, ptype := pattern_t.ePatternRegex, pcre := st.pcre ++ ['['],
        bEscape := false, sptr := st.sptr + 1 }, false) := by
  have h : convert_case st '[' rest = some (case_open_class st, false) := by
    unfold convert_case
    simp
  unfold convert_iteration
  rw [if_neg (fun k => absurd k.1 (by decide)), if_neg (by decide), h,
    case_open_class_eq st hb]
  rfl

theorem convert_iteration_close_class (st : ConvState) (rest : List Char)
    (hb : st.bEscape = false) (hc : st.incharclass ≠ 0) :
    convert_iteration st ']' rest =
      some ({ st with incharclass := 0, pcre := st.pcre ++ [']'], bEscape := false,
                      sptr := st.sptr + 1 }, false) := by
  have h : convert_case st ']' rest = some (case_close_class st, false) := by
    unfold convert_case
    simp
  unfold convert_iteration
  rw [if_neg (fun k => absurd k.1 (by decide)), if_neg (by decide), h,
    case_close_class_eq st hb, if_neg hc]
  rfl

theorem convert_iteration_question (st : ConvState) (rest : List Char)
    (hb : st.bEscape = false) :
    convert_iteration st '?' rest =
      some ({ st with
        first_re_pos := if st.first_re_pos = 0 then int_wrap st.sptr else st.first_re_pos,
        ptype := pattern_t.ePatternRegex, pcre := st.pcre ++ "[^/\\x00]".toList,
        bEscape := false, sptr := st.sptr + 1 }, false) := by
  have h : convert_case st '?' rest = some (case_question st, false) := by
    unfold convert_case
    simp
  have h2 : case_question st =
      { st with
        first_re_pos := if st.first_re_pos = 0 then int_wrap st.sptr else st.first_re_pos,
        ptype := pattern_t.ePatternRegex, pcre := st.pcre ++ "[^/\\x00]".toList } := by
    unfold case_question
    rw [if_neg (by rw [hb]; simp)]
    simp only [update_re_pos_eq]
  unfold convert_iteration
  rw [if_neg (fun k => absurd k.1 (by decide)), if_neg (by decide), h, h2]
  rfl

/-- An unescaped star that is followed by `]`. -/
theorem convert_iteration_star_bracket (st : ConvState) (r : List Char)
    (hb : st.bEscape = false) :
    convert_iteration st '*' (']' :: r) =
      some ({ st with
        first_re_pos := if st.first_re_pos = 0 then int_wrap st.sptr else st.first_re_pos,
        ptype := pattern_t.ePatternRegex, pcre := st.pcre ++ "[^/\\x00]*".toList,
        bEscape := false, sptr := st.sptr + 1 }, false) := by
  rw [convert_iteration_star st _ hb, convert_star_eq]
  simp

theorem convert_loop_step (st : ConvState) (c : Char) (rest : List Char)
    (r : ConvState × Bool) (hit : convert_iteration st c rest = some r)
    (he : st.error = error_type.e_no_error) :
    convert_loop st false (c :: rest) = convert_loop r.1 r.2 rest := by
  rw [convert_loop_cons st c rest he, hit, Option.some_bind]

/-- A character class `[w]` whose text `w` has bytes with no special
meaning, braces and commas only: the class is appended to the buffer as it
is. -/
theorem convert_loop_class (w r : List Char) (st : ConvState)
    (he : st.error = error_type.e_no_error) (hb : st.bEscape = false)
    (hw : ∀ c ∈ w, is_class_byte c = true) :
    convert_loop st false ('[' :: (w ++ ']' :: r)) =
      convert_loop
        { st with
          first_re_pos := if st.first_re_pos = 0 then int_wrap st.sptr else st.first_re_pos,
          incharclass := 0, ptype := pattern_t.ePatternRegex,
          pcre := st.pcre ++ '[' :: (w ++ [']']), bEscape := false,
          sptr := st.sptr + (w.length + 2) } false r := by
  refine (convert_loop_step _ _ _ _ (convert_iteration_open_class st _ hb) he).trans ?_
  refine (convert_loop_class_body w _ _ ?_ ?_ ?_ hw).trans ?_
  · exact he
  · rfl
  · show (1 : Int) ≠ 0
    decide
  refine (convert_loop_step _ _ _ _ (convert_iteration_close_class _ _ ?_ ?_) ?_).trans ?_
  · rfl
  · show (1 : Int) ≠ 0
    decide
  · exact he
  have e : st.pcre ++ ['['] ++ w ++ [']'] = st.pcre ++ '[' :: (w ++ [']']) := by simp
  have e2 : st.sptr + 1 + w.length + 1 = st.sptr + (w.length + 2) := by omega
  simp only [e, e2]

/-- An unescaped `?` inside a character class is replaced as outside of it:
the class `[w?]` puts `[w[^/\x00]]` in the buffer. -/
theorem convert_loop_class_question (w r : List Char) (st : ConvState)
    (he : st.error = error_type.e_no_error) (hb : st.bEscape = false)
    (hw : ∀ c ∈ w, is_class_byte c = true) :
    convert_loop st false ('[' :: (w ++ '?' :: ']' :: r)) =
      convert_loop
        { st with
          first_re_pos :=
            if (if st.first_re_pos = 0 then int_wrap st.sptr else st.first_re_pos) = 0
            then int_wrap ((st.sptr + 1 + w.length : Nat) : Int)
            else (if st.first_re_pos = 0 then int_wrap st.sptr else st.first_re_pos),
          incharclass := 0, ptype := pattern_t.ePatternRegex,
          pcre := st.pcre ++ ['['] ++ w ++ "[^/\\x00]".toList ++ [']'], bEscape := false,
          sptr := st.sptr + 1 + w.length + 1 + 1 } false r := by
  refine (convert_loop_step _ _ _ _ (convert_iteration_open_class st _ hb) he).trans ?_
  refine (convert_loop_class_body w _ _ ?_ ?_ ?_ hw).trans ?_
  · exact he
  · rfl
  · show (1 : Int) ≠ 0
    decide
  refine (convert_loop_step _ _ _ _ (convert_iteration_question _ _ ?_) ?_).trans ?_
  · rfl
  · exact he
  refine (convert_loop_step _ _ _ _ (convert_iteration_close_class _ _ ?_ ?_) ?_).trans ?_
  · rfl
  · show (1 : Int) ≠ 0
    decide
  · exact he
  rfl

/-- An unescaped `*` inside a character class is replaced as outside of it:
the class `[w*]` puts `[w[^/\x00]*]` in the buffer. -/
theorem convert_loop_class_star (w r : List Char) (st : ConvState)
    (he : st.error = error_type.e_no_error) (hb : st.bEscape = false)
    (hw : ∀ c ∈ w, is_class_byte c = true) :
    convert_loop st false ('[' :: (w ++ '*' :: ']' :: r)) =
      convert_loop
        { st with
          first_re_pos :=
            if (if st.first_re_pos = 0 then int_wrap st.sptr else st.first_re_pos) = 0
            then int_wrap ((st.sptr + 1 + w.length : Nat) : Int)
            else (if st.first_re_pos = 0 then int_wrap st.sptr else st.first_re_pos),
          incharclass := 0, ptype := pattern_t.ePatternRegex,
          pcre := st.pcre ++ ['['] ++ w ++ "[^/\\x00]*".toList ++ [']'], bEscape := false,
          sptr := st.sptr + 1 + w.length + 1 + 1 } false r := by
  refine (convert_loop_step _ _ _ _ (convert_iteration_open_class st _ hb) he).trans ?_
  refine (convert_loop_class_body w _ _ ?_ ?_ ?_ hw).trans ?_
  · exact he
  · rfl
  · show (1 : Int) ≠ 0
    decide
  refine (convert_loop_step _ _ _ _ (convert_iteration_star_bracket _ _ ?_) ?_).trans ?_
  · rfl
  · exact he
  refine (convert_loop_step _ _ _ _ (convert_iteration_close_class _ _ ?_ ?_) ?_).trans ?_
  · rfl
  · show (1 : Int) ≠ 0
    decide
  · exact he
  rfl

/-! ## The uninitialised entries of `grouping_count` are never used -/

theorem no_counts_fields (st1 st2 : ConvState) (h : st1.no_counts = st2.no_counts) :
    st1.sptr = st2.sptr ∧ st1.pcre = st2.pcre ∧ st1.first_re_pos = st2.first_re_pos ∧
    st1.error = st2.error ∧ st1.ptype = st2.ptype ∧ st1.bEscape = st2.bEscape ∧
    st1.ingrouping = st2.ingrouping ∧ st1.incharclass = st2.incharclass := by
  simp only [ConvState.no_counts, ConvState.mk.injEq, and_true] at h
  exact h

theorem no_counts_eq (st1 st2 : ConvState) (h : st1.no_counts = st2.no_counts) :
    st2 = { st1 with grouping_count := st2.grouping_count } := by
  obtain ⟨h1, h2, h3, h4, h5, h6, h7, h8⟩ := no_counts_fields st1 st2 h
  cases st1
  cases st2
  simp only at h1 h2 h3 h4 h5 h6 h7 h8
  simp [h1, h2, h3, h4, h5, h6, h7, h8]

theorem convert_case_counts (st : ConvState) (g : Int → Int) (c : Char) (rest : List Char)
    (h : st.bEscape = true ∨ st.incharclass ≠ 0 ∨ (c ≠ '\x7b' ∧ c ≠ '\x7d' ∧ c ≠ ',')) :
    convert_case { st with grouping_count := g } c rest =
      (convert_case st c rest).map
        (fun r => ({ r.1 with grouping_count := g }, r.2)) := by
  unfold convert_case
  by_cases h1 : c = '*'
  · rw [if_pos h1, if_pos h1]
    unfold case_star
    simp only [convert_star_eq]
    split_ifs <;> rfl
  rw [if_neg h1, if_neg h1]
  by_cases h2 : c = '?'
  · rw [if_pos h2, if_pos h2]
    unfold case_question
    simp only [update_re_pos_eq]
    split_ifs <;> rfl
  rw [if_neg h2, if_neg h2]
  by_cases h3 : c = '['
  · rw [if_pos h3, if_pos h3]
    unfold case_open_class
    simp only [update_re_pos_eq]
    split_ifs <;> rfl
  rw [if_neg h3, if_neg h3]
  by_cases h4 : c = ']'
  · rw [if_pos h4, if_pos h4]
    unfold case_close_class
    split_ifs <;> rfl
  rw [if_neg h4, if_neg h4]
  by_cases h5 : c = '\x7b'
  · rw [if_pos h5, if_pos h5]
    unfold case_open_group
    rcases h with h | h | h
    · rw [if_pos h, if_pos (show ({ st with grouping_count := g } : ConvState).bEscape = true
        from h)]
      rfl
    · by_cases hb : st.bEscape = true
      · rw [if_pos hb, if_pos (show ({ st with grouping_count := g } : ConvState).bEscape = true
          from hb)]
        rfl
      · rw [if_neg hb, if_pos h,
          if_neg (show ¬ ({ st with grouping_count := g } : ConvState).bEscape = true from hb),
          if_pos (show ({ st with grouping_count := g } : ConvState).incharclass ≠ 0 from h)]
        rfl
    · exact absurd h5 h.1
  rw [if_neg h5, if_neg h5]
  by_cases h6 : c = '\x7d'
  · rw [if_pos h6, if_pos h6]
    unfold case_close_group
    rcases h with h | h | h
    · rw [if_pos h, if_pos (show ({ st with grouping_count := g } : ConvState).bEscape = true
        from h)]
      rfl
    · by_cases hb : st.bEscape = true
      · rw [if_pos hb, if_pos (show ({ st with grouping_count := g } : ConvState).bEscape = true
          from hb)]
        rfl
      · rw [if_neg hb, if_pos h,
          if_neg (show ¬ ({ st with grouping_count := g } : ConvState).bEscape = true from hb),
          if_pos (show ({ st with grouping_count := g } : ConvState).incharclass ≠ 0 from h)]
        rfl
    · exact absurd h6 h.2.1
  rw [if_neg h6, if_neg h6]
  by_cases h7 : c = ','
  · rw [if_pos h7, if_pos h7]
    unfold case_comma
    rcases h with h | h | h
    · rw [if_pos h, if_pos (show ({ st with grouping_count := g } : ConvState).bEscape = true
        from h)]
      split_ifs <;> rfl
    · by_cases hb : st.bEscape = true
      · rw [if_pos hb, if_pos (show ({ st with grouping_count := g } : ConvState).bEscape = true
          from hb)]
        split_ifs <;> rfl
      · have hn : ¬ (st.ingrouping ≠ 0 ∧ st.incharclass = 0) := fun k => h k.2
        rw [if_neg hb, if_neg hn,
          if_neg (show ¬ ({ st with grouping_count := g } : ConvState).bEscape = true from hb),
          if_neg (show ¬ (({ st with grouping_count := g } : ConvState).ingrouping ≠ 0 ∧
            ({ st with grouping_count := g } : ConvState).incharclass = 0) from hn)]
        rfl
    · exact absurd h7 h.2.2
  rw [if_neg h7, if_neg h7]
  by_cases h8 : c = '^' ∨ c = '$'
  · rw [if_pos h8, if_pos h8]
    unfold case_anchor
    split_ifs <;> rfl
  rw [if_neg h8, if_neg h8]
  by_cases h9 : c = '.' ∨ c = '+' ∨ c = '|' ∨ c = '(' ∨ c = ')'
  · rw [if_pos h9, if_pos h9]
    rfl
  · rw [if_neg h9, if_neg h9]
    rfl

theorem convert_case_groups_same (st : ConvState) (c : Char) (rest : List Char)
    (h : st.bEscape = true ∨ st.incharclass ≠ 0 ∨ (c ≠ '\x7b' ∧ c ≠ '\x7d' ∧ c ≠ ',')) :
    ∃ r, convert_case st c rest = some r ∧ r.1.ingrouping = st.ingrouping ∧
      r.1.grouping_count = st.grouping_count := by
  cases hb : st.bEscape with
  | true =>
    obtain ⟨r, hr, _, h2, h3, _⟩ := convert_case_escaped st c rest hb
    exact ⟨r, hr, h2, h3⟩
  | false =>
    by_cases hbr : c = '\x7b' ∨ c = '\x7d' ∨ c = ','
    · have hc : st.incharclass ≠ 0 := by
        rcases h with h | h | h
        · rw [hb] at h
          exact absurd h (by simp)
        · exact h
        · rcases hbr with k | k | k
          · exact absurd k h.1
          · exact absurd k h.2.1
          · exact absurd k h.2.2
      exact ⟨_, convert_case_in_class st c rest hb hc hbr, rfl, rfl⟩
    · have k3 : c ≠ '\x7b' := fun k => hbr (Or.inl k)
      have k4 : c ≠ '\x7d' := fun k => hbr (Or.inr (Or.inl k))
      have k5 : c ≠ ',' := fun k => hbr (Or.inr (Or.inr k))
      by_cases h1 : c = '['
      · refine ⟨(case_open_class st, false), by unfold convert_case; simp [h1], ?_⟩
        rw [case_open_class_eq st hb]
        exact ⟨rfl, rfl⟩
      by_cases h2 : c = ']'
      · refine ⟨(case_close_class st, false), by unfold convert_case; simp [h2], ?_⟩
        rw [case_close_class_eq st hb]
        exact ⟨rfl, rfl⟩
      obtain ⟨r, hr, _, m2, m3, _⟩ := convert_case_inert st c rest h1 h2 k3 k4 k5
      exact ⟨r, hr, m2, m3⟩

/-- Two states that differ at most in unused entries of `grouping_count` do
the same iteration, and differ at most in unused entries afterwards. -/
theorem convert_iteration_counts (st : ConvState) (g : Int → Int) (c : Char)
    (rest : List Char) (hd : DepthOk st) (he : st.error = error_type.e_no_error)
    (hag : ∀ j : Int, 1 ≤ j → j ≤ st.ingrouping → st.grouping_count j = g j) :
    ∃ r1 r2, convert_iteration st c rest = some r1 ∧
      convert_iteration { st with grouping_count := g } c rest = some r2 ∧
      SameButCounts r1.1 r2.1 ∧ r1.2 = r2.2 := by
  obtain ⟨hd0, hd1⟩ := hd
  have hd2 : st.ingrouping < 50 := hd1 he
  unfold convert_iteration
  by_cases h1 : c = '\\' ∧ st.bEscape = false
  · rw [if_pos h1, if_pos (show c = '\\' ∧
      ({ st with grouping_count := g } : ConvState).bEscape = false from h1)]
    exact ⟨_, _, rfl, rfl, ⟨rfl, fun _ => hag⟩, rfl⟩
  rw [if_neg h1, if_neg (show ¬ (c = '\\' ∧
    ({ st with grouping_count := g } : ConvState).bEscape = false) from h1)]
  by_cases h2 : c = '\\'
  · rw [if_pos h2, if_pos h2]
    exact ⟨_, _, rfl, rfl, ⟨rfl, fun _ => hag⟩, rfl⟩
  rw [if_neg h2, if_neg h2]
  by_cases hx : st.bEscape = true ∨ st.incharclass ≠ 0 ∨ (c ≠ '\x7b' ∧ c ≠ '\x7d' ∧ c ≠ ',')
  · obtain ⟨r, hr, m1, m2⟩ := convert_case_groups_same st c rest hx
    rw [convert_case_counts st g c rest hx, hr]
    refine ⟨_, _, rfl, rfl, ⟨rfl, fun _ j k1 k2 => ?_⟩, rfl⟩
    show r.1.grouping_count j = g j
    rw [m2]
    exact hag j k1 (by rw [← m1]; exact k2)
  · have hb : st.bEscape = false := by
      cases hb : st.bEscape with
      | false => rfl
      | true => exact absurd (Or.inl hb) hx
    have hc : st.incharclass = 0 := by
      by_contra k
      exact hx (Or.inr (Or.inl k))
    have hch : c = '\x7b' ∨ c = '\x7d' ∨ c = ',' := by
      by_contra k
      exact hx (Or.inr (Or.inr ⟨fun e => k (Or.inl e), fun e => k (Or.inr (Or.inl e)),
        fun e => k (Or.inr (Or.inr e))⟩))
    rcases hch with k | k | k
    · have e1 : ∀ s : ConvState, convert_case s c rest =
          (case_open_group s).map fun x => (x, false) := by
        intro s; unfold convert_case; simp [k]
      rw [e1, e1]
      by_cases hov : st.ingrouping + 1 < 50
      · rw [case_open_group_eq st hb hc hd0 hov,
          case_open_group_eq { st with grouping_count := g } hb hc hd0 hov]
        refine ⟨_, _, rfl, rfl, ⟨rfl, fun _ j k1 k2 => ?_⟩, rfl⟩
        show (if j = st.ingrouping + 1 then (0 : Int) else st.grouping_count j) =
          (if j = st.ingrouping + 1 then (0 : Int) else g j)
        by_cases hj : j = st.ingrouping + 1
        · rw [if_pos hj, if_pos hj]
        · rw [if_neg hj, if_neg hj]
          have k3 : j ≤ st.ingrouping + 1 := k2
          exact hag j k1 (by omega)
      · have hov2 : 50 ≤ st.ingrouping + 1 := by omega
        rw [case_open_group_overflow st hb hc hov2,
          case_open_group_overflow { st with grouping_count := g } hb hc hov2]
        exact ⟨_, _, rfl, rfl, ⟨rfl, fun k => absurd k (by simp)⟩, rfl⟩
    · have e1 : ∀ s : ConvState, convert_case s c rest =
          (case_close_group s).map fun x => (x, false) := by
        intro s; unfold convert_case; simp [k]
      rw [e1, e1, case_close_group_eq st hb hc hd0 hd2,
        case_close_group_eq { st with grouping_count := g } hb hc hd0 hd2]
      have herr : (if st.grouping_count st.ingrouping = 0 ∨ st.ingrouping - 1 < 0
            then error_type.e_parse_error else st.error) =
          (if g st.ingrouping = 0 ∨ st.ingrouping - 1 < 0
            then error_type.e_parse_error else st.error) := by
        by_cases h0 : st.ingrouping - 1 < 0
        · rw [if_pos (Or.inr h0), if_pos (Or.inr h0)]
        · rw [hag st.ingrouping (by omega) (le_refl _)]
      refine ⟨_, _, rfl, rfl, ⟨?_, fun _ j k1 k2 => ?_⟩, rfl⟩
      · show ConvState.no_counts _ = ConvState.no_counts _
        simp only [ConvState.no_counts, herr]
      · have k3 : j ≤ (if st.ingrouping - 1 < 0 then (0 : Int) else st.ingrouping - 1) := k2
        refine hag j k1 ?_
        split_ifs at k3 <;> omega
    · have e1 : ∀ s : ConvState, convert_case s c rest =
          (case_comma s).map fun x => (x, false) := by
        intro s; unfold convert_case; simp [k]
      rw [e1, e1]
      by_cases hg : st.ingrouping ≠ 0
      · rw [case_comma_eq st hb hg hc hd0 hd2,
          case_comma_eq { st with grouping_count := g } hb hg hc hd0 hd2]
        refine ⟨_, _, rfl, rfl, ⟨rfl, fun _ j k1 k2 => ?_⟩, rfl⟩
        show (if j = st.ingrouping then int_wrap (st.grouping_count st.ingrouping + 1)
            else st.grouping_count j) =
          (if j = st.ingrouping then int_wrap (g st.ingrouping + 1) else g j)
        by_cases hj : j = st.ingrouping
        · rw [if_pos hj, if_pos hj, hag st.ingrouping (by omega) (le_refl _)]
        · rw [if_neg hj, if_neg hj]
          exact hag j k1 k2
      · have hn : ¬ (st.ingrouping ≠ 0 ∧ st.incharclass = 0) := fun k => hg k.1
        have e2 : case_comma st = some { st with pcre := st.pcre ++ ",".toList } := by
          unfold case_comma
          rw [if_neg (by rw [hb]; simp), if_neg hn]
        have e3 : case_comma { st with grouping_count := g } =
            some { st with pcre := st.pcre ++ ",".toList, grouping_count := g } := by
          unfold case_comma
          rw [if_neg (show ¬ ({ st with grouping_count := g } : ConvState).bEscape = true by
            rw [show ({ st with grouping_count := g } : ConvState).bEscape = false from hb]
            simp), if_neg hn]
        rw [e2, e3]
        exact ⟨_, _, rfl, rfl, ⟨rfl, fun _ => hag⟩, rfl⟩

theorem same_but_counts_eq (st1 st2 : ConvState) (h : SameButCounts st1 st2) :
    st2 = { st1 with grouping_count := st2.grouping_count } :=
  no_counts_eq st1 st2 h.1

/-- The loop does not depend on the unused entries of `grouping_count`. -/
theorem convert_loop_counts (s : List Char) :
    ∀ (st1 st2 : ConvState) (tw : Bool), SameButCounts st1 st2 → DepthOk st1 →
      (convert_loop st1 tw s).map ConvState.no_counts =
        (convert_loop st2 tw s).map ConvState.no_counts := by
  induction s with
  | nil =>
    intro st1 st2 tw h _
    rw [convert_loop_nil, convert_loop_nil, Option.map_some', Option.map_some', h.1]
  | cons c rest ih =>
    intro st1 st2 tw h hd
    cases tw with
    | true => rw [convert_loop_skip, convert_loop_skip]; exact ih st1 st2 false h hd
    | false =>
      have he12 : st1.error = st2.error := (no_counts_fields st1 st2 h.1).2.2.2.1
      by_cases he : st1.error = error_type.e_no_error
      · have he2 : st2.error = error_type.e_no_error := by rw [← he12]; exact he
        obtain ⟨r1, r2, e1, e2, hr, ht⟩ :=
          convert_iteration_counts st1 st2.grouping_count c rest hd he (h.2 he)
        rw [← same_but_counts_eq st1 st2 h] at e2
        obtain ⟨r3, e3, hd3⟩ := convert_iteration_total st1 c rest hd he
        rw [e1, Option.some.injEq] at e3
        subst e3
        rw [convert_loop_cons st1 c rest he, convert_loop_cons st2 c rest he2, e1, e2,
          Option.some_bind, Option.some_bind, ← ht]
        exact ih r1.1 r2.1 r1.2 hr hd3
      · have he2 : st2.error ≠ error_type.e_no_error := by rw [← he12]; exact he
        rw [convert_loop_error st1 _ he, convert_loop_error st2 _ he2, Option.map_some',
          Option.map_some', h.1]

/-- The result of the call does not depend on what the uninitialised array
`grouping_count` holds at entry. -/
theorem convert_garbage (p : List Char) (anchor : Bool) (b : List Char)
    (g1 g2 : Int → Int) :
    convert_aaregex_to_pcre p anchor b g1 = convert_aaregex_to_pcre p anchor b g2 := by
  have key : ∀ g : Int → Int, convert_aaregex_to_pcre p anchor b g =
      ((convert_loop (convert_start anchor b g) false p).map ConvState.no_counts).map
        (convert_finish anchor) := by
    intro g
    unfold convert_aaregex_to_pcre
    rw [Option.map_map]
    rfl
  rw [key g1, key g2,
    convert_loop_counts p (convert_start anchor b g1) (convert_start anchor b g2) false
      ⟨rfl, fun _ j k1 k2 => absurd k2 (by
        show ¬ j ≤ (0 : Int)
        omega)⟩
      (convert_start_depth anchor b g1)]

/-! ## Claims C21 to C30: rejected patterns, the buffer, character classes -/

/-- Claim C21 fails: the patterns `{a,,b}` and `{,a}` have an alternation
with an empty component, and the call gives `(a||b)` and `(|a)` with the
class Regex, not Invalid. -/
theorem convert_empty_component_accepted :
    convert_aaregex_to_pcre "\x7ba,,b\x7d".toList false [] (fun _ => 0) =
      some ⟨pattern_t.ePatternRegex, "(a||b)".toList, 0⟩ ∧
    convert_aaregex_to_pcre "\x7b,a\x7d".toList false [] (fun _ => 0) =
      some ⟨pattern_t.ePatternRegex, "(|a)".toList, 0⟩ := by
  decide

/-- Claim C21, amended.  For at least two components, each a text of bytes
with no special meaning and possibly empty, the group `{c1,...,cn}` (shorter
than 2^31 bytes) is translated, with the anchor off and an empty buffer, to
`(c1|...|cn)` with the class Regex, whatever the uninitialised array holds:
an empty component is not rejected. -/
theorem convert_components (cs : List (List Char)) (garbage : Int → Int)
    (h2 : 2 ≤ cs.length) (hp : ∀ x ∈ cs, ∀ y ∈ x, is_plain y = true)
    (hlen : (alt_group cs).length < 2147483648) :
    (convert_aaregex_to_pcre (alt_group cs) false [] garbage).map
        (fun r => (r.ptype, r.pcre)) =
      some (pattern_t.ePatternRegex, alt_group_out cs) := by
  match cs, h2, hp, hlen with
  | c :: d :: cs, _, hp, hlen =>
    have h1 : AltText 0 ((d :: cs).length) (List.intercalate [','] (c :: d :: cs)) :=
      alt_text_components 0 c (d :: cs) hp
    have h3 : AltText 1 0 (alt_group (c :: d :: cs)) :=
      AltText.group 0 cs.length 0 _ [] h1 (AltText.nil 1)
    rw [convert_alt_text 1 0 _ garbage h3 (by omega) hlen]
    have hm : '\x7b' ∈ alt_group (c :: d :: cs) := List.mem_cons_self _ _
    rw [if_pos hm]
    have e : alt_subst 0 (alt_group (c :: d :: cs)) = alt_group_out (c :: d :: cs) := by
      unfold alt_group alt_group_out
      have e1 : alt_subst 0 ('\x7b' :: (List.intercalate [','] (c :: d :: cs) ++ ['\x7d'])) =
          '(' :: alt_subst 1 (List.intercalate [','] (c :: d :: cs) ++ ['\x7d']) := by
        simp [alt_subst]
      rw [e1, alt_subst_append 0 _ _ h1, alt_subst_components c (d :: cs) hp]
      simp [alt_subst]
    rw [e]

theorem convert_components_witness :
    (convert_aaregex_to_pcre "\x7ba,,b\x7d".toList false [] (fun _ => 7)).map
        (fun r => (r.ptype, r.pcre)) =
      some (pattern_t.ePatternRegex, "(a||b)".toList) :=
  convert_components ["a".toList, [], "b".toList] (fun _ => 7) (by decide) (by decide)
    (by decide)

/-- Claim C22.  A pattern in which some group, opened by an unescaped `{`
outside a character class, is closed by an unescaped `}` outside a character
class with no unescaped comma met at its level (commas inside a character
class do not count) gets the class Invalid, for every anchor flag, buffer
and contents of the uninitialised array. -/
theorem convert_group_without_comma (p : List Char) (anchor : Bool) (b : List Char)
    (garbage : Int → Int) (h : (spec_scan p).empty_group = true) :
    (convert_aaregex_to_pcre p anchor b garbage).map (fun r => r.ptype) =
      some pattern_t.ePatternInvalid :=
  convert_invalid_of_scan p anchor b garbage
    (fun k => by rw [k.2.2.2.2.2.1] at h; exact absurd h (by simp))

theorem convert_group_without_comma_witness :
    ((spec_scan "\x7bbeta\x7d".toList).empty_group = true ∧
      (convert_aaregex_to_pcre "\x7bbeta\x7d".toList false [] (fun _ => 0)).map
        (fun r => r.ptype) = some pattern_t.ePatternInvalid) ∧
    ((spec_scan "biz\x7b\x7dbeta".toList).empty_group = true ∧
      (convert_aaregex_to_pcre "biz\x7b\x7dbeta".toList false [] (fun _ => 0)).map
        (fun r => r.ptype) = some pattern_t.ePatternInvalid) ∧
    ((spec_scan "\x7b\x7balpha,blort,nested\x7dbeta\x7d".toList).empty_group = true ∧
      (convert_aaregex_to_pcre "\x7b\x7balpha,blort,nested\x7dbeta\x7d".toList false []
        (fun _ => 0)).map (fun r => r.ptype) = some pattern_t.ePatternInvalid) :=
  ⟨⟨by decide, convert_group_without_comma _ false [] (fun _ => 0) (by decide)⟩,
   ⟨by decide, convert_group_without_comma _ false [] (fun _ => 0) (by decide)⟩,
   ⟨by decide, convert_group_without_comma _ false [] (fun _ => 0) (by decide)⟩⟩

set_option maxRecDepth 20000 in
theorem test_nested_49_eq : test_nested_49 = nested_test 47 := by decide

set_option maxRecDepth 20000 in
theorem test_nested_50_eq : test_nested_50 = nested_test 48 := by decide

set_option maxRecDepth 20000 in
theorem test_nested_49_depth : open_depth test_nested_49 = 49 := by decide

set_option maxRecDepth 20000 in
theorem test_nested_50_depth : open_depth test_nested_50 = 50 := by decide

theorem test_nested_50_deep : (spec_scan test_nested_50).too_deep = true := by
  rw [test_nested_50_eq]
  exact spec_scan_nested_test 48 (by omega)

/-- Claim C23 fails: the pattern of the unit test that is nested 50 deep is
well formed, with a comma at the level of every group, and the call gives it
the class Invalid. -/
theorem convert_nested_50_rejected :
    AltText 50 0 test_nested_50 ∧ open_depth test_nested_50 = 50 ∧
    (convert_aaregex_to_pcre test_nested_50 false [] (fun _ => 0)).map (fun r => r.ptype) =
      some pattern_t.ePatternInvalid := by
  refine ⟨?_, test_nested_50_depth, ?_⟩
  · rw [test_nested_50_eq]
    exact nested_test_alt 48
  · rw [test_nested_50_eq]
    exact convert_invalid_of_scan _ false [] _
      (fun k => by
        rw [spec_scan_nested_test 48 (by omega)] at k
        exact absurd k.2.2.2.2.2.2 (by simp))

/-- Claim C23, amended.  The well-formed pattern `nested_test k`, whose
groups are nested `k + 2` deep, is translated with the class Regex when
`k + 2` is at most 49, each brace becoming a parenthesis and each comma a
bar, and gets the class Invalid when `k + 2` is 50 or more: the deepest
nesting that is translated is 49, and 50 is rejected. -/
theorem convert_nested_test (k : Nat) (garbage : Int → Int) :
    (k + 2 ≤ 49 →
      (convert_aaregex_to_pcre (nested_test k) false [] garbage).map
          (fun r => (r.ptype, r.pcre)) =
        some (pattern_t.ePatternRegex, alt_subst 0 (nested_test k))) ∧
    (50 ≤ k + 2 →
      (convert_aaregex_to_pcre (nested_test k) false [] garbage).map (fun r => r.ptype) =
        some pattern_t.ePatternInvalid) := by
  constructor
  · intro hk
    rw [convert_alt_text (k + 2) 0 _ garbage (nested_test_alt k) hk
      (by rw [nested_test_length]; omega)]
    have hm : '\x7b' ∈ nested_test k := by
      unfold nested_test
      simp
    rw [if_pos hm]
  · intro hk
    exact convert_invalid_of_scan _ false [] _
      (fun h => by
        rw [spec_scan_nested_test k hk] at h
        exact absurd h.2.2.2.2.2.2 (by simp))

theorem convert_nested_test_witness :
    ((convert_aaregex_to_pcre test_nested_49 false [] (fun _ => 5)).map
        (fun r => (r.ptype, r.pcre)) =
      some (pattern_t.ePatternRegex, alt_subst 0 test_nested_49)) ∧
    ((convert_aaregex_to_pcre test_nested_50 false [] (fun _ => 5)).map (fun r => r.ptype) =
      some pattern_t.ePatternInvalid) := by
  rw [test_nested_49_eq, test_nested_50_eq]
  exact ⟨(convert_nested_test 47 (fun _ => 5)).1 (by decide),
    (convert_nested_test 48 (fun _ => 5)).2 (by decide)⟩

/-- Claim C24.  A pattern in which 50 groups, opened by unescaped `{`
outside character classes, are open at once gets the class Invalid; the
pattern of the unit test that is nested 49 deep gets the class Regex; and the
call returns for every pattern, that is, no index outside 0..49 is used on
the array `grouping_count`. -/
theorem convert_depth_bound (p : List Char) (anchor : Bool) (b : List Char)
    (garbage : Int → Int) :
    ((spec_scan p).too_deep = true →
      (convert_aaregex_to_pcre p anchor b garbage).map (fun r => r.ptype) =
        some pattern_t.ePatternInvalid) ∧
    (open_depth test_nested_49 = 49 ∧
      (convert_aaregex_to_pcre test_nested_49 false [] garbage).map (fun r => r.ptype) =
        some pattern_t.ePatternRegex) ∧
    ∃ r, convert_aaregex_to_pcre p anchor b garbage = some r := by
  refine ⟨fun h => ?_, ⟨test_nested_49_depth, ?_⟩, convert_total p anchor b garbage⟩
  · exact convert_invalid_of_scan p anchor b garbage
      (fun k => by rw [k.2.2.2.2.2.2] at h; exact absurd h (by simp))
  · rw [test_nested_49_eq]
    have h := convert_alt_text 49 0 _ garbage (nested_test_alt 47) (le_refl _)
      (by rw [nested_test_length]; omega)
    have hm : '\x7b' ∈ nested_test 47 := by
      unfold nested_test
      simp
    rw [if_pos hm] at h
    have h2 := congrArg (Option.map Prod.fst) h
    rw [Option.map_map] at h2
    exact h2

theorem convert_depth_bound_witness :
    (spec_scan test_nested_50).too_deep = true ∧
    (convert_aaregex_to_pcre test_nested_50 true "x".toList (fun _ => 3)).map
        (fun r => r.ptype) = some pattern_t.ePatternInvalid :=
  ⟨test_nested_50_deep,
    (convert_depth_bound test_nested_50 true "x".toList (fun _ => 3)).1 test_nested_50_deep⟩

/-- Claim C25.  A pattern that ends with a character class or a group still
open, or that has an unescaped `]` while no character class is open, or an
unescaped `}` outside a character class while no group is open, gets the
class Invalid, for every anchor flag, buffer and contents of the
uninitialised array `grouping_count`. -/
theorem convert_unbalanced_invalid (p : List Char) (anchor : Bool) (b : List Char)
    (garbage : Int → Int)
    (h : (spec_scan p).incl = true ∨ (spec_scan p).groups ≠ [] ∨
      (spec_scan p).stray_class = true ∨ (spec_scan p).stray_group = true) :
    (convert_aaregex_to_pcre p anchor b garbage).map (fun r => r.ptype) =
      some pattern_t.ePatternInvalid := by
  apply convert_invalid_of_scan
  intro k
  rcases h with h | h | h | h
  · rw [k.2.1] at h
    exact absurd h (by simp)
  · exact h k.2.2.1
  · rw [k.2.2.2.1] at h
    exact absurd h (by simp)
  · rw [k.2.2.2.2.1] at h
    exact absurd h (by simp)

theorem convert_unbalanced_invalid_witness :
    ((spec_scan "[blort".toList).incl = true ∧
      (convert_aaregex_to_pcre "[blort".toList false [] (fun _ => 0)).map (fun r => r.ptype) =
        some pattern_t.ePatternInvalid) ∧
    ((spec_scan "biz\x7bbe,ta".toList).groups ≠ [] ∧
      (convert_aaregex_to_pcre "biz\x7bbe,ta".toList false [] (fun _ => 0)).map
        (fun r => r.ptype) = some pattern_t.ePatternInvalid) ∧
    ((spec_scan "blo]rt".toList).stray_class = true ∧
      (convert_aaregex_to_pcre "blo]rt".toList false [] (fun _ => 0)).map (fun r => r.ptype) =
        some pattern_t.ePatternInvalid) ∧
    ((spec_scan "biz,be\x7dta".toList).stray_group = true ∧
      (convert_aaregex_to_pcre "biz,be\x7dta".toList false [] (fun _ => 1)).map
        (fun r => r.ptype) = some pattern_t.ePatternInvalid) :=
  ⟨⟨by decide, convert_unbalanced_invalid _ false [] _ (Or.inl (by decide))⟩,
   ⟨by decide, convert_unbalanced_invalid _ false [] _ (Or.inr (Or.inl (by decide)))⟩,
   ⟨by decide, convert_unbalanced_invalid _ false [] _ (Or.inr (Or.inr (Or.inl (by decide))))⟩,
   ⟨by decide, convert_unbalanced_invalid _ false [] _ (Or.inr (Or.inr (Or.inr (by decide))))⟩⟩

/-- Claim C26.  A pattern that ends with a run of backslashes of odd length
(`u` is the text before the run, which does not end with a backslash) gets
the class Invalid.  Two backslashes, the first of them not escaped, put two
backslashes in the buffer and change nothing else of the state, so not the
class; `blort\\` gives `blort\\` with the class Basic. -/
theorem convert_backslash_run (u : List Char) (k : Nat) (anchor : Bool) (b : List Char)
    (garbage : Int → Int) (st : ConvState) (r : List Char)
    (hu : u.getLast? ≠ some '\\') (he : st.error = error_type.e_no_error)
    (hb : st.bEscape = false) :
    (convert_aaregex_to_pcre (u ++ List.replicate (2 * k + 1) '\\') anchor b garbage).map
        (fun r => r.ptype) = some pattern_t.ePatternInvalid ∧
    convert_loop st false ('\\' :: '\\' :: r) =
      convert_loop { st with pcre := st.pcre ++ ['\\', '\\'], sptr := st.sptr + 2 } false r ∧
    convert_aaregex_to_pcre "blort\\\\".toList false [] garbage =
      some ⟨pattern_t.ePatternBasic, "blort\\\\".toList, 0⟩ := by
  refine ⟨?_, convert_loop_two_backslashes st r he hb, ?_⟩
  · apply convert_invalid_of_scan
    intro h
    rw [spec_scan_odd_run u k hu] at h
    exact absurd h.1 (by simp)
  · rw [convert_garbage _ _ _ garbage (fun _ => 0)]
    decide

theorem convert_backslash_run_witness :
    (convert_aaregex_to_pcre "blort\\".toList false [] (fun _ => 0)).map
        (fun r => r.ptype) = some pattern_t.ePatternInvalid ∧
    convert_loop (convert_start false [] (fun _ => 0)) false "\\\\".toList =
      convert_loop { convert_start false [] (fun _ => 0) with pcre := "\\\\".toList, sptr := 2 }
        false [] ∧
    convert_aaregex_to_pcre "blort\\\\".toList false [] (fun _ => 0) =
      some ⟨pattern_t.ePatternBasic, "blort\\\\".toList, 0⟩ :=
  convert_backslash_run "blort".toList 0 false [] (fun _ => 0)
    (convert_start false [] (fun _ => 0)) [] (by decide) rfl rfl

theorem convert_finish_prepend (anchor : Bool) (b : List Char) (st : ConvState) :
    convert_finish anchor (st.prepend b) = (convert_finish anchor st).prepend b := by
  unfold convert_finish ConvState.prepend ConvResult.prepend
  simp only
  split_ifs <;> simp [List.append_assoc]

theorem convert_start_prepend (b : List Char) (garbage : Int → Int) :
    convert_start false b garbage = (convert_start false [] garbage).prepend b := by
  simp [convert_start, ConvState.prepend]

theorem convert_start_anchor (b : List Char) (garbage : Int → Int) :
    convert_start true b garbage = (convert_start false [] garbage).prepend (b ++ ['^']) := by
  simp [convert_start, ConvState.prepend]

/-- The call with a buffer `b` leaves `b` followed by what it leaves in an
empty buffer, when the anchor is on or `b` does not end with a slash. -/
theorem convert_prepend (p : List Char) (anchor : Bool) (b : List Char)
    (garbage : Int → Int) (hb : anchor = true ∨ b.getLast? ≠ some '/') :
    convert_aaregex_to_pcre p anchor b garbage =
      (convert_aaregex_to_pcre p anchor [] garbage).map (ConvResult.prepend b) := by
  unfold convert_aaregex_to_pcre
  cases anchor with
  | false =>
    have hb2 : b.getLast? ≠ some '/' := by
      rcases hb with h | h
      · exact absurd h (by simp)
      · exact h
    rw [convert_start_prepend b garbage, convert_loop_prepend b hb2, Option.map_map,
      Option.map_map]
    apply congrArg (fun f => Option.map f _)
    funext st
    exact convert_finish_prepend false b st
  | true =>
    have h1 : (b ++ ['^']).getLast? ≠ some '/' := by simp
    have h2 : (['^'] : List Char).getLast? ≠ some '/' := by simp
    have e : convert_start true [] garbage = (convert_start false [] garbage).prepend ['^'] :=
      convert_start_anchor [] garbage
    rw [convert_start_anchor b garbage, e, convert_loop_prepend _ h1,
      convert_loop_prepend _ h2, Option.map_map, Option.map_map, Option.map_map]
    apply congrArg (fun f => Option.map f _)
    funext st
    show convert_finish true (st.prepend (b ++ ['^'])) =
      (convert_finish true (st.prepend ['^'])).prepend b
    rw [convert_finish_prepend, convert_finish_prepend]
    simp [ConvResult.prepend]

theorem convert_finish_anchor (st : ConvState) :
    (convert_finish true (st.prepend ['^'])).ptype = (convert_finish false st).ptype ∧
    ((convert_finish false st).ptype ≠ pattern_t.ePatternInvalid →
      (convert_finish true (st.prepend ['^'])).pcre =
        '^' :: ((convert_finish false st).pcre ++ ['$'])) := by
  unfold convert_finish ConvState.prepend
  simp only
  split_ifs <;> simp_all

/-- Claim C27.  For every pattern translated into an empty buffer, the call
returns with the anchor off and with the anchor on, the two classes are
equal, and when the class is not Invalid the buffer of the anchored call is
`^`, then the buffer of the call with the anchor off, then `$`. -/
theorem convert_anchor (p : List Char) (garbage : Int → Int) :
    ∃ r1 r2, convert_aaregex_to_pcre p false [] garbage = some r1 ∧
      convert_aaregex_to_pcre p true [] garbage = some r2 ∧
      r2.ptype = r1.ptype ∧
      (r1.ptype ≠ pattern_t.ePatternInvalid → r2.pcre = '^' :: (r1.pcre ++ ['$'])) := by
  obtain ⟨st1, h1, _⟩ := convert_loop_total p (convert_start false [] garbage) false
    (convert_start_depth false [] garbage)
  have h2 : (['^'] : List Char).getLast? ≠ some '/' := by simp
  refine ⟨convert_finish false st1, convert_finish true (st1.prepend ['^']), ?_, ?_,
    (convert_finish_anchor st1).1, (convert_finish_anchor st1).2⟩
  · unfold convert_aaregex_to_pcre
    rw [h1]
    rfl
  · unfold convert_aaregex_to_pcre
    rw [convert_start_anchor [] garbage]
    show Option.map (convert_finish true)
      (convert_loop ((convert_start false [] garbage).prepend ['^']) false p) = _
    rw [convert_loop_prepend _ h2, h1]
    rfl

/-- Claim C28 fails: with the buffer `/`, the pattern `*` leaves
`/[^/\x00][^/\x00]*` in the buffer, while the same call leaves `[^/\x00]*`
in an empty buffer: the text that is appended depends on the last byte of
the buffer that is passed. -/
theorem convert_buffer_slash :
    convert_aaregex_to_pcre "*".toList false "/".toList (fun _ => 0) =
      some ⟨pattern_t.ePatternRegex, "/[^/\\x00][^/\\x00]*".toList, 0⟩ ∧
    convert_aaregex_to_pcre "*".toList false [] (fun _ => 0) =
      some ⟨pattern_t.ePatternRegex, "[^/\\x00]*".toList, 0⟩ := by
  decide

/-- Claim C28, amended.  For every pattern, anchor flag and buffer `b`, the
class and `first_re_pos` are those of the same call with an empty buffer;
and when the anchor is on or `b` does not end with a slash (as an empty `b`),
the buffer after the call is `b` followed by exactly what the same call
leaves in an empty buffer. -/
theorem convert_appends (p : List Char) (anchor : Bool) (b : List Char)
    (garbage : Int → Int) :
    (convert_aaregex_to_pcre p anchor b garbage).map (fun r => (r.ptype, r.first_re_pos)) =
      (convert_aaregex_to_pcre p anchor [] garbage).map
        (fun r => (r.ptype, r.first_re_pos)) ∧
    (anchor = true ∨ b.getLast? ≠ some '/' →
      convert_aaregex_to_pcre p anchor b garbage =
        (convert_aaregex_to_pcre p anchor [] garbage).map (ConvResult.prepend b)) :=
  ⟨convert_class_buffer p anchor b [] garbage, convert_prepend p anchor b garbage⟩

theorem convert_appends_witness :
    convert_aaregex_to_pcre "/a*".toList false "testprefix".toList (fun _ => 0) =
      (convert_aaregex_to_pcre "/a*".toList false [] (fun _ => 0)).map
        (ConvResult.prepend "testprefix".toList) ∧
    convert_aaregex_to_pcre "*".toList true "/".toList (fun _ => 0) =
      (convert_aaregex_to_pcre "*".toList true [] (fun _ => 0)).map
        (ConvResult.prepend "/".toList) :=
  ⟨(convert_appends "/a*".toList false "testprefix".toList (fun _ => 0)).2
      (Or.inr (by decide)),
   (convert_appends "*".toList true "/".toList (fun _ => 0)).2 (Or.inl rfl)⟩

/-- Claim C29.  A character class `[w]` whose text `w` has only bytes with
no special meaning, unescaped braces and unescaped commas is put in the
buffer as it is; the depth of the groups and every entry of `grouping_count`
stay what they were before the class, and the class of the pattern becomes
Regex.  So `{alpha,b[{a,b}]t,gamma}` gives `(alpha|b[{a,b}]t|gamma)` with
the class Regex. -/
theorem convert_class_verbatim (w r : List Char) (st : ConvState) (garbage : Int → Int)
    (he : st.error = error_type.e_no_error) (hb : st.bEscape = false)
    (hw : ∀ c ∈ w, is_class_byte c = true) :
    convert_loop st false ('[' :: (w ++ ']' :: r)) =
      convert_loop
        { st with
          first_re_pos := if st.first_re_pos = 0 then int_wrap st.sptr else st.first_re_pos,
          incharclass := 0, ptype := pattern_t.ePatternRegex,
          pcre := st.pcre ++ '[' :: (w ++ [']']), bEscape := false,
          sptr := st.sptr + (w.length + 2) } false r ∧
    convert_aaregex_to_pcre "\x7balpha,b[\x7ba,b\x7d]t,gamma\x7d".toList false [] garbage =
      some ⟨pattern_t.ePatternRegex, "(alpha|b[\x7ba,b\x7d]t|gamma)".toList, 8⟩ := by
  refine ⟨convert_loop_class w r st he hb hw, ?_⟩
  rw [convert_garbage _ _ _ garbage (fun _ => 0)]
  decide

theorem convert_class_verbatim_witness :
    convert_loop (convert_start false "b".toList (fun _ => 0)) false
        "[\x7ba,b\x7d]t".toList =
      convert_loop
        { convert_start false "b".toList (fun _ => 0) with
          first_re_pos := 0, incharclass := 0, ptype := pattern_t.ePatternRegex,
          pcre := "b[\x7ba,b\x7d]".toList, bEscape := false, sptr := 7 } false "t".toList ∧
    convert_aaregex_to_pcre "\x7balpha,b[\x7ba,b\x7d]t,gamma\x7d".toList false []
        (fun _ => 0) =
      some ⟨pattern_t.ePatternRegex, "(alpha|b[\x7ba,b\x7d]t|gamma)".toList, 8⟩ :=
  convert_class_verbatim "\x7ba,b\x7d".toList "t".toList
    (convert_start false "b".toList (fun _ => 0)) (fun _ => 0) rfl rfl (by decide)

/-- Claim C30 does not hold of the code: inside a character class an
unescaped `?` and an unescaped `*` are replaced as they are outside of it.
The class `[w?]` puts `[w[^/\x00]]` in the buffer and the class `[w*]` puts
`[w[^/\x00]*]`, for every text `w` of bytes with no special meaning, braces
and commas; `[*]` gives `[[^/\x00]*]` and `[?]` gives `[[^/\x00]]`. -/
theorem convert_class_glob (w r : List Char) (st : ConvState) (garbage : Int → Int)
    (he : st.error = error_type.e_no_error) (hb : st.bEscape = false)
    (hw : ∀ c ∈ w, is_class_byte c = true) :
    (∃ st1, convert_loop st false ('[' :: (w ++ '?' :: ']' :: r)) = convert_loop st1 false r ∧
      st1.pcre = st.pcre ++ ['['] ++ w ++ "[^/\\x00]".toList ++ [']'] ∧
      st1.error = error_type.e_no_error) ∧
    (∃ st1, convert_loop st false ('[' :: (w ++ '*' :: ']' :: r)) = convert_loop st1 false r ∧
      st1.pcre = st.pcre ++ ['['] ++ w ++ "[^/\\x00]*".toList ++ [']'] ∧
      st1.error = error_type.e_no_error) ∧
    convert_aaregex_to_pcre "[*]".toList false [] garbage =
      some ⟨pattern_t.ePatternRegex, "[[^/\\x00]*]".toList, 1⟩ ∧
    convert_aaregex_to_pcre "[?]".toList false [] garbage =
      some ⟨pattern_t.ePatternRegex, "[[^/\\x00]]".toList, 1⟩ := by
  refine ⟨⟨_, convert_loop_class_question w r st he hb hw, rfl, he⟩,
    ⟨_, convert_loop_class_star w r st he hb hw, rfl, he⟩, ?_, ?_⟩
  · rw [convert_garbage _ _ _ garbage (fun _ => 0)]
    decide
  · rw [convert_garbage _ _ _ garbage (fun _ => 0)]
    decide

theorem convert_class_glob_witness :
    (∃ st1, convert_loop (convert_start false [] (fun _ => 0)) false "[a?]".toList =
        convert_loop st1 false [] ∧
      st1.pcre = "[a[^/\\x00]]".toList ∧ st1.error = error_type.e_no_error) ∧
    (∃ st1, convert_loop (convert_start false [] (fun _ => 0)) false "[a*]".toList =
        convert_loop st1 false [] ∧
      st1.pcre = "[a[^/\\x00]*]".toList ∧ st1.error = error_type.e_no_error) ∧
    convert_aaregex_to_pcre "[*]".toList false [] (fun _ => 0) =
      some ⟨pattern_t.ePatternRegex, "[[^/\\x00]*]".toList, 1⟩ ∧
    convert_aaregex_to_pcre "[?]".toList false [] (fun _ => 0) =
      some ⟨pattern_t.ePatternRegex, "[[^/\\x00]]".toList, 1⟩ :=
  convert_class_glob "a".toList [] (convert_start false [] (fun _ => 0)) (fun _ => 0) rfl rfl
    (by decide)

/-! ## Claims C31 to C40 -/

/-- More fuel does not change what the search returns. -/
theorem reach_loop_mono (d : DFA) :
    ∀ (fuel : Nat) (R Q res : List StateRef), d.reach_loop fuel R Q = some res →
      d.reach_loop (fuel + 1) R Q = some res := by
  intro fuel
  induction fuel with
  | zero =>
    intro R Q res h
    cases Q with
    | nil => rw [reach_loop_nil] at h ⊢; exact h
    | cons src Q => simp [DFA.reach_loop] at h
  | succ n ih =>
    intro R Q res h
    cases Q with
    | nil => rw [reach_loop_nil] at h ⊢; exact h
    | cons src Q =>
      rw [reach_loop_succ] at h ⊢
      exact ih _ _ _ h

theorem reach_loop_mono_le (d : DFA) (fuel : Nat) (R Q res : List StateRef)
    (h : d.reach_loop fuel R Q = some res) :
    ∀ fuel1, fuel ≤ fuel1 → d.reach_loop fuel1 R Q = some res := by
  intro fuel1 hle
  induction fuel1 with
  | zero =>
    have : fuel = 0 := by omega
    subst this
    exact h
  | succ n ih =>
    by_cases hn : fuel ≤ n
    · exact reach_loop_mono d n R Q res (ih hn)
    · have : fuel = n + 1 := by omega
      subst this
      exact h

/-- Claim C39.  On a DFA whose `start` and whose transition targets all
belong to its list of states, `remove_unreachable` terminates: the search
ends within some number of iterations, and with any greater bound on the
iterations the function returns the same DFA. -/
theorem remove_unreachable_terminates (d : DFA) (hstart : d.start ∈ d.states)
    (hc : d.Closed) :
    ∃ fuel d1, ∀ fuel1, fuel ≤ fuel1 → d.remove_unreachable fuel1 = some d1 := by
  have hset : ∃ fuel R, d.reachable_set fuel = some R := by
    apply reach_loop_terminates d hc _ _ rfl _ _ rfl
    intro q hq
    rw [List.mem_singleton] at hq
    subst hq
    exact hstart
  obtain ⟨fuel, R, h⟩ := hset
  refine ⟨fuel, d.erase_unreachable R, fun fuel1 hle => ?_⟩
  unfold DFA.remove_unreachable
  have h1 : d.reachable_set fuel1 = some R := reach_loop_mono_le d fuel _ _ R h fuel1 hle
  rw [h1]
  rfl

/-- Witness of `remove_unreachable_terminates` on `dfa_three_bytes`, in which
the first iteration pushes state 2 twice on the work queue before it is
popped. -/
theorem remove_unreachable_terminates_witness :
    dfa_three_bytes.start ∈ dfa_three_bytes.states ∧ dfa_three_bytes.Closed ∧
    push_targets (set_insert 1 (set_insert 0 [])) (dfa_three_bytes.heap 1) = [2, 2, 3] ∧
    (dfa_three_bytes.remove_unreachable 5).isSome = false ∧
    (dfa_three_bytes.remove_unreachable 6).isSome = true ∧
    ∃ fuel d1, ∀ fuel1, fuel ≤ fuel1 → dfa_three_bytes.remove_unreachable fuel1 = some d1 :=
  ⟨by decide, by decide, by decide, by decide, by decide,
    remove_unreachable_terminates dfa_three_bytes (by decide) (by decide)⟩

/-- Claim C37.  Two bytes that in every state of the DFA either both have no
explicit entry or both have an explicit entry to the same target have the
same entry in the map that `equivalence_classes` returns: when they occur in
the map, they have the same class id. -/
theorem equivalence_classes_keeps_together (d : DFA) (hwt : d.WellTyped) (a b : Nat)
    (h : ∀ s ∈ d.states, map_find a (d.heap s).cases = map_find b (d.heap s).cases) :
    map_find a d.equivalence_classes = map_find b d.equivalence_classes ∧
    ∀ ca cb, map_find a d.equivalence_classes = some ca →
      map_find b d.equivalence_classes = some cb → ca = cb := by
  have key : map_find a d.equivalence_classes = map_find b d.equivalence_classes := by
    apply equivalence_classes_agree
    intro S hS
    obtain ⟨s, hs, t, hts⟩ := mem_all_groups.1 hS
    have hsorted : KeysSorted (d.heap s).cases := (hwt.2.2.2 s hs).1
    have hspec := ((group_edges_spec (d.heap s).cases).2.1 t S hts).2
    rw [hspec a, hspec b, mem_iff_map_find hsorted, mem_iff_map_find hsorted, h s hs]
  refine ⟨key, fun ca cb ha hb => ?_⟩
  rw [key, hb] at ha
  exact (Option.some.inj ha).symm

theorem equivalence_classes_keeps_together_witness :
    (∀ s ∈ dfa_three_bytes.states,
      map_find 97 (dfa_three_bytes.heap s).cases = map_find 98 (dfa_three_bytes.heap s).cases) ∧
    map_find 97 dfa_three_bytes.equivalence_classes = some 1 ∧
    map_find 97 dfa_three_bytes.equivalence_classes =
      map_find 98 dfa_three_bytes.equivalence_classes :=
  ⟨by decide, by decide,
    (equivalence_classes_keeps_together dfa_three_bytes (by decide) 97 98 (by decide)).1⟩

/-! ## same_mappings and hash_trans -/

theorem live_otherwise_none_iff (d : DFA) (s : StateRef) :
    d.live_otherwise s = none ↔ d.DeadDefault s := by
  unfold DFA.live_otherwise DFA.DeadDefault
  cases h : (d.heap s).otherwise with
  | none => simp
  | some o =>
    by_cases ho : o = d.nonmatching
    · simp [ho]
    · simp [ho]

theorem live_otherwise_of_live (d : DFA) (s : StateRef) (h : ¬ d.DeadDefault s) :
    d.live_otherwise s = (d.heap s).otherwise := by
  unfold DFA.live_otherwise
  unfold DFA.DeadDefault at h
  cases ho : (d.heap s).otherwise with
  | none => rfl
  | some o =>
    have : o ≠ d.nonmatching := by
      rintro rfl
      exact h (Or.inr ho)
    simp [this]

/-- The default half of `same_mappings` is condition (a). -/
theorem live_otherwise_same_iff (d : DFA) (s1 s2 : StateRef) :
    (d.live_otherwise s1).map (fun o => (d.heap o).partition) =
      (d.live_otherwise s2).map (fun o => (d.heap o).partition) ↔ d.SameDefault s1 s2 := by
  unfold DFA.SameDefault
  by_cases h1 : d.DeadDefault s1
  · by_cases h2 : d.DeadDefault s2
    · simp [(live_otherwise_none_iff d s1).2 h1, (live_otherwise_none_iff d s2).2 h2, h1, h2]
    · have e1 := (live_otherwise_none_iff d s1).2 h1
      have e2 : d.live_otherwise s2 ≠ none := fun e => h2 ((live_otherwise_none_iff d s2).1 e)
      cases e3 : d.live_otherwise s2 with
      | none => exact absurd e3 e2
      | some o => simp [e1, h1, h2]
  · by_cases h2 : d.DeadDefault s2
    · have e2 := (live_otherwise_none_iff d s2).2 h2
      have e1 : d.live_otherwise s1 ≠ none := fun e => h1 ((live_otherwise_none_iff d s1).1 e)
      cases e3 : d.live_otherwise s1 with
      | none => exact absurd e3 e1
      | some o => simp [e2, h1, h2]
    · rw [live_otherwise_of_live d s1 h1, live_otherwise_of_live d s2 h2]
      simp [h1, h2]

/-- The function `same_mappings` by what it compares: the blocks of the live
default targets, and byte by byte the blocks of the explicit targets. -/
theorem same_mappings_iff (d : DFA) (s1 s2 : StateRef)
    (h1 : ((d.heap s1).cases.map Prod.fst).Nodup)
    (h2 : ((d.heap s2).cases.map Prod.fst).Nodup) :
    d.same_mappings s1 s2 = true ↔
      ((d.live_otherwise s1).map (fun o => (d.heap o).partition) =
        (d.live_otherwise s2).map (fun o => (d.heap o).partition)) ∧
      ∀ c, (map_find c (d.heap s1).cases).map (fun o => (d.heap o).partition) =
        (map_find c (d.heap s2).cases).map (fun o => (d.heap o).partition) := by
  constructor
  · intro h
    exact ⟨same_mappings_otherwise h, same_mappings_find h h1⟩
  · rintro ⟨ho, hf⟩
    have hkeys : ∀ k, k ∈ (d.heap s1).cases.map Prod.fst ↔ k ∈ (d.heap s2).cases.map Prod.fst := by
      intro k
      rw [← map_find_isSome_iff, ← map_find_isSome_iff]
      have := hf k
      cases e1 : map_find k (d.heap s1).cases <;> cases e2 : map_find k (d.heap s2).cases <;>
        simp [e1, e2] at this ⊢
    have hperm : ((d.heap s1).cases.map Prod.fst).Perm ((d.heap s2).cases.map Prod.fst) :=
      (List.perm_ext_iff_of_nodup h1 h2).2 hkeys
    have hlen : (d.heap s1).cases.length = (d.heap s2).cases.length := by
      simpa using hperm.length_eq
    unfold DFA.same_mappings
    simp only [Bool.and_eq_true, decide_eq_true_eq, List.all_eq_true]
    refine ⟨⟨?_, hlen⟩, ?_⟩
    · cases e1 : d.live_otherwise s1 <;> cases e2 : d.live_otherwise s2 <;>
        simp [e1, e2] at ho ⊢
      exact ho
    · intro j hj
      have hj1 : map_find j.1 (d.heap s1).cases = some j.2 := map_find_of_mem h1 hj
      have := hf j.1
      rw [hj1] at this
      cases e2 : map_find j.1 (d.heap s2).cases with
      | none => simp [e2] at this
      | some t2 =>
        simp only [e2, Option.map_some', Option.some.injEq] at this
        simp [this]

/-- The explicit half of `same_mappings` is condition (b). -/
theorem same_explicit_iff (d : DFA) (s1 s2 : StateRef)
    (h1 : ((d.heap s1).cases.map Prod.fst).Nodup)
    (h2 : ((d.heap s2).cases.map Prod.fst).Nodup) :
    (∀ c, (map_find c (d.heap s1).cases).map (fun o => (d.heap o).partition) =
        (map_find c (d.heap s2).cases).map (fun o => (d.heap o).partition)) ↔
      d.SameExplicit s1 s2 := by
  unfold DFA.SameExplicit
  constructor
  · intro hf
    have hkeys : ∀ k, k ∈ (d.heap s1).cases.map Prod.fst ↔ k ∈ (d.heap s2).cases.map Prod.fst := by
      intro k
      rw [← map_find_isSome_iff, ← map_find_isSome_iff]
      have := hf k
      cases e1 : map_find k (d.heap s1).cases <;> cases e2 : map_find k (d.heap s2).cases <;>
        simp [e1, e2] at this ⊢
    refine ⟨fun k hk => (hkeys k).1 hk, fun k hk => (hkeys k).2 hk, ?_⟩
    intro j1 hj1 j2 hj2 hk
    have e1 := map_find_of_mem h1 hj1
    have e2 := map_find_of_mem h2 hj2
    have := hf j1.1
    rw [e1, hk, e2] at this
    simpa using this
  · rintro ⟨a, b, c⟩ k
    cases e1 : map_find k (d.heap s1).cases with
    | none =>
      have n1 : k ∉ (d.heap s1).cases.map Prod.fst := (map_find_eq_none_iff _ _).1 e1
      have n2 : k ∉ (d.heap s2).cases.map Prod.fst := fun h => n1 (b k h)
      rw [(map_find_eq_none_iff _ _).2 n2]
    | some t1 =>
      have m1 := map_find_some_mem e1
      have k2 : k ∈ (d.heap s2).cases.map Prod.fst := a k (List.mem_map.2 ⟨_, m1, rfl⟩)
      cases e2 : map_find k (d.heap s2).cases with
      | none => exact absurd k2 ((map_find_eq_none_iff _ _).1 e2)
      | some t2 =>
        have m2 := map_find_some_mem e2
        simp only [Option.map_some', Option.some.injEq]
        exact c _ m1 _ m2 rfl

/-- Claim C34.  For two states whose explicit tables are maps (no byte key
twice) and any `partition` pointers, `same_mappings s1 s2` returns true if
and only if (a) the default transitions are both absent or to `nonmatching`,
or both present, not to `nonmatching`, and to states of the same block, and
(b) the explicit tables have the same set of byte keys and for each key the
two targets are in the same block. -/
theorem same_mappings_spec (d : DFA) (s1 s2 : StateRef)
    (h1 : ((d.heap s1).cases.map Prod.fst).Nodup)
    (h2 : ((d.heap s2).cases.map Prod.fst).Nodup) :
    d.same_mappings s1 s2 = true ↔ d.SameDefault s1 s2 ∧ d.SameExplicit s1 s2 := by
  rw [same_mappings_iff d s1 s2 h1 h2, live_otherwise_same_iff, same_explicit_iff d s1 s2 h1 h2]

/-- Witness of `same_mappings_spec`: in `dfa_by_size` the states 2 and 3
differ in the default (to the state 4, to `nonmatching`), the states 2 and 5
agree in the default and in the explicit table, whose targets 4 and 0 are
both in block 0. -/
theorem same_mappings_spec_witness :
    ((dfa_by_size.heap 2).cases.map Prod.fst).Nodup ∧
    ((dfa_by_size.heap 5).cases.map Prod.fst).Nodup ∧
    dfa_by_size.same_mappings 2 3 = false ∧
    dfa_by_size.same_mappings 2 5 = true ∧
    (dfa_by_size.same_mappings 2 5 = true ↔
      dfa_by_size.SameDefault 2 5 ∧ dfa_by_size.SameExplicit 2 5) :=
  ⟨by decide, by decide, by decide, by decide,
    same_mappings_spec dfa_by_size 2 5 (by decide) (by decide)⟩

/-- Claim C38.  For fixed `partition` pointers, `same_mappings` is an
equivalence relation on the states whose explicit tables are maps (no byte
key twice): it is reflexive, symmetric and transitive.  Hence two states that
both compare equal to the first member of a block compare equal to each
other. -/
theorem same_mappings_equivalence (d : DFA) (S : List StateRef)
    (hk : ∀ s ∈ S, ((d.heap s).cases.map Prod.fst).Nodup) :
    (∀ s ∈ S, d.same_mappings s s = true) ∧
    (∀ s1 ∈ S, ∀ s2 ∈ S, d.same_mappings s1 s2 = true → d.same_mappings s2 s1 = true) ∧
    (∀ s1 ∈ S, ∀ s2 ∈ S, ∀ s3 ∈ S, d.same_mappings s1 s2 = true →
      d.same_mappings s2 s3 = true → d.same_mappings s1 s3 = true) ∧
    (∀ rep ∈ S, ∀ s1 ∈ S, ∀ s2 ∈ S, d.same_mappings rep s1 = true →
      d.same_mappings rep s2 = true → d.same_mappings s1 s2 = true) := by
  have hsymm : ∀ s1 ∈ S, ∀ s2 ∈ S, d.same_mappings s1 s2 = true →
      d.same_mappings s2 s1 = true := by
    intro s1 m1 s2 m2 h
    rw [same_mappings_iff d s1 s2 (hk s1 m1) (hk s2 m2)] at h
    rw [same_mappings_iff d s2 s1 (hk s2 m2) (hk s1 m1)]
    exact ⟨h.1.symm, fun c => (h.2 c).symm⟩
  have htrans : ∀ s1 ∈ S, ∀ s2 ∈ S, ∀ s3 ∈ S, d.same_mappings s1 s2 = true →
      d.same_mappings s2 s3 = true → d.same_mappings s1 s3 = true := by
    intro s1 m1 s2 m2 s3 m3 h12 h23
    rw [same_mappings_iff d s1 s2 (hk s1 m1) (hk s2 m2)] at h12
    rw [same_mappings_iff d s2 s3 (hk s2 m2) (hk s3 m3)] at h23
    rw [same_mappings_iff d s1 s3 (hk s1 m1) (hk s3 m3)]
    exact ⟨h12.1.trans h23.1, fun c => (h12.2 c).trans (h23.2 c)⟩
  refine ⟨?_, hsymm, htrans, ?_⟩
  · intro s m
    rw [same_mappings_iff d s s (hk s m) (hk s m)]
    exact ⟨rfl, fun _ => rfl⟩
  · intro rep mr s1 m1 s2 m2 h1 h2
    exact htrans s1 m1 rep mr s2 m2 (hsymm rep mr s1 m1 h1) h2

/-- Witness of `same_mappings_equivalence` on the states of `dfa_by_size`. -/
theorem same_mappings_equivalence_witness :
    (∀ s ∈ dfa_by_size.states, ((dfa_by_size.heap s).cases.map Prod.fst).Nodup) ∧
    dfa_by_size.same_mappings 2 5 = true ∧ dfa_by_size.same_mappings 5 2 = true ∧
    dfa_by_size.same_mappings 2 3 = false ∧
    (∀ s1 ∈ dfa_by_size.states, ∀ s2 ∈ dfa_by_size.states,
      dfa_by_size.same_mappings s1 s2 = true → dfa_by_size.same_mappings s2 s1 = true) :=
  ⟨by decide, by decide, by decide, by decide,
    (same_mappings_equivalence dfa_by_size dfa_by_size.states (by decide)).2.1⟩

/-- The value of `hash_trans` is a function of `trans_shape`. -/
theorem hash_trans_of_shape (d1 d2 : DFA) (s1 s2 : StateRef)
    (h : d1.trans_shape s1 = d2.trans_shape s2) : d1.hash_trans s1 = d2.hash_trans s2 := by
  have key : ∀ (d : DFA) (s : StateRef), d.hash_trans s =
      ((((match (d.trans_shape s).2 with
        | some n => djb2 (djb2 ((d.trans_shape s).1.foldl
            (fun hash j => djb2 (djb2 hash j.1) j.2) 5381) 5381) n
        | none => (d.trans_shape s).1.foldl (fun hash j => djb2 (djb2 hash j.1) j.2) 5381)
        <<< 8) % U64) ||| (d.trans_shape s).1.length) := by
    intro d s
    unfold DFA.hash_trans DFA.trans_shape
    simp only [List.foldl_map, List.length_map]
    cases d.live_otherwise s <;> rfl
  rw [key d1 s1, key d2 s2, h]

/-- Two maps with the same keys in ascending order, whose values under each
key are related, are related entry by entry. -/
theorem sorted_maps_forall2 {β : Type} (R : β → β → Prop) :
    ∀ (l1 l2 : List (Nat × β)), KeysSorted l1 → KeysSorted l2 →
      (∀ k, k ∈ l1.map Prod.fst ↔ k ∈ l2.map Prod.fst) →
      (∀ j1 ∈ l1, ∀ j2 ∈ l2, j1.1 = j2.1 → R j1.2 j2.2) →
      List.Forall₂ (fun a b => a.1 = b.1 ∧ R a.2 b.2) l1 l2 := by
  intro l1
  induction l1 with
  | nil =>
    intro l2 _ _ hk _
    cases l2 with
    | nil => exact List.Forall₂.nil
    | cons b l2 =>
      have := (hk b.1).2 (by simp)
      simp at this
  | cons a l1 ih =>
    intro l2 hs1 hs2 hk hr
    cases l2 with
    | nil =>
      have := (hk a.1).1 (by simp)
      simp at this
    | cons b l2 =>
      unfold KeysSorted at hs1 hs2
      simp only [List.map_cons, List.pairwise_cons] at hs1 hs2
      have hab : a.1 = b.1 := by
        have ha := (hk a.1).1 (by simp)
        have hb := (hk b.1).2 (by simp)
        simp only [List.map_cons, List.mem_cons] at ha hb
        rcases ha with ha | ha
        · exact ha
        · rcases hb with hb | hb
          · exact hb.symm
          · have x1 := hs2.1 _ ha
            have x2 := hs1.1 _ hb
            omega
      refine List.Forall₂.cons ⟨hab, hr a (by simp) b (by simp) hab⟩ ?_
      apply ih l2 hs1.2 hs2.2
      · intro k
        have := hk k
        simp only [List.map_cons, List.mem_cons] at this
        constructor
        · intro h
          have hlt := hs1.1 _ h
          rcases this.1 (Or.inr h) with e | e
          · omega
          · exact e
        · intro h
          have hlt := hs2.1 _ h
          rcases this.2 (Or.inr h) with e | e
          · omega
          · exact e
      · intro j1 m1 j2 m2 e
        exact hr j1 (List.mem_cons_of_mem _ m1) j2 (List.mem_cons_of_mem _ m2) e

theorem map_eq_of_forall2 {α γ : Type} (f : α → γ) :
    ∀ (l1 l2 : List α), List.Forall₂ (fun a b => f a = f b) l1 l2 → l1.map f = l2.map f := by
  intro l1 l2 h
  induction h with
  | nil => rfl
  | cons hab _ ih => simp [hab, ih]

/-- Claim C35.  When any two states of the same block have the same number
of explicit transitions, two states of the DFA for which `same_mappings`
returns true have the same `hash_trans`; the value of `hash_trans` is a
function of the byte keys in ascending order, the size of the explicit table
of each target, and the size of the explicit table of the default target
when there is one that is not `nonmatching`. -/
theorem hash_trans_same_mappings (d : DFA) (hwt : d.WellTyped) (hc : d.Closed)
    (hsize : ∀ x ∈ d.states, ∀ y ∈ d.states,
      (d.heap x).partition = (d.heap y).partition →
        (d.heap x).cases.length = (d.heap y).cases.length)
    (s1 s2 : StateRef) (m1 : s1 ∈ d.states) (m2 : s2 ∈ d.states)
    (h : d.same_mappings s1 s2 = true) :
    d.hash_trans s1 = d.hash_trans s2 ∧ d.trans_shape s1 = d.trans_shape s2 ∧
    ∀ (e1 e2 : DFA) (t1 t2 : StateRef), e1.trans_shape t1 = e2.trans_shape t2 →
      e1.hash_trans t1 = e2.hash_trans t2 := by
  have k1 : KeysSorted (d.heap s1).cases := (hwt.2.2.2 s1 m1).1
  have k2 : KeysSorted (d.heap s2).cases := (hwt.2.2.2 s2 m2).1
  have n1 := keys_nodup_of_sorted k1
  have n2 := keys_nodup_of_sorted k2
  have hiff := (same_mappings_iff d s1 s2 n1 n2).1 h
  obtain ⟨ka, kb, kc⟩ := (same_explicit_iff d s1 s2 n1 n2).1 hiff.2
  have hshape : d.trans_shape s1 = d.trans_shape s2 := by
    unfold DFA.trans_shape
    refine Prod.ext ?_ ?_
    · apply map_eq_of_forall2
      have hf := sorted_maps_forall2
        (fun t1 t2 : StateRef => (d.heap t1).cases.length = (d.heap t2).cases.length)
        (d.heap s1).cases (d.heap s2).cases k1 k2 (fun k => ⟨ka k, kb k⟩) ?_
      · refine hf.imp ?_
        intro a b hab
        simp only [hab.1, hab.2]
      · intro j1 hj1 j2 hj2 e
        apply hsize
        · exact hc s1 m1 _ (by simp [State.targets]; exact Or.inr ⟨_, hj1⟩)
        · exact hc s2 m2 _ (by simp [State.targets]; exact Or.inr ⟨_, hj2⟩)
        · exact kc j1 hj1 j2 hj2 e
    · have ho := hiff.1
      show (d.live_otherwise s1).map _ = (d.live_otherwise s2).map _
      cases e1 : d.live_otherwise s1 with
      | none =>
        cases e2 : d.live_otherwise s2 with
        | none => rfl
        | some o2 => simp [e1, e2] at ho
      | some o1 =>
        cases e2 : d.live_otherwise s2 with
        | none => simp [e1, e2] at ho
        | some o2 =>
          simp only [e1, e2, Option.map_some', Option.some.injEq] at ho ⊢
          have l1 : (d.heap s1).otherwise = some o1 := by
            unfold DFA.live_otherwise at e1
            cases hh : (d.heap s1).otherwise with
            | none => simp [hh] at e1
            | some o =>
              simp only [hh] at e1
              split_ifs at e1
              exact congrArg some (Option.some.inj e1)
          have l2 : (d.heap s2).otherwise = some o2 := by
            unfold DFA.live_otherwise at e2
            cases hh : (d.heap s2).otherwise with
            | none => simp [hh] at e2
            | some o =>
              simp only [hh] at e2
              split_ifs at e2
              exact congrArg some (Option.some.inj e2)
          apply hsize
          · exact hc s1 m1 _ (by simp [State.targets, l1])
          · exact hc s2 m2 _ (by simp [State.targets, l2])
          · exact ho
  exact ⟨hash_trans_of_shape d d s1 s2 hshape, hshape, hash_trans_of_shape⟩

/-- Witness of `hash_trans_same_mappings` on the states 2 and 5 of
`dfa_by_size`, which go to different targets. -/
theorem hash_trans_same_mappings_witness :
    dfa_by_size.WellTyped ∧ dfa_by_size.Closed ∧
    (∀ x ∈ dfa_by_size.states, ∀ y ∈ dfa_by_size.states,
      (dfa_by_size.heap x).partition = (dfa_by_size.heap y).partition →
        (dfa_by_size.heap x).cases.length = (dfa_by_size.heap y).cases.length) ∧
    dfa_by_size.same_mappings 2 5 = true ∧
    (dfa_by_size.heap 2).cases ≠ (dfa_by_size.heap 5).cases ∧
    dfa_by_size.hash_trans 2 = dfa_by_size.hash_trans 5 :=
  ⟨by decide, by decide, by decide, by decide, by decide,
    (hash_trans_same_mappings dfa_by_size (by decide) (by decide) (by decide) 2 5
      (by decide) (by decide) (by decide)).1⟩

/-! ## minimize: what the merge leaves -/

/-- There are as many blocks as states exactly when every block is a
singleton. -/
theorem length_eq_members_iff (ps : List Block) (hne : ∀ b ∈ ps, b.2 ≠ []) :
    ps.length = (members ps).length ↔ ∀ b ∈ ps, b.2.length = 1 := by
  induction ps with
  | nil => simp [members]
  | cons b ps ih =>
    have hne1 : ∀ b1 ∈ ps, b1.2 ≠ [] := fun b1 hb1 => hne b1 (List.mem_cons_of_mem _ hb1)
    have h1 := length_le_members ps hne1
    have h2 : 0 < b.2.length := List.length_pos.2 (hne b (List.mem_cons_self _ _))
    have h3 := ih hne1
    simp only [members, List.length_append, List.length_cons, List.mem_cons, forall_eq_or_imp]
    constructor
    · intro h
      have e1 : b.2.length = 1 := by omega
      exact ⟨e1, h3.1 (by omega)⟩
    · rintro ⟨e1, e2⟩
      have := h3.2 e2
      omega

/-- Claim C33.  On a well-formed DFA `minimize` returns.  With `rho s` the
first member of the final block that contains the state `s`: when some final
block has two members or more, the states of the result are exactly the first
members of the final blocks, in the order of the input; the accept and audit
masks of the first member of a block are the bitwise OR of the masks that the
members of the block had; its default and explicit targets are `rho` of the
targets it had, which are states of the input; and `start` and `nonmatching` are `rho` of the old ones.
When every final block is a singleton the result is the input up to the
`partition` back-pointers. -/
theorem minimize_merge_spec (d : DFA) (hp ht : Bool) (hwt : d.WellTyped) (hc : d.Closed) :
    ∃ (d1 : DFA) (ps : List Block) (d2 : DFA) (rho : StateRef → StateRef),
      d.final_partitions hp ht = some (d1, ps) ∧ d.minimize hp ht = some d2 ∧
      (members ps).Perm d.states ∧ (∀ b ∈ ps, b.2 ≠ []) ∧
      (∀ s ∈ d.states, ∃ a tl, (a, rho s :: tl) ∈ ps ∧ s ∈ rho s :: tl) ∧
      ((∀ b ∈ ps, b.2.length = 1) → d2.SameButPartition d) ∧
      ((∃ b ∈ ps, 2 ≤ b.2.length) →
        (∀ s, s ∈ d2.states ↔ ∃ a tl, (a, s :: tl) ∈ ps) ∧
        d2.states = d.states.filter (fun s => decide (rho s = s)) ∧
        (∀ a rep tl, (a, rep :: tl) ∈ ps →
          (d2.heap rep).accept = or_fold (fun i => (d.heap i).accept) (rep :: tl) 0 ∧
          (d2.heap rep).audit = or_fold (fun i => (d.heap i).audit) (rep :: tl) 0 ∧
          (d2.heap rep).otherwise = (d.heap rep).otherwise.map rho ∧
          (d2.heap rep).cases = (d.heap rep).cases.map (fun j => (j.1, rho j.2)) ∧
          (∀ t ∈ (d.heap rep).targets, ∃ a1 tl1, (a1, rho t :: tl1) ∈ ps ∧ t ∈ rho t :: tl1) ∧
          (d2.heap rep).label = (d.heap rep).label) ∧
        d2.start = rho d.start ∧ d2.nonmatching = rho d.nonmatching) := by
  obtain ⟨d1, ps, hfin, href⟩ := final_partitions_spec d hp ht hwt.1
  obtain ⟨hsame1, hsame2, hsame3, hsame4⟩ := href.same
  have hrho : ∀ s ∈ d.states, ∃ a tl, (a, d1.rep_of ps s :: tl) ∈ ps ∧
      s ∈ d1.rep_of ps s :: tl := by
    intro s hs
    obtain ⟨a, rep, tl, hb, hsb, hr⟩ := rep_of_spec href hs
    rw [hr]
    exact ⟨a, tl, hb, hsb⟩
  have hlen_iff := length_eq_members_iff ps href.blocks.nonempty
  have hmlen : (members ps).length = d1.states.length := by
    rw [hsame1]; exact href.perm.length_eq
  by_cases hlen : ps.length = d1.states.length
  · -- no state is removed
    have hsingle : ∀ b ∈ ps, b.2.length = 1 := hlen_iff.1 (by rw [hmlen]; exact hlen)
    refine ⟨d1, ps, d1, d1.rep_of ps, hfin, by simp [DFA.minimize, hfin, hlen], href.perm,
      href.blocks.nonempty, hrho, fun _ => href.same, ?_⟩
    rintro ⟨b, hb, h2⟩
    have := hsingle b hb
    omega
  · -- the partitions are merged
    have hmany : ¬ ∀ b ∈ ps, b.2.length = 1 := fun h => hlen (by rw [← hmlen]; exact hlen_iff.2 h)
    obtain ⟨m1, m2, m3, m4, m5, m6⟩ :=
      merge_fold_spec ps ps d1 href.blocks.nodup href.blocks.nonempty
    have hheap : (d1.merge_partitions ps).heap = (ps.foldl (DFA.merge_block ps) d1).heap := rfl
    have hstart : (d1.merge_partitions ps).start = d1.rep_of ps d.start := by
      simp only [DFA.merge_partitions, DFA.rep_of, m2, m4, hsame2]
    have hnm : (d1.merge_partitions ps).nonmatching = d1.rep_of ps d.nonmatching := by
      simp only [DFA.merge_partitions, DFA.rep_of, m3, m4, hsame3]
    -- a state of the input keeps its label exactly when it is a first member
    have hkeep : ∀ s ∈ d.states,
        (((ps.foldl (DFA.merge_block ps) d1).heap s).label ≠ -1 ↔ d1.rep_of ps s = s) := by
      intro s hs
      obtain ⟨a, rep, tl, hb, hsb, hr⟩ := rep_of_spec href hs
      obtain ⟨f1, _, _, _, _, f6⟩ := m6 _ hb rep tl rfl
      rw [hr]
      rcases List.mem_cons.1 hsb with rfl | hstl
      · rw [f1, (hsame4 s).1]
        have := (hwt.2.2.2 s hs).2.2.2.2
        constructor
        · intro _; rfl
        · intro _; omega
      · have hne : rep ≠ s := by
          rintro rfl
          have hnd : (rep :: tl).Nodup := by
            have h1 := href.blocks.nodup
            have : ∀ (qs : List Block), (members qs).Nodup → ∀ b ∈ qs, b.2.Nodup := by
              intro qs
              induction qs with
              | nil => intro _ b hb; simp at hb
              | cons q qs ih =>
                intro hq b hb
                simp only [members] at hq
                rcases List.mem_cons.1 hb with rfl | hb1
                · exact (List.nodup_append.1 hq).1
                · exact ih (List.nodup_append.1 hq).2.1 b hb1
            exact this ps h1 _ hb
          exact (List.nodup_cons.1 hnd).1 hstl
        constructor
        · intro h; exact absurd (f6 s hstl) h
        · intro h; exact absurd h hne
    have hstates_eq : (d1.merge_partitions ps).states =
        d.states.filter (fun s => decide (d1.rep_of ps s = s)) := by
      simp only [DFA.merge_partitions, m1, hsame1]
      apply List.filter_congr
      intro s hs
      have := hkeep s hs
      by_cases h : d1.rep_of ps s = s
      · simp [h, this.2 h]
      · have h2 : ¬ ((ps.foldl (DFA.merge_block ps) d1).heap s).label ≠ -1 := fun x => h (this.1 x)
        simp only [h, decide_False, decide_eq_false_iff_not]
        exact h2
    refine ⟨d1, ps, d1.merge_partitions ps, d1.rep_of ps, hfin,
      by simp [DFA.minimize, hfin, hlen], href.perm, href.blocks.nonempty, hrho,
      fun h => absurd h hmany, fun _ => ⟨?_, hstates_eq, ?_, hstart, hnm⟩⟩
    · intro s
      rw [hstates_eq, List.mem_filter, decide_eq_true_eq]
      constructor
      · rintro ⟨hs, hr⟩
        obtain ⟨a, tl, hb, _⟩ := hrho s hs
        rw [hr] at hb
        exact ⟨a, tl, hb⟩
      · rintro ⟨a, tl, hb⟩
        have hs : s ∈ d.states := rep_mem_states href hb (List.mem_cons_self _ _)
        refine ⟨hs, ?_⟩
        obtain ⟨f1, _, _, _, _, _⟩ := m6 _ hb s tl rfl
        apply (hkeep s hs).1
        rw [f1, (hsame4 s).1]
        have := (hwt.2.2.2 s hs).2.2.2.2
        omega
    · intro a rep tl hb
      obtain ⟨f1, f2, f3, f4, f5, _⟩ := m6 _ hb rep tl rfl
      rw [hheap]
      refine ⟨?_, ?_, ?_, ?_, ?_, ?_⟩
      · rw [f4, or_fold_cons, Nat.zero_or, (hsame4 rep).2.1]
        exact or_fold_congr _ _ _ (fun i _ => (hsame4 i).2.1) _
      · rw [f5, or_fold_cons, Nat.zero_or, (hsame4 rep).2.2.1]
        exact or_fold_congr _ _ _ (fun i _ => (hsame4 i).2.2.1) _
      · rw [f2, (hsame4 rep).2.2.2.1]
      · rw [f3, (hsame4 rep).2.2.2.2]
      · intro t htt
        exact hrho t (hc rep (rep_mem_states href hb (List.mem_cons_self _ _)) t htt)
      · rw [f1, (hsame4 rep).1]

/-- Witness of `minimize_merge_spec` on `dfa_covered_default`, whose states 2
and 3 are merged: the result has the states 0, 1, 2 and 4. -/
theorem minimize_merge_spec_witness :
    dfa_covered_default.WellTyped ∧ dfa_covered_default.Closed ∧
    (dfa_covered_default.minimize true true).map DFA.states = some [0, 1, 2, 4] ∧
    ∃ (d1 : DFA) (ps : List Block) (d2 : DFA) (rho : StateRef → StateRef),
      dfa_covered_default.final_partitions true true = some (d1, ps) ∧
      dfa_covered_default.minimize true true = some d2 ∧
      (members ps).Perm dfa_covered_default.states ∧ (∀ b ∈ ps, b.2 ≠ []) ∧
      (∀ s ∈ dfa_covered_default.states, ∃ a tl, (a, rho s :: tl) ∈ ps ∧ s ∈ rho s :: tl) ∧
      ((∀ b ∈ ps, b.2.length = 1) → d2.SameButPartition dfa_covered_default) ∧
      ((∃ b ∈ ps, 2 ≤ b.2.length) →
        (∀ s, s ∈ d2.states ↔ ∃ a tl, (a, s :: tl) ∈ ps) ∧
        d2.states = dfa_covered_default.states.filter (fun s => decide (rho s = s)) ∧
        (∀ a rep tl, (a, rep :: tl) ∈ ps →
          (d2.heap rep).accept =
            or_fold (fun i => (dfa_covered_default.heap i).accept) (rep :: tl) 0 ∧
          (d2.heap rep).audit =
            or_fold (fun i => (dfa_covered_default.heap i).audit) (rep :: tl) 0 ∧
          (d2.heap rep).otherwise = (dfa_covered_default.heap rep).otherwise.map rho ∧
          (d2.heap rep).cases =
            (dfa_covered_default.heap rep).cases.map (fun j => (j.1, rho j.2)) ∧
          (∀ t ∈ (dfa_covered_default.heap rep).targets,
            ∃ a1 tl1, (a1, rho t :: tl1) ∈ ps ∧ t ∈ rho t :: tl1) ∧
          (d2.heap rep).label = (dfa_covered_default.heap rep).label) ∧
        d2.start = rho dfa_covered_default.start ∧
        d2.nonmatching = rho dfa_covered_default.nonmatching) :=
  ⟨by decide, by decide, by decide,
    minimize_merge_spec dfa_covered_default true true (by decide) (by decide)⟩

/-! ## minimize: the invariant of the refinement loop -/

/-- One step of `refine_pass` is the scan of the first block; the pass goes on
with the new partition, when there is one, and the blocks behind it. -/
theorem refine_pass_scan (d : DFA) (fuel count : Nat) (a : Nat) (rep : StateRef)
    (tl : List StateRef) (rest : List Block) :
    d.refine_pass (fuel + 1) ((a, rep :: tl) :: rest) count =
      ((d.scan_block a rep tl count).1.refine_pass fuel
          ((d.scan_block a rep tl count).2.1.drop 1 ++ rest)
          (d.scan_block a rep tl count).2.2).map
        (fun r => (r.1, (d.scan_block a rep tl count).2.1.take 1 ++ r.2.1, r.2.2)) := by
  rw [refine_pass_succ]
  unfold DFA.scan_block
  by_cases h : tl.filter (fun s => !d.same_mappings rep s) = []
  · simp only [h, if_true]
    rfl
  · simp only [h, if_false]
    rfl

theorem members_perm {ps qs : List Block} (h : ps.Perm qs) :
    (members ps).Perm (members qs) := by
  induction h with
  | nil => exact List.Perm.refl _
  | cons x _ ih => exact List.Perm.append_left _ ih
  | swap x y l =>
    simp only [members]
    exact List.perm_append_comm_assoc _ _ _
  | trans _ _ ih1 ih2 => exact ih1.trans ih2

theorem BlocksOk.of_perm {d : DFA} {ps qs : List Block} {count : Nat} (h : ps.Perm qs)
    (hok : BlocksOk d ps count) : BlocksOk d qs count where
  nodup := (members_perm h).nodup_iff.1 hok.nodup
  back := fun b hb => hok.back b (h.mem_iff.2 hb)
  addr_lt := fun b hb => hok.addr_lt b (h.mem_iff.2 hb)
  addr_nodup := (h.map Prod.fst).nodup_iff.1 hok.addr_nodup
  nonempty := fun b hb => hok.nonempty b (h.mem_iff.2 hb)

/-- The scan of the first block of a list keeps the list well formed. -/
theorem scan_block_head (d : DFA) (a : Nat) (rep : StateRef) (tl : List StateRef)
    (rest : List Block) (count : Nat) (hok : BlocksOk d ((a, rep :: tl) :: rest) count) :
    BlocksOk (d.scan_block a rep tl count).1 ((d.scan_block a rep tl count).2.1 ++ rest)
      (d.scan_block a rep tl count).2.2 ∧
    (members ((d.scan_block a rep tl count).2.1 ++ rest)).Perm
      (members ((a, rep :: tl) :: rest)) := by
  unfold DFA.scan_block
  by_cases hsplit : tl.filter (fun s => !d.same_mappings rep s) = []
  · simp only [hsplit, if_true]
    exact ⟨hok, List.Perm.refl _⟩
  · simp only [hsplit, if_false]
    generalize hmoved : tl.filter (fun s => !d.same_mappings rep s) = moved at hsplit
    generalize hkept : tl.filter (fun s => d.same_mappings rep s) = kept
    have hnd := hok.nodup
    simp only [members] at hnd
    have hnd1 := List.nodup_append.1 hnd
    have hrep_tl : rep ∉ tl := (List.nodup_cons.1 hnd1.1).1
    have hmoved_sub : ∀ s, s ∈ moved → s ∈ tl := by
      intro s hs; rw [← hmoved] at hs; exact (List.mem_filter.1 hs).1
    have hkept_sub : ∀ s, s ∈ kept → s ∈ tl := by
      intro s hs; rw [← hkept] at hs; exact (List.mem_filter.1 hs).1
    have hkm : ∀ s, s ∈ kept → s ∉ moved := by
      intro s hs; rw [← hmoved]; rw [← hkept] at hs
      exact filter_not_disjoint hs
    have hkm_perm : (kept ++ moved).Perm tl := by
      rw [← hmoved, ← hkept]
      exact List.filter_append_perm _ tl
    have hheap := set_partitions_heap moved count d
    have hperm : (members ([(a, rep :: kept), (count, moved)] ++ rest)).Perm
        (members ((a, rep :: tl) :: rest)) := by
      simp only [members, List.cons_append, List.nil_append, List.append_assoc]
      rw [← List.append_assoc]
      exact List.Perm.cons _ (List.Perm.append_right _ hkm_perm)
    refine ⟨⟨?_, ?_, ?_, ?_, ?_⟩, hperm⟩
    · exact hperm.nodup_iff.2 hok.nodup
    · intro b hb s hs
      simp only [List.cons_append, List.nil_append, List.mem_cons] at hb
      rcases hb with rfl | rfl | hb
      · have hs_tl : s ∈ rep :: tl := by
          rcases List.mem_cons.1 hs with rfl | h1
          · exact List.mem_cons_self _ _
          · exact List.mem_cons_of_mem _ (hkept_sub s h1)
        have hnm : s ∉ moved := by
          rcases List.mem_cons.1 hs with rfl | h1
          · exact fun h => hrep_tl (hmoved_sub _ h)
          · exact hkm s h1
        rw [hheap, if_neg hnm]
        exact hok.back _ (List.mem_cons_self _ _) s hs_tl
      · rw [hheap, if_pos hs]
      · have hnm : s ∉ moved := by
          intro h
          exact hnd1.2.2 (List.mem_cons_of_mem _ (hmoved_sub s h)) (mem_members.2 ⟨b, hb, hs⟩)
        rw [hheap, if_neg hnm]
        exact hok.back b (List.mem_cons_of_mem _ hb) s hs
    · intro b hb
      simp only [List.cons_append, List.nil_append, List.mem_cons] at hb
      rcases hb with rfl | rfl | hb
      · exact Nat.lt_succ_of_lt (hok.addr_lt (a, rep :: tl) (List.mem_cons_self _ _))
      · exact Nat.lt_succ_self _
      · exact Nat.lt_succ_of_lt (hok.addr_lt b (List.mem_cons_of_mem _ hb))
    · have h0 := hok.addr_nodup
      simp only [List.map_cons, List.nodup_cons, List.cons_append, List.nil_append,
        List.mem_cons, not_or] at h0 ⊢
      have hfresh : count ∉ rest.map Prod.fst := by
        intro h
        obtain ⟨b, hb, hbc⟩ := List.mem_map.1 h
        have := hok.addr_lt b (List.mem_cons_of_mem _ hb)
        omega
      have halt : a < count := hok.addr_lt (a, rep :: tl) (List.mem_cons_self _ _)
      exact ⟨⟨by omega, h0.1⟩, hfresh, h0.2⟩
    · intro b hb
      simp only [List.cons_append, List.nil_append, List.mem_cons] at hb
      rcases hb with rfl | rfl | hb
      · simp
      · exact hsplit
      · exact hok.nonempty b (List.mem_cons_of_mem _ hb)

/-- The scan of a block at any place of the list keeps the list well
formed. -/
theorem scan_block_ok (d : DFA) (pre post : List Block) (a : Nat) (rep : StateRef)
    (tl : List StateRef) (count : Nat)
    (hok : BlocksOk d (pre ++ (a, rep :: tl) :: post) count) :
    BlocksOk (d.scan_block a rep tl count).1 (pre ++ (d.scan_block a rep tl count).2.1 ++ post)
      (d.scan_block a rep tl count).2.2 ∧
    (members (pre ++ (d.scan_block a rep tl count).2.1 ++ post)).Perm
      (members (pre ++ (a, rep :: tl) :: post)) := by
  have p1 : (pre ++ (a, rep :: tl) :: post).Perm ((a, rep :: tl) :: (pre ++ post)) :=
    List.perm_middle
  have p2 : ((d.scan_block a rep tl count).2.1 ++ (pre ++ post)).Perm
      (pre ++ (d.scan_block a rep tl count).2.1 ++ post) := by
    rw [← List.append_assoc]
    exact List.Perm.append_right _ List.perm_append_comm
  obtain ⟨h1, h2⟩ := scan_block_head d a rep tl (pre ++ post) count (hok.of_perm p1)
  exact ⟨h1.of_perm p2, ((members_perm p2).symm.trans h2).trans (members_perm p1).symm⟩

/-- Claim C36.  The invariant of the refinement loop of `minimize`: the
blocks are non-empty and pairwise disjoint, they hold every state of the DFA
exactly once, and the `partition` pointer of every state names the block
that holds it.  It holds when the loop is entered, the scan of any block of
the list keeps it, a list that satisfies it has at most as many blocks as the
DFA has states, and the loop ends with a list that satisfies it. -/
theorem refinement_invariant (d : DFA) (hp ht : Bool) (hnd : d.states.Nodup) :
    (BlocksOk (d.init_partitions hp ht).dfa (d.init_partitions hp ht).partitions
        (d.init_partitions hp ht).partitions.length ∧
      (members (d.init_partitions hp ht).partitions).Perm d.states) ∧
    (∀ (dx : DFA) (pre post : List Block) (a : Nat) (rep : StateRef) (tl : List StateRef)
        (count : Nat), BlocksOk dx (pre ++ (a, rep :: tl) :: post) count →
        (members (pre ++ (a, rep :: tl) :: post)).Perm d.states →
        BlocksOk (dx.scan_block a rep tl count).1
          (pre ++ (dx.scan_block a rep tl count).2.1 ++ post)
          (dx.scan_block a rep tl count).2.2 ∧
        (members (pre ++ (dx.scan_block a rep tl count).2.1 ++ post)).Perm d.states) ∧
    (∀ (dx : DFA) (fuel count : Nat) (a : Nat) (rep : StateRef) (tl : List StateRef)
        (rest : List Block),
        dx.refine_pass (fuel + 1) ((a, rep :: tl) :: rest) count =
          ((dx.scan_block a rep tl count).1.refine_pass fuel
              ((dx.scan_block a rep tl count).2.1.drop 1 ++ rest)
              (dx.scan_block a rep tl count).2.2).map
            (fun r => (r.1, (dx.scan_block a rep tl count).2.1.take 1 ++ r.2.1, r.2.2))) ∧
    (∀ (dx : DFA) (ps : List Block) (count : Nat), BlocksOk dx ps count →
        (members ps).Perm d.states → ps.length ≤ d.states.length) ∧
    ∃ d1 ps, d.final_partitions hp ht = some (d1, ps) ∧ BlocksOk d1 ps ps.length ∧
      (members ps).Perm d.states ∧ ps.length ≤ d.states.length := by
  have hbound : ∀ (dx : DFA) (ps : List Block) (count : Nat), BlocksOk dx ps count →
      (members ps).Perm d.states → ps.length ≤ d.states.length := by
    intro dx ps count hok hperm
    have := length_le_members ps hok.nonempty
    rw [hperm.length_eq] at this
    exact this
  obtain ⟨i1, i2, _, _⟩ := init_partitions_spec d hp ht hnd
  obtain ⟨d1, ps, hfin, href⟩ := final_partitions_spec d hp ht hnd
  refine ⟨⟨i1, i2⟩, ?_, ?_, hbound, d1, ps, hfin, href.blocks, href.perm,
    hbound d1 ps _ href.blocks href.perm⟩
  · intro dx pre post a rep tl count hok hperm
    obtain ⟨h1, h2⟩ := scan_block_ok dx pre post a rep tl count hok
    exact ⟨h1, h2.trans hperm⟩
  · intro dx fuel count a rep tl rest
    exact refine_pass_scan dx fuel count a rep tl rest

/-- Witness of `refinement_invariant` on `dfa_covered_twin`: the loop ends
with seven blocks for nine states. -/
theorem refinement_invariant_witness :
    dfa_covered_twin.states.Nodup ∧
    (dfa_covered_twin.final_partitions true true).map (fun r => r.2.length) = some 7 ∧
    ∃ d1 ps, dfa_covered_twin.final_partitions true true = some (d1, ps) ∧
      BlocksOk d1 ps ps.length ∧ (members ps).Perm dfa_covered_twin.states ∧
      ps.length ≤ dfa_covered_twin.states.length :=
  ⟨by decide, by decide, (refinement_invariant dfa_covered_twin true true (by decide)).2.2.2.2⟩

/-! ## The constructor keeps invariant I4 -/

theorem mem_map_put_cases {β : Type} (k : Nat) (v : β) :
    ∀ (m : List (Nat × β)) (j : Nat × β), j ∈ map_put k v m → j = (k, v) ∨ j ∈ m := by
  intro m
  induction m with
  | nil =>
    intro j hj
    simp only [map_put, List.mem_singleton] at hj
    exact Or.inl hj
  | cons a m ih =>
    intro j hj
    obtain ⟨k1, v1⟩ := a
    simp only [map_put] at hj
    split_ifs at hj with h1 h2
    · rcases List.mem_cons.1 hj with h | h
      · exact Or.inl h
      · exact Or.inr h
    · rcases List.mem_cons.1 hj with h | h
      · exact Or.inl h
      · exact Or.inr (List.mem_cons_of_mem _ h)
    · rcases List.mem_cons.1 hj with h | h
      · exact Or.inr (h ▸ List.mem_cons_self _ _)
      · rcases ih j h with h3 | h3
        · exact Or.inl h3
        · exact Or.inr (List.mem_cons_of_mem _ h3)

/-- The state object at an address after `find_target_state`: the one that
was there, or a new one without transitions. -/
theorem find_target_state_heap (t : ExprTree) (b : Builder) (nodes : NodeSet) (s : StateRef) :
    (find_target_state t b nodes).1.heap s = b.heap s ∨
    (((find_target_state t b nodes).1.heap s).cases = [] ∧
      ((find_target_state t b nodes).1.heap s).otherwise = none ∧ s = b.states.length) := by
  unfold find_target_state
  cases hfind : nodemap_find nodes b.nodemap with
  | some x => exact Or.inl rfl
  | none =>
    simp only [add_new_state]
    by_cases hs : s = b.states.length
    · right; simp [hs]
    · left; simp [hs]

theorem find_target_state_no_covered (t : ExprTree) (b : Builder) (nodes : NodeSet)
    (s : StateRef) (h : NoCovered b.heap s) :
    NoCovered (find_target_state t b nodes).1.heap s := by
  rcases find_target_state_heap t b nodes s with e | ⟨e, _, _⟩
  · unfold NoCovered; rw [e]; exact h
  · intro j hj; rw [e] at hj; simp at hj

/-- One iteration of the second loop of `update_state_transitions` keeps
invariant I4 at every address. -/
theorem install_case_no_covered (t : ExprTree) (state : StateRef) (b : Builder)
    (j : Nat × NodeSet) (s : StateRef) (h : NoCovered b.heap s) :
    NoCovered (install_case t state b j).heap s := by
  have h1 := find_target_state_no_covered t b j.2 s h
  unfold install_case
  simp only
  split_ifs with hcov
  · exact h1
  · by_cases hs : s = state
    · subst hs
      intro x hx
      simp only [Builder.modify, if_true] at hx ⊢
      rcases mem_map_put_cases _ _ _ x hx with rfl | hx1
      · exact hcov
      · exact h1 x hx1
    · intro x hx
      simp only [Builder.modify, if_neg hs] at hx ⊢
      exact h1 x hx

theorem install_cases_no_covered (t : ExprTree) (state : StateRef) (l : List (Nat × NodeSet))
    (s : StateRef) : ∀ b : Builder, NoCovered b.heap s →
      NoCovered (l.foldl (install_case t state) b).heap s := by
  induction l with
  | nil => intro b h; exact h
  | cons j l ih =>
    intro b h
    exact ih _ (install_case_no_covered t state b j s h)

/-- The function `update_state_transitions`, run on a state without explicit
entries, keeps invariant I4 at every address. -/
theorem update_no_covered (t : ExprTree) (b : Builder) (state : StateRef)
    (hfresh : (b.heap state).cases = []) (s : StateRef) (h : NoCovered b.heap s) :
    NoCovered (update_state_transitions t b state).heap s := by
  unfold update_state_transitions
  simp only
  apply install_cases_no_covered
  cases hother : (node_cases t (b.nodes state)).otherwise with
  | none => exact h
  | some nodes =>
    simp only
    by_cases hs : s = state
    · subst hs
      intro x hx
      simp only [Builder.modify, if_true] at hx
      rcases find_target_state_heap t b nodes s with e | ⟨e, _, _⟩
      · rw [e, hfresh] at hx; simp at hx
      · rw [e] at hx; simp at hx
    · have h1 := find_target_state_no_covered t b nodes s h
      intro x hx
      simp only [Builder.modify, if_neg hs] at hx ⊢
      exact h1 x hx

theorem find_target_state_queue (t : ExprTree) (b : Builder) (nodes : NodeSet)
    (state : StateRef) (h : QueueInv b state) :
    QueueInv (find_target_state t b nodes).1 state := by
  unfold find_target_state
  cases hfind : nodemap_find nodes b.nodemap with
  | some x => exact h
  | none =>
    simp only [add_new_state]
    have hnew : b.states.length ∉ b.work_queue := fun hm =>
      Nat.lt_irrefl _ (h.queued _ hm).1
    refine ⟨?_, ?_, ?_, ?_⟩
    · intro s hs
      simp only [List.mem_append, List.mem_singleton] at hs
      simp only [List.length_append, List.length_singleton]
      rcases hs with hs | rfl
      · have h1 := h.queued s hs
        have hne : s ≠ b.states.length := Nat.ne_of_lt h1.1
        exact ⟨Nat.lt_succ_of_lt h1.1, by simp only [if_neg hne]; exact h1.2⟩
      · exact ⟨Nat.lt_succ_self _, by simp⟩
    · simp only
      rw [List.nodup_append]
      refine ⟨h.nodup, List.nodup_singleton _, ?_⟩
      intro x hx hx1
      rw [List.mem_singleton] at hx1
      subst hx1
      exact hnew hx
    · simp only [List.mem_append, List.mem_singleton, not_or]
      exact ⟨h.fresh, Nat.ne_of_lt h.valid⟩
    · simp only [List.length_append, List.length_singleton]
      exact Nat.lt_succ_of_lt h.valid

theorem modify_queue (b : Builder) (state : StateRef) (f : State → State)
    (h : QueueInv b state) : QueueInv (b.modify state f) state := by
  refine ⟨?_, h.nodup, h.fresh, h.valid⟩
  intro s hs
  have hne : s ≠ state := fun e => h.fresh (e ▸ hs)
  have h1 := h.queued s hs
  exact ⟨h1.1, by simp only [Builder.modify, if_neg hne]; exact h1.2⟩

theorem install_case_queue (t : ExprTree) (state : StateRef) (b : Builder)
    (j : Nat × NodeSet) (h : QueueInv b state) : QueueInv (install_case t state b j) state := by
  have h1 := find_target_state_queue t b j.2 state h
  unfold install_case
  simp only
  split_ifs
  · exact h1
  · exact modify_queue _ _ _ h1

theorem install_cases_queue (t : ExprTree) (state : StateRef) (l : List (Nat × NodeSet)) :
    ∀ b : Builder, QueueInv b state → QueueInv (l.foldl (install_case t state) b) state := by
  induction l with
  | nil => intro b h; exact h
  | cons j l ih =>
    intro b h
    exact ih _ (install_case_queue t state b j h)

theorem update_queue (t : ExprTree) (b : Builder) (state : StateRef) (h : QueueInv b state) :
    QueueInv (update_state_transitions t b state) state := by
  unfold update_state_transitions
  simp only
  apply install_cases_queue
  cases hother : (node_cases t (b.nodes state)).otherwise with
  | none => exact h
  | some nodes => exact modify_queue _ _ _ (find_target_state_queue t b nodes state h)

/-- The loop of the constructor keeps invariant I4 at every address, and the
queued states are allocated, distinct and without explicit entries. -/
theorem build_loop_no_covered (t : ExprTree) (n : Nat) :
    ∀ b : Builder, (∀ s, NoCovered b.heap s) →
      (∀ s ∈ b.work_queue, s < b.states.length ∧ (b.heap s).cases = []) → b.work_queue.Nodup →
      (∀ s, NoCovered (build_loop t n b).heap s) ∧
      (∀ s ∈ (build_loop t n b).work_queue,
        s < (build_loop t n b).states.length ∧ ((build_loop t n b).heap s).cases = []) ∧
      (build_loop t n b).work_queue.Nodup := by
  induction n with
  | zero => intro b h1 h2 h3; exact ⟨h1, h2, h3⟩
  | succ n ih =>
    intro b h1 h2 h3
    unfold build_loop
    cases hq : b.work_queue with
    | nil =>
      simp only
      refine ⟨h1, ?_, ?_⟩
      · intro s hs; rw [hq] at hs; simp at hs
      · rw [hq]; exact List.nodup_nil
    | cons src work_queue =>
      simp only
      rw [hq] at h2 h3
      have hsrc := h2 src (List.mem_cons_self _ _)
      have hqi : QueueInv { b with work_queue := work_queue } src :=
        ⟨fun s hs => h2 s (List.mem_cons_of_mem _ hs), (List.nodup_cons.1 h3).2,
          (List.nodup_cons.1 h3).1, hsrc.1⟩
      have hq2 := update_queue t { b with work_queue := work_queue } src hqi
      exact ih _ (fun s => update_no_covered t { b with work_queue := work_queue } src hsrc.2 s
        (h1 s)) hq2.queued hq2.nodup

theorem build_start_no_covered (t : ExprTree) :
    (∀ s, NoCovered (build_start t).1.heap s) ∧
    (∀ s ∈ (build_start t).1.work_queue,
      s < (build_start t).1.states.length ∧ ((build_start t).1.heap s).cases = []) ∧
    (build_start t).1.work_queue.Nodup := by
  refine ⟨?_, ?_, ?_⟩
  · intro s j hj
    have : ((build_start t).1.heap s).cases = [] := by
      simp only [build_start, add_new_state]
      split_ifs <;> rfl
    rw [this] at hj
    simp at hj
  · intro s hs
    simp only [build_start, add_new_state, List.mem_singleton] at hs
    subst hs
    simp [build_start, add_new_state]
  · simp [build_start]

/-- Claim C32.  After `update_state_transitions` has run on a state that had
no explicit entry, as a state that the constructor pops from the work queue
has, no explicit entry of the state targets the default target of the state;
the same holds after each iteration of the loop of the constructor for every
state object, and so for every state of a constructed DFA. -/
theorem update_state_transitions_no_covered_edge (t : ExprTree) :
    (∀ (b : Builder) (state : StateRef), (b.heap state).cases = [] →
      ∀ j ∈ ((update_state_transitions t b state).heap state).cases,
        ((update_state_transitions t b state).heap state).otherwise ≠ some j.2) ∧
    (∀ n, ∀ s ∈ (build_loop t n (build_start t).1).work_queue,
      ((build_loop t n (build_start t).1).heap s).cases = []) ∧
    (∀ n s, ∀ j ∈ ((build_loop t n (build_start t).1).heap s).cases,
      ((build_loop t n (build_start t).1).heap s).otherwise ≠ some j.2) ∧
    (∀ fuel d, DFA.construct t fuel = some d → d.NoCoveredEdge) := by
  obtain ⟨s1, s2, s3⟩ := build_start_no_covered t
  have key := fun n => build_loop_no_covered t n (build_start t).1 s1 s2 s3
  refine ⟨?_, ?_, ?_, ?_⟩
  · intro b state hfresh
    apply update_no_covered t b state hfresh state
    intro j hj
    rw [hfresh] at hj
    simp at hj
  · intro n s hs
    exact ((key n).2.1 s hs).2
  · intro n s
    exact (key n).1 s
  · intro fuel d hd
    unfold DFA.construct at hd
    simp only at hd
    split_ifs at hd
    simp only [Option.some.injEq] at hd
    subst hd
    intro s _
    exact (key fuel).1 s

/-- Witness of `update_state_transitions_no_covered_edge` on `tree_any_a`:
the byte `a` of `start` leads where the default leads and gets no entry, the
byte `c` gets one. -/
theorem update_state_transitions_no_covered_edge_witness :
    (DFA.construct tree_any_a 5).map (fun d => (d.heap 1).otherwise) = some (some 2) ∧
    (DFA.construct tree_any_a 5).map (fun d => (d.heap 1).cases) = some [(99, 0)] ∧
    (DFA.construct tree_any_a 5).map (fun d => decide d.NoCoveredEdge) = some true ∧
    ∀ fuel d, DFA.construct tree_any_a fuel = some d → d.NoCoveredEdge :=
  ⟨by decide, by decide, by decide,
    (update_state_transitions_no_covered_edge tree_any_a).2.2.2⟩

/-! ## equivalence_classes: the class ids in use -/

/-- The number of classes of a map whose counter stands at `N` is `N - 1`. -/
theorem class_count_of_cnt {m : List (Nat × Nat)} {next N : Nat} (h : Cnt m next N) :
    class_count m = N - 1 ∧
    ∀ v, v ∈ m.map Prod.snd ↔ ∃ i, 1 ≤ i ∧ i < N ∧ v = i % 256 := by
  have hmem : ∀ v, v ∈ m.map Prod.snd ↔ ∃ i, 1 ≤ i ∧ i < N ∧ v = i % 256 := by
    intro v
    constructor
    · intro hv
      obtain ⟨j, hj, rfl⟩ := List.mem_map.1 hv
      exact h.used j.1 j.2 (map_find_of_mem (keys_nodup_of_sorted h.sorted) hj)
    · rintro ⟨i, h1, h2, rfl⟩
      obtain ⟨k, hk⟩ := h.full i h1 h2
      exact List.mem_map.2 ⟨_, map_find_some_mem hk, rfl⟩
  refine ⟨?_, hmem⟩
  have hset : (m.map Prod.snd).toFinset = (Finset.Ico 1 N).image (fun i => i % 256) := by
    ext v
    simp only [List.mem_toFinset, Finset.mem_image, Finset.mem_Ico]
    rw [hmem]
    constructor
    · rintro ⟨i, h1, h2, rfl⟩; exact ⟨i, ⟨h1, h2⟩, rfl⟩
    · rintro ⟨i, ⟨h1, h2⟩, rfl⟩; exact ⟨i, h1, h2, rfl⟩
  have hle := h.le
  unfold class_count
  rw [← List.card_toFinset, hset, Finset.card_image_of_injOn, Nat.card_Ico]
  intro i hi j hj hij
  simp only [Finset.coe_Ico, Set.mem_Ico] at hi hj
  simp only at hij
  omega

/-- The class ids that `equivalence_classes` hands out.  With `n` the number
of classes of the map that the function returns: `n` is at most 256 and the
counter `next_class` ends as `n + 1` taken as a `uchar`; when `n` is less
than 256 the class ids in use are exactly the numbers 1 to `n`, so 0 is not
in use; the number reported, `next_class - 1`, is `n` when `n` is less than
255, and is -1 when `n` is 255. -/
theorem equivalence_classes_ids (d : DFA) (hwt : d.WellTyped) :
    class_count d.equivalence_classes ≤ 256 ∧
    d.equivalence_classes_state.next_class = (class_count d.equivalence_classes + 1) % 256 ∧
    (class_count d.equivalence_classes < 256 →
      ∀ v, v ∈ d.equivalence_classes.map Prod.snd ↔
        1 ≤ v ∧ v ≤ class_count d.equivalence_classes) ∧
    (class_count d.equivalence_classes < 255 →
      d.classes_reported = (class_count d.equivalence_classes : Int)) ∧
    (class_count d.equivalence_classes = 255 → d.classes_reported = -1) := by
  obtain ⟨N, hN⟩ := (equivalence_classes_inv d hwt).cnt
  obtain ⟨hcount, hmem⟩ := class_count_of_cnt hN
  have hpos := hN.pos
  have hle := hN.le
  have hnext := hN.next
  have hc : class_count d.equivalence_classes = N - 1 := hcount
  have hm : ∀ v, v ∈ d.equivalence_classes.map Prod.snd ↔ ∃ i, 1 ≤ i ∧ i < N ∧ v = i % 256 :=
    hmem
  have hn : d.equivalence_classes_state.next_class = N % 256 := hnext
  refine ⟨by omega, ?_, ?_, ?_, ?_⟩
  · rw [hn, hc]
    congr 1
    omega
  · intro hlt v
    rw [hm, hc]
    constructor
    · rintro ⟨i, h1, h2, rfl⟩
      rw [hc] at hlt
      omega
    · rintro ⟨h1, h2⟩
      rw [hc] at hlt
      exact ⟨v, h1, by omega, by omega⟩
  · intro hlt
    unfold DFA.classes_reported
    rw [hn, hc]
    rw [hc] at hlt
    omega
  · intro h255
    unfold DFA.classes_reported
    rw [hn]
    rw [hc] at h255
    have : N = 256 := by omega
    subst this
    rfl

/-- Witness of `equivalence_classes_ids` on `dfa_three_bytes`, which has two
classes. -/
theorem equivalence_classes_ids_witness :
    dfa_three_bytes.WellTyped ∧ class_count dfa_three_bytes.equivalence_classes = 2 ∧
    dfa_three_bytes.classes_reported = 2 ∧
    dfa_three_bytes.equivalence_classes_state.next_class =
      (class_count dfa_three_bytes.equivalence_classes + 1) % 256 :=
  ⟨by decide, by decide, by decide, (equivalence_classes_ids dfa_three_bytes (by decide)).2.1⟩

/-! ## equivalence_classes on a fan of bytes -/

theorem map_find_none_of_lt {β : Type} (k : Nat) (m : List (Nat × β))
    (h : ∀ j ∈ m, j.1 < k) : map_find k m = none := by
  apply (map_find_eq_none_iff _ _).2
  intro hk
  obtain ⟨j, hj, rfl⟩ := List.mem_map.1 hk
  exact Nat.lt_irrefl _ (h j hj)

theorem map_put_last {β : Type} (k : Nat) (v : β) :
    ∀ (m : List (Nat × β)), (∀ j ∈ m, j.1 < k) → map_put k v m = m ++ [(k, v)] := by
  intro m
  induction m with
  | nil => intro _; rfl
  | cons a m ih =>
    intro h
    obtain ⟨k1, v1⟩ := a
    have h1 : k1 < k := h (k1, v1) (List.mem_cons_self _ _)
    have h2 : ¬ k < k1 := by omega
    have h3 : ¬ k = k1 := by omega
    simp only [map_put, if_neg h2, if_neg h3, List.cons_append]
    rw [ih (fun j hj => h j (List.mem_cons_of_mem _ hj))]

/-- The edges of the fan grouped by target: one group for every byte. -/
theorem group_edges_fan (n : Nat) :
    group_edges ((List.range n).map (fun k => (k, k + 2))) =
      (List.range n).map (fun k => (k + 2, [k])) := by
  induction n with
  | zero => rfl
  | succ n ih =>
    unfold group_edges at ih ⊢
    rw [List.range_succ, List.map_append, List.foldl_append, ih]
    simp only [List.map_cons, List.map_nil, List.foldl_cons, List.foldl_nil]
    have hlt : ∀ j ∈ (List.range n).map (fun k => (k + 2, [k])), j.1 < n + 2 := by
      intro j hj
      obtain ⟨k, hk, rfl⟩ := List.mem_map.1 hj
      have := List.mem_range.1 hk
      simp only
      omega
    rw [map_find_none_of_lt _ _ hlt, map_put_last _ _ _ hlt]
    simp [set_insert]

/-- A group of one byte that has no class yet: the byte gets the class
`next_class`, and nothing is split. -/
theorem class_group_fresh (cl : List (Nat × Nat)) (n k : Nat)
    (hk : map_find k cl = none) (hn : ∀ l ∈ cl, l.2 ≠ n) :
    class_group ⟨cl, n⟩ [k] = ⟨map_put k n cl, (n + 1) % 256⟩ := by
  have hins : map_insert k n cl = map_put k n cl := by simp [map_insert, hk]
  have hfind : map_find k (map_put k n cl) = some n := by rw [map_find_put]; simp
  have hany : (map_put k n cl).any (fun l => decide (l.2 = n) && decide (l.1 ∉ [k])) = false := by
    rw [List.any_eq_false]
    intro l hl
    rcases mem_map_put_cases _ _ _ l hl with rfl | h1
    · simp
    · simp [hn l h1]
  have hset : set_insert k [] = [k] := by simp [set_insert]
  unfold class_group
  simp only [List.foldl_cons, List.foldl_nil, class_char, hins, hfind, hk, Option.getD_some,
    Option.isNone_none, Bool.or_true, if_true, map_find, Option.getD_none, map_put, hset,
    class_split, hany]
  simp

/-- The classes of the fan: the byte `k` gets the class `k + 1`. -/
theorem class_groups_fan (n : Nat) (hn : n ≤ 255) :
    ((List.range n).map (fun k => [k])).foldl class_group ⟨[], 1⟩ =
      ⟨(List.range n).map (fun k => (k, k + 1)), (n + 1) % 256⟩ := by
  induction n with
  | zero => rfl
  | succ n ih =>
    rw [List.range_succ, List.map_append, List.foldl_append, ih (by omega)]
    simp only [List.map_cons, List.map_nil, List.foldl_cons, List.foldl_nil]
    have hlt : ∀ j ∈ (List.range n).map (fun k => (k, k + 1)), j.1 < n := by
      intro j hj
      obtain ⟨k, hk, rfl⟩ := List.mem_map.1 hj
      exact List.mem_range.1 hk
    have hmod : (n + 1) % 256 = n + 1 := Nat.mod_eq_of_lt (by omega)
    rw [hmod, class_group_fresh _ _ _ (map_find_none_of_lt _ _ hlt), map_put_last _ _ _ hlt]
    · simp
    · intro l hl
      obtain ⟨k, hk, rfl⟩ := List.mem_map.1 hl
      have := List.mem_range.1 hk
      simp only
      omega

theorem class_state_no_cases (st : ClassState) (s : State) (h : s.cases = []) :
    class_state st s = st := by
  simp [class_state, h, group_edges]

theorem fold_states_skip (heap : StateRef → State) :
    ∀ (l : List StateRef) (st : ClassState), (∀ i ∈ l, (heap i).cases = []) →
      l.foldl (fun st i => class_state st (heap i)) st = st := by
  intro l
  induction l with
  | nil => intro st _; rfl
  | cons i l ih =>
    intro st h
    rw [List.foldl_cons, class_state_no_cases _ _ (h i (List.mem_cons_self _ _))]
    exact ih st (fun j hj => h j (List.mem_cons_of_mem _ hj))

/-- The run of `equivalence_classes` on the fan of `n` bytes. -/
theorem equivalence_classes_fan (n : Nat) (hn : n ≤ 255) :
    (dfa_fan n).equivalence_classes_state =
      ⟨(List.range n).map (fun k => (k, k + 1)), (n + 1) % 256⟩ := by
  have hheap : ∀ i, i ≠ 1 → ((dfa_fan n).heap i).cases = [] := by
    intro i hi
    simp [dfa_fan, hi]
  have hrange : List.range (n + 2) = 0 :: 1 :: (List.range n).map (fun k => k + 2) := by
    rw [List.range_succ_eq_map, List.range_succ_eq_map]
    simp [Function.comp_def]
  unfold DFA.equivalence_classes_state
  have hstates : (dfa_fan n).states = 0 :: 1 :: (List.range n).map (fun k => k + 2) := hrange
  rw [hstates, List.foldl_cons, List.foldl_cons,
    class_state_no_cases _ _ (hheap 0 (by decide))]
  rw [fold_states_skip]
  · have hcases : ((dfa_fan n).heap 1).cases = (List.range n).map (fun k => (k, k + 2)) := by
      simp [dfa_fan]
    unfold class_state
    rw [hcases, group_edges_fan, List.map_map]
    exact class_groups_fan n hn
  · intro i hi
    obtain ⟨k, _, rfl⟩ := List.mem_map.1 hi
    exact hheap _ (Nat.succ_ne_succ.2 (Nat.succ_ne_zero k))

/-- The fan of at most 256 bytes is a well-formed DFA. -/
theorem dfa_fan_well_typed (n : Nat) (hn : n ≤ 256) : (dfa_fan n).WellTyped := by
  refine ⟨List.nodup_range _, ?_, ?_, ?_⟩
  · exact List.mem_range.2 (Nat.succ_lt_succ (Nat.succ_pos n))
  · exact List.mem_range.2 (Nat.succ_pos _)
  · intro s _
    by_cases hs : s = 1
    · subst hs
      have hcases : ((dfa_fan n).heap 1).cases = (List.range n).map (fun k => (k, k + 2)) := by
        simp [dfa_fan]
      have hkeys : ((dfa_fan n).heap 1).cases.map Prod.fst = List.range n := by
        rw [hcases, List.map_map]
        exact List.map_id _
      rw [hkeys]
      refine ⟨List.pairwise_lt_range n, ?_, ?_⟩
      · intro k hk
        exact Nat.lt_of_lt_of_le (List.mem_range.1 hk) hn
      · simp [dfa_fan]
    · simp [dfa_fan, hs]

theorem equivalence_classes_eq (d : DFA) :
    d.equivalence_classes = d.equivalence_classes_state.classes := rfl

/-- Claim C40 fails on `dfa_fan 255`, a well-formed DFA whose `start` goes on
each of the bytes 0 to 254 to a state of its own.  The map that
`equivalence_classes` returns has 255 classes, fewer than 256, and the ids in
use are exactly the numbers 1 to 255; but the `uchar` counter `next_class` has
wrapped to 0, and the number reported as the number of classes,
`next_class - 1`, is -1 and not 255. -/
theorem equivalence_classes_reports_minus_one :
    (dfa_fan 255).WellTyped ∧
    class_count (dfa_fan 255).equivalence_classes = 255 ∧
    (dfa_fan 255).equivalence_classes.map Prod.snd = List.range' 1 255 ∧
    (dfa_fan 255).equivalence_classes_state.next_class = 0 ∧
    (dfa_fan 255).classes_reported = -1 := by
  have h := equivalence_classes_fan 255 (Nat.le_refl _)
  have hids : (dfa_fan 255).equivalence_classes.map Prod.snd = List.range' 1 255 := by
    rw [equivalence_classes_eq, h, List.map_map, List.range'_eq_map_range]
    apply List.map_congr_left
    intro k _
    simp only [Function.comp_apply]
    omega
  refine ⟨dfa_fan_well_typed 255 (by decide), ?_, hids, ?_, ?_⟩
  · unfold class_count
    rw [hids, List.Nodup.dedup (List.nodup_range' 1 255), List.length_range']
  · rw [h]
  · unfold DFA.classes_reported
    rw [h]
    rfl

/-! ## filter_slashes -/

theorem strlen_append (p tail : List Char) (h : NUL ∉ p) :
    strlen (p ++ NUL :: tail) = some p.length := by
  induction p with
  | nil => simp [strlen]
  | cons c p ih =>
    have hc : c ≠ NUL := fun e => h (e ▸ List.mem_cons_self _ _)
    have hp : NUL ∉ p := fun e => h (List.mem_cons_of_mem _ e)
    simp [strlen, hc, ih hp]

theorem c_string_append (p tail : List Char) (h : NUL ∉ p) :
    c_string (p ++ NUL :: tail) = p := by
  induction p with
  | nil => simp [c_string]
  | cons c p ih =>
    have hc : c ≠ NUL := fun e => h (e ▸ List.mem_cons_self _ _)
    have hp : NUL ∉ p := fun e => h (List.mem_cons_of_mem _ e)
    simp [c_string, hc, ih hp]

theorem c_string_set (l : List Char) (i : Nat) (hi : i < l.length) (h : NUL ∉ l.take i) :
    c_string (l.set i NUL) = l.take i := by
  have : l.set i NUL = l.take i ++ NUL :: l.drop (i + 1) := by
    rw [List.set_eq_take_append_cons_drop, if_pos hi]
  rw [this, c_string_append _ _ h]

theorem get_of_drop {l : List Char} {i : Nat} {c : Char} {r : List Char}
    (h : l.drop i = c :: r) : l[i]? = some c ∧ l.drop (i + 1) = r ∧ i < l.length := by
  have h1 : (l.drop i)[0]? = some c := by rw [h]; simp
  rw [List.getElem?_drop] at h1
  have h2 : (l.drop i).drop 1 = r := by rw [h]; rfl
  rw [List.drop_drop] at h2
  refine ⟨by simpa using h1, by rw [← h2, Nat.add_comm], ?_⟩
  by_contra hlt
  rw [List.drop_of_length_le (Nat.le_of_not_lt hlt)] at h
  exact absurd h (by simp)

theorem take_set_succ (l : List Char) (i : Nat) (c : Char) (hi : i < l.length) :
    (l.set i c).take (i + 1) = l.take i ++ [c] := by
  rw [List.set_eq_take_append_cons_drop, if_pos hi]
  have hlen : (l.take i).length = i := by
    rw [List.length_take]; exact Nat.min_eq_left (Nat.le_of_lt hi)
  rw [List.take_append_eq_append_take, hlen]
  simp [List.take_of_length_le (Nat.le_of_eq hlen)]

theorem take_succ_get (l : List Char) (i : Nat) (c : Char) (h : l[i]? = some c) :
    l.take (i + 1) = l.take i ++ [c] := by
  rw [List.take_succ, h]
  rfl

/-- The loop copies what `loop_out` describes: when the bytes from `sptr` on
are `rest`, a NUL and anything, the loop ends, and the bytes before `dptr`
are then the ones that stood before it, followed by `loop_out` of `rest`. -/
theorem filter_loop_spec : ∀ (rest : List Char) (fuel : Nat) (st : FilterState)
    (tail : List Char), NUL ∉ rest → rest.length < fuel → st.dptr ≤ st.sptr →
    st.mem.drop st.sptr = rest ++ NUL :: tail →
    ∃ st1, filter_loop fuel st = some st1 ∧
      st1.mem.take st1.dptr = st.mem.take st.dptr ++ loop_out st.seen_slash rest ∧
      st1.dptr < st1.mem.length := by
  intro rest
  induction rest with
  | nil =>
    intro fuel st tail _ hf hle hdrop
    obtain ⟨g1, _, g3⟩ := get_of_drop hdrop
    cases fuel with
    | zero => simp at hf
    | succ f =>
      refine ⟨st, ?_, by simp [loop_out], Nat.lt_of_le_of_lt hle g3⟩
      simp [filter_loop, g1]
  | cons c r ih =>
    intro fuel st tail hnul hf hle hdrop
    have hc : c ≠ NUL := fun e => hnul (e ▸ List.mem_cons_self _ _)
    have hr : NUL ∉ r := fun e => hnul (List.mem_cons_of_mem _ e)
    obtain ⟨g1, g2, g3⟩ := get_of_drop (show st.mem.drop st.sptr = c :: (r ++ NUL :: tail) from hdrop)
    have hd : st.dptr < st.mem.length := Nat.lt_of_le_of_lt hle g3
    cases fuel with
    | zero => simp at hf
    | succ f =>
      have hf1 : r.length < f := by simpa using hf
      have hcopy : ∀ seen, st.copy c seen =
          some ⟨st.mem.set st.dptr c, st.sptr + 1, st.dptr + 1, seen⟩ := by
        intro seen; simp [FilterState.copy, hd]
      have hdrop_set : (st.mem.set st.dptr c).drop (st.sptr + 1) = r ++ NUL :: tail := by
        rw [List.drop_set_of_lt _ _ (Nat.lt_succ_of_le hle)]
        exact g2
      unfold filter_loop
      simp only [g1, if_neg hc]
      by_cases hslash : c = '/'
      · simp only [if_pos hslash]
        by_cases hseen : st.seen_slash = true
        · simp only [if_pos hseen]
          obtain ⟨st1, e1, e2, e3⟩ := ih f { st with sptr := st.sptr + 1 } tail hr hf1
            (Nat.le_succ_of_le hle) g2
          refine ⟨st1, e1, ?_, e3⟩
          rw [e2]
          simp [loop_out, hslash, hseen]
        · simp only [if_neg hseen, hcopy]
          obtain ⟨st1, e1, e2, e3⟩ := ih f ⟨st.mem.set st.dptr c, st.sptr + 1, st.dptr + 1, true⟩
            tail hr hf1 (Nat.succ_le_succ hle) hdrop_set
          refine ⟨st1, e1, ?_, e3⟩
          rw [e2]
          simp only [take_set_succ _ _ _ hd]
          have hs : st.seen_slash = false := by simpa using hseen
          simp [loop_out, hslash, hs]
      · simp only [if_neg hslash]
        by_cases hlt : st.dptr < st.sptr
        · simp only [if_pos hlt, hcopy]
          obtain ⟨st1, e1, e2, e3⟩ := ih f ⟨st.mem.set st.dptr c, st.sptr + 1, st.dptr + 1, false⟩
            tail hr hf1 (Nat.succ_le_succ hle) hdrop_set
          refine ⟨st1, e1, ?_, e3⟩
          rw [e2]
          simp only [take_set_succ _ _ _ hd]
          simp [loop_out, hslash]
        · simp only [if_neg hlt]
          have heq : st.dptr = st.sptr := Nat.le_antisymm hle (Nat.le_of_not_lt hlt)
          obtain ⟨st1, e1, e2, e3⟩ := ih f
            { st with sptr := st.sptr + 1, dptr := st.dptr + 1, seen_slash := false }
            tail hr hf1 (Nat.succ_le_succ hle) g2
          refine ⟨st1, e1, ?_, e3⟩
          rw [e2]
          simp only
          rw [take_succ_get _ _ c (by rw [heq]; exact g1)]
          simp [loop_out, hslash]

theorem squeeze_cons_other (c : Char) (p : List Char) (hc : c ≠ '/') :
    squeeze_slashes (c :: p) = c :: squeeze_slashes p := by
  cases p with
  | nil => rfl
  | cons c2 r => simp [squeeze_slashes, hc]

/-- The loop squeezes the runs of slashes. -/
theorem loop_out_squeeze (p : List Char) :
    squeeze_slashes ('/' :: p) = '/' :: loop_out true p ∧ loop_out false p = squeeze_slashes p := by
  induction p with
  | nil => exact ⟨rfl, rfl⟩
  | cons c q ih =>
    by_cases hc : c = '/'
    · subst hc
      refine ⟨?_, ?_⟩
      · have : squeeze_slashes ('/' :: '/' :: q) = squeeze_slashes ('/' :: q) := by
          simp [squeeze_slashes]
        rw [this, ih.1]
        simp [loop_out]
      · rw [ih.1]
        simp [loop_out]
    · refine ⟨?_, ?_⟩
      · have : squeeze_slashes ('/' :: c :: q) = '/' :: squeeze_slashes (c :: q) := by
          simp [squeeze_slashes, hc]
        rw [this, squeeze_cons_other c q hc, ← ih.2]
        simp [loop_out, hc]
      · rw [squeeze_cons_other c q hc, ← ih.2]
        simp [loop_out, hc]

theorem loop_out_subset (p : List Char) : ∀ seen, ∀ x ∈ loop_out seen p, x ∈ p := by
  induction p with
  | nil => intro seen x hx; simp [loop_out] at hx
  | cons c q ih =>
    intro seen x hx
    simp only [loop_out] at hx
    split_ifs at hx
    · exact List.mem_cons_of_mem _ (ih _ x hx)
    · rcases List.mem_cons.1 hx with rfl | h
      · exact List.mem_cons_self _ _
      · exact List.mem_cons_of_mem _ (ih _ x h)
    · rcases List.mem_cons.1 hx with rfl | h
      · exact List.mem_cons_self _ _
      · exact List.mem_cons_of_mem _ (ih _ x h)

/-- A run of `filter_slashes` on a string of 2 bytes or more: the result is
the part of the buffer before the start of the pointers, followed by the rest
of the string with its runs of slashes squeezed. -/
theorem filter_slashes_run (mem : List Char) (len : Nat) (hs : strlen mem = some len)
    (h2 : ¬ len < 2) (c0 c1 c2 : Char) (g0 : mem[0]? = some c0) (g1 : mem[1]? = some c1)
    (g2 : mem[2]? = some c2) (start : Nat)
    (hstart : (if c0 = '/' ∧ c1 = '/' ∧ c2 ≠ '/' then 2 else 0) = start)
    (rest tail : List Char) (hdrop : mem.drop start = rest ++ NUL :: tail)
    (hnul : NUL ∉ mem.take start ++ rest) (fuel : Nat) (hf : rest.length < fuel) :
    (filter_slashes fuel mem).map c_string = some (mem.take start ++ squeeze_slashes rest) := by
  have hrest : NUL ∉ rest := fun h => hnul (List.mem_append_right _ h)
  obtain ⟨st1, e1, e2, e3⟩ := filter_loop_spec rest fuel ⟨mem, start, start, false⟩ tail hrest hf
    (Nat.le_refl _) hdrop
  have e2a : st1.mem.take st1.dptr = mem.take start ++ loop_out false rest := e2
  have hclean : NUL ∉ st1.mem.take st1.dptr := by
    rw [e2a]
    intro h
    rcases List.mem_append.1 h with h | h
    · exact hnul (List.mem_append_left _ h)
    · exact hrest (loop_out_subset _ _ _ h)
  unfold filter_slashes
  simp only [hs, if_neg h2, g0, g1, g2, hstart, e1, if_pos e3, Option.map_some']
  rw [c_string_set _ _ e3 hclean, e2a, (loop_out_squeeze rest).2]

theorem squeeze_ne_nil (p : List Char) (h : p ≠ []) : squeeze_slashes p ≠ [] := by
  induction p with
  | nil => exact absurd rfl h
  | cons c q ih =>
    cases q with
    | nil => simp [squeeze_slashes]
    | cons c2 r =>
      simp only [squeeze_slashes]
      split_ifs
      · exact ih (by simp)
      · simp

/-- Squeezing keeps the bytes that are not slashes, in order, and the last
byte. -/
theorem squeeze_keeps (p : List Char) :
    (squeeze_slashes p).filter (fun c => decide (c ≠ '/')) =
      p.filter (fun c => decide (c ≠ '/')) ∧
    (squeeze_slashes p).getLast? = p.getLast? := by
  induction p with
  | nil => exact ⟨rfl, rfl⟩
  | cons c q ih =>
    cases q with
    | nil => exact ⟨rfl, rfl⟩
    | cons c2 r =>
      have hne := squeeze_ne_nil (c2 :: r) (by simp)
      simp only [squeeze_slashes]
      split_ifs with h
      · refine ⟨?_, ?_⟩
        · rw [ih.1]
          simp [h.1]
        · rw [ih.2]
          simp [List.getLast?_cons_cons]
      · refine ⟨?_, ?_⟩
        · simp only [List.filter_cons, ih.1]
        · obtain ⟨x, l, hxl⟩ := List.exists_cons_of_ne_nil hne
          rw [hxl, List.getLast?_cons_cons, ← hxl, ih.2, List.getLast?_cons_cons]

/-- Claim C31.  For a path without NUL that is stored in a buffer with its
terminator, `filter_slashes` returns, and the C string in the buffer is then
`filter_reference` of the path: a path shorter than 2 bytes is unchanged,
behind a leading `//` that no third slash follows the runs of slashes are
squeezed, otherwise the runs of slashes of the whole path are squeezed.  The
bytes that are not slashes are kept in order, and so is the last byte. -/
theorem filter_slashes_reference (path tail : List Char) (hnul : NUL ∉ path) (fuel : Nat)
    (hf : path.length < fuel) :
    (filter_slashes fuel (path ++ NUL :: tail)).map c_string = some (filter_reference path) ∧
    (filter_reference path).filter (fun c => decide (c ≠ '/')) =
      path.filter (fun c => decide (c ≠ '/')) ∧
    (filter_reference path).getLast? = path.getLast? := by
  have hs := strlen_append path tail hnul
  by_cases hlen : path.length < 2
  · refine ⟨?_, ?_, ?_⟩
    · unfold filter_slashes
      simp only [hs, if_pos hlen, Option.map_some', filter_reference]
      rw [c_string_append _ _ hnul]
    · simp [filter_reference, hlen]
    · simp [filter_reference, hlen]
  · match path, hnul, hf, hs, hlen with
    | [], _, _, _, hlen => simp at hlen
    | [_], _, _, _, hlen => simp at hlen
    | c0 :: c1 :: r, hnul, hf, hs, hlen =>
      have hslash : '/' ≠ NUL := by decide
      have hr : NUL ∉ r := fun h => hnul (List.mem_cons_of_mem _ (List.mem_cons_of_mem _ h))
      obtain ⟨c2, g2, hc2⟩ : ∃ c2, (c0 :: c1 :: r ++ NUL :: tail)[2]? = some c2 ∧
          (c2 ≠ '/' ↔ r.head? ≠ some '/') := by
        cases r with
        | nil => exact ⟨NUL, by simp, by simp [hslash.symm]⟩
        | cons x r1 => exact ⟨x, by simp, by simp⟩
      by_cases hns : c0 = '/' ∧ c1 = '/' ∧ c2 ≠ '/'
      · have hrun := filter_slashes_run (c0 :: c1 :: r ++ NUL :: tail) _ hs hlen c0 c1 c2 (by simp) (by simp)
          g2 2 (if_pos hns) r tail rfl (by simpa using hnul) fuel
          (by simp only [List.length_cons] at hf; omega)
        have href : filter_reference (c0 :: c1 :: r) = c0 :: c1 :: squeeze_slashes r := by
          have h3 := hc2.1 hns.2.2
          simp [filter_reference, hns.1, hns.2.1, h3]
        rw [href]
        refine ⟨hrun, ?_, ?_⟩
        · simp only [List.filter_cons, (squeeze_keeps r).1]
        · cases r with
          | nil => rfl
          | cons x r1 =>
            obtain ⟨y, l, hyl⟩ := List.exists_cons_of_ne_nil (squeeze_ne_nil (x :: r1) (by simp))
            rw [hyl, List.getLast?_cons_cons, List.getLast?_cons_cons, ← hyl, (squeeze_keeps _).2,
              List.getLast?_cons_cons, List.getLast?_cons_cons]
      · have hrun := filter_slashes_run (c0 :: c1 :: r ++ NUL :: tail) _ hs hlen c0 c1 c2 (by simp) (by simp)
          g2 0 (if_neg hns) (c0 :: c1 :: r) tail rfl (by simpa using hnul) fuel hf
        have href : filter_reference (c0 :: c1 :: r) = squeeze_slashes (c0 :: c1 :: r) := by
          have h3 : ¬ (c0 = '/' ∧ c1 = '/' ∧ r.head? ≠ some '/') := by
            rintro ⟨a, b, c⟩
            exact hns ⟨a, b, hc2.2 c⟩
          unfold filter_reference
          rw [if_neg hlen, if_neg]
          simpa using h3
        rw [href]
        exact ⟨hrun, (squeeze_keeps _).1, (squeeze_keeps _).2⟩

/-- Witness of `filter_slashes_reference` on the path `///usr`, with the
strings of the unit tests. -/
theorem filter_slashes_reference_witness :
    (filter_slashes 40 ("///foo//////f//oo////////////////".toList ++ [NUL])).map c_string =
      some "/foo/f/oo/".toList ∧
    (filter_slashes 40 ("///foo//////f//oo////".toList ++ [NUL])).map c_string =
      some "/foo/f/oo/".toList ∧
    (filter_slashes 40 ("/foo/f/oo".toList ++ [NUL])).map c_string = some "/foo/f/oo".toList ∧
    (filter_slashes 40 ("/".toList ++ [NUL])).map c_string = some "/".toList ∧
    (filter_slashes 40 ("".toList ++ [NUL])).map c_string = some "".toList ∧
    (filter_slashes 40 ("//usr".toList ++ [NUL])).map c_string = some "//usr".toList ∧
    (filter_slashes 40 ("//".toList ++ [NUL])).map c_string = some "//".toList ∧
    (filter_slashes 40 ("///".toList ++ [NUL])).map c_string = some "/".toList ∧
    (filter_slashes 40 ("/a/".toList ++ [NUL])).map c_string = some "/a/".toList ∧
    filter_reference "///usr".toList = "/usr".toList ∧
    (filter_slashes 7 ("///usr".toList ++ NUL :: "x".toList)).map c_string =
      some (filter_reference "///usr".toList) :=
  ⟨by decide, by decide, by decide, by decide, by decide, by decide, by decide, by decide,
    by decide, by decide,
    (filter_slashes_reference "///usr".toList "x".toList (by decide) 7 (by decide)).1⟩

end AppArmorRe
